import Mathlib

/-!
# Red-black tree (`bigProject/code/rbtree.c`)

A shallow embedding of the intrusive red-black tree of `rbtree.c`.

* Node addresses are natural numbers, a pointer is an `Option Nat` (`none` is `NULL`).
* The memory is a total map from addresses to `rb_node` records; the root reference
  `root->rb_node` is a field of the state.
* Dereferencing `NULL` is the result `Res.null_deref`; loops take a fuel argument and
  answer `Res.out_of_fuel` when it is used up.
-/


namespace Rbtree

/-! ## Data model -/

/-- The colour tag of a node (`RB_RED` is 0 and `RB_BLACK` is 1 in the header). -/
inductive Color where
  | RB_RED : Color
  | RB_BLACK : Color
  deriving DecidableEq, Repr

open Color

/-- A pointer to a node: `none` is `NULL`. -/
abbrev Ptr := Option Nat

/-- Modelled from the spec: `struct rb_node` is declared in `linux/rbtree.h`, which is not
part of the sources.  The packed word `rb_parent_color` is kept as its two halves
`rb_parent` and `rb_color` (spec, design notes: "re-architect as two separate fields"). -/
structure rb_node where
  rb_parent : Ptr
  rb_color : Color
  rb_right : Ptr
  rb_left : Ptr
  deriving DecidableEq, Repr

/-- The memory together with the root reference `root->rb_node`. -/
structure State where
  mem : Nat → rb_node
  root : Ptr

/-- The outcome of running a piece of the program. -/
inductive Res (α : Type) where
  | ok : α → Res α
  | null_deref : Res α
  | out_of_fuel : Res α
  deriving DecidableEq, Repr

/-- Sequencing of outcomes. -/
def Res.bind {α β : Type} : Res α → (α → Res β) → Res β
  | .ok a, f => f a
  | .null_deref, _ => .null_deref
  | .out_of_fuel, _ => .out_of_fuel

/-- Write a whole record at an address. -/
def State.store (s : State) (a : Nat) (v : rb_node) : State :=
  { s with mem := fun b => if b = a then v else s.mem b }

/-- The assignment `n->rb_left = p`. -/
def set_left (s : State) (n : Nat) (p : Ptr) : State :=
  s.store n { s.mem n with rb_left := p }

/-- The assignment `n->rb_right = p`. -/
def set_right (s : State) (n : Nat) (p : Ptr) : State :=
  s.store n { s.mem n with rb_right := p }

/-- The assignment `root->rb_node = p`. -/
def set_root (s : State) (p : Ptr) : State :=
  { s with root := p }

/-- Modelled from the spec: the header macro `rb_parent(r)`, the parent half of the
packed field. -/
def rb_parent (s : State) (r : Nat) : Ptr := (s.mem r).rb_parent

/-- Modelled from the spec: the header macro `rb_color(r)`, the colour half of the
packed field. -/
def rb_color (s : State) (r : Nat) : Color := (s.mem r).rb_color

/-- Modelled from the spec: the header macro `rb_is_red(r)`. -/
def rb_is_red (s : State) (r : Nat) : Bool := decide (rb_color s r = Color.RB_RED)

/-- Modelled from the spec: the header macro `rb_is_black(r)`. -/
def rb_is_black (s : State) (r : Nat) : Bool := decide (rb_color s r = Color.RB_BLACK)

/-- Modelled from the spec: the header macro `rb_set_color(rb, color)`; the parent half is
kept. -/
def rb_set_color (s : State) (rb : Nat) (c : Color) : State :=
  s.store rb { s.mem rb with rb_color := c }

/-- Modelled from the spec: the header macro `rb_set_red(r)`. -/
def rb_set_red (s : State) (r : Nat) : State := rb_set_color s r Color.RB_RED

/-- Modelled from the spec: the header macro `rb_set_black(r)`. -/
def rb_set_black (s : State) (r : Nat) : State := rb_set_color s r Color.RB_BLACK

/-- Modelled from the spec: the header macro `rb_set_parent(rb, p)`; the colour half is
kept. -/
def rb_set_parent (s : State) (rb : Nat) (p : Ptr) : State :=
  s.store rb { s.mem rb with rb_parent := p }

/-- Modelled from the spec: an assignment to the whole packed field `rb_parent_color`, which
sets the parent and the colour together. -/
def set_parent_color (s : State) (n : Nat) (p : Ptr) (c : Color) : State :=
  s.store n { s.mem n with rb_parent := p, rb_color := c }

/-- Which child slot of a parent a new node is linked into. -/
inductive Side where
  | left : Side
  | right : Side
  deriving DecidableEq, Repr

/-- Modelled from the spec: the caller-side linking step (`rb_link_node` of the header, not
part of the sources): "set parent and the correct one of left/right on the parent, set
both of the new node's children to absent, color Red".  With `parent = none` the node is
linked at the root reference. -/
def rb_link_node (node : Nat) (parent : Ptr) (side : Side) (s : State) : State :=
  let s := s.store node
    { rb_parent := parent, rb_color := Color.RB_RED, rb_right := none, rb_left := none }
  match parent with
  | none => set_root s (some node)
  | some p =>
    match side with
    | Side.left => set_left s p (some node)
    | Side.right => set_right s p (some node)

/-! ## Rotations -/

/-- The function `__rb_rotate_left(node, root)`. -/
def __rb_rotate_left (node : Nat) (s : State) : Res State :=
  match (s.mem node).rb_right with
  | none => Res.null_deref
  | some right =>
    let parent := rb_parent s node
    let rl := (s.mem right).rb_left
    let s := set_right s node rl
    let s := match rl with
      | some c => rb_set_parent s c (some node)
      | none => s
    let s := set_left s right (some node)
    let s := rb_set_parent s right parent
    let s := match parent with
      | some p =>
        if some node = (s.mem p).rb_left then set_left s p (some right)
        else set_right s p (some right)
      | none => set_root s (some right)
    Res.ok (rb_set_parent s node (some right))

/-- The function `__rb_rotate_right(node, root)`. -/
def __rb_rotate_right (node : Nat) (s : State) : Res State :=
  match (s.mem node).rb_left with
  | none => Res.null_deref
  | some left =>
    let parent := rb_parent s node
    let lr := (s.mem left).rb_right
    let s := set_left s node lr
    let s := match lr with
      | some c => rb_set_parent s c (some node)
      | none => s
    let s := set_right s left (some node)
    let s := rb_set_parent s left parent
    let s := match parent with
      | some p =>
        if some node = (s.mem p).rb_right then set_right s p (some left)
        else set_left s p (some left)
      | none => set_root s (some left)
    Res.ok (rb_set_parent s node (some left))

/-! ## Insertion fixup -/

/-- The test `p && rb_is_red(p)`. -/
def is_red_ptr (s : State) (p : Ptr) : Bool :=
  match p with
  | some x => rb_is_red s x
  | none => false

/-- The `while` loop of `rb_insert_color`; each call is one evaluation of the loop
condition followed, when it holds, by the loop body. -/
def rb_insert_color_loop : Nat → Nat → State → Res State
  | 0, _, _ => Res.out_of_fuel
  | fuel + 1, node, s =>
    match rb_parent s node with
    | none => Res.ok s
    | some parent =>
      if rb_is_red s parent then
        match rb_parent s parent with
        | none => Res.null_deref
        | some gparent =>
          if some parent = (s.mem gparent).rb_left then
            let uncle := (s.mem gparent).rb_right
            if is_red_ptr s uncle then
              match uncle with
              | none => Res.null_deref
              | some u =>
                let s := rb_set_black s u
                let s := rb_set_black s parent
                let s := rb_set_red s gparent
                rb_insert_color_loop fuel gparent s
            else
              (if (s.mem parent).rb_right = some node then
                (__rb_rotate_left parent s).bind (fun s => Res.ok (s, node, parent))
              else Res.ok (s, parent, node)).bind (fun x =>
                let s := x.1
                let parent := x.2.1
                let node := x.2.2
                let s := rb_set_black s parent
                let s := rb_set_red s gparent
                (__rb_rotate_right gparent s).bind (fun s =>
                  rb_insert_color_loop fuel node s))
          else
            let uncle := (s.mem gparent).rb_left
            if is_red_ptr s uncle then
              match uncle with
              | none => Res.null_deref
              | some u =>
                let s := rb_set_black s u
                let s := rb_set_black s parent
                let s := rb_set_red s gparent
                rb_insert_color_loop fuel gparent s
            else
              (if (s.mem parent).rb_left = some node then
                (__rb_rotate_right parent s).bind (fun s => Res.ok (s, node, parent))
              else Res.ok (s, parent, node)).bind (fun x =>
                let s := x.1
                let parent := x.2.1
                let node := x.2.2
                let s := rb_set_black s parent
                let s := rb_set_red s gparent
                (__rb_rotate_left gparent s).bind (fun s =>
                  rb_insert_color_loop fuel node s))
      else Res.ok s

/-- The function `rb_insert_color(node, root)`: the loop, then
`rb_set_black(root->rb_node)`. -/
def rb_insert_color (fuel : Nat) (node : Nat) (s : State) : Res State :=
  (rb_insert_color_loop fuel node s).bind (fun s =>
    match s.root with
    | none => Res.null_deref
    | some r => Res.ok (rb_set_black s r))

/-! ## Erase fixup -/

/-- The test `!p || rb_is_black(p)`. -/
def nil_or_black (s : State) (p : Ptr) : Bool :=
  match p with
  | none => true
  | some x => rb_is_black s x

/-- The second half of the loop body of `__rb_erase_color` for `node` the left child of
`parent`, from the test of the nephews on: `other` is the sibling after the red-sibling case,
`again` re-enters the loop (`continue` with the new `node` and `parent`).  The `break` path
ends with the final `if (node) rb_set_black(node)` on `node = root->rb_node`. -/
def erase_color_left (again : Ptr → Ptr → State → Res State) (par other : Nat) (s : State) :
    Res State :=
  if nil_or_black s (s.mem other).rb_left ∧ nil_or_black s (s.mem other).rb_right then
    let s := rb_set_red s other
    again (some par) (rb_parent s par) s
  else
    (if nil_or_black s (s.mem other).rb_right then
      match (s.mem other).rb_left with
      | none => Res.null_deref
      | some ol =>
        let s := rb_set_black s ol
        let s := rb_set_red s other
        (__rb_rotate_right other s).bind (fun s =>
          match (s.mem par).rb_right with
          | none => Res.null_deref
          | some o => Res.ok (s, o))
    else Res.ok (s, other)).bind (fun y =>
      let s := y.1
      let other := y.2
      let s := rb_set_color s other (rb_color s par)
      let s := rb_set_black s par
      match (s.mem other).rb_right with
      | none => Res.null_deref
      | some orr =>
        let s := rb_set_black s orr
        (__rb_rotate_left par s).bind (fun s =>
          match s.root with
          | some n => Res.ok (rb_set_black s n)
          | none => Res.ok s))

/-- The second half of the loop body of `__rb_erase_color` for `node` the right child of
`parent` (the mirror image of `erase_color_left`). -/
def erase_color_right (again : Ptr → Ptr → State → Res State) (par other : Nat) (s : State) :
    Res State :=
  if nil_or_black s (s.mem other).rb_left ∧ nil_or_black s (s.mem other).rb_right then
    let s := rb_set_red s other
    again (some par) (rb_parent s par) s
  else
    (if nil_or_black s (s.mem other).rb_left then
      match (s.mem other).rb_right with
      | none => Res.null_deref
      | some orr =>
        let s := rb_set_black s orr
        let s := rb_set_red s other
        (__rb_rotate_left other s).bind (fun s =>
          match (s.mem par).rb_left with
          | none => Res.null_deref
          | some o => Res.ok (s, o))
    else Res.ok (s, other)).bind (fun y =>
      let s := y.1
      let other := y.2
      let s := rb_set_color s other (rb_color s par)
      let s := rb_set_black s par
      match (s.mem other).rb_left with
      | none => Res.null_deref
      | some ol =>
        let s := rb_set_black s ol
        (__rb_rotate_right par s).bind (fun s =>
          match s.root with
          | some n => Res.ok (rb_set_black s n)
          | none => Res.ok s))

/-- The `while` loop of `__rb_erase_color` together with the final
`if (node) rb_set_black(node)`, which both the normal loop exit and `break` reach.  Each call
is one evaluation of the loop condition followed, when it holds, by the loop body: the
red-sibling case here, the rest in `erase_color_left` and `erase_color_right`. -/
def __rb_erase_color : Nat → Ptr → Ptr → State → Res State
  | 0, _, _, _ => Res.out_of_fuel
  | fuel + 1, node, parent, s =>
    if nil_or_black s node ∧ node ≠ s.root then
      match parent with
      | none => Res.null_deref
      | some par =>
        if (s.mem par).rb_left = node then
          match (s.mem par).rb_right with
          | none => Res.null_deref
          | some other0 =>
            (if rb_is_red s other0 then
              let s := rb_set_black s other0
              let s := rb_set_red s par
              (__rb_rotate_left par s).bind (fun s =>
                match (s.mem par).rb_right with
                | none => Res.null_deref
                | some o => Res.ok (s, o))
            else Res.ok (s, other0)).bind (fun x =>
              erase_color_left (__rb_erase_color fuel) par x.2 x.1)
        else
          match (s.mem par).rb_left with
          | none => Res.null_deref
          | some other0 =>
            (if rb_is_red s other0 then
              let s := rb_set_black s other0
              let s := rb_set_red s par
              (__rb_rotate_right par s).bind (fun s =>
                match (s.mem par).rb_left with
                | none => Res.null_deref
                | some o => Res.ok (s, o))
            else Res.ok (s, other0)).bind (fun x =>
              erase_color_right (__rb_erase_color fuel) par x.2 x.1)
    else
      match node with
      | some n => Res.ok (rb_set_black s n)
      | none => Res.ok s

/-! ## Erase -/

/-- The successor search of `rb_erase`: `while ((left = node->rb_left) != NULL) node = left;`.
-/
def leftmost : Nat → Nat → State → Res Nat
  | 0, _, _ => Res.out_of_fuel
  | fuel + 1, node, s =>
    match (s.mem node).rb_left with
    | some left => leftmost fuel left s
    | none => Res.ok node

/-- The label `color:` of `rb_erase`: the fixup runs when the removed colour is Black. -/
def rb_erase_color_step (fuel : Nat) (color : Color) (child parent : Ptr) (s : State) :
    Res State :=
  if color = Color.RB_BLACK then __rb_erase_color fuel child parent s else Res.ok s

/-- The idiom `if (parent) { if (parent->rb_left == old) parent->rb_left = new; else
parent->rb_right = new; } else root->rb_node = new;` of `rb_erase`, which puts `new` in the
slot that holds `old`. -/
def set_child (s : State) (parent : Ptr) (old : Nat) (new : Ptr) : State :=
  match parent with
  | some p =>
    if (s.mem p).rb_left = some old then set_left s p new
    else set_right s p new
  | none => set_root s new

/-- The tail of `rb_erase` for a node with at most one child, from
`parent = rb_parent(node)` to the end of the function. -/
def rb_erase_one_child (fuel : Nat) (node : Nat) (child : Ptr) (s : State) : Res State :=
  let parent := rb_parent s node
  let color := rb_color s node
  let s := match child with
    | some c => rb_set_parent s c parent
    | none => s
  let s := set_child s parent node child
  rb_erase_color_step fuel color child parent s

/-- The function `rb_erase(node, root)`. -/
def rb_erase (fuel : Nat) (node : Nat) (s : State) : Res State :=
  match (s.mem node).rb_left with
  | none => rb_erase_one_child fuel node (s.mem node).rb_right s
  | some _ =>
    match (s.mem node).rb_right with
    | none => rb_erase_one_child fuel node (s.mem node).rb_left s
    | some r =>
      let old := node
      (leftmost fuel r s).bind (fun node =>
        let s := set_child s (rb_parent s old) old (some node)
        let child := (s.mem node).rb_right
        let parent := rb_parent s node
        let color := rb_color s node
        (if parent = some old then Res.ok (s, some node)
        else
          let s := match child with
            | some c => rb_set_parent s c parent
            | none => s
          match parent with
          | none => Res.null_deref
          | some p =>
            let s := set_left s p child
            let s := set_right s node (s.mem old).rb_right
            match (s.mem old).rb_right with
            | none => Res.null_deref
            | some oldr => Res.ok (rb_set_parent s oldr (some node), parent)).bind (fun x =>
          let s := x.1
          let parent := x.2
          let s := set_parent_color s node (s.mem old).rb_parent (s.mem old).rb_color
          let s := set_left s node (s.mem old).rb_left
          match (s.mem old).rb_left with
          | none => Res.null_deref
          | some oldl =>
            let s := rb_set_parent s oldl (some node)
            rb_erase_color_step fuel color child parent s))

/-! ## Augmentation -/

/-- The function `rb_augment_path(node, func, data)`.  The callback reads the tree and
rewrites the caller's data `δ`; each call of the model is one pass from the label `up:`. -/
def rb_augment_path {δ : Type} (func : Nat → State → δ → δ) :
    Nat → Nat → State → δ → Res δ
  | 0, _, _, _ => Res.out_of_fuel
  | fuel + 1, node, s, d =>
    let d := func node s d
    match rb_parent s node with
    | none => Res.ok d
    | some parent =>
      let d :=
        if some node = (s.mem parent).rb_left ∧ (s.mem parent).rb_right ≠ none then
          match (s.mem parent).rb_right with
          | some r => func r s d
          | none => d
        else
          match (s.mem parent).rb_left with
          | some l => func l s d
          | none => d
      rb_augment_path func fuel parent s d

/-- The function `rb_augment_insert(node, func, data)`. -/
def rb_augment_insert {δ : Type} (fuel : Nat) (node : Nat) (func : Nat → State → δ → δ)
    (s : State) (d : δ) : Res δ :=
  let node :=
    match (s.mem node).rb_left with
    | some l => l
    | none =>
      match (s.mem node).rb_right with
      | some r => r
      | none => node
  rb_augment_path func fuel node s d

/-- The descent `while (node->rb_left) node = node->rb_left;` of `rb_first` and `rb_next`. -/
def descend_left : Nat → Nat → State → Res Nat
  | 0, _, _ => Res.out_of_fuel
  | fuel + 1, n, s =>
    match (s.mem n).rb_left with
    | some l => descend_left fuel l s
    | none => Res.ok n

/-- The descent `while (node->rb_right) node = node->rb_right;` of `rb_last` and `rb_prev`.
-/
def descend_right : Nat → Nat → State → Res Nat
  | 0, _, _ => Res.out_of_fuel
  | fuel + 1, n, s =>
    match (s.mem n).rb_right with
    | some r => descend_right fuel r s
    | none => Res.ok n

/-- The ascent `while ((parent = rb_parent(node)) && node == parent->rb_right) node = parent;`
of `rb_next`, returning `parent`. -/
def ascend_next : Nat → Nat → State → Res Ptr
  | 0, _, _ => Res.out_of_fuel
  | fuel + 1, node, s =>
    match rb_parent s node with
    | none => Res.ok none
    | some parent =>
      if some node = (s.mem parent).rb_right then ascend_next fuel parent s
      else Res.ok (some parent)

/-- The ascent `while ((parent = rb_parent(node)) && node == parent->rb_left) node = parent;`
of `rb_prev`, returning `parent`. -/
def ascend_prev : Nat → Nat → State → Res Ptr
  | 0, _, _ => Res.out_of_fuel
  | fuel + 1, node, s =>
    match rb_parent s node with
    | none => Res.ok none
    | some parent =>
      if some node = (s.mem parent).rb_left then ascend_prev fuel parent s
      else Res.ok (some parent)

/-- The function `rb_first(root)`. -/
def rb_first (fuel : Nat) (s : State) : Res Ptr :=
  match s.root with
  | none => Res.ok none
  | some n => (descend_left fuel n s).bind (fun n => Res.ok (some n))

/-- The function `rb_last(root)`. -/
def rb_last (fuel : Nat) (s : State) : Res Ptr :=
  match s.root with
  | none => Res.ok none
  | some n => (descend_right fuel n s).bind (fun n => Res.ok (some n))

/-- The function `rb_next(node)`. -/
def rb_next (fuel : Nat) (node : Nat) (s : State) : Res Ptr :=
  if rb_parent s node = some node then Res.ok none
  else
    match (s.mem node).rb_right with
    | some r => (descend_left fuel r s).bind (fun n => Res.ok (some n))
    | none => ascend_next fuel node s

/-- The function `rb_prev(node)`. -/
def rb_prev (fuel : Nat) (node : Nat) (s : State) : Res Ptr :=
  if rb_parent s node = some node then Res.ok none
  else
    match (s.mem node).rb_left with
    | some l => (descend_right fuel l s).bind (fun n => Res.ok (some n))
    | none => ascend_prev fuel node s

/-- The function `rb_augment_erase_begin(node)`. -/
def rb_augment_erase_begin (fuel : Nat) (node : Nat) (s : State) : Res Ptr :=
  if (s.mem node).rb_right = none ∧ (s.mem node).rb_left = none then
    Res.ok (rb_parent s node)
  else if (s.mem node).rb_right = none then Res.ok (s.mem node).rb_left
  else if (s.mem node).rb_left = none then Res.ok (s.mem node).rb_right
  else
    (rb_next fuel node s).bind (fun deepest =>
      match deepest with
      | none => Res.null_deref
      | some d =>
        match (s.mem d).rb_right with
        | some r => Res.ok (some r)
        | none =>
          if rb_parent s d ≠ some node then Res.ok (rb_parent s d)
          else Res.ok (some d))

/-- The function `rb_augment_erase_end(node, func, data)`. -/
def rb_augment_erase_end {δ : Type} (fuel : Nat) (node : Ptr) (func : Nat → State → δ → δ)
    (s : State) (d : δ) : Res δ :=
  match node with
  | some n => rb_augment_path func fuel n s d
  | none => Res.ok d

/-- The size stored for a child pointer, an absent child counting 0. -/
def size_of (sz : Nat → Nat) (p : Ptr) : Nat :=
  match p with
  | some c => sz c
  | none => 0

/-- The caller's callback for the subtree-size aggregate:
`n.size := 1 + size(left child) + size(right child)`. -/
def update (n : Nat) (s : State) (sz : Nat → Nat) : Nat → Nat :=
  fun a => if a = n then 1 + size_of sz (s.mem n).rb_left + size_of sz (s.mem n).rb_right
    else sz a

/-! ## Scenarios -/

/-- The empty tree over a memory of unlinked Red nodes. -/
def empty_state : State :=
  { mem := fun _ =>
      { rb_parent := none, rb_color := Color.RB_RED, rb_right := none, rb_left := none },
    root := none }

/-- The rightmost node of the tree, followed with `rb_right` links as the caller's search
for a key larger than all present keys does. -/
def link_rightmost (fuel : Nat) (node : Nat) (s : State) : Res State :=
  (rb_last fuel s).bind (fun last => Res.ok (rb_link_node node last Side.right s))

/-- Insertion of a key larger than every key present: link as the rightmost Red leaf, then
`rb_insert_color`. -/
def insert_max (fuel : Nat) (node : Nat) (s : State) : Res State :=
  (link_rightmost fuel node s).bind (fun s => rb_insert_color fuel node s)

/-- Scenario A: insert 10, 20, 30 in order into the empty tree (nodes are addressed by their
keys). -/
def scenario_A : Res State :=
  ((insert_max 8 10 empty_state).bind (insert_max 8 20)).bind (insert_max 8 30)

/-- The links and colour of a node together with the root, for comparing outcomes. -/
def State.view (s : State) (l : List Nat) : Ptr × List rb_node := (s.root, l.map s.mem)

/-! ## Abstract trees and the memory they describe -/

/-- The shape of a tree in memory: every node carries its address and its colour. -/
inductive Tree where
  | nil : Tree
  | node : Tree → Nat → Color → Tree → Tree
  deriving DecidableEq, Repr

/-- The pointer to the root of a tree. -/
def Tree.ptr : Tree → Ptr
  | Tree.nil => none
  | Tree.node _ a _ _ => some a

/-- The colour of the root, an absent node counting as Black. -/
def Tree.color : Tree → Color
  | Tree.nil => RB_BLACK
  | Tree.node _ _ c _ => c

/-- The in-order (left-to-right) sequence of node addresses. -/
def Tree.inorder : Tree → List Nat
  | Tree.nil => []
  | Tree.node l a _ r => l.inorder ++ a :: r.inorder

/-- The number of nodes. -/
def Tree.size : Tree → Nat
  | Tree.nil => 0
  | Tree.node l _ _ r => l.size + 1 + r.size

/-- The memory `s` holds the tree `t` below the parent pointer `par`: every node has the
recorded colour, the recorded children and a parent link to the node above it. -/
def Tree.Own (s : State) : Ptr → Tree → Prop
  | _, Tree.nil => True
  | par, Tree.node l a c r =>
    s.mem a = { rb_parent := par, rb_color := c, rb_right := r.ptr, rb_left := l.ptr } ∧
    Tree.Own s (some a) l ∧ Tree.Own s (some a) r

/-- The state holds exactly the tree `t` under its root reference, with well-formed links:
the root has no parent, parent and child links agree, and no node occurs twice. -/
def IsTree (s : State) (t : Tree) : Prop :=
  s.root = t.ptr ∧ Tree.Own s none t ∧ t.inorder.Nodup

/-- No red node has a red child. -/
def Tree.no_red_red : Tree → Prop
  | Tree.nil => True
  | Tree.node l _ c r =>
    (c = RB_RED → l.color = RB_BLACK ∧ r.color = RB_BLACK) ∧ l.no_red_red ∧ r.no_red_red

/-- The number of Black nodes on each root-to-nil path, one entry per path. -/
def Tree.black_counts : Tree → List Nat
  | Tree.nil => [0]
  | Tree.node l _ c r =>
    (l.black_counts ++ r.black_counts).map (fun n => if c = RB_BLACK then n + 1 else n)

/-- Every root-to-nil path has the same number of Black nodes. -/
def Tree.black_balanced (t : Tree) : Prop :=
  ∀ x ∈ t.black_counts, ∀ y ∈ t.black_counts, x = y

/-- The red-black invariants 3, 4 and 5 of the spec; the empty tree counts as having a
Black root. -/
def Tree.rb_valid (t : Tree) : Prop :=
  t.no_red_red ∧ t.black_balanced ∧ t.color = RB_BLACK

/-- The number of Black nodes on the leftmost path. -/
def Tree.bh : Tree → Nat
  | Tree.nil => 0
  | Tree.node l _ c _ => if c = RB_BLACK then l.bh + 1 else l.bh

/-- Structural form of `black_balanced`. -/
def Tree.bal : Tree → Prop
  | Tree.nil => True
  | Tree.node l _ _ r => l.bal ∧ r.bal ∧ l.bh = r.bh

/-- The root recoloured Black (`rb_set_black` on a possibly absent node). -/
def Tree.blacken : Tree → Tree
  | Tree.nil => Tree.nil
  | Tree.node l a _ r => Tree.node l a RB_BLACK r

/-- A tree with a hole: the path from the hole up to the root, innermost step first.
`left up a c r` says that the hole is the left child of node `a`, whose right subtree is
`r`; `right l a c up` that it is the right child of `a`, whose left subtree is `l`. -/
inductive Ctx where
  | top : Ctx
  | left : Ctx → Nat → Color → Tree → Ctx
  | right : Tree → Nat → Color → Ctx → Ctx
  deriving DecidableEq, Repr

/-- The tree obtained by filling the hole. -/
def Ctx.plug : Ctx → Tree → Tree
  | Ctx.top, t => t
  | Ctx.left up a c r, t => up.plug (Tree.node t a c r)
  | Ctx.right l a c up, t => up.plug (Tree.node l a c t)

/-- The node directly above the hole. -/
def Ctx.parent : Ctx → Ptr
  | Ctx.top => none
  | Ctx.left _ a _ _ => some a
  | Ctx.right _ a _ _ => some a

/-- The colour of the node directly above the hole (Black at the top). -/
def Ctx.color : Ctx → Color
  | Ctx.top => RB_BLACK
  | Ctx.left _ _ c _ => c
  | Ctx.right _ _ c _ => c

/-- The addresses that come before the hole in the in-order sequence. -/
def Ctx.before : Ctx → List Nat
  | Ctx.top => []
  | Ctx.left up _ _ _ => up.before
  | Ctx.right l a _ up => up.before ++ (l.inorder ++ [a])

/-- The addresses that come after the hole in the in-order sequence. -/
def Ctx.after : Ctx → List Nat
  | Ctx.top => []
  | Ctx.left up a _ r => a :: r.inorder ++ up.after
  | Ctx.right _ _ _ up => up.after

/-- The number of steps from the hole to the root. -/
def Ctx.depth : Ctx → Nat
  | Ctx.top => 0
  | Ctx.left up _ _ _ => up.depth + 1
  | Ctx.right _ _ _ up => up.depth + 1

/-- The context `inner` placed in the hole of `outer`. -/
def Ctx.comp : Ctx → Ctx → Ctx
  | Ctx.top, outer => outer
  | Ctx.left up a c r, outer => Ctx.left (up.comp outer) a c r
  | Ctx.right l a c up, outer => Ctx.right l a c (up.comp outer)

/-- The memory `s` holds the context, the slot of the hole containing the pointer `h`. -/
def Ctx.Own (s : State) : Ctx → Ptr → Prop
  | Ctx.top, h => s.root = h
  | Ctx.left up a c r, h =>
    s.mem a = { rb_parent := up.parent, rb_color := c, rb_right := r.ptr, rb_left := h } ∧
    Tree.Own s (some a) r ∧ Ctx.Own s up (some a)
  | Ctx.right l a c up, h =>
    s.mem a = { rb_parent := up.parent, rb_color := c, rb_right := h, rb_left := l.ptr } ∧
    Tree.Own s (some a) l ∧ Ctx.Own s up (some a)

/-- The state holds the tree `t` in the hole of the context `k`. -/
def IsZip (s : State) (k : Ctx) (t : Tree) : Prop :=
  Ctx.Own s k t.ptr ∧ Tree.Own s k.parent t ∧ (k.plug t).inorder.Nodup

/-- No red node of the context has a red child, the hole left aside. -/
def Ctx.no_red_red : Ctx → Prop
  | Ctx.top => True
  | Ctx.left up _ c r =>
    (c = RB_RED → r.color = RB_BLACK ∧ up.color = RB_BLACK) ∧ r.no_red_red ∧ up.no_red_red
  | Ctx.right l _ c up =>
    (c = RB_RED → l.color = RB_BLACK ∧ up.color = RB_BLACK) ∧ l.no_red_red ∧ up.no_red_red

/-- The context is balanced around a hole of black height `n`. -/
def Ctx.bal : Ctx → Nat → Prop
  | Ctx.top, _ => True
  | Ctx.left up _ c r, n =>
    r.bal ∧ r.bh = n ∧ up.bal (if c = RB_BLACK then n + 1 else n)
  | Ctx.right l _ c up, n =>
    l.bal ∧ l.bh = n ∧ up.bal (if c = RB_BLACK then n + 1 else n)

/-- The colour of the root of the filled context is Black, given that of the filling. -/
def Ctx.root_black : Ctx → Color → Prop
  | Ctx.top, c => c = RB_BLACK
  | Ctx.left up _ c _, _ => up.root_black c
  | Ctx.right _ _ c up, _ => up.root_black c

/-- The memory of `s'` is that of `s` except at the addresses of `T`. -/
def Agree (s s' : State) (T : List Nat) : Prop := ∀ x, x ∉ T → s'.mem x = s.mem x

/-! ## The fixups on abstract trees -/

/-- What the loop of `rb_insert_color` computes, read on the abstract tree: the focus `t` is
the subtree of the loop variable `node`, the context is the path above it.  The answer is
the whole tree when the loop exits, `none` when the loop dereferences an absent node. -/
def ins_loop : Ctx → Tree → Option Tree
  | Ctx.top, t => some t
  | Ctx.left up p RB_BLACK s, t => some (up.plug (Tree.node t p RB_BLACK s))
  | Ctx.right s p RB_BLACK up, t => some (up.plug (Tree.node s p RB_BLACK t))
  | Ctx.left Ctx.top _ RB_RED _, _ => none
  | Ctx.right _ _ RB_RED Ctx.top, _ => none
  | Ctx.left (Ctx.left up g _ u) p RB_RED s, t =>
    match u with
    | Tree.node ul ua RB_RED ur =>
      ins_loop up (Tree.node (Tree.node t p RB_BLACK s) g RB_RED (Tree.node ul ua RB_BLACK ur))
    | _ => some (up.plug (Tree.node t p RB_BLACK (Tree.node s g RB_RED u)))
  | Ctx.left (Ctx.right u g _ up) p RB_RED s, t =>
    match u with
    | Tree.node ul ua RB_RED ur =>
      ins_loop up (Tree.node (Tree.node ul ua RB_BLACK ur) g RB_RED (Tree.node t p RB_BLACK s))
    | _ =>
      match t with
      | Tree.node tl n _ tr =>
        some (up.plug (Tree.node (Tree.node u g RB_RED tl) n RB_BLACK (Tree.node tr p RB_RED s)))
      | Tree.nil => none
  | Ctx.right s p RB_RED (Ctx.left up g _ u), t =>
    match u with
    | Tree.node ul ua RB_RED ur =>
      ins_loop up (Tree.node (Tree.node s p RB_BLACK t) g RB_RED (Tree.node ul ua RB_BLACK ur))
    | _ =>
      match t with
      | Tree.node tl n _ tr =>
        some (up.plug (Tree.node (Tree.node s p RB_RED tl) n RB_BLACK (Tree.node tr g RB_RED u)))
      | Tree.nil => none
  | Ctx.right s p RB_RED (Ctx.right u g _ up), t =>
    match u with
    | Tree.node ul ua RB_RED ur =>
      ins_loop up (Tree.node (Tree.node ul ua RB_BLACK ur) g RB_RED (Tree.node s p RB_BLACK t))
    | _ => some (up.plug (Tree.node (Tree.node u g RB_RED s) p RB_BLACK t))

/-- What `rb_insert_color` computes on the abstract tree: the loop, then the root forced
Black. -/
def ins_fix (k : Ctx) (t : Tree) : Option Tree :=
  (ins_loop k t).map Tree.blacken

/-- The child slot of its parent that the hole of a context is (left at the top). -/
def Ctx.side : Ctx → Side
  | Ctx.top => Side.left
  | Ctx.left _ _ _ _ => Side.left
  | Ctx.right _ _ _ _ => Side.right

/-! ## Sample trees -/

/-- A three-node tree in memory: Black root 20 with Red children 10 and 30. -/
def three_nodes : State :=
  { mem := fun a =>
      if a = 20 then
        { rb_parent := none, rb_color := RB_BLACK, rb_right := some 30, rb_left := some 10 }
      else if a = 10 then
        { rb_parent := some 20, rb_color := RB_RED, rb_right := none, rb_left := none }
      else if a = 30 then
        { rb_parent := some 20, rb_color := RB_RED, rb_right := none, rb_left := none }
      else { rb_parent := none, rb_color := RB_RED, rb_right := none, rb_left := none },
    root := some 20 }

/-- The empty slot to the right of node 30 in `three_nodes`. -/
def slot_right_of_30 : Ctx :=
  Ctx.right Tree.nil 30 RB_RED
    (Ctx.right (Tree.node Tree.nil 10 RB_RED Tree.nil) 20 RB_BLACK Ctx.top)

/-! ## The erase fixup and the erase on abstract trees -/

/-- The nephew rotations of `__rb_erase_color` when `node` is the left child: the subtree
that replaces the subtree of `parent`.  `t` is the subtree of `node`, `p` the parent with
colour `pc`, `o` the Black sibling with children `sl` and `sr`. -/
def erase_rot_left (p : Nat) (pc : Color) (sl : Tree) (o : Nat) (sr t : Tree) : Option Tree :=
  if sr.color = RB_BLACK then
    match sl with
    | Tree.nil => none
    | Tree.node sll ol _ slr =>
      some (Tree.node (Tree.node t p RB_BLACK sll) ol pc (Tree.node slr o RB_BLACK sr))
  else
    match sr with
    | Tree.nil => none
    | Tree.node srl orr _ srr =>
      some (Tree.node (Tree.node t p RB_BLACK sl) o pc (Tree.node srl orr RB_BLACK srr))

/-- The nephew rotations of `__rb_erase_color` when `node` is the right child. -/
def erase_rot_right (p : Nat) (pc : Color) (sl : Tree) (o : Nat) (sr t : Tree) : Option Tree :=
  if sl.color = RB_BLACK then
    match sr with
    | Tree.nil => none
    | Tree.node srl orr _ srr =>
      some (Tree.node (Tree.node sl o RB_BLACK srl) orr pc (Tree.node srr p RB_BLACK t))
  else
    match sl with
    | Tree.nil => none
    | Tree.node sll ol _ slr =>
      some (Tree.node (Tree.node sll ol RB_BLACK slr) o pc (Tree.node sr p RB_BLACK t))

/-- What `__rb_erase_color` computes on the abstract tree: the focus `t` is the subtree of
`node` (possibly absent), the context the path above it.  The answer is the whole tree
after the final `rb_set_black`, `none` when an absent node is dereferenced. -/
def erase_loop : Ctx → Tree → Option Tree
  | Ctx.top, t => some t.blacken
  | Ctx.left up p pc sib, t =>
    if t.color = RB_RED then some ((Ctx.left up p pc sib).plug t.blacken)
    else
      match sib with
      | Tree.nil => none
      | Tree.node sl o RB_RED sr =>
        match sl with
        | Tree.nil => none
        | Tree.node sll ol _ slr =>
          if sll.color = RB_BLACK ∧ slr.color = RB_BLACK then
            some (up.plug (Tree.node
              (Tree.node t p RB_BLACK (Tree.node sll ol RB_RED slr)) o RB_BLACK sr))
          else
            (erase_rot_left p RB_RED sll ol slr t).map
              (fun x => (up.plug (Tree.node x o RB_BLACK sr)).blacken)
      | Tree.node sl o RB_BLACK sr =>
        if sl.color = RB_BLACK ∧ sr.color = RB_BLACK then
          erase_loop up (Tree.node t p pc (Tree.node sl o RB_RED sr))
        else (erase_rot_left p pc sl o sr t).map (fun x => (up.plug x).blacken)
  | Ctx.right sib p pc up, t =>
    if t.color = RB_RED then some ((Ctx.right sib p pc up).plug t.blacken)
    else
      match sib with
      | Tree.nil => none
      | Tree.node sl o RB_RED sr =>
        match sr with
        | Tree.nil => none
        | Tree.node srl orr _ srr =>
          if srl.color = RB_BLACK ∧ srr.color = RB_BLACK then
            some (up.plug (Tree.node sl o RB_BLACK
              (Tree.node (Tree.node srl orr RB_RED srr) p RB_BLACK t)))
          else
            (erase_rot_right p RB_RED srl orr srr t).map
              (fun x => (up.plug (Tree.node sl o RB_BLACK x)).blacken)
      | Tree.node sl o RB_BLACK sr =>
        if sl.color = RB_BLACK ∧ sr.color = RB_BLACK then
          erase_loop up (Tree.node (Tree.node sl o RB_RED sr) p pc t)
        else (erase_rot_right p pc sl o sr t).map (fun x => (up.plug x).blacken)

/-- The pointer to the root of the tree that a context makes around a hole holding `h`. -/
def Ctx.root_ptr : Ctx → Ptr → Ptr
  | Ctx.top, h => h
  | Ctx.left up a _ _, _ => up.root_ptr (some a)
  | Ctx.right _ a _ up, _ => up.root_ptr (some a)

/-- The label `color:` of `rb_erase` on the abstract tree. -/
def erase_finish (color : Color) (k : Ctx) (child : Tree) : Option Tree :=
  if color = RB_BLACK then erase_loop k child else some (k.plug child)

/-- The descent to the leftmost node of a tree, remembering the path. -/
def Tree.zoom_min : Tree → Ctx → Ctx × Tree
  | Tree.nil, k => (k, Tree.nil)
  | Tree.node Tree.nil a c r, k => (k, Tree.node Tree.nil a c r)
  | Tree.node (Tree.node ll b cb lr) a c r, k =>
    (Tree.node ll b cb lr).zoom_min (Ctx.left k a c r)

/-- What `rb_erase` computes on the abstract tree, for the node at the root of the focus. -/
def erase_tree (k : Ctx) (t : Tree) : Option Tree :=
  match t with
  | Tree.nil => none
  | Tree.node Tree.nil _ c r => erase_finish c k r
  | Tree.node (Tree.node ll b cb lr) _ c Tree.nil => erase_finish c k (Tree.node ll b cb lr)
  | Tree.node (Tree.node ll b cb lr) _ c (Tree.node rl r0 rc rr) =>
    match (Tree.node rl r0 rc rr).zoom_min Ctx.top with
    | (kk, Tree.node _ m mc mr) =>
      erase_finish mc (kk.comp (Ctx.right (Tree.node ll b cb lr) m c k)) mr
    | (_, Tree.nil) => none

/-- A two-node tree in memory: Black root 20 with the Red left child 10. -/
def two_nodes : State :=
  { mem := fun a =>
      if a = 20 then
        { rb_parent := none, rb_color := RB_BLACK, rb_right := none, rb_left := some 10 }
      else if a = 10 then
        { rb_parent := some 20, rb_color := RB_RED, rb_right := none, rb_left := none }
      else { rb_parent := none, rb_color := RB_RED, rb_right := none, rb_left := none },
    root := some 20 }

/-- The empty slot to the right of node 20 in `two_nodes`. -/
def slot_right_of_20 : Ctx :=
  Ctx.right (Tree.node Tree.nil 10 RB_RED Tree.nil) 20 RB_BLACK Ctx.top

/-- The walk `node, rb_next(node), rb_next(rb_next(node)), ...` with `count` applications
of `rb_next`, collecting the nodes visited; applying `rb_next` to an absent node is a null
dereference. -/
def walk_next (fuel : Nat) : Nat → Nat → State → Res (List Nat)
  | 0, node, _ => Res.ok [node]
  | count + 1, node, s =>
    (rb_next fuel node s).bind (fun p =>
      match p with
      | none => Res.null_deref
      | some n => (walk_next fuel count n s).bind (fun l => Res.ok (node :: l)))

/-- The walk `node, rb_prev(node), rb_prev(rb_prev(node)), ...` with `count` applications
of `rb_prev`, collecting the nodes visited. -/
def walk_prev (fuel : Nat) : Nat → Nat → State → Res (List Nat)
  | 0, node, _ => Res.ok [node]
  | count + 1, node, s =>
    (rb_prev fuel node s).bind (fun p =>
      match p with
      | none => Res.null_deref
      | some n => (walk_prev fuel count n s).bind (fun l => Res.ok (node :: l)))

/-! ## The subtree-size aggregate -/

/-- Every node of the tree has a stored size equal to the number of nodes in its subtree. -/
def Tree.Sized (sz : Nat → Nat) : Tree → Prop
  | Tree.nil => True
  | Tree.node l a _ r => sz a = l.size + 1 + r.size ∧ l.Sized sz ∧ r.Sized sz

/-- Every node of the tree other than its root has the right stored size. -/
def Tree.AlmostSized (sz : Nat → Nat) : Tree → Prop
  | Tree.nil => True
  | Tree.node l _ _ r => l.Sized sz ∧ r.Sized sz

/-- Every subtree that hangs off the path of the context satisfies `P`. -/
def Ctx.All (P : Tree → Prop) : Ctx → Prop
  | Ctx.top => True
  | Ctx.left up _ _ r => P r ∧ up.All P
  | Ctx.right l _ _ up => P l ∧ up.All P

/-- The node `start` is in the tree, its two subtrees satisfy `P`, and every subtree that
hangs off the path from `start` to the root satisfies `Q`. -/
def Tree.Walk (P Q : Tree → Prop) (start : Nat) : Tree → Prop
  | Tree.nil => False
  | Tree.node l a _ r =>
    (a = start ∧ P l ∧ P r) ∨ (l.Walk P Q start ∧ Q r) ∨ (Q l ∧ r.Walk P Q start)

/-- The node at which the walk after an erase starts is in the focus, with right sizes
below it and beside its path, or the focus is empty and the node is the parent of the
hole. -/
def Focus (sz : Nat → Nat) (start : Nat) (par : Ptr) (t : Tree) : Prop :=
  t.Walk (Tree.Sized sz) (Tree.Sized sz) start ∨ (t = Tree.nil ∧ par = some start)

/-- What `rb_augment_erase_begin` computes on the abstract tree, for the node at the root of
the focus: the parent when the node has no child, the only child when it has one, and
otherwise the right child of the successor `m`, or the parent of `m` when that is not the
node itself, or `m`. -/
def erase_deepest (k : Ctx) (t : Tree) : Ptr :=
  match t with
  | Tree.nil => none
  | Tree.node Tree.nil _ _ Tree.nil => k.parent
  | Tree.node (Tree.node _ b _ _) _ _ Tree.nil => some b
  | Tree.node Tree.nil _ _ (Tree.node _ r0 _ _) => some r0
  | Tree.node (Tree.node ll b cb lr) a c (Tree.node rl r0 rc rr) =>
    match (Tree.node rl r0 rc rr).zoom_min Ctx.top with
    | (kk, Tree.node _ m _ mr) =>
      match mr with
      | Tree.node _ x _ _ => some x
      | Tree.nil =>
        if (kk.comp (Ctx.right (Tree.node ll b cb lr) a c k)).parent ≠ some a then
          (kk.comp (Ctx.right (Tree.node ll b cb lr) a c k)).parent
        else some m
    | (_, Tree.nil) => none

/-! ## Replacing a node -/

/-- The function `rb_replace_node(victim, new, root)`; the final `*new = *victim` copies the
whole record. -/
def rb_replace_node (victim new : Nat) (s : State) : State :=
  let parent := rb_parent s victim
  let s := match parent with
    | some p =>
      if some victim = (s.mem p).rb_left then set_left s p (some new)
      else set_right s p (some new)
    | none => set_root s (some new)
  let s := match (s.mem victim).rb_left with
    | some l => rb_set_parent s l (some new)
    | none => s
  let s := match (s.mem victim).rb_right with
    | some r => rb_set_parent s r (some new)
    | none => s
  s.store new (s.mem victim)

/-! ## The calls of the path walk -/

/-- The proper ancestors of the hole, the parent first and the root last. -/
def Ctx.ancestors : Ctx → List Nat
  | Ctx.top => []
  | Ctx.left up p _ _ => p :: up.ancestors
  | Ctx.right _ p _ up => p :: up.ancestors

/-- The siblings of the nodes on the path from the hole to the root: the roots of the
subtrees that hang off the path. -/
def Ctx.siblings : Ctx → List Nat
  | Ctx.top => []
  | Ctx.left up _ _ sib => sib.ptr.toList ++ up.siblings
  | Ctx.right sib _ _ up => sib.ptr.toList ++ up.siblings

/-- The nodes on which `rb_augment_path` calls the callback, in order, when it starts at
the node `a` in the hole of the context: `a`, then the sibling of `a` (for a left child
without a sibling `a` once more, for a right child without a sibling nothing), then the
same from the parent. -/
def Ctx.path_calls : Ctx → Nat → List Nat
  | Ctx.top, a => [a]
  | Ctx.left up p _ sib, a =>
    a :: (match sib.ptr with
      | some o => o
      | none => a) :: up.path_calls p
  | Ctx.right sib p _ up, a =>
    a :: ((match sib.ptr with
      | some o => [o]
      | none => []) ++ up.path_calls p)

/-! ## Sequences of operations -/

/-- The number of nodes on the longest root-to-nil path. -/
def Tree.height : Tree → Nat
  | Tree.nil => 0
  | Tree.node l _ _ r => max l.height r.height + 1

/-- The states obtained from an empty tree by a finite sequence of insertions (link a fresh
node as a Red leaf at an empty slot of the tree, then `rb_insert_color`) and erasures
(`rb_erase` of a member node), each run with fuel for the size of the tree. -/
inductive Reachable : State → Prop where
  | empty (s : State) : s.root = none → Reachable s
  | insert (s : State) (k : Ctx) (node fuel : Nat) (s' : State) :
      Reachable s → IsTree s (k.plug Tree.nil) → node ∉ (k.plug Tree.nil).inorder →
      k.depth < fuel →
      rb_insert_color fuel node (rb_link_node node k.parent k.side s) = Res.ok s' →
      Reachable s'
  | erase (s : State) (T : Tree) (node fuel : Nat) (s' : State) :
      Reachable s → IsTree s T → node ∈ T.inorder → T.size < fuel →
      rb_erase fuel node s = Res.ok s' → Reachable s'

/-! ## Link consistency -/

/-- The child links and the colours of the tree `t` as they are laid out in the memory,
the parent links left aside: each node of `t` has the roots of its two subtrees as its
left and right child, and its colour. -/
def Tree.Shape (s : State) : Tree → Prop
  | Tree.nil => True
  | Tree.node l a c r =>
    (s.mem a).rb_left = l.ptr ∧ (s.mem a).rb_right = r.ptr ∧ (s.mem a).rb_color = c ∧
    l.Shape s ∧ r.Shape s

/-- Link consistency of the nodes `ms` in the state `s`, as the specification words it:
the root has no parent, every present left or right child `c` of a node `n` of `ms` has
`parent(c) = n`, and every node of `ms` other than the root is the left or the right child
of its parent. -/
def Linked (s : State) (ms : List Nat) : Prop :=
  (∀ r, s.root = some r → rb_parent s r = none) ∧
  (∀ n ∈ ms, ∀ c, (s.mem n).rb_left = some c → rb_parent s c = some n) ∧
  (∀ n ∈ ms, ∀ c, (s.mem n).rb_right = some c → rb_parent s c = some n) ∧
  (∀ n ∈ ms, s.root ≠ some n →
    ∃ p, rb_parent s n = some p ∧ ((s.mem p).rb_left = some n ∨ (s.mem p).rb_right = some n))

/-! ## A tree whose erasure runs the fixup -/

/-- A three-node tree in memory with all nodes Black: root 20 with children 10 and 30. -/
def three_black : State :=
  { mem := fun a =>
      if a = 20 then
        { rb_parent := none, rb_color := RB_BLACK, rb_right := some 30, rb_left := some 10 }
      else if a = 10 then
        { rb_parent := some 20, rb_color := RB_BLACK, rb_right := none, rb_left := none }
      else if a = 30 then
        { rb_parent := some 20, rb_color := RB_BLACK, rb_right := none, rb_left := none }
      else { rb_parent := none, rb_color := RB_RED, rb_right := none, rb_left := none },
    root := some 20 }

/-- The tree that `three_black` holds. -/
def three_black_tree : Tree :=
  Tree.node (Tree.node Tree.nil 10 RB_BLACK Tree.nil) 20 RB_BLACK
    (Tree.node Tree.nil 30 RB_BLACK Tree.nil)

/-! ## Memory writes -/

theorem store_mem (s : State) (a : Nat) (v : rb_node) (x : Nat) :
    (s.store a v).mem x = if x = a then v else s.mem x := rfl

@[simp] theorem store_root (s : State) (a : Nat) (v : rb_node) : (s.store a v).root = s.root :=
  rfl

@[simp] theorem set_root_mem (s : State) (p : Ptr) : (set_root s p).mem = s.mem := rfl

@[simp] theorem set_root_root (s : State) (p : Ptr) : (set_root s p).root = p := rfl

@[simp] theorem set_left_root (s : State) (n : Nat) (p : Ptr) : (set_left s n p).root = s.root :=
  rfl

@[simp] theorem set_right_root (s : State) (n : Nat) (p : Ptr) :
    (set_right s n p).root = s.root := rfl

@[simp] theorem rb_set_parent_root (s : State) (n : Nat) (p : Ptr) :
    (rb_set_parent s n p).root = s.root := rfl

@[simp] theorem rb_set_color_root (s : State) (n : Nat) (c : Color) :
    (rb_set_color s n c).root = s.root := rfl

@[simp] theorem set_parent_color_root (s : State) (n : Nat) (p : Ptr) (c : Color) :
    (set_parent_color s n p c).root = s.root := rfl

@[simp] theorem set_left_left (s : State) (n : Nat) (p : Ptr) (x : Nat) :
    ((set_left s n p).mem x).rb_left = if x = n then p else (s.mem x).rb_left := by
  simp only [set_left, store_mem]; split <;> simp_all

@[simp] theorem set_left_right (s : State) (n : Nat) (p : Ptr) (x : Nat) :
    ((set_left s n p).mem x).rb_right = (s.mem x).rb_right := by
  simp only [set_left, store_mem]; split <;> simp_all

@[simp] theorem set_left_parent (s : State) (n : Nat) (p : Ptr) (x : Nat) :
    ((set_left s n p).mem x).rb_parent = (s.mem x).rb_parent := by
  simp only [set_left, store_mem]; split <;> simp_all

@[simp] theorem set_left_color (s : State) (n : Nat) (p : Ptr) (x : Nat) :
    ((set_left s n p).mem x).rb_color = (s.mem x).rb_color := by
  simp only [set_left, store_mem]; split <;> simp_all

@[simp] theorem set_right_left (s : State) (n : Nat) (p : Ptr) (x : Nat) :
    ((set_right s n p).mem x).rb_left = (s.mem x).rb_left := by
  simp only [set_right, store_mem]; split <;> simp_all

@[simp] theorem set_right_right (s : State) (n : Nat) (p : Ptr) (x : Nat) :
    ((set_right s n p).mem x).rb_right = if x = n then p else (s.mem x).rb_right := by
  simp only [set_right, store_mem]; split <;> simp_all

@[simp] theorem set_right_parent (s : State) (n : Nat) (p : Ptr) (x : Nat) :
    ((set_right s n p).mem x).rb_parent = (s.mem x).rb_parent := by
  simp only [set_right, store_mem]; split <;> simp_all

@[simp] theorem set_right_color (s : State) (n : Nat) (p : Ptr) (x : Nat) :
    ((set_right s n p).mem x).rb_color = (s.mem x).rb_color := by
  simp only [set_right, store_mem]; split <;> simp_all

@[simp] theorem rb_set_parent_left (s : State) (n : Nat) (p : Ptr) (x : Nat) :
    ((rb_set_parent s n p).mem x).rb_left = (s.mem x).rb_left := by
  simp only [rb_set_parent, store_mem]; split <;> simp_all

@[simp] theorem rb_set_parent_right (s : State) (n : Nat) (p : Ptr) (x : Nat) :
    ((rb_set_parent s n p).mem x).rb_right = (s.mem x).rb_right := by
  simp only [rb_set_parent, store_mem]; split <;> simp_all

@[simp] theorem rb_set_parent_parent (s : State) (n : Nat) (p : Ptr) (x : Nat) :
    ((rb_set_parent s n p).mem x).rb_parent = if x = n then p else (s.mem x).rb_parent := by
  simp only [rb_set_parent, store_mem]; split <;> simp_all

@[simp] theorem rb_set_parent_color (s : State) (n : Nat) (p : Ptr) (x : Nat) :
    ((rb_set_parent s n p).mem x).rb_color = (s.mem x).rb_color := by
  simp only [rb_set_parent, store_mem]; split <;> simp_all

@[simp] theorem rb_set_color_left (s : State) (n : Nat) (c : Color) (x : Nat) :
    ((rb_set_color s n c).mem x).rb_left = (s.mem x).rb_left := by
  simp only [rb_set_color, store_mem]; split <;> simp_all

@[simp] theorem rb_set_color_right (s : State) (n : Nat) (c : Color) (x : Nat) :
    ((rb_set_color s n c).mem x).rb_right = (s.mem x).rb_right := by
  simp only [rb_set_color, store_mem]; split <;> simp_all

@[simp] theorem rb_set_color_parent (s : State) (n : Nat) (c : Color) (x : Nat) :
    ((rb_set_color s n c).mem x).rb_parent = (s.mem x).rb_parent := by
  simp only [rb_set_color, store_mem]; split <;> simp_all

@[simp] theorem rb_set_color_color (s : State) (n : Nat) (c : Color) (x : Nat) :
    ((rb_set_color s n c).mem x).rb_color = if x = n then c else (s.mem x).rb_color := by
  simp only [rb_set_color, store_mem]; split <;> simp_all

@[simp] theorem set_parent_color_left (s : State) (n : Nat) (p : Ptr) (c : Color) (x : Nat) :
    ((set_parent_color s n p c).mem x).rb_left = (s.mem x).rb_left := by
  simp only [set_parent_color, store_mem]; split <;> simp_all

@[simp] theorem set_parent_color_right (s : State) (n : Nat) (p : Ptr) (c : Color) (x : Nat) :
    ((set_parent_color s n p c).mem x).rb_right = (s.mem x).rb_right := by
  simp only [set_parent_color, store_mem]; split <;> simp_all

@[simp] theorem set_parent_color_parent (s : State) (n : Nat) (p : Ptr) (c : Color) (x : Nat) :
    ((set_parent_color s n p c).mem x).rb_parent = if x = n then p else (s.mem x).rb_parent := by
  simp only [set_parent_color, store_mem]; split <;> simp_all

@[simp] theorem set_parent_color_color (s : State) (n : Nat) (p : Ptr) (c : Color) (x : Nat) :
    ((set_parent_color s n p c).mem x).rb_color = if x = n then c else (s.mem x).rb_color := by
  simp only [set_parent_color, store_mem]; split <;> simp_all

@[simp] theorem rb_set_red_eq (s : State) (n : Nat) : rb_set_red s n = rb_set_color s n RB_RED :=
  rfl

@[simp] theorem rb_set_black_eq (s : State) (n : Nat) :
    rb_set_black s n = rb_set_color s n RB_BLACK := rfl

theorem node_ext_iff {v w : rb_node} :
    v = w ↔ v.rb_parent = w.rb_parent ∧ v.rb_color = w.rb_color ∧ v.rb_right = w.rb_right ∧
      v.rb_left = w.rb_left := by
  cases v; cases w; simp

@[simp] theorem res_bind_ok {α β : Type} (a : α) (f : α → Res β) : (Res.ok a).bind f = f a :=
  rfl

/-! ## Shape lemmas -/

theorem Tree.ptr_mem {t : Tree} {a : Nat} (h : t.ptr = some a) : a ∈ t.inorder := by
  cases t with
  | nil => simp [Tree.ptr] at h
  | node l b c r =>
    simp only [Tree.ptr, Option.some.injEq] at h
    subst h
    simp [Tree.inorder]

theorem Ctx.inorder_plug (k : Ctx) (t : Tree) :
    (k.plug t).inorder = k.before ++ (t.inorder ++ k.after) := by
  induction k generalizing t with
  | top => simp [Ctx.plug, Ctx.before, Ctx.after]
  | left up a c r ih => simp [Ctx.plug, Ctx.before, Ctx.after, ih, Tree.inorder]
  | right l a c up ih => simp [Ctx.plug, Ctx.before, Ctx.after, ih, Tree.inorder]

theorem Ctx.parent_mem {k : Ctx} {a : Nat} (h : k.parent = some a) :
    a ∈ k.before ++ k.after := by
  cases k with
  | top => simp [Ctx.parent] at h
  | left up b c r =>
    simp only [Ctx.parent, Option.some.injEq] at h
    subst h
    simp [Ctx.before, Ctx.after]
  | right l b c up =>
    simp only [Ctx.parent, Option.some.injEq] at h
    subst h
    simp [Ctx.before, Ctx.after]

theorem Ctx.plug_comp (k outer : Ctx) (t : Tree) :
    (k.comp outer).plug t = outer.plug (k.plug t) := by
  induction k generalizing t with
  | top => rfl
  | left up a c r ih => simp [Ctx.comp, Ctx.plug, ih]
  | right l a c up ih => simp [Ctx.comp, Ctx.plug, ih]

/-! ## Frame lemmas -/

theorem tree_own_frame {s s' : State} {t : Tree} {par : Ptr} (h : Tree.Own s par t)
    (hf : ∀ x ∈ t.inorder, s'.mem x = s.mem x) : Tree.Own s' par t := by
  induction t generalizing par with
  | nil => trivial
  | node l a c r ihl ihr =>
    obtain ⟨h1, h2, h3⟩ := h
    refine ⟨?_, ihl h2 ?_, ihr h3 ?_⟩
    · rw [hf a (by simp [Tree.inorder]), h1]
    · intro x hx
      exact hf x (by simp [Tree.inorder, hx])
    · intro x hx
      exact hf x (by simp [Tree.inorder, hx])

theorem ctx_own_frame {s s' : State} {k : Ctx} {h : Ptr} (hk : Ctx.Own s k h)
    (hf : ∀ x ∈ k.before ++ k.after, s'.mem x = s.mem x) (hr : s'.root = s.root) :
    Ctx.Own s' k h := by
  induction k generalizing h with
  | top => simpa [Ctx.Own, hr] using hk
  | left up a c r ih =>
    obtain ⟨h1, h2, h3⟩ := hk
    refine ⟨?_, tree_own_frame h2 ?_, ih h3 ?_⟩
    · rw [hf a (by simp [Ctx.before, Ctx.after]), h1]
    · intro x hx
      exact hf x (by simp [Ctx.before, Ctx.after, hx])
    · intro x hx
      refine hf x ?_
      simp only [List.mem_append, Ctx.before, Ctx.after, List.mem_cons] at hx ⊢
      tauto
  | right l a c up ih =>
    obtain ⟨h1, h2, h3⟩ := hk
    refine ⟨?_, tree_own_frame h2 ?_, ih h3 ?_⟩
    · rw [hf a (by simp [Ctx.before, Ctx.after]), h1]
    · intro x hx
      exact hf x (by simp [Ctx.before, Ctx.after, hx])
    · intro x hx
      refine hf x ?_
      simp only [List.mem_append, Ctx.before, Ctx.after, List.mem_cons] at hx ⊢
      tauto

/-! ## Moving the focus -/

theorem IsZip.top_iff {s : State} {t : Tree} : IsZip s Ctx.top t ↔ IsTree s t := Iff.rfl

theorem IsZip.left_iff {s : State} {up : Ctx} {a : Nat} {c : Color} {r t : Tree} :
    IsZip s (Ctx.left up a c r) t ↔ IsZip s up (Tree.node t a c r) := by
  simp only [IsZip, Ctx.Own, Tree.Own, Ctx.plug, Ctx.parent, Tree.ptr]
  tauto

theorem IsZip.right_iff {s : State} {up : Ctx} {a : Nat} {c : Color} {l t : Tree} :
    IsZip s (Ctx.right l a c up) t ↔ IsZip s up (Tree.node l a c t) := by
  simp only [IsZip, Ctx.Own, Tree.Own, Ctx.plug, Ctx.parent, Tree.ptr]
  tauto

theorem IsZip.plug_iff {s : State} {k : Ctx} {t : Tree} :
    IsZip s k t ↔ IsTree s (k.plug t) := by
  induction k generalizing t with
  | top => rfl
  | left up a c r ih => rw [IsZip.left_iff, ih]; rfl
  | right l a c up ih => rw [IsZip.right_iff, ih]; rfl

theorem IsZip.comp_iff {s : State} {k outer : Ctx} {t : Tree} :
    IsZip s (k.comp outer) t ↔ IsZip s outer (k.plug t) := by
  rw [IsZip.plug_iff, IsZip.plug_iff, Ctx.plug_comp]

/-! ## Reading the memory at the focus -/

theorem IsZip.mem_root {s : State} {k : Ctx} {l r : Tree} {a : Nat} {c : Color}
    (h : IsZip s k (Tree.node l a c r)) :
    s.mem a = { rb_parent := k.parent, rb_color := c, rb_right := r.ptr, rb_left := l.ptr } :=
  h.2.1.1

theorem IsZip.nodup {s : State} {k : Ctx} {t : Tree} (h : IsZip s k t) :
    (k.before ++ (t.inorder ++ k.after)).Nodup := by
  have := h.2.2
  rwa [Ctx.inorder_plug] at this

@[simp] theorem Tree.ptr_nil : Tree.nil.ptr = none := rfl
@[simp] theorem Tree.ptr_node (l : Tree) (a : Nat) (c : Color) (r : Tree) :
    (Tree.node l a c r).ptr = some a := rfl
@[simp] theorem Ctx.parent_top : Ctx.top.parent = none := rfl
@[simp] theorem Ctx.parent_left (up : Ctx) (a : Nat) (c : Color) (r : Tree) :
    (Ctx.left up a c r).parent = some a := rfl
@[simp] theorem Ctx.parent_right (up : Ctx) (a : Nat) (c : Color) (l : Tree) :
    (Ctx.right l a c up).parent = some a := rfl

theorem mem_cons_sym {a b : Nat} {l : List Nat} : a ∈ b :: l ↔ (a = b ∧ b = a) ∨ a ∈ l := by
  simp only [List.mem_cons]
  constructor
  · rintro (h | h)
    · exact Or.inl ⟨h, h.symm⟩
    · exact Or.inr h
  · rintro (h | h)
    · exact Or.inl h.1
    · exact Or.inr h

theorem not_and_sym {a b : Nat} : ¬ (a = b ∧ b = a) ↔ (¬ a = b ∧ ¬ b = a) := by
  constructor
  · intro h
    exact ⟨fun e => h ⟨e, e.symm⟩, fun e => h ⟨e.symm, e⟩⟩
  · rintro ⟨h, -⟩ ⟨e, -⟩
    exact h e

theorem Tree.ptr_ne_of_not_mem {t : Tree} {a : Nat} (h : a ∉ t.inorder) : 
    (t.ptr = some a) = False := eq_false (fun e => h (Tree.ptr_mem e))

theorem Tree.ne_ptr_of_not_mem {t : Tree} {a : Nat} (h : a ∉ t.inorder) : 
    (some a = t.ptr) = False := eq_false (fun e => h (Tree.ptr_mem e.symm))

theorem Agree.refl (s : State) : Agree s s [] := fun _ _ => rfl

theorem Agree.store {s s' : State} {T : List Nat} (h : Agree s s' T) (a : Nat) (v : rb_node) :
    Agree s (s'.store a v) (a :: T) := by
  intro x hx
  simp only [List.mem_cons, not_or] at hx
  simp [store_mem, hx.1, h x hx.2]

theorem Agree.set_left {s s' : State} {T : List Nat} (h : Agree s s' T) (a : Nat) (p : Ptr) :
    Agree s (set_left s' a p) (a :: T) := h.store _ _

theorem Agree.set_right {s s' : State} {T : List Nat} (h : Agree s s' T) (a : Nat) (p : Ptr) :
    Agree s (set_right s' a p) (a :: T) := h.store _ _

theorem Agree.rb_set_parent {s s' : State} {T : List Nat} (h : Agree s s' T) (a : Nat)
    (p : Ptr) : Agree s (rb_set_parent s' a p) (a :: T) := h.store _ _

theorem Agree.rb_set_color {s s' : State} {T : List Nat} (h : Agree s s' T) (a : Nat)
    (c : Color) : Agree s (rb_set_color s' a c) (a :: T) := h.store _ _

theorem Agree.set_parent_color {s s' : State} {T : List Nat} (h : Agree s s' T) (a : Nat)
    (p : Ptr) (c : Color) : Agree s (set_parent_color s' a p c) (a :: T) := h.store _ _

theorem Agree.set_root {s s' : State} {T : List Nat} (h : Agree s s' T) (p : Ptr) :
    Agree s (set_root s' p) T := h

theorem Agree.ite {s s1 s2 : State} {T : List Nat} {c : Prop} [Decidable c]
    (h1 : Agree s s1 T) (h2 : Agree s s2 T) : Agree s (if c then s1 else s2) T := by
  split
  · exact h1
  · exact h2

theorem tree_own_frame_of {s s' : State} {t : Tree} {par : Ptr} {T : List Nat}
    (h : Tree.Own s par t) (hT : Agree s s' T)
    (hd : ∀ x ∈ T, x ∉ t.inorder) : Tree.Own s' par t :=
  tree_own_frame h (fun x hx => hT x (fun hxT => hd x hxT hx))

theorem ctx_own_frame_of {s s' : State} {k : Ctx} {p : Ptr} {T : List Nat}
    (h : Ctx.Own s k p) (hT : Agree s s' T) (hr : s'.root = s.root)
    (hd : ∀ x ∈ T, x ∉ k.before ∧ x ∉ k.after) : Ctx.Own s' k p :=
  ctx_own_frame h (fun x hx => hT x (fun hxT => by
    have := hd x hxT
    simp only [List.mem_append] at hx
    tauto)) hr

set_option maxHeartbeats 1000000 in
theorem IsZip.set_color {s : State} {k : Ctx} {l r : Tree} {a : Nat} {c : Color}
    (h : IsZip s k (Tree.node l a c r)) (c' : Color) :
    IsZip (rb_set_color s a c') k (Tree.node l a c' r) := by
  have hnd := h.nodup
  have hnd' := h.2.2
  obtain ⟨h1, ⟨ha, h2, h3⟩, -⟩ := h
  refine ⟨?_, ?_, ?_⟩
  rotate_left 2
  · simpa [Ctx.inorder_plug, Tree.inorder] using hnd'
  all_goals
    cases k <;>
    simp only [Tree.inorder, Ctx.before, Ctx.after, List.nodup_append, List.nodup_cons,
      List.mem_append, mem_cons_sym, not_and_sym, List.disjoint_append_left,
      List.disjoint_append_right,
      List.disjoint_cons_left, List.disjoint_cons_right, List.append_assoc,
      List.cons_append, List.nil_append, List.append_nil, List.not_mem_nil,
      List.disjoint_nil_left, List.disjoint_nil_right, List.nodup_nil,
      not_or, not_false_eq_true, true_and, and_true, Ctx.parent_top, Ctx.parent_left,
      Ctx.parent_right, Tree.ptr_nil, Tree.ptr_node, Ctx.Own,
      Tree.Own, node_ext_iff] at hnd h1 ha ⊢
  all_goals (try casesm* _ ∧ _)
  all_goals (try simp only [set_left_left, set_right_left, rb_set_parent_left, rb_set_color_left,
    set_left_right, set_right_right, rb_set_parent_right, rb_set_color_right,
    Tree.ne_ptr_of_not_mem, Tree.ptr_ne_of_not_mem, if_true, if_false, not_false_eq_true, *])
  all_goals (repeat' apply And.intro)
  all_goals first
    | (simp [*, Tree.ptr_ne_of_not_mem, Tree.ne_ptr_of_not_mem]; done)
    | (refine tree_own_frame_of (by assumption) (by
          with_reducible repeat (first | exact Agree.refl _ | apply Agree.set_left | apply Agree.set_right | apply Agree.rb_set_parent | apply Agree.rb_set_color | apply Agree.set_parent_color | apply Agree.set_root | apply Agree.ite)) ?_
       simp [*]; done)
    | (refine ctx_own_frame_of (by assumption) (by
          with_reducible repeat (first | exact Agree.refl _ | apply Agree.set_left | apply Agree.set_right | apply Agree.rb_set_parent | apply Agree.rb_set_color | apply Agree.set_parent_color | apply Agree.set_root | apply Agree.ite)) ?_ ?_
       <;> simp [*] <;> done)

set_option maxHeartbeats 1000000 in
theorem IsZip.rotate_left {s : State} {k : Ctx} {l rl rr : Tree} {a b : Nat} {c cb : Color}
    (h : IsZip s k (Tree.node l a c (Tree.node rl b cb rr))) :
    ∃ s', __rb_rotate_left a s = Res.ok s' ∧
      IsZip s' k (Tree.node (Tree.node l a c rl) b cb rr) := by
  have hnd := h.nodup
  have hnd' := h.2.2
  obtain ⟨h1, ⟨ha, h2, hb, h3, h4⟩, -⟩ := h
  simp only [__rb_rotate_left, ha, Tree.ptr_node, hb, rb_parent]
  refine ⟨_, rfl, ?_, ?_, ?_⟩
  rotate_left 2
  · simpa [Ctx.inorder_plug, Tree.inorder] using hnd'
  all_goals
    cases k <;> cases rl <;>
    simp only [Tree.inorder, Ctx.before, Ctx.after, List.nodup_append, List.nodup_cons,
      List.mem_append, mem_cons_sym, not_and_sym, List.disjoint_append_left,
      List.disjoint_append_right,
      List.disjoint_cons_left, List.disjoint_cons_right, List.append_assoc,
      List.cons_append, List.nil_append, List.append_nil, List.not_mem_nil,
      List.disjoint_nil_left, List.disjoint_nil_right, List.nodup_nil,
      not_or, not_false_eq_true, true_and, and_true, Ctx.parent_top, Ctx.parent_left,
      Ctx.parent_right, Tree.ptr_nil, Tree.ptr_node, Ctx.Own,
      Tree.Own, node_ext_iff] at hnd h1 h3 ha hb ⊢
  all_goals (try casesm* _ ∧ _)
  all_goals (try simp only [set_left_left, set_right_left, rb_set_parent_left, rb_set_color_left,
    set_left_right, set_right_right, rb_set_parent_right, rb_set_color_right,
    Tree.ne_ptr_of_not_mem, Tree.ptr_ne_of_not_mem, if_true, if_false, not_false_eq_true, *])
  all_goals (repeat' apply And.intro)
  all_goals first
    | (simp [*, Tree.ptr_ne_of_not_mem, Tree.ne_ptr_of_not_mem]; done)
    | (refine tree_own_frame_of (by assumption) (by
          with_reducible repeat (first | exact Agree.refl _ | apply Agree.set_left | apply Agree.set_right | apply Agree.rb_set_parent | apply Agree.rb_set_color | apply Agree.set_parent_color | apply Agree.set_root | apply Agree.ite)) ?_
       simp [*]; done)
    | (refine ctx_own_frame_of (by assumption) (by
          with_reducible repeat (first | exact Agree.refl _ | apply Agree.set_left | apply Agree.set_right | apply Agree.rb_set_parent | apply Agree.rb_set_color | apply Agree.set_parent_color | apply Agree.set_root | apply Agree.ite)) ?_ ?_
       <;> simp [*] <;> done)

set_option maxHeartbeats 1000000 in
theorem IsZip.rotate_right {s : State} {k : Ctx} {ll lr r : Tree} {a b : Nat} {c cb : Color}
    (h : IsZip s k (Tree.node (Tree.node ll b cb lr) a c r)) :
    ∃ s', __rb_rotate_right a s = Res.ok s' ∧
      IsZip s' k (Tree.node ll b cb (Tree.node lr a c r)) := by
  have hnd := h.nodup
  have hnd' := h.2.2
  obtain ⟨h1, ⟨ha, ⟨hb, h2, h3⟩, h4⟩, -⟩ := h
  simp only [__rb_rotate_right, ha, Tree.ptr_node, hb, rb_parent]
  refine ⟨_, rfl, ?_, ?_, ?_⟩
  rotate_left 2
  · simpa [Ctx.inorder_plug, Tree.inorder] using hnd'
  all_goals
    cases k <;> cases lr <;>
    simp only [Tree.inorder, Ctx.before, Ctx.after, List.nodup_append, List.nodup_cons,
      List.mem_append, mem_cons_sym, not_and_sym, List.disjoint_append_left,
      List.disjoint_append_right,
      List.disjoint_cons_left, List.disjoint_cons_right, List.append_assoc,
      List.cons_append, List.nil_append, List.append_nil, List.not_mem_nil,
      List.disjoint_nil_left, List.disjoint_nil_right, List.nodup_nil,
      not_or, not_false_eq_true, true_and, and_true, Ctx.parent_top, Ctx.parent_left,
      Ctx.parent_right, Tree.ptr_nil, Tree.ptr_node, Ctx.Own,
      Tree.Own, node_ext_iff] at hnd h1 h3 ha hb ⊢
  all_goals (try casesm* _ ∧ _)
  all_goals (try simp only [set_left_left, set_right_left, rb_set_parent_left, rb_set_color_left,
    set_left_right, set_right_right, rb_set_parent_right, rb_set_color_right,
    Tree.ne_ptr_of_not_mem, Tree.ptr_ne_of_not_mem, if_true, if_false, not_false_eq_true, *])
  all_goals (repeat' apply And.intro)
  all_goals first
    | (simp [*, Tree.ptr_ne_of_not_mem, Tree.ne_ptr_of_not_mem]; done)
    | (refine tree_own_frame_of (by assumption) (by
          with_reducible repeat (first | exact Agree.refl _ | apply Agree.set_left | apply Agree.set_right | apply Agree.rb_set_parent | apply Agree.rb_set_color | apply Agree.set_parent_color | apply Agree.set_root | apply Agree.ite)) ?_
       simp [*]; done)
    | (refine ctx_own_frame_of (by assumption) (by
          with_reducible repeat (first | exact Agree.refl _ | apply Agree.set_left | apply Agree.set_right | apply Agree.rb_set_parent | apply Agree.rb_set_color | apply Agree.set_parent_color | apply Agree.set_root | apply Agree.ite)) ?_ ?_
       <;> simp [*] <;> done)

theorem IsZip.mem_left {s : State} {up : Ctx} {p : Nat} {pc : Color} {sib t : Tree}
    (h : IsZip s (Ctx.left up p pc sib) t) :
    s.mem p = { rb_parent := up.parent, rb_color := pc, rb_right := sib.ptr, rb_left := t.ptr } :=
  (IsZip.left_iff.1 h).mem_root

theorem IsZip.mem_right {s : State} {up : Ctx} {p : Nat} {pc : Color} {sib t : Tree}
    (h : IsZip s (Ctx.right sib p pc up) t) :
    s.mem p = { rb_parent := up.parent, rb_color := pc, rb_right := t.ptr, rb_left := sib.ptr } :=
  (IsZip.right_iff.1 h).mem_root

/-- The loop of `rb_insert_color` stops at a node whose parent is absent or Black. -/
theorem ins_loop_exit {s : State} {k : Ctx} {l r : Tree} {n : Nat} {c : Color}
    (h : IsZip s k (Tree.node l n c r)) (hk : k.color = RB_BLACK) (fuel : Nat) :
    rb_insert_color_loop (fuel + 1) n s = Res.ok s := by
  have hn := h.mem_root
  cases k with
  | top => simp [rb_insert_color_loop, rb_parent, hn]
  | left up p pc sib =>
    have hp := h.mem_left
    simp only [Ctx.color] at hk
    simp [rb_insert_color_loop, rb_parent, hn, rb_is_red, rb_color, hp, hk]
  | right sib p pc up =>
    have hp := h.mem_right
    simp only [Ctx.color] at hk
    simp [rb_insert_color_loop, rb_parent, hn, rb_is_red, rb_color, hp, hk]

theorem is_red_ptr_eq {s : State} {k : Ctx} {u : Tree} (h : IsZip s k u) :
    is_red_ptr s u.ptr = decide (u.color = RB_RED) := by
  cases u with
  | nil => simp [is_red_ptr, Tree.color]
  | node ul ua uc ur => simp [is_red_ptr, rb_is_red, rb_color, h.mem_root, Tree.color]

theorem ins_step_LL {s : State} {up : Ctx} {g p n : Nat} {gc c : Color} {u sib l r : Tree}
    (h : IsZip s (Ctx.left (Ctx.left up g gc u) p RB_RED sib) (Tree.node l n c r))
    (fuel : Nat) :
    (∀ ul ua ur, u = Tree.node ul ua RB_RED ur →
      rb_insert_color_loop (fuel + 1) n s = rb_insert_color_loop fuel g
        (rb_set_color (rb_set_color (rb_set_color s ua RB_BLACK) p RB_BLACK) g RB_RED) ∧
      IsZip (rb_set_color (rb_set_color (rb_set_color s ua RB_BLACK) p RB_BLACK) g RB_RED) up
        (Tree.node (Tree.node (Tree.node l n c r) p RB_BLACK sib) g RB_RED
          (Tree.node ul ua RB_BLACK ur))) ∧
    (u.color = RB_BLACK → ∃ s', rb_insert_color_loop (fuel + 2) n s = Res.ok s' ∧
      IsZip s' up (Tree.node (Tree.node l n c r) p RB_BLACK (Tree.node sib g RB_RED u))) := by
  have hn := h.mem_root
  have hp := h.mem_left
  have h1 := IsZip.left_iff.1 h
  have hg := h1.mem_left
  have h2 := IsZip.left_iff.1 h1
  have hu := IsZip.right_iff.2 h2
  have hur := is_red_ptr_eq hu
  have hnd := h.nodup
  simp only [Tree.inorder, Ctx.before, Ctx.after, List.nodup_append, List.nodup_cons,
      List.mem_append, mem_cons_sym, not_and_sym, List.disjoint_append_left,
      List.disjoint_append_right,
      List.disjoint_cons_left, List.disjoint_cons_right, List.append_assoc,
      List.cons_append, List.nil_append, List.append_nil, List.not_mem_nil,
      List.disjoint_nil_left, List.disjoint_nil_right, List.nodup_nil,
      not_or, not_false_eq_true, true_and, and_true] at hnd
  constructor
  · rintro ul ua ur rfl
    simp [Tree.color] at hur
    constructor
    · rw [rb_insert_color_loop]
      simp [rb_parent, hn, hp, hg, rb_is_red, rb_color, hur]
    · have a1 := hu.set_color RB_BLACK
      have a2 := (IsZip.left_iff.2 (IsZip.right_iff.1 a1)).set_color RB_BLACK
      exact (IsZip.left_iff.1 a2).set_color RB_RED
  · intro huc
    have a2 := h1.set_color RB_BLACK
    have a3 := (IsZip.left_iff.1 a2).set_color RB_RED
    obtain ⟨s', e1, a4⟩ := a3.rotate_right
    refine ⟨s', ?_, a4⟩
    have hex := ins_loop_exit (IsZip.left_iff.2 a4) rfl fuel
    simp [huc] at hur
    rw [rb_insert_color_loop]
    simp [rb_parent, hn, hp, hg, rb_is_red, rb_color, hur, Tree.ptr_ne_of_not_mem, hnd,
      e1, hex]

theorem ins_step_RR {s : State} {up : Ctx} {g p n : Nat} {gc c : Color} {u sib l r : Tree}
    (h : IsZip s (Ctx.right sib p RB_RED (Ctx.right u g gc up)) (Tree.node l n c r))
    (fuel : Nat) :
    (∀ ul ua ur, u = Tree.node ul ua RB_RED ur →
      rb_insert_color_loop (fuel + 1) n s = rb_insert_color_loop fuel g
        (rb_set_color (rb_set_color (rb_set_color s ua RB_BLACK) p RB_BLACK) g RB_RED) ∧
      IsZip (rb_set_color (rb_set_color (rb_set_color s ua RB_BLACK) p RB_BLACK) g RB_RED) up
        (Tree.node (Tree.node ul ua RB_BLACK ur) g RB_RED
          (Tree.node sib p RB_BLACK (Tree.node l n c r)))) ∧
    (u.color = RB_BLACK → ∃ s', rb_insert_color_loop (fuel + 2) n s = Res.ok s' ∧
      IsZip s' up (Tree.node (Tree.node u g RB_RED sib) p RB_BLACK (Tree.node l n c r))) := by
  have hn := h.mem_root
  have hp := h.mem_right
  have h1 := IsZip.right_iff.1 h
  have hg := h1.mem_right
  have h2 := IsZip.right_iff.1 h1
  have hu := IsZip.left_iff.2 h2
  have hur := is_red_ptr_eq hu
  have hnd := h.nodup
  simp only [Tree.inorder, Ctx.before, Ctx.after, List.nodup_append, List.nodup_cons,
      List.mem_append, mem_cons_sym, not_and_sym, List.disjoint_append_left,
      List.disjoint_append_right,
      List.disjoint_cons_left, List.disjoint_cons_right, List.append_assoc,
      List.cons_append, List.nil_append, List.append_nil, List.not_mem_nil,
      List.disjoint_nil_left, List.disjoint_nil_right, List.nodup_nil,
      not_or, not_false_eq_true, true_and, and_true] at hnd
  constructor
  · rintro ul ua ur rfl
    simp [Tree.color] at hur
    simp only [Tree.inorder, Ctx.before, Ctx.after, List.nodup_append, List.nodup_cons,
      List.mem_append, mem_cons_sym, not_and_sym, List.disjoint_append_left,
      List.disjoint_append_right,
      List.disjoint_cons_left, List.disjoint_cons_right, List.append_assoc,
      List.cons_append, List.nil_append, List.append_nil, List.not_mem_nil,
      List.disjoint_nil_left, List.disjoint_nil_right, List.nodup_nil,
      not_or, not_false_eq_true, true_and, and_true] at hnd
    constructor
    · rw [rb_insert_color_loop]
      simp [rb_parent, hn, hp, hg, rb_is_red, rb_color, hur, hnd]
    · have a1 := hu.set_color RB_BLACK
      have a2 := (IsZip.right_iff.2 (IsZip.left_iff.1 a1)).set_color RB_BLACK
      exact (IsZip.right_iff.1 a2).set_color RB_RED
  · intro huc
    have a2 := h1.set_color RB_BLACK
    have a3 := (IsZip.right_iff.1 a2).set_color RB_RED
    obtain ⟨s', e1, a4⟩ := a3.rotate_left
    refine ⟨s', ?_, a4⟩
    have hex := ins_loop_exit (IsZip.right_iff.2 a4) rfl fuel
    simp [huc] at hur
    rw [rb_insert_color_loop]
    simp [rb_parent, hn, hp, hg, rb_is_red, rb_color, hur, Tree.ptr_ne_of_not_mem,
      Tree.ne_ptr_of_not_mem, hnd, e1, hex]

theorem ins_step_LR {s : State} {up : Ctx} {g p n : Nat} {gc c : Color} {u sib l r : Tree}
    (h : IsZip s (Ctx.right sib p RB_RED (Ctx.left up g gc u)) (Tree.node l n c r))
    (fuel : Nat) :
    (∀ ul ua ur, u = Tree.node ul ua RB_RED ur →
      rb_insert_color_loop (fuel + 1) n s = rb_insert_color_loop fuel g
        (rb_set_color (rb_set_color (rb_set_color s ua RB_BLACK) p RB_BLACK) g RB_RED) ∧
      IsZip (rb_set_color (rb_set_color (rb_set_color s ua RB_BLACK) p RB_BLACK) g RB_RED) up
        (Tree.node (Tree.node sib p RB_BLACK (Tree.node l n c r)) g RB_RED
          (Tree.node ul ua RB_BLACK ur))) ∧
    (u.color = RB_BLACK → ∃ s', rb_insert_color_loop (fuel + 2) n s = Res.ok s' ∧
      IsZip s' up (Tree.node (Tree.node sib p RB_RED l) n RB_BLACK (Tree.node r g RB_RED u))) := by
  have hn := h.mem_root
  have hp := h.mem_right
  have h1 := IsZip.right_iff.1 h
  have hg := h1.mem_left
  have h2 := IsZip.left_iff.1 h1
  have hu := IsZip.right_iff.2 h2
  have hur := is_red_ptr_eq hu
  have hnd := h.nodup
  simp only [Tree.inorder, Ctx.before, Ctx.after, List.nodup_append, List.nodup_cons,
      List.mem_append, mem_cons_sym, not_and_sym, List.disjoint_append_left,
      List.disjoint_append_right,
      List.disjoint_cons_left, List.disjoint_cons_right, List.append_assoc,
      List.cons_append, List.nil_append, List.append_nil, List.not_mem_nil,
      List.disjoint_nil_left, List.disjoint_nil_right, List.nodup_nil,
      not_or, not_false_eq_true, true_and, and_true] at hnd
  constructor
  · rintro ul ua ur rfl
    simp [Tree.color] at hur
    simp only [Tree.inorder, Ctx.before, Ctx.after, List.nodup_append, List.nodup_cons,
      List.mem_append, mem_cons_sym, not_and_sym, List.disjoint_append_left,
      List.disjoint_append_right,
      List.disjoint_cons_left, List.disjoint_cons_right, List.append_assoc,
      List.cons_append, List.nil_append, List.append_nil, List.not_mem_nil,
      List.disjoint_nil_left, List.disjoint_nil_right, List.nodup_nil,
      not_or, not_false_eq_true, true_and, and_true] at hnd
    constructor
    · rw [rb_insert_color_loop]
      simp [rb_parent, hn, hp, hg, rb_is_red, rb_color, hur, hnd]
    · have a1 := hu.set_color RB_BLACK
      have a2 := (IsZip.left_iff.2 (IsZip.right_iff.1 a1)).set_color RB_BLACK
      exact (IsZip.left_iff.1 a2).set_color RB_RED
  · intro huc
    obtain ⟨s1, e0, a1⟩ := h1.rotate_left
    have a2 := a1.set_color RB_BLACK
    have a3 := (IsZip.left_iff.1 a2).set_color RB_RED
    obtain ⟨s', e1, a4⟩ := a3.rotate_right
    refine ⟨s', ?_, a4⟩
    have hex := ins_loop_exit (IsZip.left_iff.2 a4) rfl fuel
    simp [huc] at hur
    rw [rb_insert_color_loop]
    simp [rb_parent, hn, hp, hg, rb_is_red, rb_color, hur, Tree.ptr_ne_of_not_mem,
      Tree.ne_ptr_of_not_mem, hnd, e0, e1, hex]

theorem ins_step_RL {s : State} {up : Ctx} {g p n : Nat} {gc c : Color} {u sib l r : Tree}
    (h : IsZip s (Ctx.left (Ctx.right u g gc up) p RB_RED sib) (Tree.node l n c r))
    (fuel : Nat) :
    (∀ ul ua ur, u = Tree.node ul ua RB_RED ur →
      rb_insert_color_loop (fuel + 1) n s = rb_insert_color_loop fuel g
        (rb_set_color (rb_set_color (rb_set_color s ua RB_BLACK) p RB_BLACK) g RB_RED) ∧
      IsZip (rb_set_color (rb_set_color (rb_set_color s ua RB_BLACK) p RB_BLACK) g RB_RED) up
        (Tree.node (Tree.node ul ua RB_BLACK ur) g RB_RED
          (Tree.node (Tree.node l n c r) p RB_BLACK sib))) ∧
    (u.color = RB_BLACK → ∃ s', rb_insert_color_loop (fuel + 2) n s = Res.ok s' ∧
      IsZip s' up (Tree.node (Tree.node u g RB_RED l) n RB_BLACK (Tree.node r p RB_RED sib))) := by
  have hn := h.mem_root
  have hp := h.mem_left
  have h1 := IsZip.left_iff.1 h
  have hg := h1.mem_right
  have h2 := IsZip.right_iff.1 h1
  have hu := IsZip.left_iff.2 h2
  have hur := is_red_ptr_eq hu
  have hnd := h.nodup
  simp only [Tree.inorder, Ctx.before, Ctx.after, List.nodup_append, List.nodup_cons,
      List.mem_append, mem_cons_sym, not_and_sym, List.disjoint_append_left,
      List.disjoint_append_right,
      List.disjoint_cons_left, List.disjoint_cons_right, List.append_assoc,
      List.cons_append, List.nil_append, List.append_nil, List.not_mem_nil,
      List.disjoint_nil_left, List.disjoint_nil_right, List.nodup_nil,
      not_or, not_false_eq_true, true_and, and_true] at hnd
  constructor
  · rintro ul ua ur rfl
    simp [Tree.color] at hur
    simp only [Tree.inorder, Ctx.before, Ctx.after, List.nodup_append, List.nodup_cons,
      List.mem_append, mem_cons_sym, not_and_sym, List.disjoint_append_left,
      List.disjoint_append_right,
      List.disjoint_cons_left, List.disjoint_cons_right, List.append_assoc,
      List.cons_append, List.nil_append, List.append_nil, List.not_mem_nil,
      List.disjoint_nil_left, List.disjoint_nil_right, List.nodup_nil,
      not_or, not_false_eq_true, true_and, and_true] at hnd
    constructor
    · rw [rb_insert_color_loop]
      simp [rb_parent, hn, hp, hg, rb_is_red, rb_color, hur, hnd]
    · have a1 := hu.set_color RB_BLACK
      have a2 := (IsZip.right_iff.2 (IsZip.left_iff.1 a1)).set_color RB_BLACK
      exact (IsZip.right_iff.1 a2).set_color RB_RED
  · intro huc
    obtain ⟨s1, e0, a1⟩ := h1.rotate_right
    have a2 := a1.set_color RB_BLACK
    have a3 := (IsZip.right_iff.1 a2).set_color RB_RED
    obtain ⟨s', e1, a4⟩ := a3.rotate_left
    refine ⟨s', ?_, a4⟩
    have hex := ins_loop_exit (IsZip.right_iff.2 a4) rfl fuel
    simp [huc] at hur
    rw [rb_insert_color_loop]
    simp [rb_parent, hn, hp, hg, rb_is_red, rb_color, hur, Tree.ptr_ne_of_not_mem,
      Tree.ne_ptr_of_not_mem, hnd, e0, e1, hex]

theorem Tree.color_black_of_not_red {u : Tree}
    (h : ∀ ul ua ur, u ≠ Tree.node ul ua RB_RED ur) : u.color = RB_BLACK := by
  cases u with
  | nil => rfl
  | node ul ua uc ur =>
    cases uc with
    | RB_RED => exact absurd rfl (h ul ua ur)
    | RB_BLACK => rfl

/-- The loop of `rb_insert_color` computes `ins_loop` and needs at most one evaluation of
the loop condition per level above the node, plus one. -/
theorem ins_loop_refines : ∀ (d : Nat) (k : Ctx) (s : State) (l r : Tree) (n : Nat) (c : Color)
    (T' : Tree), k.depth ≤ d → IsZip s k (Tree.node l n c r) →
    ins_loop k (Tree.node l n c r) = some T' →
    ∀ fuel, d < fuel → ∃ s', rb_insert_color_loop fuel n s = Res.ok s' ∧ IsTree s' T' := by
  intro d
  induction d using Nat.strong_induction_on with
  | _ d ih =>
  intro k s l r n c T' hd h hT fuel hf
  obtain ⟨f, rfl⟩ : ∃ f, fuel = f + 1 := ⟨fuel - 1, by omega⟩
  match k, h, hT, hd with
  | Ctx.top, h, hT, _ =>
    simp only [ins_loop, Option.some.injEq] at hT
    subst hT
    exact ⟨s, ins_loop_exit h rfl f, h⟩
  | Ctx.left up p RB_BLACK sib, h, hT, _ =>
    simp only [ins_loop, Option.some.injEq] at hT
    subst hT
    exact ⟨s, ins_loop_exit h rfl f, IsZip.plug_iff.1 (IsZip.left_iff.1 h)⟩
  | Ctx.right sib p RB_BLACK up, h, hT, _ =>
    simp only [ins_loop, Option.some.injEq] at hT
    subst hT
    exact ⟨s, ins_loop_exit h rfl f, IsZip.plug_iff.1 (IsZip.right_iff.1 h)⟩
  | Ctx.left Ctx.top p RB_RED sib, h, hT, _ => simp [ins_loop] at hT
  | Ctx.right sib p RB_RED Ctx.top, h, hT, _ => simp [ins_loop] at hT
  | Ctx.left (Ctx.left up g gc u) p RB_RED sib, h, hT, hd =>
    simp only [Ctx.depth] at hd
    obtain ⟨f', rfl⟩ : ∃ f', f = f' + 1 := ⟨f - 1, by omega⟩
    obtain ⟨hred, hblk⟩ := ins_step_LL h f'
    by_cases hu : ∃ ul ua ur, u = Tree.node ul ua RB_RED ur
    · obtain ⟨ul, ua, ur, rfl⟩ := hu
      obtain ⟨_, hz⟩ := hred ul ua ur rfl
      obtain ⟨e, -⟩ := (ins_step_LL h (f' + 1)).1 ul ua ur rfl
      rw [e]
      simp only [ins_loop] at hT
      exact ih (d - 2) (by omega) up _ _ _ _ _ T' (by omega) hz hT (f' + 1) (by omega)
    · have hu' : ∀ ul ua ur, u ≠ Tree.node ul ua RB_RED ur := fun ul ua ur e => hu ⟨ul, ua, ur, e⟩
      obtain ⟨s', e, hz⟩ := hblk (Tree.color_black_of_not_red hu')
      refine ⟨s', e, ?_⟩
      have : T' = up.plug (Tree.node (Tree.node l n c r) p RB_BLACK (Tree.node sib g RB_RED u)) := by
        cases u with
        | nil => simpa [ins_loop] using hT.symm
        | node ul ua uc ur =>
          cases uc with
          | RB_RED => exact absurd rfl (hu' ul ua ur)
          | RB_BLACK => simpa [ins_loop] using hT.symm
      rw [this]
      exact IsZip.plug_iff.1 hz
  | Ctx.left (Ctx.right u g gc up) p RB_RED sib, h, hT, hd =>
    simp only [Ctx.depth] at hd
    obtain ⟨f', rfl⟩ : ∃ f', f = f' + 1 := ⟨f - 1, by omega⟩
    obtain ⟨hred, hblk⟩ := ins_step_RL h f'
    by_cases hu : ∃ ul ua ur, u = Tree.node ul ua RB_RED ur
    · obtain ⟨ul, ua, ur, rfl⟩ := hu
      obtain ⟨_, hz⟩ := hred ul ua ur rfl
      obtain ⟨e, -⟩ := (ins_step_RL h (f' + 1)).1 ul ua ur rfl
      rw [e]
      simp only [ins_loop] at hT
      exact ih (d - 2) (by omega) up _ _ _ _ _ T' (by omega) hz hT (f' + 1) (by omega)
    · have hu' : ∀ ul ua ur, u ≠ Tree.node ul ua RB_RED ur := fun ul ua ur e => hu ⟨ul, ua, ur, e⟩
      obtain ⟨s', e, hz⟩ := hblk (Tree.color_black_of_not_red hu')
      refine ⟨s', e, ?_⟩
      have : T' = up.plug (Tree.node (Tree.node u g RB_RED l) n RB_BLACK (Tree.node r p RB_RED sib)) := by
        cases u with
        | nil => simpa [ins_loop] using hT.symm
        | node ul ua uc ur =>
          cases uc with
          | RB_RED => exact absurd rfl (hu' ul ua ur)
          | RB_BLACK => simpa [ins_loop] using hT.symm
      rw [this]
      exact IsZip.plug_iff.1 hz
  | Ctx.right sib p RB_RED (Ctx.left up g gc u), h, hT, hd =>
    simp only [Ctx.depth] at hd
    obtain ⟨f', rfl⟩ : ∃ f', f = f' + 1 := ⟨f - 1, by omega⟩
    obtain ⟨hred, hblk⟩ := ins_step_LR h f'
    by_cases hu : ∃ ul ua ur, u = Tree.node ul ua RB_RED ur
    · obtain ⟨ul, ua, ur, rfl⟩ := hu
      obtain ⟨_, hz⟩ := hred ul ua ur rfl
      obtain ⟨e, -⟩ := (ins_step_LR h (f' + 1)).1 ul ua ur rfl
      rw [e]
      simp only [ins_loop] at hT
      exact ih (d - 2) (by omega) up _ _ _ _ _ T' (by omega) hz hT (f' + 1) (by omega)
    · have hu' : ∀ ul ua ur, u ≠ Tree.node ul ua RB_RED ur := fun ul ua ur e => hu ⟨ul, ua, ur, e⟩
      obtain ⟨s', e, hz⟩ := hblk (Tree.color_black_of_not_red hu')
      refine ⟨s', e, ?_⟩
      have : T' = up.plug (Tree.node (Tree.node sib p RB_RED l) n RB_BLACK (Tree.node r g RB_RED u)) := by
        cases u with
        | nil => simpa [ins_loop] using hT.symm
        | node ul ua uc ur =>
          cases uc with
          | RB_RED => exact absurd rfl (hu' ul ua ur)
          | RB_BLACK => simpa [ins_loop] using hT.symm
      rw [this]
      exact IsZip.plug_iff.1 hz
  | Ctx.right sib p RB_RED (Ctx.right u g gc up), h, hT, hd =>
    simp only [Ctx.depth] at hd
    obtain ⟨f', rfl⟩ : ∃ f', f = f' + 1 := ⟨f - 1, by omega⟩
    obtain ⟨hred, hblk⟩ := ins_step_RR h f'
    by_cases hu : ∃ ul ua ur, u = Tree.node ul ua RB_RED ur
    · obtain ⟨ul, ua, ur, rfl⟩ := hu
      obtain ⟨_, hz⟩ := hred ul ua ur rfl
      obtain ⟨e, -⟩ := (ins_step_RR h (f' + 1)).1 ul ua ur rfl
      rw [e]
      simp only [ins_loop] at hT
      exact ih (d - 2) (by omega) up _ _ _ _ _ T' (by omega) hz hT (f' + 1) (by omega)
    · have hu' : ∀ ul ua ur, u ≠ Tree.node ul ua RB_RED ur := fun ul ua ur e => hu ⟨ul, ua, ur, e⟩
      obtain ⟨s', e, hz⟩ := hblk (Tree.color_black_of_not_red hu')
      refine ⟨s', e, ?_⟩
      have : T' = up.plug (Tree.node (Tree.node u g RB_RED sib) p RB_BLACK (Tree.node l n c r)) := by
        cases u with
        | nil => simpa [ins_loop] using hT.symm
        | node ul ua uc ur =>
          cases uc with
          | RB_RED => exact absurd rfl (hu' ul ua ur)
          | RB_BLACK => simpa [ins_loop] using hT.symm
      rw [this]
      exact IsZip.plug_iff.1 hz

/-! ## Invariants of plugged contexts -/

theorem Ctx.plug_inorder_congr (k : Ctx) {t t' : Tree} (h : t.inorder = t'.inorder) :
    (k.plug t).inorder = (k.plug t').inorder := by
  rw [Ctx.inorder_plug, Ctx.inorder_plug, h]

theorem Color.eq_black_of_ne_red {c : Color} (h : c ≠ RB_RED) : c = RB_BLACK := by
  cases c
  · exact absurd rfl h
  · rfl

@[simp] theorem Tree.color_nil : Tree.nil.color = RB_BLACK := rfl
@[simp] theorem Tree.color_node (l : Tree) (a : Nat) (c : Color) (r : Tree) :
    (Tree.node l a c r).color = c := rfl
@[simp] theorem Ctx.color_top : Ctx.top.color = RB_BLACK := rfl
@[simp] theorem Ctx.color_left (up : Ctx) (a : Nat) (c : Color) (r : Tree) :
    (Ctx.left up a c r).color = c := rfl
@[simp] theorem Ctx.color_right (up : Ctx) (a : Nat) (c : Color) (l : Tree) :
    (Ctx.right l a c up).color = c := rfl

@[simp] theorem Color.not_red_iff {c : Color} : ¬ c = RB_RED ↔ c = RB_BLACK := by
  cases c <;> simp

@[simp] theorem Color.not_black_iff {c : Color} : ¬ c = RB_BLACK ↔ c = RB_RED := by
  cases c <;> simp

theorem Ctx.no_red_red_plug (k : Ctx) (t : Tree) :
    (k.plug t).no_red_red ↔
      k.no_red_red ∧ t.no_red_red ∧ (k.color = RB_RED → t.color = RB_BLACK) := by
  induction k generalizing t with
  | top => simp [Ctx.plug, Ctx.no_red_red]
  | left up a c r ih =>
    simp only [Ctx.plug, ih, Tree.no_red_red, Ctx.no_red_red, Ctx.color_left, Tree.color_node]
    generalize up.color = uc
    generalize t.color = tc
    cases c <;> cases uc <;> simp <;> tauto
  | right l a c up ih =>
    simp only [Ctx.plug, ih, Tree.no_red_red, Ctx.no_red_red, Ctx.color_right, Tree.color_node]
    generalize up.color = uc
    generalize t.color = tc
    cases c <;> cases uc <;> simp <;> tauto

theorem Ctx.bal_plug (k : Ctx) (t : Tree) : (k.plug t).bal ↔ t.bal ∧ k.bal t.bh := by
  induction k generalizing t with
  | top => simp [Ctx.plug, Ctx.bal]
  | left up a c r ih =>
    simp only [Ctx.plug, ih, Tree.bal, Ctx.bal, Tree.bh]
    constructor
    · rintro ⟨⟨h1, h2, h3⟩, h4⟩
      exact ⟨h1, h2, h3.symm, h4⟩
    · rintro ⟨h1, h2, h3, h4⟩
      exact ⟨⟨h1, h2, h3.symm⟩, h4⟩
  | right l a c up ih =>
    simp only [Ctx.plug, ih, Tree.bal, Ctx.bal, Tree.bh]
    constructor
    · rintro ⟨⟨h1, h2, h3⟩, h4⟩
      exact ⟨h2, h1, h3, by rw [← h3]; exact h4⟩
    · rintro ⟨h1, h2, h3, h4⟩
      exact ⟨⟨h2, h1, h3⟩, by rw [h3]; exact h4⟩

theorem Ctx.color_plug (k : Ctx) (t : Tree) :
    (k.plug t).color = RB_BLACK ↔ k.root_black t.color := by
  induction k generalizing t with
  | top => simp [Ctx.plug, Ctx.root_black]
  | left up a c r ih => simp [Ctx.plug, ih, Ctx.root_black]
  | right l a c up ih => simp [Ctx.plug, ih, Ctx.root_black]

/-! ## Black counts -/

theorem Tree.bh_mem_black_counts (t : Tree) : t.bh ∈ t.black_counts := by
  induction t with
  | nil => simp [Tree.bh, Tree.black_counts]
  | node l a c r ihl _ =>
    simp only [Tree.black_counts, List.mem_map, List.mem_append]
    refine ⟨l.bh, Or.inl ihl, ?_⟩
    simp [Tree.bh]

theorem Tree.bal_iff_counts (t : Tree) : t.bal ↔ ∀ x ∈ t.black_counts, x = t.bh := by
  induction t with
  | nil => simp [Tree.bal, Tree.black_counts, Tree.bh]
  | node l a c r ihl ihr =>
    simp only [Tree.bal, Tree.black_counts, List.mem_map, List.mem_append, Tree.bh, ihl, ihr]
    constructor
    · rintro ⟨h1, h2, h3⟩ x ⟨y, hy | hy, rfl⟩
      · rw [h1 y hy]
      · rw [h2 y hy, h3]
    · intro h
      have hr : r.bh = l.bh := by
        have := h _ ⟨r.bh, Or.inr r.bh_mem_black_counts, rfl⟩
        split at this <;> omega
      refine ⟨?_, ?_, hr.symm⟩
      · intro y hy
        have := h _ ⟨y, Or.inl hy, rfl⟩
        split at this <;> omega
      · intro y hy
        have := h _ ⟨y, Or.inr hy, rfl⟩
        split at this <;> omega

theorem Tree.black_balanced_iff (t : Tree) : t.black_balanced ↔ t.bal := by
  rw [Tree.bal_iff_counts]
  constructor
  · intro h x hx
    exact h x hx _ t.bh_mem_black_counts
  · intro h x hx y hy
    rw [h x hx, h y hy]

theorem Tree.blacken_inorder (t : Tree) : t.blacken.inorder = t.inorder := by
  cases t <;> rfl

theorem Tree.blacken_no_red_red {t : Tree} (h : t.no_red_red) : t.blacken.no_red_red := by
  cases t with
  | nil => trivial
  | node l a c r => exact ⟨by simp, h.2.1, h.2.2⟩

theorem Tree.blacken_bal {t : Tree} (h : t.bal) : t.blacken.bal := by
  cases t with
  | nil => trivial
  | node l a c r => exact h

theorem Tree.blacken_color (t : Tree) : t.blacken.color = RB_BLACK := by
  cases t <;> rfl

theorem Tree.blacken_of_black {t : Tree} (h : t.color = RB_BLACK) : t.blacken = t := by
  cases t with
  | nil => rfl
  | node l a c r =>
    simp only [Tree.color_node] at h
    subst h
    rfl

/-! ## Equations of `ins_loop` for a Black or absent uncle -/

theorem ins_loop_LL_black {up : Ctx} {g p : Nat} {gc : Color} {u s t : Tree}
    (hu : u.color = RB_BLACK) :
    ins_loop (Ctx.left (Ctx.left up g gc u) p RB_RED s) t =
      some (up.plug (Tree.node t p RB_BLACK (Tree.node s g RB_RED u))) := by
  cases u with
  | nil => simp [ins_loop]
  | node ul ua uc ur =>
    simp only [Tree.color_node] at hu
    subst hu
    simp [ins_loop]

theorem ins_loop_RR_black {up : Ctx} {g p : Nat} {gc : Color} {u s t : Tree}
    (hu : u.color = RB_BLACK) :
    ins_loop (Ctx.right s p RB_RED (Ctx.right u g gc up)) t =
      some (up.plug (Tree.node (Tree.node u g RB_RED s) p RB_BLACK t)) := by
  cases u with
  | nil => simp [ins_loop]
  | node ul ua uc ur =>
    simp only [Tree.color_node] at hu
    subst hu
    simp [ins_loop]

theorem ins_loop_LR_black {up : Ctx} {g p n : Nat} {gc c : Color} {u s l r : Tree}
    (hu : u.color = RB_BLACK) :
    ins_loop (Ctx.right s p RB_RED (Ctx.left up g gc u)) (Tree.node l n c r) =
      some (up.plug
        (Tree.node (Tree.node s p RB_RED l) n RB_BLACK (Tree.node r g RB_RED u))) := by
  cases u with
  | nil => simp [ins_loop]
  | node ul ua uc ur =>
    simp only [Tree.color_node] at hu
    subst hu
    simp [ins_loop]

theorem ins_loop_RL_black {up : Ctx} {g p n : Nat} {gc c : Color} {u s l r : Tree}
    (hu : u.color = RB_BLACK) :
    ins_loop (Ctx.left (Ctx.right u g gc up) p RB_RED s) (Tree.node l n c r) =
      some (up.plug
        (Tree.node (Tree.node u g RB_RED l) n RB_BLACK (Tree.node r p RB_RED s))) := by
  cases u with
  | nil => simp [ins_loop]
  | node ul ua uc ur =>
    simp only [Tree.color_node] at hu
    subst hu
    simp [ins_loop]

/-- The loop of `rb_insert_color` keeps the in-order sequence. -/
theorem ins_loop_inorder (k : Ctx) (t T' : Tree) (h : ins_loop k t = some T') :
    T'.inorder = (k.plug t).inorder := by
  induction k, t using ins_loop.induct generalizing T' with
  | case1 t => simp [ins_loop] at h; subst h; rfl
  | case2 up p s t => simp [ins_loop] at h; subst h; rfl
  | case3 s p up t => simp [ins_loop] at h; subst h; rfl
  | case4 p s t => simp [ins_loop] at h
  | case5 s p t => simp [ins_loop] at h
  | case6 up g gc p s t ul ua ur ih =>
    simp only [ins_loop] at h
    rw [ih T' h]
    exact Ctx.plug_inorder_congr _ (by simp [Tree.inorder])
  | case7 up g gc u p s t hu =>
    rw [ins_loop_LL_black (Tree.color_black_of_not_red (fun a b c e => hu a b c e))] at h
    simp only [Option.some.injEq] at h
    subst h
    exact Ctx.plug_inorder_congr _ (by simp [Tree.inorder])
  | case8 g gc up p s t ul ua ur ih =>
    simp only [ins_loop] at h
    rw [ih T' h]
    exact Ctx.plug_inorder_congr _ (by simp [Tree.inorder])
  | case9 u g gc up p s tl n c tr hu =>
    rw [ins_loop_RL_black (Tree.color_black_of_not_red (fun a b c e => hu a b c e))] at h
    simp only [Option.some.injEq] at h
    subst h
    exact Ctx.plug_inorder_congr _ (by simp [Tree.inorder])
  | case10 u g gc up p s hu =>
    cases u with
    | nil => simp [ins_loop] at h
    | node ul ua uc ur =>
      cases uc with
      | RB_RED => exact absurd rfl (hu ul ua ur)
      | RB_BLACK => simp [ins_loop] at h
  | case11 s p up g gc t ul ua ur ih =>
    simp only [ins_loop] at h
    rw [ih T' h]
    exact Ctx.plug_inorder_congr _ (by simp [Tree.inorder])
  | case12 s p up g gc u tl n c tr hu =>
    rw [ins_loop_LR_black (Tree.color_black_of_not_red (fun a b c e => hu a b c e))] at h
    simp only [Option.some.injEq] at h
    subst h
    exact Ctx.plug_inorder_congr _ (by simp [Tree.inorder])
  | case13 s p up g gc u hu =>
    cases u with
    | nil => simp [ins_loop] at h
    | node ul ua uc ur =>
      cases uc with
      | RB_RED => exact absurd rfl (hu ul ua ur)
      | RB_BLACK => simp [ins_loop] at h
  | case14 s p g gc up t ul ua ur ih =>
    simp only [ins_loop] at h
    rw [ih T' h]
    exact Ctx.plug_inorder_congr _ (by simp [Tree.inorder])
  | case15 s p u g gc up t hu =>
    rw [ins_loop_RR_black (Tree.color_black_of_not_red (fun a b c e => hu a b c e))] at h
    simp only [Option.some.injEq] at h
    subst h
    exact Ctx.plug_inorder_congr _ (by simp [Tree.inorder])

set_option maxHeartbeats 2000000 in
/-- On a tree that was valid before the Red node was hung in, the loop of `rb_insert_color`
returns, and its result has no red-red pair and is balanced. -/
theorem ins_loop_valid (k : Ctx) (t : Tree) (n : Nat) (hc : t.color = RB_RED)
    (hn : t.no_red_red) (hb : t.bal) (hbn : t.bh = n) (kn : k.no_red_red) (kb : k.bal n)
    (kr : k.root_black RB_BLACK) :
    ∃ T', ins_loop k t = some T' ∧ T'.no_red_red ∧ T'.bal := by
  induction k, t using ins_loop.induct generalizing n with
  | case1 t => exact ⟨t, rfl, hn, hb⟩
  | case2 up p s t =>
    refine ⟨up.plug (Tree.node t p RB_BLACK s), by simp only [ins_loop], ?_, ?_⟩
    · rw [Ctx.no_red_red_plug]
      simp_all [Ctx.no_red_red, Tree.no_red_red, Ctx.bal, Tree.bal, Tree.bh, Ctx.root_black]
    · rw [Ctx.bal_plug]
      simp_all [Ctx.no_red_red, Tree.no_red_red, Ctx.bal, Tree.bal, Tree.bh, Ctx.root_black]
  | case3 s p up t =>
    refine ⟨up.plug (Tree.node s p RB_BLACK t), by simp only [ins_loop], ?_, ?_⟩
    · rw [Ctx.no_red_red_plug]
      simp_all [Ctx.no_red_red, Tree.no_red_red, Ctx.bal, Tree.bal, Tree.bh, Ctx.root_black]
    · rw [Ctx.bal_plug]
      simp_all [Ctx.no_red_red, Tree.no_red_red, Ctx.bal, Tree.bal, Tree.bh, Ctx.root_black]
  | case4 p s t => simp [Ctx.root_black] at kr
  | case5 s p t => simp [Ctx.root_black] at kr
  | case6 up g gc p s t ul ua ur ih =>
    simp only [ins_loop]
    apply ih (n := n + 1) <;> simp_all [Ctx.no_red_red, Tree.no_red_red, Ctx.bal, Tree.bal, Tree.bh, Ctx.root_black] <;> omega
  | case7 up g gc u p s t hu =>
    have hu' := Tree.color_black_of_not_red (fun a b c e => hu a b c e)
    rw [ins_loop_LL_black hu']
    refine ⟨_, rfl, ?_, ?_⟩
    · rw [Ctx.no_red_red_plug]
      simp_all [Ctx.no_red_red, Tree.no_red_red, Ctx.bal, Tree.bal, Tree.bh, Ctx.root_black]
    · rw [Ctx.bal_plug]
      simp_all [Ctx.no_red_red, Tree.no_red_red, Ctx.bal, Tree.bal, Tree.bh, Ctx.root_black]
  | case8 g gc up p s t ul ua ur ih =>
    simp only [ins_loop]
    apply ih (n := n + 1) <;> simp_all [Ctx.no_red_red, Tree.no_red_red, Ctx.bal, Tree.bal, Tree.bh, Ctx.root_black] <;> omega
  | case9 u g gc up p s tl n c tr hu =>
    have hu' := Tree.color_black_of_not_red (fun a b c e => hu a b c e)
    rw [ins_loop_RL_black hu']
    refine ⟨_, rfl, ?_, ?_⟩
    · rw [Ctx.no_red_red_plug]
      simp_all [Ctx.no_red_red, Tree.no_red_red, Ctx.bal, Tree.bal, Tree.bh, Ctx.root_black]
    · rw [Ctx.bal_plug]
      simp_all [Ctx.no_red_red, Tree.no_red_red, Ctx.bal, Tree.bal, Tree.bh, Ctx.root_black]
  | case10 u g gc up p s hu => simp at hc
  | case11 s p up g gc t ul ua ur ih =>
    simp only [ins_loop]
    apply ih (n := n + 1) <;> simp_all [Ctx.no_red_red, Tree.no_red_red, Ctx.bal, Tree.bal, Tree.bh, Ctx.root_black] <;> omega
  | case12 s p up g gc u tl n c tr hu =>
    have hu' := Tree.color_black_of_not_red (fun a b c e => hu a b c e)
    rw [ins_loop_LR_black hu']
    refine ⟨_, rfl, ?_, ?_⟩
    · rw [Ctx.no_red_red_plug]
      simp_all [Ctx.no_red_red, Tree.no_red_red, Ctx.bal, Tree.bal, Tree.bh, Ctx.root_black]
    · rw [Ctx.bal_plug]
      simp_all [Ctx.no_red_red, Tree.no_red_red, Ctx.bal, Tree.bal, Tree.bh, Ctx.root_black]
  | case13 s p up g gc u hu => simp at hc
  | case14 s p g gc up t ul ua ur ih =>
    simp only [ins_loop]
    apply ih (n := n + 1) <;> simp_all [Ctx.no_red_red, Tree.no_red_red, Ctx.bal, Tree.bal, Tree.bh, Ctx.root_black] <;> omega
  | case15 s p u g gc up t hu =>
    have hu' := Tree.color_black_of_not_red (fun a b c e => hu a b c e)
    rw [ins_loop_RR_black hu']
    refine ⟨_, rfl, ?_, ?_⟩
    · rw [Ctx.no_red_red_plug]
      simp_all [Ctx.no_red_red, Tree.no_red_red, Ctx.bal, Tree.bal, Tree.bh, Ctx.root_black]
    · rw [Ctx.bal_plug]
      simp_all [Ctx.no_red_red, Tree.no_red_red, Ctx.bal, Tree.bal, Tree.bh, Ctx.root_black]

@[simp] theorem store_left (s : State) (a : Nat) (v : rb_node) (x : Nat) :
    ((s.store a v).mem x).rb_left = if x = a then v.rb_left else (s.mem x).rb_left := by
  simp only [store_mem]; split <;> rfl

@[simp] theorem store_right (s : State) (a : Nat) (v : rb_node) (x : Nat) :
    ((s.store a v).mem x).rb_right = if x = a then v.rb_right else (s.mem x).rb_right := by
  simp only [store_mem]; split <;> rfl

@[simp] theorem store_parent (s : State) (a : Nat) (v : rb_node) (x : Nat) :
    ((s.store a v).mem x).rb_parent = if x = a then v.rb_parent else (s.mem x).rb_parent := by
  simp only [store_mem]; split <;> rfl

@[simp] theorem store_color (s : State) (a : Nat) (v : rb_node) (x : Nat) :
    ((s.store a v).mem x).rb_color = if x = a then v.rb_color else (s.mem x).rb_color := by
  simp only [store_mem]; split <;> rfl

set_option maxHeartbeats 1000000 in
/-- Linking a fresh node into an empty slot gives the tree with a Red leaf in that slot. -/
theorem IsZip.link {s : State} {k : Ctx} {node : Nat} (h : IsZip s k Tree.nil)
    (hn : node ∉ (k.plug Tree.nil).inorder) :
    IsZip (rb_link_node node k.parent k.side s) k (Tree.node Tree.nil node RB_RED Tree.nil) := by
  have hnd := h.nodup
  obtain ⟨h1, -, -⟩ := h
  rw [Ctx.inorder_plug] at hn
  have hnd' : (k.before ++ ((Tree.node Tree.nil node RB_RED Tree.nil).inorder ++ k.after)).Nodup := by
    simp only [Tree.inorder, List.nil_append, List.mem_append, not_or] at hn hnd ⊢
    rw [List.nodup_append] at hnd ⊢
    refine ⟨hnd.1, List.nodup_cons.2 ⟨hn.2, hnd.2.1⟩, ?_⟩
    intro x hx hx'
    rcases List.mem_cons.1 hx' with rfl | hx'
    · exact hn.1 hx
    · exact hnd.2.2 hx hx'
  refine ⟨?_, ?_, ?_⟩
  rotate_left 2
  · rw [Ctx.inorder_plug]
    exact hnd'
  all_goals
    clear hn hnd
    cases k <;>
    simp only [Tree.inorder, Ctx.before, Ctx.after, List.nodup_append, List.nodup_cons,
      List.mem_append, mem_cons_sym, not_and_sym, List.disjoint_append_left,
      List.disjoint_append_right,
      List.disjoint_cons_left, List.disjoint_cons_right, List.append_assoc,
      List.cons_append, List.nil_append, List.append_nil, List.not_mem_nil,
      List.disjoint_nil_left, List.disjoint_nil_right, List.nodup_nil,
      not_or, not_false_eq_true, true_and, and_true, Ctx.parent_top, Ctx.parent_left,
      Ctx.parent_right, Tree.ptr_nil, Tree.ptr_node, Ctx.Own,
      Tree.Own, node_ext_iff] at hnd' h1 ⊢ <;>
    simp only [rb_link_node, Ctx.parent_top, Ctx.parent_left, Ctx.parent_right, Ctx.side]
  all_goals (try casesm* _ ∧ _)
  all_goals (try simp only [set_left_left, set_right_left, rb_set_parent_left, rb_set_color_left,
    set_left_right, set_right_right, rb_set_parent_right, rb_set_color_right,
    Tree.ne_ptr_of_not_mem, Tree.ptr_ne_of_not_mem, if_true, if_false, not_false_eq_true, *])
  all_goals (repeat' apply And.intro)
  all_goals first
    | (simp [*, Tree.ptr_ne_of_not_mem, Tree.ne_ptr_of_not_mem]; done)
    | (refine tree_own_frame_of (by assumption) (by
          with_reducible repeat (first | exact Agree.refl _ | apply Agree.store | apply Agree.set_left | apply Agree.set_right | apply Agree.rb_set_parent | apply Agree.rb_set_color | apply Agree.set_parent_color | apply Agree.set_root | apply Agree.ite)) ?_
       simp [*]; done)
    | (refine ctx_own_frame_of (by assumption) (by
          with_reducible repeat (first | exact Agree.refl _ | apply Agree.store | apply Agree.set_left | apply Agree.set_right | apply Agree.rb_set_parent | apply Agree.rb_set_color | apply Agree.set_parent_color | apply Agree.set_root | apply Agree.ite)) ?_ ?_
       <;> simp [*] <;> done)

theorem IsTree.blacken {s : State} {T : Tree} {r : Nat} (h : IsTree s T) (hr : s.root = some r) :
    IsTree (rb_set_black s r) T.blacken := by
  cases T with
  | nil =>
    have := h.1
    rw [hr] at this
    simp at this
  | node l a c r' =>
    have e := h.1
    rw [hr] at e
    simp only [Tree.ptr_node, Option.some.injEq] at e
    subst e
    exact (IsZip.top_iff.2 h).set_color RB_BLACK

theorem Tree.rb_valid_parts {k : Ctx} {t : Tree} (hv : (k.plug t).rb_valid) :
    k.no_red_red ∧ k.bal t.bh ∧ k.root_black t.color := by
  obtain ⟨h1, h2, h3⟩ := hv
  rw [Ctx.no_red_red_plug] at h1
  rw [Tree.black_balanced_iff, Ctx.bal_plug] at h2
  rw [Ctx.color_plug] at h3
  exact ⟨h1.1, h2.2, h3⟩

/-- The run of `rb_insert_color` on a freshly linked Red leaf: it returns within
`depth + 1` evaluations of the loop condition, and the memory then holds the tree that
`ins_fix` computes. -/
theorem rb_insert_color_runs (s : State) (k : Ctx) (node : Nat)
    (hs : IsTree s (k.plug Tree.nil)) (hv : (k.plug Tree.nil).rb_valid)
    (hn : node ∉ (k.plug Tree.nil).inorder) (fuel : Nat) (hf : k.depth < fuel) :
    ∃ s' T0, ins_loop k (Tree.node Tree.nil node RB_RED Tree.nil) = some T0 ∧
      T0.no_red_red ∧ T0.bal ∧
      rb_insert_color fuel node (rb_link_node node k.parent k.side s) = Res.ok s' ∧
      IsTree s' T0.blacken := by
  obtain ⟨kn, kb, kr⟩ := Tree.rb_valid_parts hv
  have hz := (IsZip.plug_iff.2 hs).link hn
  obtain ⟨T0, e0, hn0, hb0⟩ := ins_loop_valid k (Tree.node Tree.nil node RB_RED Tree.nil) 0 rfl
    (by simp [Tree.no_red_red]) (by simp [Tree.bal]) (by simp [Tree.bh]) kn
    (by simpa [Tree.bh] using kb) (by simpa using kr)
  obtain ⟨s1, e1, h1⟩ := ins_loop_refines k.depth k _ _ _ _ _ T0 (le_refl _) hz e0 fuel hf
  have hio := ins_loop_inorder _ _ _ e0
  have hroot : ∃ r, s1.root = some r := by
    cases T0 with
    | nil =>
      rw [Ctx.inorder_plug] at hio
      simp [Tree.inorder] at hio
    | node l a c r => exact ⟨a, h1.1⟩
  obtain ⟨r, hr⟩ := hroot
  refine ⟨rb_set_black s1 r, T0, e0, hn0, hb0, ?_, h1.blacken hr⟩
  simp [rb_insert_color, e1, hr, Res.bind]

theorem nil_or_black_eq {s : State} {k : Ctx} {u : Tree} (h : IsZip s k u) :
    nil_or_black s u.ptr = decide (u.color = RB_BLACK) := by
  cases u with
  | nil => simp [nil_or_black]
  | node ul ua uc ur => simp [nil_or_black, rb_is_black, rb_color, h.mem_root]

theorem Ctx.plug_ptr_node (k : Ctx) (l : Tree) (a : Nat) (c : Color) (r : Tree) :
    ∃ x, (k.plug (Tree.node l a c r)).ptr = some x := by
  induction k generalizing l a c r with
  | top => exact ⟨a, rfl⟩
  | left up b cb sib ih => exact ih _ _ _ _
  | right sib b cb up ih => exact ih _ _ _ _

theorem IsTree.root_some {s : State} {k : Ctx} {l r : Tree} {a : Nat} {c : Color}
    (h : IsTree s (k.plug (Tree.node l a c r))) : ∃ x, s.root = some x := by
  obtain ⟨x, hx⟩ := Ctx.plug_ptr_node k l a c r
  exact ⟨x, h.1.trans hx⟩

/-- Both `break` paths of the loop of `__rb_erase_color` end by forcing the root Black. -/
theorem IsZip.finish_root {s : State} {k : Ctx} {l r : Tree} {a : Nat} {c : Color}
    (h : IsZip s k (Tree.node l a c r)) :
    ∃ s', (match s.root with
        | some n => Res.ok (rb_set_black s n)
        | none => Res.ok s) = Res.ok s' ∧
      IsTree s' (k.plug (Tree.node l a c r)).blacken := by
  have ht := IsZip.plug_iff.1 h
  obtain ⟨x, hx⟩ := ht.root_some
  exact ⟨rb_set_black s x, by simp [hx], ht.blacken hx⟩

theorem erase_color_left_spec {s : State} {up : Ctx} {p o : Nat} {pc oc : Color}
    {sl sr t : Tree} (h : IsZip s (Ctx.left up p pc (Tree.node sl o oc sr)) t)
    (again : Ptr → Ptr → State → Res State) :
    (sl.color = RB_BLACK ∧ sr.color = RB_BLACK →
      erase_color_left again p o s = again (some p) up.parent (rb_set_color s o RB_RED) ∧
      IsZip (rb_set_color s o RB_RED) up (Tree.node t p pc (Tree.node sl o RB_RED sr))) ∧
    (¬ (sl.color = RB_BLACK ∧ sr.color = RB_BLACK) →
      ∀ x, erase_rot_left p pc sl o sr t = some x →
        ∃ s', erase_color_left again p o s = Res.ok s' ∧ IsTree s' (up.plug x).blacken) := by
  have hp := h.mem_left
  have h1 := IsZip.left_iff.1 h
  have ho := IsZip.right_iff.2 h1
  have hom := ho.mem_root
  have hsl := nil_or_black_eq (IsZip.left_iff.2 ho)
  have hsr := nil_or_black_eq (IsZip.right_iff.2 ho)
  constructor
  · rintro ⟨c1, c2⟩
    have a1 := ho.set_color RB_RED
    have a2 := IsZip.right_iff.1 a1
    refine ⟨?_, a2⟩
    simp [erase_color_left, hom, hsl, hsr, c1, c2, rb_parent, a2.mem_root]
  · intro hc x hx
    by_cases c2 : sr.color = RB_BLACK
    · have c1 : sl.color = RB_RED := by
        cases hh : sl.color
        · rfl
        · exact absurd ⟨hh, c2⟩ hc
      cases sl with
      | nil => simp at c1
      | node sll ol olc slr =>
        simp only [erase_rot_left, c2, if_true, Option.some.injEq] at hx
        subst hx
        have a1 := (IsZip.left_iff.2 ho).set_color RB_BLACK
        have a2 := (IsZip.left_iff.1 a1).set_color RB_RED
        obtain ⟨s3, e3, a3⟩ := a2.rotate_right
        have a4 := a3.set_color pc
        have a5 := (IsZip.right_iff.1 a4).set_color RB_BLACK
        have a6 := (IsZip.right_iff.2 (IsZip.right_iff.2 a5)).set_color RB_BLACK
        obtain ⟨s7, e7, a7⟩ := (IsZip.right_iff.1 (IsZip.right_iff.1 a6)).rotate_left
        obtain ⟨s8, e8, a8⟩ := a7.finish_root
        simp only [rb_set_black_eq] at e8
        refine ⟨s8, ?_, a8⟩
        simp at c1
        subst c1
        simp at hsl
        simp [erase_color_left, hom, hsl, hsr, c2, e3, a3.mem_right, a3.mem_root,
          rb_color, e7]
        exact e8
    · have c2' : sr.color = RB_RED := by simpa using c2
      cases sr with
      | nil => simp at c2'
      | node srl orr orc srr =>
        simp only [erase_rot_left, c2, if_false, Option.some.injEq] at hx
        subst hx
        have a4 := ho.set_color pc
        have a5 := (IsZip.right_iff.1 a4).set_color RB_BLACK
        have a6 := (IsZip.right_iff.2 (IsZip.right_iff.2 a5)).set_color RB_BLACK
        obtain ⟨s7, e7, a7⟩ := (IsZip.right_iff.1 (IsZip.right_iff.1 a6)).rotate_left
        obtain ⟨s8, e8, a8⟩ := a7.finish_root
        simp only [rb_set_black_eq] at e8
        refine ⟨s8, ?_, a8⟩
        simp at c2'
        subst c2'
        simp at hsr
        simp [erase_color_left, hom, hsl, hsr, hp, rb_color, e7]
        exact e8

theorem erase_color_right_spec {s : State} {up : Ctx} {p o : Nat} {pc oc : Color}
    {sl sr t : Tree} (h : IsZip s (Ctx.right (Tree.node sl o oc sr) p pc up) t)
    (again : Ptr → Ptr → State → Res State) :
    (sl.color = RB_BLACK ∧ sr.color = RB_BLACK →
      erase_color_right again p o s = again (some p) up.parent (rb_set_color s o RB_RED) ∧
      IsZip (rb_set_color s o RB_RED) up (Tree.node (Tree.node sl o RB_RED sr) p pc t)) ∧
    (¬ (sl.color = RB_BLACK ∧ sr.color = RB_BLACK) →
      ∀ x, erase_rot_right p pc sl o sr t = some x →
        ∃ s', erase_color_right again p o s = Res.ok s' ∧ IsTree s' (up.plug x).blacken) := by
  have hp := h.mem_right
  have h1 := IsZip.right_iff.1 h
  have ho := IsZip.left_iff.2 h1
  have hom := ho.mem_root
  have hsl := nil_or_black_eq (IsZip.left_iff.2 ho)
  have hsr := nil_or_black_eq (IsZip.right_iff.2 ho)
  constructor
  · rintro ⟨c1, c2⟩
    have a1 := ho.set_color RB_RED
    have a2 := IsZip.left_iff.1 a1
    refine ⟨?_, a2⟩
    simp [erase_color_right, hom, hsl, hsr, c1, c2, rb_parent, a2.mem_root]
  · intro hc x hx
    by_cases c1 : sl.color = RB_BLACK
    · have c2 : sr.color = RB_RED := by
        cases hh : sr.color
        · rfl
        · exact absurd ⟨c1, hh⟩ hc
      cases sr with
      | nil => simp at c2
      | node srl orr orc srr =>
        simp only [erase_rot_right, c1, if_true, Option.some.injEq] at hx
        subst hx
        have a1 := (IsZip.right_iff.2 ho).set_color RB_BLACK
        have a2 := (IsZip.right_iff.1 a1).set_color RB_RED
        obtain ⟨s3, e3, a3⟩ := a2.rotate_left
        have a4 := a3.set_color pc
        have a5 := (IsZip.left_iff.1 a4).set_color RB_BLACK
        have a6 := (IsZip.left_iff.2 (IsZip.left_iff.2 a5)).set_color RB_BLACK
        obtain ⟨s7, e7, a7⟩ := (IsZip.left_iff.1 (IsZip.left_iff.1 a6)).rotate_right
        obtain ⟨s8, e8, a8⟩ := a7.finish_root
        simp only [rb_set_black_eq] at e8
        refine ⟨s8, ?_, a8⟩
        simp at c2
        subst c2
        simp at hsr
        simp [erase_color_right, hom, hsl, hsr, c1, e3, a3.mem_left, a3.mem_root,
          rb_color, e7]
        exact e8
    · have c1' : sl.color = RB_RED := by simpa using c1
      cases sl with
      | nil => simp at c1'
      | node sll ol olc slr =>
        simp only [erase_rot_right, c1, if_false, Option.some.injEq] at hx
        subst hx
        have a4 := ho.set_color pc
        have a5 := (IsZip.left_iff.1 a4).set_color RB_BLACK
        have a6 := (IsZip.left_iff.2 (IsZip.left_iff.2 a5)).set_color RB_BLACK
        obtain ⟨s7, e7, a7⟩ := (IsZip.left_iff.1 (IsZip.left_iff.1 a6)).rotate_right
        obtain ⟨s8, e8, a8⟩ := a7.finish_root
        simp only [rb_set_black_eq] at e8
        refine ⟨s8, ?_, a8⟩
        simp at c1'
        subst c1'
        simp at hsl
        simp [erase_color_right, hom, hsl, hsr, hp, rb_color, e7]
        exact e8

theorem Ctx.own_root {s : State} {k : Ctx} {h : Ptr} (hk : Ctx.Own s k h) (hne : k ≠ Ctx.top) :
    ∃ r, s.root = some r ∧ (r ∈ k.before ∨ r ∈ k.after) := by
  induction k generalizing h with
  | top => exact absurd rfl hne
  | left up a c r ih =>
    obtain ⟨-, -, h3⟩ := hk
    by_cases hu : up = Ctx.top
    · subst hu
      exact ⟨a, h3, Or.inr (by simp [Ctx.after])⟩
    · obtain ⟨x, hx, hm⟩ := ih h3 hu
      refine ⟨x, hx, ?_⟩
      simp only [Ctx.before, Ctx.after, List.mem_append, List.mem_cons]
      tauto
  | right l a c up ih =>
    obtain ⟨-, -, h3⟩ := hk
    by_cases hu : up = Ctx.top
    · subst hu
      exact ⟨a, h3, Or.inl (by simp [Ctx.before])⟩
    · obtain ⟨x, hx, hm⟩ := ih h3 hu
      refine ⟨x, hx, ?_⟩
      simp only [Ctx.before, Ctx.after, List.mem_append, List.mem_cons]
      tauto

theorem IsZip.ptr_ne_root {s : State} {k : Ctx} {t : Tree} (h : IsZip s k t)
    (hne : k ≠ Ctx.top) : t.ptr ≠ s.root := by
  obtain ⟨r, hr, hm⟩ := Ctx.own_root h.1 hne
  intro e
  rw [hr] at e
  have ht := Tree.ptr_mem e
  have hnd := h.nodup
  rw [List.nodup_append] at hnd
  rcases hm with hm | hm
  · exact hnd.2.2 hm (List.mem_append_left _ ht)
  · exact (List.nodup_append.1 hnd.2.1).2.2 ht hm

theorem rb_erase_color_succ (fuel : Nat) (node parent : Ptr) (s : State) :
    __rb_erase_color (fuel + 1) node parent s =
      if nil_or_black s node ∧ node ≠ s.root then
        match parent with
        | none => Res.null_deref
        | some par =>
          if (s.mem par).rb_left = node then
            match (s.mem par).rb_right with
            | none => Res.null_deref
            | some other0 =>
              (if rb_is_red s other0 then
                (__rb_rotate_left par (rb_set_red (rb_set_black s other0) par)).bind (fun s =>
                  match (s.mem par).rb_right with
                  | none => Res.null_deref
                  | some o => Res.ok (s, o))
              else Res.ok (s, other0)).bind (fun x =>
                erase_color_left (__rb_erase_color fuel) par x.2 x.1)
          else
            match (s.mem par).rb_left with
            | none => Res.null_deref
            | some other0 =>
              (if rb_is_red s other0 then
                (__rb_rotate_right par (rb_set_red (rb_set_black s other0) par)).bind (fun s =>
                  match (s.mem par).rb_left with
                  | none => Res.null_deref
                  | some o => Res.ok (s, o))
              else Res.ok (s, other0)).bind (fun x =>
                erase_color_right (__rb_erase_color fuel) par x.2 x.1)
      else
        match node with
        | some n => Res.ok (rb_set_black s n)
        | none => Res.ok s := rfl

/-- The loop of `__rb_erase_color` stops at a Red node and at the root, and forces that
node Black. -/
theorem erase_loop_exit {s : State} {k : Ctx} {t : Tree} (h : IsZip s k t)
    (hc : t.color = RB_RED ∨ k = Ctx.top) (fuel : Nat) :
    ∃ s', __rb_erase_color (fuel + 1) t.ptr k.parent s = Res.ok s' ∧
      IsTree s' (k.plug t.blacken) := by
  have hnb := nil_or_black_eq h
  have hcond : ¬ (nil_or_black s t.ptr = true ∧ t.ptr ≠ s.root) := by
    rcases hc with hc | hc
    · simp [hnb, hc]
    · subst hc
      have : s.root = t.ptr := h.1
      simp [this]
  cases t with
  | nil =>
    refine ⟨s, ?_, IsZip.plug_iff.1 h⟩
    rw [rb_erase_color_succ, if_neg hcond]
    rfl
  | node l a c r =>
    refine ⟨rb_set_black s a, ?_, IsZip.plug_iff.1 (h.set_color RB_BLACK)⟩
    rw [rb_erase_color_succ, if_neg hcond]
    rfl

theorem erase_step_left {s : State} {up : Ctx} {p o : Nat} {pc oc : Color} {sl sr t : Tree}
    (h : IsZip s (Ctx.left up p pc (Tree.node sl o oc sr)) t) (hc : t.color = RB_BLACK)
    (fuel : Nat) :
    (oc = RB_BLACK → __rb_erase_color (fuel + 1) t.ptr (some p) s =
      erase_color_left (__rb_erase_color fuel) p o s) ∧
    (oc = RB_RED → ∀ sll ol olc slr, sl = Tree.node sll ol olc slr →
      ∃ s3, __rb_erase_color (fuel + 1) t.ptr (some p) s =
          erase_color_left (__rb_erase_color fuel) p ol s3 ∧
        IsZip s3 (Ctx.left (Ctx.left up o RB_BLACK sr) p RB_RED (Tree.node sll ol olc slr)) t) := by
  have hnb := nil_or_black_eq h
  have hroot := h.ptr_ne_root (by simp)
  have hp := h.mem_left
  have h1 := IsZip.left_iff.1 h
  have ho := IsZip.right_iff.2 h1
  have hom := ho.mem_root
  have hcond : nil_or_black s t.ptr = true ∧ t.ptr ≠ s.root := ⟨by simp [hnb, hc], hroot⟩
  constructor
  · intro hoc
    rw [rb_erase_color_succ, if_pos hcond]
    simp [hp, rb_is_red, rb_color, hom, hoc]
  · rintro hoc sll ol olc slr rfl
    subst hoc
    have a1 := ho.set_color RB_BLACK
    have a2 := (IsZip.right_iff.1 a1).set_color RB_RED
    obtain ⟨s3, e3, a3⟩ := a2.rotate_left
    have a4 := IsZip.left_iff.2 (IsZip.left_iff.2 a3)
    refine ⟨s3, ?_, a4⟩
    rw [rb_erase_color_succ, if_pos hcond]
    simp [hp, rb_is_red, rb_color, hom, e3, a4.mem_left]

theorem erase_step_right {s : State} {up : Ctx} {p o : Nat} {pc oc : Color} {sl sr t : Tree}
    (h : IsZip s (Ctx.right (Tree.node sl o oc sr) p pc up) t) (hc : t.color = RB_BLACK)
    (fuel : Nat) :
    (oc = RB_BLACK → __rb_erase_color (fuel + 1) t.ptr (some p) s =
      erase_color_right (__rb_erase_color fuel) p o s) ∧
    (oc = RB_RED → ∀ srl orr orc srr, sr = Tree.node srl orr orc srr →
      ∃ s3, __rb_erase_color (fuel + 1) t.ptr (some p) s =
          erase_color_right (__rb_erase_color fuel) p orr s3 ∧
        IsZip s3 (Ctx.right (Tree.node srl orr orc srr) p RB_RED (Ctx.right sl o RB_BLACK up)) t) := by
  have hnb := nil_or_black_eq h
  have hroot := h.ptr_ne_root (by simp)
  have hp := h.mem_right
  have h1 := IsZip.right_iff.1 h
  have ho := IsZip.left_iff.2 h1
  have hom := ho.mem_root
  have hcond : nil_or_black s t.ptr = true ∧ t.ptr ≠ s.root := ⟨by simp [hnb, hc], hroot⟩
  have hnd := h.nodup
  simp only [Tree.inorder, Ctx.before, Ctx.after, List.nodup_append, List.nodup_cons,
      List.mem_append, mem_cons_sym, not_and_sym, List.disjoint_append_left,
      List.disjoint_append_right,
      List.disjoint_cons_left, List.disjoint_cons_right, List.append_assoc,
      List.cons_append, List.nil_append, List.append_nil, List.not_mem_nil,
      List.disjoint_nil_left, List.disjoint_nil_right, List.nodup_nil,
      not_or, not_false_eq_true, true_and, and_true] at hnd
  have hne : ¬ (some o = t.ptr) := by
    rw [Tree.ne_ptr_of_not_mem]
    · exact not_false
    · tauto
  constructor
  · intro hoc
    rw [rb_erase_color_succ, if_pos hcond]
    simp [hp, rb_is_red, rb_color, hom, hoc, hne]
  · rintro hoc srl orr orc srr rfl
    subst hoc
    have a1 := ho.set_color RB_BLACK
    have a2 := (IsZip.left_iff.1 a1).set_color RB_RED
    obtain ⟨s3, e3, a3⟩ := a2.rotate_right
    have a4 := IsZip.right_iff.2 (IsZip.right_iff.2 a3)
    refine ⟨s3, ?_, a4⟩
    rw [rb_erase_color_succ, if_pos hcond]
    simp [hp, rb_is_red, rb_color, hom, e3, a4.mem_right, hne]

/-- The loop of `__rb_erase_color` computes `erase_loop` and needs at most one evaluation of
the loop condition per level above the node, plus two. -/
theorem erase_loop_refines : ∀ (d : Nat) (k : Ctx) (s : State) (t T' : Tree),
    k.depth ≤ d → IsZip s k t → erase_loop k t = some T' →
    ∀ fuel, d + 1 < fuel →
      ∃ s', __rb_erase_color fuel t.ptr k.parent s = Res.ok s' ∧ IsTree s' T' := by
  intro d
  induction d using Nat.strong_induction_on with
  | _ d ih =>
  intro k s t T' hd h hT fuel hf
  obtain ⟨f, rfl⟩ : ∃ f, fuel = f + 2 := ⟨fuel - 2, by omega⟩
  match k, h, hT, hd with
  | Ctx.top, h, hT, _ =>
    simp only [erase_loop, Option.some.injEq] at hT
    subst hT
    exact erase_loop_exit h (Or.inr rfl) (f + 1)
  | Ctx.left up p pc sib, h, hT, hd =>
    simp only [Ctx.depth] at hd
    by_cases hc : t.color = RB_RED
    · simp only [erase_loop, hc, if_true, Option.some.injEq] at hT
      subst hT
      exact erase_loop_exit h (Or.inl hc) (f + 1)
    · have hc' : t.color = RB_BLACK := by simpa using hc
      simp only [erase_loop, hc', reduceCtorEq, if_false] at hT
      simp only [Ctx.parent_left]
      cases sib with
      | nil => simp at hT
      | node sl o oc sr =>
        cases oc with
        | RB_RED =>
          cases sl with
          | nil => simp at hT
          | node sll ol olc slr =>
            obtain ⟨s3, e3, a3⟩ := (erase_step_left h hc' (f + 1)).2 rfl sll ol olc slr rfl
            obtain ⟨p1, p2⟩ := erase_color_left_spec a3 (__rb_erase_color (f + 1))
            rw [e3]
            by_cases hb : sll.color = RB_BLACK ∧ slr.color = RB_BLACK
            · obtain ⟨e4, a4⟩ := p1 hb
              simp only [hb, and_self, if_true, Option.some.injEq] at hT
              subst hT
              rw [e4]
              exact erase_loop_exit a4 (Or.inl rfl) f
            · simp only [hb, if_false] at hT
              cases hx : erase_rot_left p RB_RED sll ol slr t with
              | none => simp [hx] at hT
              | some x =>
                simp only [hx, Option.map_some', Option.some.injEq] at hT
                subst hT
                exact p2 hb x hx
        | RB_BLACK =>
          have e3 := (erase_step_left h hc' (f + 1)).1 rfl
          obtain ⟨p1, p2⟩ := erase_color_left_spec h (__rb_erase_color (f + 1))
          rw [e3]
          by_cases hb : sl.color = RB_BLACK ∧ sr.color = RB_BLACK
          · obtain ⟨e4, a4⟩ := p1 hb
            simp only [hb, and_self, if_true] at hT
            rw [e4]
            obtain ⟨f', rfl⟩ : ∃ f', f = f' + 1 := ⟨f - 1, by omega⟩
            exact ih (d - 1) (by omega) up _ _ T' (by omega) a4 hT (f' + 2) (by omega)
          · simp only [hb, if_false] at hT
            cases hx : erase_rot_left p pc sl o sr t with
            | none => simp [hx] at hT
            | some x =>
              simp only [hx, Option.map_some', Option.some.injEq] at hT
              subst hT
              exact p2 hb x hx
  | Ctx.right sib p pc up, h, hT, hd =>
    simp only [Ctx.depth] at hd
    by_cases hc : t.color = RB_RED
    · simp only [erase_loop, hc, if_true, Option.some.injEq] at hT
      subst hT
      exact erase_loop_exit h (Or.inl hc) (f + 1)
    · have hc' : t.color = RB_BLACK := by simpa using hc
      simp only [erase_loop, hc', reduceCtorEq, if_false] at hT
      simp only [Ctx.parent_right]
      cases sib with
      | nil => simp at hT
      | node sl o oc sr =>
        cases oc with
        | RB_RED =>
          cases sr with
          | nil => simp at hT
          | node srl orr orc srr =>
            obtain ⟨s3, e3, a3⟩ := (erase_step_right h hc' (f + 1)).2 rfl srl orr orc srr rfl
            obtain ⟨p1, p2⟩ := erase_color_right_spec a3 (__rb_erase_color (f + 1))
            rw [e3]
            by_cases hb : srl.color = RB_BLACK ∧ srr.color = RB_BLACK
            · obtain ⟨e4, a4⟩ := p1 hb
              simp only [hb, and_self, if_true, Option.some.injEq] at hT
              subst hT
              rw [e4]
              exact erase_loop_exit a4 (Or.inl rfl) f
            · simp only [hb, if_false] at hT
              cases hx : erase_rot_right p RB_RED srl orr srr t with
              | none => simp [hx] at hT
              | some x =>
                simp only [hx, Option.map_some', Option.some.injEq] at hT
                subst hT
                exact p2 hb x hx
        | RB_BLACK =>
          have e3 := (erase_step_right h hc' (f + 1)).1 rfl
          obtain ⟨p1, p2⟩ := erase_color_right_spec h (__rb_erase_color (f + 1))
          rw [e3]
          by_cases hb : sl.color = RB_BLACK ∧ sr.color = RB_BLACK
          · obtain ⟨e4, a4⟩ := p1 hb
            simp only [hb, and_self, if_true] at hT
            rw [e4]
            obtain ⟨f', rfl⟩ : ∃ f', f = f' + 1 := ⟨f - 1, by omega⟩
            exact ih (d - 1) (by omega) up _ _ T' (by omega) a4 hT (f' + 2) (by omega)
          · simp only [hb, if_false] at hT
            cases hx : erase_rot_right p pc sl o sr t with
            | none => simp [hx] at hT
            | some x =>
              simp only [hx, Option.map_some', Option.some.injEq] at hT
              subst hT
              exact p2 hb x hx

theorem nodup_remove_mid {α : Type} {xs ys zs ws : List α} {a : α}
    (h : (xs ++ ((ys ++ a :: zs) ++ ws)).Nodup) : (xs ++ ((ys ++ zs) ++ ws)).Nodup := by
  refine h.sublist ?_
  refine List.Sublist.append (List.Sublist.refl _) ?_
  refine List.Sublist.append ?_ (List.Sublist.refl _)
  exact List.Sublist.append (List.Sublist.refl _) (List.sublist_cons_self _ _)

set_option maxHeartbeats 1000000 in
/-- Unlinking a node without a left child puts its right subtree in its place. -/
theorem IsZip.splice_left_nil {s : State} {k : Ctx} {r : Tree} {a : Nat} {c : Color}
    (h : IsZip s k (Tree.node Tree.nil a c r)) :
    IsZip (set_child (match r.ptr with
        | some x => rb_set_parent s x k.parent
        | none => s) k.parent a r.ptr) k r := by
  have hnd := h.nodup
  obtain ⟨h1, ⟨ha, -, h3⟩, -⟩ := h
  refine ⟨?_, ?_, ?_⟩
  rotate_left 2
  · rw [Ctx.inorder_plug]
    simp only [Tree.inorder] at hnd
    have := nodup_remove_mid hnd
    simpa using this
  all_goals
    cases k <;> cases r <;>
    simp only [Tree.inorder, Ctx.before, Ctx.after, List.nodup_append, List.nodup_cons,
      List.mem_append, mem_cons_sym, not_and_sym, List.disjoint_append_left,
      List.disjoint_append_right,
      List.disjoint_cons_left, List.disjoint_cons_right, List.append_assoc,
      List.cons_append, List.nil_append, List.append_nil, List.not_mem_nil,
      List.disjoint_nil_left, List.disjoint_nil_right, List.nodup_nil,
      not_or, not_false_eq_true, true_and, and_true, Ctx.parent_top, Ctx.parent_left,
      Ctx.parent_right, Tree.ptr_nil, Tree.ptr_node, Ctx.Own,
      Tree.Own, node_ext_iff, set_child] at hnd h1 h3 ha ⊢
  all_goals (try casesm* _ ∧ _)
  all_goals (try simp only [set_left_left, set_right_left, rb_set_parent_left, rb_set_color_left,
    set_left_right, set_right_right, rb_set_parent_right, rb_set_color_right,
    Tree.ne_ptr_of_not_mem, Tree.ptr_ne_of_not_mem, if_true, if_false, not_false_eq_true, *])
  all_goals (repeat' apply And.intro)
  all_goals first
    | (simp [*, Tree.ptr_ne_of_not_mem, Tree.ne_ptr_of_not_mem]; done)
    | (refine tree_own_frame_of (by assumption) (by
          with_reducible repeat (first | exact Agree.refl _ | apply Agree.store | apply Agree.set_left | apply Agree.set_right | apply Agree.rb_set_parent | apply Agree.rb_set_color | apply Agree.set_parent_color | apply Agree.set_root | apply Agree.ite)) ?_
       simp [*]; done)
    | (refine ctx_own_frame_of (by assumption) (by
          with_reducible repeat (first | exact Agree.refl _ | apply Agree.store | apply Agree.set_left | apply Agree.set_right | apply Agree.rb_set_parent | apply Agree.rb_set_color | apply Agree.set_parent_color | apply Agree.set_root | apply Agree.ite)) ?_ ?_
       <;> simp [*] <;> done)

set_option maxHeartbeats 1000000 in
/-- Unlinking a node without a right child puts its left subtree in its place. -/
theorem IsZip.splice_right_nil {s : State} {k : Ctx} {l : Tree} {a : Nat} {c : Color}
    (h : IsZip s k (Tree.node l a c Tree.nil)) :
    IsZip (set_child (match l.ptr with
        | some x => rb_set_parent s x k.parent
        | none => s) k.parent a l.ptr) k l := by
  have hnd := h.nodup
  obtain ⟨h1, ⟨ha, h3, -⟩, -⟩ := h
  refine ⟨?_, ?_, ?_⟩
  rotate_left 2
  · rw [Ctx.inorder_plug]
    simp only [Tree.inorder] at hnd
    have := nodup_remove_mid hnd
    simpa using this
  all_goals
    cases k <;> cases l <;>
    simp only [Tree.inorder, Ctx.before, Ctx.after, List.nodup_append, List.nodup_cons,
      List.mem_append, mem_cons_sym, not_and_sym, List.disjoint_append_left,
      List.disjoint_append_right,
      List.disjoint_cons_left, List.disjoint_cons_right, List.append_assoc,
      List.cons_append, List.nil_append, List.append_nil, List.not_mem_nil,
      List.disjoint_nil_left, List.disjoint_nil_right, List.nodup_nil,
      not_or, not_false_eq_true, true_and, and_true, Ctx.parent_top, Ctx.parent_left,
      Ctx.parent_right, Tree.ptr_nil, Tree.ptr_node, Ctx.Own,
      Tree.Own, node_ext_iff, set_child] at hnd h1 h3 ha ⊢
  all_goals (try casesm* _ ∧ _)
  all_goals (try simp only [set_left_left, set_right_left, rb_set_parent_left, rb_set_color_left,
    set_left_right, set_right_right, rb_set_parent_right, rb_set_color_right,
    Tree.ne_ptr_of_not_mem, Tree.ptr_ne_of_not_mem, if_true, if_false, not_false_eq_true, *])
  all_goals (repeat' apply And.intro)
  all_goals first
    | (simp [*, Tree.ptr_ne_of_not_mem, Tree.ne_ptr_of_not_mem]; done)
    | (refine tree_own_frame_of (by assumption) (by
          with_reducible repeat (first | exact Agree.refl _ | apply Agree.store | apply Agree.set_left | apply Agree.set_right | apply Agree.rb_set_parent | apply Agree.rb_set_color | apply Agree.set_parent_color | apply Agree.set_root | apply Agree.ite)) ?_
       simp [*]; done)
    | (refine ctx_own_frame_of (by assumption) (by
          with_reducible repeat (first | exact Agree.refl _ | apply Agree.store | apply Agree.set_left | apply Agree.set_right | apply Agree.rb_set_parent | apply Agree.rb_set_color | apply Agree.set_parent_color | apply Agree.set_root | apply Agree.ite)) ?_ ?_
       <;> simp [*] <;> done)

/-! ## The leftmost node of a subtree -/

theorem Ctx.before_comp (k outer : Ctx) : (k.comp outer).before = outer.before ++ k.before := by
  induction k with
  | top => simp [Ctx.comp, Ctx.before]
  | left up a c r ih => simp [Ctx.comp, Ctx.before, ih]
  | right l a c up ih => simp [Ctx.comp, Ctx.before, ih]

theorem Ctx.after_comp (k outer : Ctx) : (k.comp outer).after = k.after ++ outer.after := by
  induction k with
  | top => simp [Ctx.comp, Ctx.after]
  | left up a c r ih => simp [Ctx.comp, Ctx.after, ih]
  | right l a c up ih => simp [Ctx.comp, Ctx.after, ih]

theorem Ctx.depth_comp (k outer : Ctx) : (k.comp outer).depth = k.depth + outer.depth := by
  induction k with
  | top => simp [Ctx.comp, Ctx.depth]
  | left up a c r ih => simp [Ctx.comp, Ctx.depth, ih]; omega
  | right l a c up ih => simp [Ctx.comp, Ctx.depth, ih]; omega

theorem Ctx.parent_comp_congr (k X X' : Ctx) (h : X.parent = X'.parent) :
    (k.comp X).parent = (k.comp X').parent := by
  cases k with
  | top => exact h
  | left up a c r => rfl
  | right l a c up => rfl

theorem Ctx.own_comp_outer {s : State} {kk X : Ctx} {h : Ptr}
    (hk : Ctx.Own s (kk.comp X) h) : Ctx.Own s X (kk.root_ptr h) := by
  induction kk generalizing h with
  | top => exact hk
  | left up a c r ih => exact ih hk.2.2
  | right l a c up ih => exact ih hk.2.2

/-- The part of a context below an outer context keeps describing the memory when the outer
context is exchanged and the memory agrees on the inner part. -/
theorem Ctx.own_comp_swap {s s' : State} {kk X X' : Ctx} {h : Ptr} {T : List Nat}
    (hk : Ctx.Own s (kk.comp X) h) (hp : X.parent = X'.parent) (hT : Agree s s' T)
    (hd : ∀ x ∈ T, x ∉ kk.before ∧ x ∉ kk.after)
    (ho : Ctx.Own s' X' (kk.root_ptr h)) : Ctx.Own s' (kk.comp X') h := by
  induction kk generalizing h with
  | top => exact ho
  | left up a c r ih =>
    obtain ⟨h1, h2, h3⟩ := hk
    have hd' : ∀ x ∈ T, x ∉ up.before ∧ x ∉ up.after := by
      intro x hx
      have := hd x hx
      simp only [Ctx.before, Ctx.after, List.mem_append, List.mem_cons, not_or] at this
      tauto
    refine ⟨?_, ?_, ih h3 hd' ho⟩
    · rw [hT a ?_, h1, Ctx.parent_comp_congr up _ _ hp]
      intro ha
      have := (hd a ha).2
      simp [Ctx.after] at this
    · refine tree_own_frame_of h2 hT ?_
      intro x hx
      have := (hd x hx).2
      simp only [Ctx.after, List.mem_append, List.mem_cons, not_or] at this
      tauto
  | right l a c up ih =>
    obtain ⟨h1, h2, h3⟩ := hk
    have hd' : ∀ x ∈ T, x ∉ up.before ∧ x ∉ up.after := by
      intro x hx
      have := hd x hx
      simp only [Ctx.before, Ctx.after, List.mem_append, List.mem_cons, not_or] at this
      tauto
    refine ⟨?_, ?_, ih h3 hd' ho⟩
    · rw [hT a ?_, h1, Ctx.parent_comp_congr up _ _ hp]
      intro ha
      have := (hd a ha).1
      simp [Ctx.before] at this
    · refine tree_own_frame_of h2 hT ?_
      intro x hx
      have := (hd x hx).1
      simp only [Ctx.before, List.mem_append, List.mem_cons, not_or] at this
      tauto

theorem Tree.zoom_min_plug (t : Tree) (k : Ctx) :
    (t.zoom_min k).1.plug (t.zoom_min k).2 = k.plug t := by
  induction t, k using Tree.zoom_min.induct with
  | case1 k => rfl
  | case2 a c r k => rfl
  | case3 ll b cb lr a c r k ih =>
    rw [Tree.zoom_min, ih]
    rfl

theorem Tree.zoom_min_comp (t : Tree) (k : Ctx) :
    t.zoom_min k = ((t.zoom_min Ctx.top).1.comp k, (t.zoom_min Ctx.top).2) := by
  induction t generalizing k with
  | nil => rfl
  | node l a c r ihl _ =>
    cases l with
    | nil => rfl
    | node ll b cb lr =>
      rw [Tree.zoom_min, ihl, Tree.zoom_min, ihl (Ctx.left Ctx.top a c r)]
      simp only [Prod.mk.injEq, and_true]
      generalize ((Tree.node ll b cb lr).zoom_min Ctx.top).1 = kk
      induction kk with
      | top => rfl
      | left up x cx rx ih => simp [Ctx.comp, ih]
      | right lx x cx up ih => simp [Ctx.comp, ih]

theorem Tree.zoom_min_shape (l : Tree) (a : Nat) (c : Color) (r : Tree) (k : Ctx) :
    ∃ m mc mr, ((Tree.node l a c r).zoom_min k).2 = Tree.node Tree.nil m mc mr := by
  induction l generalizing a c r k with
  | nil => exact ⟨a, c, r, rfl⟩
  | node ll b cb lr ihl _ =>
    rw [Tree.zoom_min]
    exact ihl b cb lr _

theorem Tree.zoom_min_left (t : Tree) (up : Ctx) (q : Nat) (qc : Color) (qr : Tree) :
    ∃ up' q' qc' qr', (t.zoom_min (Ctx.left up q qc qr)).1 = Ctx.left up' q' qc' qr' := by
  induction t generalizing up q qc qr with
  | nil => exact ⟨up, q, qc, qr, rfl⟩
  | node l a c r ihl _ =>
    cases l with
    | nil => exact ⟨up, q, qc, qr, rfl⟩
    | node ll b cb lr =>
      rw [Tree.zoom_min]
      exact ihl _ _ _ _

/-- The successor search of `rb_erase` finds the leftmost node of the subtree. -/
theorem leftmost_spec {s : State} {par : Ptr} (t : Tree) (a : Nat) (ht : t.ptr = some a)
    (h : Tree.Own s par t) (k : Ctx) (fuel : Nat) (hf : t.size ≤ fuel) :
    ∃ m, (t.zoom_min k).2.ptr = some m ∧ leftmost fuel a s = Res.ok m := by
  induction t generalizing par a k fuel with
  | nil => simp at ht
  | node l b c r ihl _ =>
    simp only [Tree.ptr_node, Option.some.injEq] at ht
    subst ht
    obtain ⟨f, rfl⟩ : ∃ f, fuel = f + 1 := ⟨fuel - 1, by simp [Tree.size] at hf; omega⟩
    cases l with
    | nil =>
      refine ⟨b, rfl, ?_⟩
      simp [leftmost, h.1]
    | node ll x cx lr =>
      obtain ⟨m, e1, e2⟩ := ihl x rfl h.2.1 (Ctx.left k b c r) f
        (by simp [Tree.size] at hf ⊢; omega)
      refine ⟨m, ?_, ?_⟩
      · rw [Tree.zoom_min]
        exact e1
      · simp [leftmost, h.1, e2]

theorem Ctx.nodup_plug_sublist {k : Ctx} {t t' : Tree} (h : (k.plug t).inorder.Nodup)
    (hs : t'.inorder.Sublist t.inorder) : (k.plug t').inorder.Nodup := by
  rw [Ctx.inorder_plug] at h ⊢
  exact h.sublist (List.Sublist.append (List.Sublist.refl _)
    (List.Sublist.append hs (List.Sublist.refl _)))

theorem leftmost_succ (fuel : Nat) (node : Nat) (s : State) :
    leftmost (fuel + 1) node s =
      match (s.mem node).rb_left with
      | some left => leftmost fuel left s
      | none => Res.ok node := rfl

set_option maxHeartbeats 4000000 in
/-- The two-children case of `rb_erase` when the successor is the right child of the node. -/
theorem erase_two_near {s : State} {k : Ctx} {ll lr mr : Tree} {a m l0 : Nat}
    {c mc lc : Color}
    (h : IsZip s k (Tree.node (Tree.node ll l0 lc lr) a c (Tree.node Tree.nil m mc mr)))
    (fuel : Nat) :
    ∃ s', rb_erase (fuel + 1) a s = rb_erase_color_step (fuel + 1) mc mr.ptr (some m) s' ∧
      IsZip s' k (Tree.node (Tree.node ll l0 lc lr) m c mr) := by
  have hnd := h.nodup
  have hnd2 : (k.plug (Tree.node (Tree.node ll l0 lc lr) m c mr)).inorder.Nodup := by
    refine Ctx.nodup_plug_sublist h.2.2 ?_
    simp [Tree.inorder]
  obtain ⟨h1, ⟨ha, ⟨hl, h2, h3⟩, ⟨hm, -, h4⟩⟩, -⟩ := h
  cases k <;>
    simp only [Tree.inorder, Ctx.before, Ctx.after, List.nodup_append, List.nodup_cons,
      List.mem_append, mem_cons_sym, not_and_sym, List.disjoint_append_left,
      List.disjoint_append_right,
      List.disjoint_cons_left, List.disjoint_cons_right, List.append_assoc,
      List.cons_append, List.nil_append, List.append_nil, List.not_mem_nil,
      List.disjoint_nil_left, List.disjoint_nil_right, List.nodup_nil,
      not_or, not_false_eq_true, true_and, and_true, Ctx.parent_top, Ctx.parent_left,
      Ctx.parent_right, Tree.ptr_nil, Tree.ptr_node, Ctx.Own,
      Tree.Own, node_ext_iff, set_child] at hnd h1 ha hl hm
  all_goals (try casesm* _ ∧ _)
  all_goals
    simp only [rb_erase, leftmost_succ, rb_parent, rb_color, set_child, res_bind_ok,
      set_left_left, set_right_left, rb_set_parent_left, rb_set_color_left,
    set_left_right, set_right_right, rb_set_parent_right, rb_set_color_right,
    set_left_parent, set_right_parent, rb_set_parent_parent, rb_set_color_parent,
    set_left_color, set_right_color, rb_set_parent_color, rb_set_color_color,
    set_parent_color_left, set_parent_color_right, set_parent_color_parent,
    set_parent_color_color, set_root_mem, Tree.ptr_nil, Tree.ptr_node,
      Tree.ne_ptr_of_not_mem, Tree.ptr_ne_of_not_mem, if_true, if_false, not_false_eq_true, *]
  all_goals refine ⟨_, rfl, ?_, ?_, hnd2⟩
  all_goals
    simp only [Ctx.Own, Tree.Own, node_ext_iff, Tree.ptr_nil, Tree.ptr_node, Ctx.parent_top,
      Ctx.parent_left, Ctx.parent_right]
  all_goals (repeat' apply And.intro)
  all_goals first
    | (simp [*, Tree.ptr_ne_of_not_mem, Tree.ne_ptr_of_not_mem]; done)
    | (refine tree_own_frame_of (by assumption) (by
          with_reducible repeat (first | exact Agree.refl _ | apply Agree.store | apply Agree.set_left | apply Agree.set_right | apply Agree.rb_set_parent | apply Agree.rb_set_color | apply Agree.set_parent_color | apply Agree.set_root | apply Agree.ite)) ?_
       simp [*]; done)
    | (refine ctx_own_frame_of (by assumption) (by
          with_reducible repeat (first | exact Agree.refl _ | apply Agree.store | apply Agree.set_left | apply Agree.set_right | apply Agree.rb_set_parent | apply Agree.rb_set_color | apply Agree.set_parent_color | apply Agree.set_root | apply Agree.ite)) ?_ ?_
       <;> simp [*] <;> done)

set_option maxHeartbeats 4000000 in
/-- The two-children case of `rb_erase` when the successor is the left child of the right
child of the node. -/
theorem erase_two_mid {s : State} {k : Ctx} {ll lr mr qr : Tree} {a m l0 q : Nat}
    {c mc lc qc : Color}
    (h : IsZip s k (Tree.node (Tree.node ll l0 lc lr) a c
      (Tree.node (Tree.node Tree.nil m mc mr) q qc qr)))
    (fuel : Nat) :
    ∃ s', rb_erase (fuel + 2) a s = rb_erase_color_step (fuel + 2) mc mr.ptr (some q) s' ∧
      IsZip s' k (Tree.node (Tree.node ll l0 lc lr) m c (Tree.node mr q qc qr)) := by
  have hnd := h.nodup
  have hnd2 : (k.plug (Tree.node (Tree.node ll l0 lc lr) m c (Tree.node mr q qc qr))).inorder.Nodup := by
    refine Ctx.nodup_plug_sublist h.2.2 ?_
    simp [Tree.inorder]
  obtain ⟨h1, ⟨ha, ⟨hl, h2, h3⟩, ⟨hq, ⟨hm, -, h4⟩, h5⟩⟩, -⟩ := h
  cases k <;> cases mr <;>
    simp only [Tree.inorder, Ctx.before, Ctx.after, List.nodup_append, List.nodup_cons,
      List.mem_append, mem_cons_sym, not_and_sym, List.disjoint_append_left,
      List.disjoint_append_right,
      List.disjoint_cons_left, List.disjoint_cons_right, List.append_assoc,
      List.cons_append, List.nil_append, List.append_nil, List.not_mem_nil,
      List.disjoint_nil_left, List.disjoint_nil_right, List.nodup_nil,
      not_or, not_false_eq_true, true_and, and_true, Ctx.parent_top, Ctx.parent_left,
      Ctx.parent_right, Tree.ptr_nil, Tree.ptr_node, Ctx.Own,
      Tree.Own, node_ext_iff, set_child] at hnd h1 ha hl hm hq h4
  all_goals (try casesm* _ ∧ _)
  all_goals
    simp only [rb_erase, leftmost_succ, rb_parent, rb_color, set_child, res_bind_ok,
      set_left_left, set_right_left, rb_set_parent_left, rb_set_color_left,
    set_left_right, set_right_right, rb_set_parent_right, rb_set_color_right,
    set_left_parent, set_right_parent, rb_set_parent_parent, rb_set_color_parent,
    set_left_color, set_right_color, rb_set_parent_color, rb_set_color_color,
    set_parent_color_left, set_parent_color_right, set_parent_color_parent,
    set_parent_color_color, set_root_mem, Tree.ptr_nil, Tree.ptr_node, Option.some.injEq,
      Tree.ne_ptr_of_not_mem, Tree.ptr_ne_of_not_mem, if_true, if_false, not_false_eq_true, *]
  all_goals refine ⟨_, rfl, ?_, ?_, hnd2⟩
  all_goals
    simp only [Ctx.Own, Tree.Own, node_ext_iff, Tree.ptr_nil, Tree.ptr_node, Ctx.parent_top,
      Ctx.parent_left, Ctx.parent_right]
  all_goals (repeat' apply And.intro)
  all_goals first
    | (simp [*, Tree.ptr_ne_of_not_mem, Tree.ne_ptr_of_not_mem]; done)
    | (refine tree_own_frame_of (by assumption) (by
          with_reducible repeat (first | exact Agree.refl _ | apply Agree.store | apply Agree.set_left | apply Agree.set_right | apply Agree.rb_set_parent | apply Agree.rb_set_color | apply Agree.set_parent_color | apply Agree.set_root | apply Agree.ite)) ?_
       simp [*]; done)
    | (refine ctx_own_frame_of (by assumption) (by
          with_reducible repeat (first | exact Agree.refl _ | apply Agree.store | apply Agree.set_left | apply Agree.set_right | apply Agree.rb_set_parent | apply Agree.rb_set_color | apply Agree.set_parent_color | apply Agree.set_root | apply Agree.ite)) ?_ ?_
       <;> simp [*] <;> done)

set_option maxHeartbeats 8000000 in
/-- The two-children case of `rb_erase` when the successor lies deeper in the right
subtree: `kk3` is the path between the parent `q` of the successor and the right child `r0`
of the node. -/
theorem erase_two_deep {s : State} {k kk3 : Ctx} {ll lr mr qr rr : Tree}
    {a m l0 q r0 : Nat} {c mc lc qc rc : Color}
    (h : IsZip s ((Ctx.left kk3 q qc qr).comp
        (Ctx.left (Ctx.right (Tree.node ll l0 lc lr) a c k) r0 rc rr))
      (Tree.node Tree.nil m mc mr))
    (hb : kk3.before = []) (fuel : Nat) (hlm : leftmost fuel r0 s = Res.ok m) :
    ∃ s', rb_erase fuel a s = rb_erase_color_step fuel mc mr.ptr (some q) s' ∧
      IsZip s' ((Ctx.left kk3 q qc qr).comp
        (Ctx.left (Ctx.right (Tree.node ll l0 lc lr) m c k) r0 rc rr)) mr := by
  have hnd := h.nodup
  have hnd2 : (((Ctx.left kk3 q qc qr).comp
        (Ctx.left (Ctx.right (Tree.node ll l0 lc lr) m c k) r0 rc rr)).plug mr).inorder.Nodup := by
    have := h.2.2
    rw [Ctx.inorder_plug] at this ⊢
    refine this.sublist ?_
    simp [Tree.inorder, Ctx.comp, Ctx.before, Ctx.after, Ctx.before_comp, Ctx.after_comp, hb]
  obtain ⟨hC, ⟨hm, -, h4⟩, -⟩ := h
  obtain ⟨hq, h5, hC3⟩ := hC
  obtain ⟨hr0, h6, ha, ⟨hl, h2, h3⟩, h1⟩ := Ctx.own_comp_outer hC3
  have hpar := Ctx.parent_comp_congr kk3
    (Ctx.left (Ctx.right (Tree.node ll l0 lc lr) a c k) r0 rc rr)
    (Ctx.left (Ctx.right (Tree.node ll l0 lc lr) m c k) r0 rc rr) rfl
  cases k <;> cases mr <;>
    simp only [Tree.inorder, Ctx.before, Ctx.after, List.nodup_append, List.nodup_cons,
      List.mem_append, mem_cons_sym, not_and_sym, List.disjoint_append_left,
      List.disjoint_append_right,
      List.disjoint_cons_left, List.disjoint_cons_right, List.append_assoc,
      List.cons_append, List.nil_append, List.append_nil, List.not_mem_nil,
      List.disjoint_nil_left, List.disjoint_nil_right, List.nodup_nil,
      not_or, not_false_eq_true, true_and, and_true, Ctx.parent_top, Ctx.parent_left,
      Ctx.parent_right, Tree.ptr_nil, Tree.ptr_node, Ctx.Own,
      Tree.Own, node_ext_iff, set_child, Ctx.comp, Ctx.before_comp, Ctx.after_comp] at hnd h1 ha hl hm hq h4 hr0
  all_goals (try casesm* _ ∧ _)
  all_goals
    simp only [rb_erase, hlm, rb_parent, rb_color, set_child, res_bind_ok,
      set_left_left, set_right_left, rb_set_parent_left, rb_set_color_left,
    set_left_right, set_right_right, rb_set_parent_right, rb_set_color_right,
    set_left_parent, set_right_parent, rb_set_parent_parent, rb_set_color_parent,
    set_left_color, set_right_color, rb_set_parent_color, rb_set_color_color,
    set_parent_color_left, set_parent_color_right, set_parent_color_parent,
    set_parent_color_color, set_root_mem, Tree.ptr_nil, Tree.ptr_node, Option.some.injEq,
      Tree.ne_ptr_of_not_mem, Tree.ptr_ne_of_not_mem, if_true, if_false, not_false_eq_true, *]
  all_goals refine ⟨_, rfl, ⟨?_, ?_, ?_⟩, ?_, hnd2⟩
  all_goals
    try simp only [Ctx.comp, Ctx.Own, Tree.Own, node_ext_iff, Tree.ptr_nil, Tree.ptr_node,
      Ctx.parent_top, Ctx.parent_left, Ctx.parent_right, ← hpar]
  all_goals
    try (refine Ctx.own_comp_swap hC3 rfl (by
          with_reducible repeat (first | exact Agree.refl _ | apply Agree.store | apply Agree.set_left | apply Agree.set_right | apply Agree.rb_set_parent | apply Agree.rb_set_color | apply Agree.set_parent_color | apply Agree.set_root | apply Agree.ite)) ?_ ?_)
  all_goals
    try simp only [Ctx.Own, Tree.Own, node_ext_iff, Tree.ptr_nil, Tree.ptr_node, Ctx.parent_top,
      Ctx.parent_left, Ctx.parent_right]
  all_goals (repeat' apply And.intro)
  all_goals first
    | (simp [*, Tree.ptr_ne_of_not_mem, Tree.ne_ptr_of_not_mem]; done)
    | (refine tree_own_frame_of (by assumption) (by
          with_reducible repeat (first | exact Agree.refl _ | apply Agree.store | apply Agree.set_left | apply Agree.set_right | apply Agree.rb_set_parent | apply Agree.rb_set_color | apply Agree.set_parent_color | apply Agree.set_root | apply Agree.ite)) ?_
       simp [*]; done)
    | (refine ctx_own_frame_of (by assumption) (by
          with_reducible repeat (first | exact Agree.refl _ | apply Agree.store | apply Agree.set_left | apply Agree.set_right | apply Agree.rb_set_parent | apply Agree.rb_set_color | apply Agree.set_parent_color | apply Agree.set_root | apply Agree.ite)) ?_ ?_
       <;> simp [*] <;> done)

theorem Ctx.size_plug (k : Ctx) (t t' : Tree) :
    (k.plug t).size + t'.size = (k.plug t').size + t.size := by
  induction k generalizing t t' with
  | top => simp [Ctx.plug]; omega
  | left up a c r ih =>
    have := ih (Tree.node t a c r) (Tree.node t' a c r)
    simp only [Ctx.plug, Tree.size] at this ⊢
    omega
  | right l a c up ih =>
    have := ih (Tree.node l a c t) (Tree.node l a c t')
    simp only [Ctx.plug, Tree.size] at this ⊢
    omega

theorem Ctx.depth_le_size (k : Ctx) (t : Tree) : k.depth + t.size ≤ (k.plug t).size := by
  induction k generalizing t with
  | top => simp [Ctx.plug, Ctx.depth]
  | left up a c r ih =>
    have := ih (Tree.node t a c r)
    simp only [Ctx.plug, Ctx.depth, Tree.size] at this ⊢
    omega
  | right l a c up ih =>
    have := ih (Tree.node l a c t)
    simp only [Ctx.plug, Ctx.depth, Tree.size] at this ⊢
    omega

theorem Ctx.comp_assoc (k X Y : Ctx) : (k.comp X).comp Y = k.comp (X.comp Y) := by
  induction k with
  | top => rfl
  | left up a c r ih => simp [Ctx.comp, ih]
  | right l a c up ih => simp [Ctx.comp, ih]

theorem Tree.zoom_min_before (t : Tree) (k : Ctx) : (t.zoom_min k).1.before = k.before := by
  induction t, k using Tree.zoom_min.induct with
  | case1 k => rfl
  | case2 a c r k => rfl
  | case3 ll b cb lr a c r k ih =>
    rw [Tree.zoom_min, ih]
    rfl

/-- The label `color:` of `rb_erase` computes `erase_finish`. -/
theorem erase_finish_refines {s : State} {k : Ctx} {t T' : Tree} {col : Color}
    (h : IsZip s k t) (hT : erase_finish col k t = some T') (fuel : Nat)
    (hf : k.depth + 1 < fuel) :
    ∃ s', rb_erase_color_step fuel col t.ptr k.parent s = Res.ok s' ∧ IsTree s' T' := by
  cases col with
  | RB_BLACK =>
    simp only [erase_finish, if_true] at hT
    simp only [rb_erase_color_step, if_true]
    exact erase_loop_refines k.depth k s t T' (le_refl _) h hT fuel hf
  | RB_RED =>
    simp only [erase_finish, reduceCtorEq, if_false, Option.some.injEq] at hT
    subst hT
    simp only [rb_erase_color_step, reduceCtorEq, if_false]
    exact ⟨s, rfl, IsZip.plug_iff.1 h⟩

/-- The function `rb_erase` computes `erase_tree`, given fuel for the size of the tree. -/
theorem rb_erase_refines {s : State} {k : Ctx} {l r T' : Tree} {a : Nat} {c : Color}
    (h : IsZip s k (Tree.node l a c r)) (hT : erase_tree k (Tree.node l a c r) = some T')
    (fuel : Nat) (hf : (k.plug (Tree.node l a c r)).size < fuel) :
    ∃ s', rb_erase fuel a s = Res.ok s' ∧ IsTree s' T' := by
  have ha := h.mem_root
  have hsz := Ctx.size_plug k (Tree.node l a c r)
  cases l with
  | nil =>
    simp only [erase_tree] at hT
    have z := h.splice_left_nil
    have hd := Ctx.depth_le_size k r
    have := hsz r
    simp only [Tree.size] at this
    obtain ⟨s', e, hs'⟩ := erase_finish_refines z hT fuel (by omega)
    refine ⟨s', ?_, hs'⟩
    rw [← e]
    simp [rb_erase, ha, rb_erase_one_child, rb_parent, rb_color] <;> rfl
  | node ll l0 lc lr =>
    cases r with
    | nil =>
      simp only [erase_tree] at hT
      have z := h.splice_right_nil
      have hd := Ctx.depth_le_size k (Tree.node ll l0 lc lr)
      have := hsz (Tree.node ll l0 lc lr)
      simp only [Tree.size] at this hd
      obtain ⟨s', e, hs'⟩ := erase_finish_refines z hT fuel (by omega)
      refine ⟨s', ?_, hs'⟩
      rw [← e]
      simp [rb_erase, ha, rb_erase_one_child, rb_parent, rb_color] <;> rfl <;> rfl
    | node rl r0 rc rr =>
      cases rl with
      | nil =>
        simp only [erase_tree, Tree.zoom_min, Ctx.comp] at hT
        obtain ⟨f, rfl⟩ : ∃ f, fuel = f + 1 := ⟨fuel - 1, by omega⟩
        obtain ⟨s1, e1, z⟩ := erase_two_near h f
        have z' := IsZip.right_iff.2 z
        have hd := Ctx.depth_le_size (Ctx.right (Tree.node ll l0 lc lr) r0 c k) rr
        have := hsz (Tree.node (Tree.node ll l0 lc lr) r0 c rr)
        simp only [Tree.size, Ctx.plug] at this hd
        obtain ⟨s', e, hs'⟩ := erase_finish_refines z' hT (f + 1) (by omega)
        exact ⟨s', by rw [e1]; exact e, hs'⟩
      | node rll x cx rlr =>
        cases rll with
        | nil =>
          simp only [erase_tree, Tree.zoom_min, Ctx.comp] at hT
          have hs2 : 2 ≤ fuel := by
            have := Ctx.depth_le_size k (Tree.node (Tree.node ll l0 lc lr) a c
              (Tree.node (Tree.node Tree.nil x cx rlr) r0 rc rr))
            simp only [Tree.size] at this
            omega
          obtain ⟨f, rfl⟩ : ∃ f, fuel = f + 2 := ⟨fuel - 2, by omega⟩
          obtain ⟨s1, e1, z⟩ := erase_two_mid h f
          have z' := IsZip.left_iff.2 (IsZip.right_iff.2 z)
          have hd := Ctx.depth_le_size
            (Ctx.left (Ctx.right (Tree.node ll l0 lc lr) x c k) r0 rc rr) rlr
          have := hsz (Tree.node (Tree.node ll l0 lc lr) x c (Tree.node rlr r0 rc rr))
          simp only [Tree.size, Ctx.plug] at this hd
          obtain ⟨s', e, hs'⟩ := erase_finish_refines z' hT (f + 2) (by omega)
          exact ⟨s', by rw [e1]; exact e, hs'⟩
        | node y1 y2 y3 y4 =>
          obtain ⟨up', q, qc, qr, hk2⟩ :=
            Tree.zoom_min_left (Tree.node y1 y2 y3 y4) Ctx.top x cx rlr
          obtain ⟨m, mc, mr, ht2⟩ := Tree.zoom_min_shape y1 y2 y3 y4 (Ctx.left Ctx.top x cx rlr)
          have hz1 : (Tree.node (Tree.node y1 y2 y3 y4) x cx rlr).zoom_min Ctx.top =
              (Ctx.left up' q qc qr, Tree.node Tree.nil m mc mr) := by
            rw [Tree.zoom_min]
            exact Prod.ext hk2 ht2
          have hz2 : (Tree.node (Tree.node (Tree.node y1 y2 y3 y4) x cx rlr) r0 rc rr).zoom_min
              Ctx.top = ((Ctx.left up' q qc qr).comp (Ctx.left Ctx.top r0 rc rr),
                Tree.node Tree.nil m mc mr) := by
            rw [Tree.zoom_min, Tree.zoom_min_comp, hz1]
          have hplug : (Ctx.left up' q qc qr).plug (Tree.node Tree.nil m mc mr) =
              Tree.node (Tree.node y1 y2 y3 y4) x cx rlr := by
            have := Tree.zoom_min_plug (Tree.node (Tree.node y1 y2 y3 y4) x cx rlr) Ctx.top
            rw [hz1] at this
            exact this
          have hb : up'.before = [] := by
            have := Tree.zoom_min_before (Tree.node (Tree.node y1 y2 y3 y4) x cx rlr) Ctx.top
            rw [hz1] at this
            exact this
          simp only [erase_tree, hz2, Ctx.comp_assoc] at hT
          simp only [Ctx.comp] at hT
          rw [← hplug] at h hsz hf
          have h' := IsZip.comp_iff.2 (IsZip.left_iff.2 (IsZip.right_iff.2 h))
          obtain ⟨m', hm1, hm2⟩ := leftmost_spec
            (Tree.node ((Ctx.left up' q qc qr).plug (Tree.node Tree.nil m mc mr)) r0 rc rr) r0 rfl
            h.2.1.2.2 Ctx.top fuel (by
              have := Ctx.depth_le_size k (Tree.node (Tree.node ll l0 lc lr) a c
                (Tree.node ((Ctx.left up' q qc qr).plug (Tree.node Tree.nil m mc mr)) r0 rc rr))
              simp only [Tree.size] at this ⊢
              omega)
          rw [hplug, hz2] at hm1
          simp only [Tree.ptr_node, Option.some.injEq] at hm1
          subst hm1
          obtain ⟨s1, e1, z⟩ := erase_two_deep h' hb fuel hm2
          have hd1 := Ctx.depth_le_size k (Tree.node (Tree.node ll l0 lc lr) a c
            (Tree.node ((Ctx.left up' q qc qr).plug (Tree.node Tree.nil m mc mr)) r0 rc rr))
          have hd2 := Ctx.depth_le_size (Ctx.left up' q qc qr) (Tree.node Tree.nil m mc mr)
          obtain ⟨s', e, hs'⟩ := erase_finish_refines z hT fuel (by
            rw [Ctx.depth_comp]
            simp only [Tree.size, Ctx.depth] at hd1 hd2 ⊢
            omega)
          exact ⟨s', by rw [e1]; exact e, hs'⟩

/-! ## The erase fixup keeps the in-order sequence -/

theorem erase_rot_left_inorder {p o : Nat} {pc : Color} {sl sr t x : Tree}
    (h : erase_rot_left p pc sl o sr t = some x) :
    x.inorder = t.inorder ++ p :: (sl.inorder ++ o :: sr.inorder) := by
  unfold erase_rot_left at h
  split at h
  · cases sl with
    | nil => simp at h
    | node sll ol olc slr =>
      simp only [Option.some.injEq] at h
      subst h
      simp [Tree.inorder]
  · cases sr with
    | nil => simp at h
    | node srl orr orc srr =>
      simp only [Option.some.injEq] at h
      subst h
      simp [Tree.inorder]

theorem erase_rot_right_inorder {p o : Nat} {pc : Color} {sl sr t x : Tree}
    (h : erase_rot_right p pc sl o sr t = some x) :
    x.inorder = (sl.inorder ++ o :: sr.inorder) ++ p :: t.inorder := by
  unfold erase_rot_right at h
  split at h
  · cases sr with
    | nil => simp at h
    | node srl orr orc srr =>
      simp only [Option.some.injEq] at h
      subst h
      simp [Tree.inorder]
  · cases sl with
    | nil => simp at h
    | node sll ol olc slr =>
      simp only [Option.some.injEq] at h
      subst h
      simp [Tree.inorder]

/-- The loop of `__rb_erase_color` keeps the in-order sequence. -/
theorem erase_loop_inorder (k : Ctx) (t T' : Tree) (h : erase_loop k t = some T') :
    T'.inorder = (k.plug t).inorder := by
  induction k, t using erase_loop.induct generalizing T' with
  | case1 t =>
    simp only [erase_loop, Option.some.injEq] at h
    subst h
    exact Tree.blacken_inorder t
  | case2 up p pc sib t hc =>
    simp only [erase_loop, hc, if_true, Option.some.injEq] at h
    subst h
    exact Ctx.plug_inorder_congr _ (Tree.blacken_inorder t)
  | case3 up p pc t hc => simp [erase_loop, hc] at h
  | case4 up p pc t hc o sr => simp [erase_loop, hc] at h
  | case5 up p pc t hc o sr sll ol olc slr hb =>
    simp only [erase_loop, hc, if_false, hb, and_self, if_true, Option.some.injEq] at h
    subst h
    exact Ctx.plug_inorder_congr _ (by simp [Tree.inorder])
  | case6 up p pc t hc o sr sll ol olc slr hb =>
    simp only [erase_loop, hc, if_false, hb] at h
    cases hx : erase_rot_left p RB_RED sll ol slr t with
    | none => simp [hx] at h
    | some x =>
      simp only [hx, Option.map_some', Option.some.injEq] at h
      subst h
      rw [Tree.blacken_inorder]
      exact Ctx.plug_inorder_congr _ (by simp [Tree.inorder, erase_rot_left_inorder hx])
  | case7 up p pc t hc sl o sr hb ih =>
    simp only [erase_loop, hc, if_false, hb, and_self, if_true] at h
    rw [ih T' h]
    exact Ctx.plug_inorder_congr _ (by simp [Tree.inorder])
  | case8 up p pc t hc sl o sr hb =>
    simp only [erase_loop, hc, if_false, hb] at h
    cases hx : erase_rot_left p pc sl o sr t with
    | none => simp [hx] at h
    | some x =>
      simp only [hx, Option.map_some', Option.some.injEq] at h
      subst h
      rw [Tree.blacken_inorder]
      exact Ctx.plug_inorder_congr _ (by simp [Tree.inorder, erase_rot_left_inorder hx])
  | case9 sib p pc up t hc =>
    simp only [erase_loop, hc, if_true, Option.some.injEq] at h
    subst h
    exact Ctx.plug_inorder_congr _ (Tree.blacken_inorder t)
  | case10 p pc up t hc => simp [erase_loop, hc] at h
  | case11 p pc up t hc sl o => simp [erase_loop, hc] at h
  | case12 p pc up t hc sl o srl orr orc srr hb =>
    simp only [erase_loop, hc, if_false, hb, and_self, if_true, Option.some.injEq] at h
    subst h
    exact Ctx.plug_inorder_congr _ (by simp [Tree.inorder])
  | case13 p pc up t hc sl o srl orr orc srr hb =>
    simp only [erase_loop, hc, if_false, hb] at h
    cases hx : erase_rot_right p RB_RED srl orr srr t with
    | none => simp [hx] at h
    | some x =>
      simp only [hx, Option.map_some', Option.some.injEq] at h
      subst h
      rw [Tree.blacken_inorder]
      exact Ctx.plug_inorder_congr _ (by simp [Tree.inorder, erase_rot_right_inorder hx])
  | case14 p pc up t hc sl o sr hb ih =>
    simp only [erase_loop, hc, if_false, hb, and_self, if_true] at h
    rw [ih T' h]
    exact Ctx.plug_inorder_congr _ (by simp [Tree.inorder])
  | case15 p pc up t hc sl o sr hb =>
    simp only [erase_loop, hc, if_false, hb] at h
    cases hx : erase_rot_right p pc sl o sr t with
    | none => simp [hx] at h
    | some x =>
      simp only [hx, Option.map_some', Option.some.injEq] at h
      subst h
      rw [Tree.blacken_inorder]
      exact Ctx.plug_inorder_congr _ (by simp [Tree.inorder, erase_rot_right_inorder hx])

theorem erase_finish_inorder {col : Color} {k : Ctx} {t T' : Tree}
    (h : erase_finish col k t = some T') : T'.inorder = (k.plug t).inorder := by
  unfold erase_finish at h
  split at h
  · exact erase_loop_inorder k t T' h
  · simp only [Option.some.injEq] at h
    subst h
    rfl

/-- What `rb_erase` leaves: the in-order sequence without the erased node. -/
theorem erase_tree_inorder {k : Ctx} {l r T' : Tree} {a : Nat} {c : Color}
    (h : erase_tree k (Tree.node l a c r) = some T') :
    T'.inorder = k.before ++ ((l.inorder ++ r.inorder) ++ k.after) := by
  cases l with
  | nil =>
    simp only [erase_tree] at h
    rw [erase_finish_inorder h, Ctx.inorder_plug]
    simp [Tree.inorder]
  | node ll l0 lc lr =>
    cases r with
    | nil =>
      simp only [erase_tree] at h
      rw [erase_finish_inorder h, Ctx.inorder_plug]
      simp [Tree.inorder]
    | node rl r0 rc rr =>
      obtain ⟨m, mc, mr, hm⟩ := Tree.zoom_min_shape rl r0 rc rr Ctx.top
      have hp := Tree.zoom_min_plug (Tree.node rl r0 rc rr) Ctx.top
      have hb := Tree.zoom_min_before (Tree.node rl r0 rc rr) Ctx.top
      generalize hz : (Tree.node rl r0 rc rr).zoom_min Ctx.top = z at hm hp hb h
      obtain ⟨kk, tm⟩ := z
      simp only at hm hp hb
      subst hm
      simp only [erase_tree, hz] at h
      rw [erase_finish_inorder h, Ctx.inorder_plug, Ctx.before_comp, Ctx.after_comp, hb]
      have : (Tree.node rl r0 rc rr).inorder = m :: (mr.inorder ++ kk.after) := by
        have := congrArg Tree.inorder hp
        rw [Ctx.inorder_plug, hb] at this
        simpa [Ctx.plug, Tree.inorder, Ctx.before] using this.symm
      rw [this]
      simp [Ctx.before, Ctx.after]

/-! ## The erase fixup restores the invariants -/

theorem Tree.blacken_bh_red {t : Tree} (h : t.color = RB_RED) : t.blacken.bh = t.bh + 1 := by
  cases t with
  | nil => simp at h
  | node l a c r =>
    simp only [Tree.color_node] at h
    subst h
    simp [Tree.blacken, Tree.bh]

theorem Ctx.bal_congr {k : Ctx} {a b : Nat} (h : k.bal a) (e : a = b) : k.bal b := e ▸ h

/-- The nephew rotations on the left give a balanced subtree of the same black height as
the subtree of `parent` had before the removal, free of red-red pairs below its root. -/
theorem erase_rot_left_valid (p o : Nat) (pc : Color) (sl sr t : Tree) (n : Nat)
    (hc : ¬ (sl.color = RB_BLACK ∧ sr.color = RB_BLACK))
    (ht : t.no_red_red) (htb : t.bal) (htn : t.bh = n) (htc : t.color = RB_BLACK)
    (hsl : sl.no_red_red) (hsr : sr.no_red_red) (bsl : sl.bal) (bsr : sr.bal)
    (nsl : sl.bh = n) (nsr : sr.bh = n) :
    ∃ x, erase_rot_left p pc sl o sr t = some x ∧ x.no_red_red ∧ x.bal ∧ x.color = pc ∧
      x.bh = (if pc = RB_BLACK then n + 2 else n + 1) := by
  unfold erase_rot_left
  by_cases c2 : sr.color = RB_BLACK
  · have c1 : sl.color = RB_RED := by
      cases hh : sl.color
      · rfl
      · exact absurd ⟨hh, c2⟩ hc
    cases sl with
    | nil => simp at c1
    | node sll ol olc slr =>
      simp only [Tree.color_node] at c1
      subst c1
      simp only [c2, if_true]
      refine ⟨_, rfl, ?_, ?_, ?_, ?_⟩
      · simp_all [Tree.no_red_red]
      · simp_all [Tree.bal, Tree.bh]
      · rfl
      · simp_all [Tree.bal, Tree.bh]
  · have c2' : sr.color = RB_RED := by simpa using c2
    cases sr with
    | nil => simp at c2'
    | node srl orr orc srr =>
      simp only [Tree.color_node] at c2'
      subst c2'
      simp only [c2, if_false]
      refine ⟨_, rfl, ?_, ?_, ?_, ?_⟩
      · simp_all [Tree.no_red_red]
      · simp_all [Tree.bal, Tree.bh]
      · rfl
      · simp_all [Tree.bal, Tree.bh]

/-- The nephew rotations on the right, as `erase_rot_left_valid`. -/
theorem erase_rot_right_valid (p o : Nat) (pc : Color) (sl sr t : Tree) (n : Nat)
    (hc : ¬ (sl.color = RB_BLACK ∧ sr.color = RB_BLACK))
    (ht : t.no_red_red) (htb : t.bal) (htn : t.bh = n) (htc : t.color = RB_BLACK)
    (hsl : sl.no_red_red) (hsr : sr.no_red_red) (bsl : sl.bal) (bsr : sr.bal)
    (nsl : sl.bh = n) (nsr : sr.bh = n) :
    ∃ x, erase_rot_right p pc sl o sr t = some x ∧ x.no_red_red ∧ x.bal ∧ x.color = pc ∧
      x.bh = (if pc = RB_BLACK then n + 2 else n + 1) := by
  unfold erase_rot_right
  by_cases c1 : sl.color = RB_BLACK
  · have c2 : sr.color = RB_RED := by
      cases hh : sr.color
      · rfl
      · exact absurd ⟨c1, hh⟩ hc
    cases sr with
    | nil => simp at c2
    | node srl orr orc srr =>
      simp only [Tree.color_node] at c2
      subst c2
      simp only [c1, if_true]
      refine ⟨_, rfl, ?_, ?_, ?_, ?_⟩
      · simp_all [Tree.no_red_red]
      · simp_all [Tree.bal, Tree.bh]
      · rfl
      · simp_all [Tree.bal, Tree.bh]
  · have c1' : sl.color = RB_RED := by simpa using c1
    cases sl with
    | nil => simp at c1'
    | node sll ol olc slr =>
      simp only [Tree.color_node] at c1'
      subst c1'
      simp only [c1, if_false]
      refine ⟨_, rfl, ?_, ?_, ?_, ?_⟩
      · simp_all [Tree.no_red_red]
      · simp_all [Tree.bal, Tree.bh]
      · rfl
      · simp_all [Tree.bal, Tree.bh]

set_option maxHeartbeats 4000000 in
/-- When the subtree of `node` is one Black short against a context that was valid, the loop
of `__rb_erase_color` returns, and its result satisfies the red-black invariants. -/
theorem erase_loop_valid (k : Ctx) (t : Tree) (n : Nat) (hn : t.blacken.no_red_red)
    (hb : t.bal) (hbn : t.bh = n) (kn : k.no_red_red) (kb : k.bal (n + 1))
    (kr : k.root_black RB_BLACK) :
    ∃ T', erase_loop k t = some T' ∧ T'.no_red_red ∧ T'.bal ∧ T'.color = RB_BLACK := by
  induction k, t using erase_loop.induct generalizing n with
  | case1 t =>
    exact ⟨t.blacken, rfl, hn, Tree.blacken_bal hb, Tree.blacken_color t⟩
  | case2 up p pc sib t hc =>
    simp only [erase_loop, hc, if_true]
    refine ⟨_, rfl, ?_, ?_, ?_⟩
    · rw [Ctx.no_red_red_plug]
      exact ⟨kn, hn, fun _ => Tree.blacken_color t⟩
    · rw [Ctx.bal_plug, Tree.blacken_bh_red hc, hbn]
      exact ⟨Tree.blacken_bal hb, kb⟩
    · rw [Ctx.color_plug]
      exact kr
  | case3 up p pc t hc => simp [Ctx.bal, Tree.bh] at kb
  | case4 up p pc t hc o sr =>
    simp_all [Ctx.bal, Tree.bal, Tree.bh, Ctx.no_red_red, Tree.no_red_red] <;> omega
  | case5 up p pc t hc o sr sll ol olc slr hbk =>
    have hc' : t.color = RB_BLACK := by simpa using hc
    rw [Tree.blacken_of_black hc'] at hn
    simp only [erase_loop, hc, if_false, hbk, and_self, if_true]
    refine ⟨_, rfl, ?_, ?_, ?_⟩
    · rw [Ctx.no_red_red_plug]
      simp_all [Ctx.no_red_red, Tree.no_red_red, Ctx.bal, Tree.bal, Tree.bh, Ctx.root_black] <;> omega
    · rw [Ctx.bal_plug]
      simp_all [Ctx.no_red_red, Tree.no_red_red, Ctx.bal, Tree.bal, Tree.bh, Ctx.root_black] <;> omega
    · rw [Ctx.color_plug]
      simp_all [Ctx.no_red_red, Tree.no_red_red, Ctx.bal, Tree.bal, Tree.bh, Ctx.root_black] <;> omega
  | case6 up p pc t hc o sr sll ol olc slr hbk =>
    have hc' : t.color = RB_BLACK := by simpa using hc
    rw [Tree.blacken_of_black hc'] at hn
    simp only [erase_loop, hc, if_false, hbk]
    have hpc : pc = RB_BLACK := by simp_all [Ctx.no_red_red, Tree.no_red_red, Ctx.bal, Tree.bal, Tree.bh, Ctx.root_black]
    have holc : olc = RB_BLACK := by simp_all [Ctx.no_red_red, Tree.no_red_red, Ctx.bal, Tree.bal, Tree.bh, Ctx.root_black]
    subst hpc holc
    obtain ⟨x, hx, x1, x2, x3, x4⟩ := erase_rot_left_valid p ol RB_RED sll slr t n hbk hn hb hbn hc'
      (by simp_all [Ctx.no_red_red, Tree.no_red_red, Ctx.bal, Tree.bal, Tree.bh, Ctx.root_black] <;> omega) (by simp_all [Ctx.no_red_red, Tree.no_red_red, Ctx.bal, Tree.bal, Tree.bh, Ctx.root_black] <;> omega) (by simp_all [Ctx.no_red_red, Tree.no_red_red, Ctx.bal, Tree.bal, Tree.bh, Ctx.root_black] <;> omega)
      (by simp_all [Ctx.no_red_red, Tree.no_red_red, Ctx.bal, Tree.bal, Tree.bh, Ctx.root_black] <;> omega) (by simp_all [Ctx.no_red_red, Tree.no_red_red, Ctx.bal, Tree.bal, Tree.bh, Ctx.root_black] <;> omega) (by simp_all [Ctx.no_red_red, Tree.no_red_red, Ctx.bal, Tree.bal, Tree.bh, Ctx.root_black] <;> omega)
    simp only [hx, Option.map_some', reduceCtorEq, if_false] at x4 ⊢
    refine ⟨_, rfl, Tree.blacken_no_red_red ?_, Tree.blacken_bal ?_, Tree.blacken_color _⟩
    · rw [Ctx.no_red_red_plug]
      simp_all [Ctx.no_red_red, Tree.no_red_red, Ctx.bal, Tree.bal, Tree.bh, Ctx.root_black] <;> omega
    · rw [Ctx.bal_plug]
      simp_all [Ctx.no_red_red, Tree.no_red_red, Ctx.bal, Tree.bal, Tree.bh, Ctx.root_black] <;> omega
  | case7 up p pc t hc sl o sr hbk ih =>
    have hc' : t.color = RB_BLACK := by simpa using hc
    rw [Tree.blacken_of_black hc'] at hn
    simp only [erase_loop, hc, if_false, hbk, and_self, if_true]
    have hkr : up.root_black RB_BLACK := by
      cases up <;> simp_all [Ctx.root_black]
    refine ih (if pc = RB_BLACK then n + 1 else n) ?_ ?_ ?_ ?_ ?_ hkr
    · simp_all [Ctx.no_red_red, Tree.no_red_red, Ctx.bal, Tree.bal, Tree.bh, Ctx.root_black, Tree.blacken]
    · simp_all [Ctx.no_red_red, Tree.no_red_red, Ctx.bal, Tree.bal, Tree.bh, Ctx.root_black] <;> omega
    · simp_all [Ctx.no_red_red, Tree.no_red_red, Ctx.bal, Tree.bal, Tree.bh, Ctx.root_black] <;> omega
    · simp_all [Ctx.no_red_red, Tree.no_red_red, Ctx.bal, Tree.bal, Tree.bh, Ctx.root_black] <;> omega
    · cases pc <;> simp_all [Ctx.no_red_red, Tree.no_red_red, Ctx.bal, Tree.bal, Tree.bh, Ctx.root_black] <;> omega
  | case8 up p pc t hc sl o sr hbk =>
    have hc' : t.color = RB_BLACK := by simpa using hc
    rw [Tree.blacken_of_black hc'] at hn
    simp only [erase_loop, hc, if_false, hbk]
    obtain ⟨x, hx, x1, x2, x3, x4⟩ := erase_rot_left_valid p o pc sl sr t n hbk hn hb hbn hc'
      (by simp_all [Ctx.no_red_red, Tree.no_red_red, Ctx.bal, Tree.bal, Tree.bh, Ctx.root_black] <;> omega) (by simp_all [Ctx.no_red_red, Tree.no_red_red, Ctx.bal, Tree.bal, Tree.bh, Ctx.root_black] <;> omega) (by simp_all [Ctx.no_red_red, Tree.no_red_red, Ctx.bal, Tree.bal, Tree.bh, Ctx.root_black] <;> omega)
      (by simp_all [Ctx.no_red_red, Tree.no_red_red, Ctx.bal, Tree.bal, Tree.bh, Ctx.root_black] <;> omega) (by simp_all [Ctx.no_red_red, Tree.no_red_red, Ctx.bal, Tree.bal, Tree.bh, Ctx.root_black] <;> omega) (by simp_all [Ctx.no_red_red, Tree.no_red_red, Ctx.bal, Tree.bal, Tree.bh, Ctx.root_black] <;> omega)
    simp only [hx, Option.map_some']
    refine ⟨_, rfl, Tree.blacken_no_red_red ?_, Tree.blacken_bal ?_, Tree.blacken_color _⟩
    · rw [Ctx.no_red_red_plug]
      refine ⟨by simp_all [Ctx.no_red_red, Tree.no_red_red, Ctx.bal, Tree.bal, Tree.bh, Ctx.root_black], x1, ?_⟩
      intro hup
      rw [x3]
      cases pc
      · simp_all [Ctx.no_red_red, Tree.no_red_red, Ctx.bal, Tree.bal, Tree.bh, Ctx.root_black] <;> omega
      · rfl
    · rw [Ctx.bal_plug]
      refine ⟨x2, ?_⟩
      rw [x4]
      simp_all [Ctx.no_red_red, Tree.no_red_red, Ctx.bal, Tree.bal, Tree.bh, Ctx.root_black] <;> omega
  | case9 sib p pc up t hc =>
    simp only [erase_loop, hc, if_true]
    refine ⟨_, rfl, ?_, ?_, ?_⟩
    · rw [Ctx.no_red_red_plug]
      exact ⟨kn, hn, fun _ => Tree.blacken_color t⟩
    · rw [Ctx.bal_plug, Tree.blacken_bh_red hc, hbn]
      exact ⟨Tree.blacken_bal hb, kb⟩
    · rw [Ctx.color_plug]
      exact kr
  | case10 p pc up t hc => simp [Ctx.bal, Tree.bh] at kb
  | case11 p pc up t hc sl o =>
    simp_all [Ctx.bal, Tree.bal, Tree.bh, Ctx.no_red_red, Tree.no_red_red] <;> omega
  | case12 p pc up t hc sl o sll ol olc slr hbk =>
    have hc' : t.color = RB_BLACK := by simpa using hc
    rw [Tree.blacken_of_black hc'] at hn
    simp only [erase_loop, hc, if_false, hbk, and_self, if_true]
    refine ⟨_, rfl, ?_, ?_, ?_⟩
    · rw [Ctx.no_red_red_plug]
      simp_all [Ctx.no_red_red, Tree.no_red_red, Ctx.bal, Tree.bal, Tree.bh, Ctx.root_black] <;> omega
    · rw [Ctx.bal_plug]
      simp_all [Ctx.no_red_red, Tree.no_red_red, Ctx.bal, Tree.bal, Tree.bh, Ctx.root_black]
      exact ⟨by omega, Ctx.bal_congr kb.2.2 (by omega)⟩
    · rw [Ctx.color_plug]
      simp_all [Ctx.no_red_red, Tree.no_red_red, Ctx.bal, Tree.bal, Tree.bh, Ctx.root_black] <;> omega
  | case13 p pc up t hc sl o sll ol olc slr hbk =>
    have hc' : t.color = RB_BLACK := by simpa using hc
    rw [Tree.blacken_of_black hc'] at hn
    simp only [erase_loop, hc, if_false, hbk]
    have hpc : pc = RB_BLACK := by simp_all [Ctx.no_red_red, Tree.no_red_red, Ctx.bal, Tree.bal, Tree.bh, Ctx.root_black]
    have holc : olc = RB_BLACK := by simp_all [Ctx.no_red_red, Tree.no_red_red, Ctx.bal, Tree.bal, Tree.bh, Ctx.root_black]
    subst hpc holc
    obtain ⟨x, hx, x1, x2, x3, x4⟩ := erase_rot_right_valid p ol RB_RED sll slr t n hbk hn hb hbn hc'
      (by simp_all [Ctx.no_red_red, Tree.no_red_red, Ctx.bal, Tree.bal, Tree.bh, Ctx.root_black] <;> omega) (by simp_all [Ctx.no_red_red, Tree.no_red_red, Ctx.bal, Tree.bal, Tree.bh, Ctx.root_black] <;> omega) (by simp_all [Ctx.no_red_red, Tree.no_red_red, Ctx.bal, Tree.bal, Tree.bh, Ctx.root_black] <;> omega)
      (by simp_all [Ctx.no_red_red, Tree.no_red_red, Ctx.bal, Tree.bal, Tree.bh, Ctx.root_black] <;> omega) (by simp_all [Ctx.no_red_red, Tree.no_red_red, Ctx.bal, Tree.bal, Tree.bh, Ctx.root_black] <;> omega) (by simp_all [Ctx.no_red_red, Tree.no_red_red, Ctx.bal, Tree.bal, Tree.bh, Ctx.root_black] <;> omega)
    simp only [hx, Option.map_some', reduceCtorEq, if_false] at x4 ⊢
    refine ⟨_, rfl, Tree.blacken_no_red_red ?_, Tree.blacken_bal ?_, Tree.blacken_color _⟩
    · rw [Ctx.no_red_red_plug]
      simp_all [Ctx.no_red_red, Tree.no_red_red, Ctx.bal, Tree.bal, Tree.bh, Ctx.root_black] <;> omega
    · rw [Ctx.bal_plug]
      simp_all [Ctx.no_red_red, Tree.no_red_red, Ctx.bal, Tree.bal, Tree.bh, Ctx.root_black]
      exact ⟨by omega, Ctx.bal_congr kb.2.2 (by omega)⟩
  | case14 p pc up t hc sl o sr hbk ih =>
    have hc' : t.color = RB_BLACK := by simpa using hc
    rw [Tree.blacken_of_black hc'] at hn
    simp only [erase_loop, hc, if_false, hbk, and_self, if_true]
    have hkr : up.root_black RB_BLACK := by
      cases up <;> simp_all [Ctx.root_black]
    refine ih (if pc = RB_BLACK then n + 1 else n) ?_ ?_ ?_ ?_ ?_ hkr
    · simp_all [Ctx.no_red_red, Tree.no_red_red, Ctx.bal, Tree.bal, Tree.bh, Ctx.root_black, Tree.blacken]
    · simp_all [Ctx.no_red_red, Tree.no_red_red, Ctx.bal, Tree.bal, Tree.bh, Ctx.root_black] <;> omega
    · simp_all [Ctx.no_red_red, Tree.no_red_red, Ctx.bal, Tree.bal, Tree.bh, Ctx.root_black]
      split <;> omega
    · simp_all [Ctx.no_red_red, Tree.no_red_red, Ctx.bal, Tree.bal, Tree.bh, Ctx.root_black] <;> omega
    · cases pc <;> simp_all [Ctx.no_red_red, Tree.no_red_red, Ctx.bal, Tree.bal, Tree.bh, Ctx.root_black] <;> omega
  | case15 p pc up t hc sl o sr hbk =>
    have hc' : t.color = RB_BLACK := by simpa using hc
    rw [Tree.blacken_of_black hc'] at hn
    simp only [erase_loop, hc, if_false, hbk]
    obtain ⟨x, hx, x1, x2, x3, x4⟩ := erase_rot_right_valid p o pc sl sr t n hbk hn hb hbn hc'
      (by simp_all [Ctx.no_red_red, Tree.no_red_red, Ctx.bal, Tree.bal, Tree.bh, Ctx.root_black] <;> omega) (by simp_all [Ctx.no_red_red, Tree.no_red_red, Ctx.bal, Tree.bal, Tree.bh, Ctx.root_black] <;> omega) (by simp_all [Ctx.no_red_red, Tree.no_red_red, Ctx.bal, Tree.bal, Tree.bh, Ctx.root_black] <;> omega)
      (by simp_all [Ctx.no_red_red, Tree.no_red_red, Ctx.bal, Tree.bal, Tree.bh, Ctx.root_black] <;> omega) (by simp_all [Ctx.no_red_red, Tree.no_red_red, Ctx.bal, Tree.bal, Tree.bh, Ctx.root_black] <;> omega) (by simp_all [Ctx.no_red_red, Tree.no_red_red, Ctx.bal, Tree.bal, Tree.bh, Ctx.root_black] <;> omega)
    simp only [hx, Option.map_some']
    refine ⟨_, rfl, Tree.blacken_no_red_red ?_, Tree.blacken_bal ?_, Tree.blacken_color _⟩
    · rw [Ctx.no_red_red_plug]
      refine ⟨by simp_all [Ctx.no_red_red, Tree.no_red_red, Ctx.bal, Tree.bal, Tree.bh, Ctx.root_black], x1, ?_⟩
      intro hup
      rw [x3]
      cases pc
      · simp_all [Ctx.no_red_red, Tree.no_red_red, Ctx.bal, Tree.bal, Tree.bh, Ctx.root_black] <;> omega
      · rfl
    · rw [Ctx.bal_plug]
      refine ⟨x2, ?_⟩
      rw [x4]
      simp_all [Ctx.no_red_red, Tree.no_red_red, Ctx.bal, Tree.bal, Tree.bh, Ctx.root_black] <;> omega

theorem Ctx.root_black_of_red {k : Ctx} (h : k.root_black RB_RED) (c : Color) :
    k.root_black c := by
  cases k with
  | top => simp [Ctx.root_black] at h
  | left up a ca r => exact h
  | right l a ca up => exact h

theorem Tree.rb_valid_focus {k : Ctx} {t : Tree} (hv : (k.plug t).rb_valid) :
    t.no_red_red ∧ t.bal ∧ (k.color = RB_RED → t.color = RB_BLACK) := by
  obtain ⟨h1, h2, -⟩ := hv
  rw [Ctx.no_red_red_plug] at h1
  rw [Tree.black_balanced_iff, Ctx.bal_plug] at h2
  exact ⟨h1.2.1, h2.1, h1.2.2⟩

/-- The label `color:` of `rb_erase` restores the invariants. -/
theorem erase_finish_valid (col : Color) (K : Ctx) (ch : Tree) (hK : K.no_red_red)
    (hch : ch.no_red_red) (hb : ch.bal)
    (hKb : K.bal (if col = RB_BLACK then ch.bh + 1 else ch.bh))
    (hj : col = RB_RED → K.color = RB_RED → ch.color = RB_BLACK) (hr : K.root_black col) :
    ∃ T', erase_finish col K ch = some T' ∧ T'.rb_valid := by
  cases col with
  | RB_RED =>
    refine ⟨K.plug ch, by simp [erase_finish], ?_, ?_, ?_⟩
    · rw [Ctx.no_red_red_plug]
      exact ⟨hK, hch, hj rfl⟩
    · rw [Tree.black_balanced_iff, Ctx.bal_plug]
      exact ⟨hb, by simpa using hKb⟩
    · rw [Ctx.color_plug]
      exact Ctx.root_black_of_red hr _
  | RB_BLACK =>
    obtain ⟨T', e, h1, h2, h3⟩ := erase_loop_valid K ch ch.bh (Tree.blacken_no_red_red hch) hb rfl
      hK (by simpa using hKb) hr
    exact ⟨T', by simp [erase_finish, e], h1, (Tree.black_balanced_iff _).2 h2, h3⟩

theorem Ctx.comp_rename (kk : Ctx) (l : Tree) (a m : Nat) (c : Color) (k : Ctx) :
    ((kk.comp (Ctx.right l a c k)).no_red_red ↔ (kk.comp (Ctx.right l m c k)).no_red_red) ∧
    (∀ n, (kk.comp (Ctx.right l a c k)).bal n ↔ (kk.comp (Ctx.right l m c k)).bal n) ∧
    (∀ x, (kk.comp (Ctx.right l a c k)).root_black x ↔
      (kk.comp (Ctx.right l m c k)).root_black x) ∧
    (kk.comp (Ctx.right l a c k)).color = (kk.comp (Ctx.right l m c k)).color := by
  induction kk with
  | top => simp [Ctx.comp, Ctx.no_red_red, Ctx.bal, Ctx.root_black]
  | left up b cb r ih =>
    obtain ⟨h1, h2, h3, h4⟩ := ih
    simp only [Ctx.comp, Ctx.no_red_red, Ctx.bal, Ctx.root_black, Ctx.color_left, h1, h2, h3, h4]
    simp
  | right l' b cb up ih =>
    obtain ⟨h1, h2, h3, h4⟩ := ih
    simp only [Ctx.comp, Ctx.no_red_red, Ctx.bal, Ctx.root_black, Ctx.color_right, h1, h2, h3,
      h4]
    simp

/-- On a valid red-black tree `rb_erase` returns a valid red-black tree. -/
theorem erase_tree_valid {k : Ctx} {l r : Tree} {a : Nat} {c : Color}
    (hv : (k.plug (Tree.node l a c r)).rb_valid) :
    ∃ T', erase_tree k (Tree.node l a c r) = some T' ∧ T'.rb_valid := by
  obtain ⟨kn, kb, kr⟩ := Tree.rb_valid_parts hv
  obtain ⟨tn, tb, tj⟩ := Tree.rb_valid_focus hv
  cases l with
  | nil =>
    simp only [erase_tree]
    simp only [Tree.no_red_red, Tree.bal, Tree.bh, Tree.color_node] at tn tb kb kr tj
    refine erase_finish_valid c k r kn tn.2.2 tb.2.1 ?_ ?_ kr
    · rw [← tb.2.2]
      exact kb
    · intro hc hk
      have := tj hk
      rw [hc] at this
      simp at this
  | node ll l0 lc lr =>
    cases r with
    | nil =>
      simp only [erase_tree]
      simp only [Tree.no_red_red, Tree.bal, Tree.bh, Tree.color_node] at tn tb kb kr tj
      refine erase_finish_valid c k _ kn tn.2.1 tb.1 ?_ ?_ kr
      · exact kb
      · intro hc hk
        have := tj hk
        rw [hc] at this
        simp at this
    | node rl r0 rc rr =>
      obtain ⟨m, mc, mr, hm⟩ := Tree.zoom_min_shape rl r0 rc rr Ctx.top
      have hp := Tree.zoom_min_plug (Tree.node rl r0 rc rr) Ctx.top
      generalize hz : (Tree.node rl r0 rc rr).zoom_min Ctx.top = z at hm hp
      obtain ⟨kk, tm⟩ := z
      simp only at hm hp
      subst hm
      simp only [erase_tree, hz]
      have hv' : ((kk.comp (Ctx.right (Tree.node ll l0 lc lr) a c k)).plug
          (Tree.node Tree.nil m mc mr)).rb_valid := by
        rw [Ctx.plug_comp, hp]
        exact hv
      obtain ⟨kn2, kb2, kr2⟩ := Tree.rb_valid_parts hv'
      obtain ⟨tn2, tb2, tj2⟩ := Tree.rb_valid_focus hv'
      obtain ⟨r1, r2, r3, r4⟩ := Ctx.comp_rename kk (Tree.node ll l0 lc lr) a m c k
      simp only [Tree.no_red_red, Tree.bal, Tree.bh, Tree.color_node] at tn2 tb2 kb2 kr2 tj2
      refine erase_finish_valid mc _ mr (r1.1 kn2) tn2.2.2 tb2.2.1 ?_ ?_ ((r3 _).1 kr2)
      · rw [← tb2.2.2]
        exact (r2 _).1 kb2
      · intro hc hk
        rw [← r4] at hk
        have := tj2 hk
        rw [hc] at this
        simp at this

/-- A member of a tree sits at the root of some focus. -/
theorem Tree.mem_plug {T : Tree} {a : Nat} (h : a ∈ T.inorder) :
    ∃ k l c r, T = Ctx.plug k (Tree.node l a c r) := by
  induction T with
  | nil => simp [Tree.inorder] at h
  | node l b c r ihl ihr =>
    simp only [Tree.inorder, List.mem_append, List.mem_cons] at h
    rcases h with h | h | h
    · obtain ⟨k, l', c', r', e⟩ := ihl h
      refine ⟨k.comp (Ctx.left Ctx.top b c r), l', c', r', ?_⟩
      rw [Ctx.plug_comp, ← e]
      rfl
    · subst h
      exact ⟨Ctx.top, l, c, r, rfl⟩
    · obtain ⟨k, l', c', r', e⟩ := ihr h
      refine ⟨k.comp (Ctx.right l b c Ctx.top), l', c', r', ?_⟩
      rw [Ctx.plug_comp, ← e]
      rfl

theorem erase_mid {xs l r ys : List Nat} {a : Nat} (h : (xs ++ ((l ++ a :: r) ++ ys)).Nodup) :
    (xs ++ ((l ++ a :: r) ++ ys)).erase a = xs ++ ((l ++ r) ++ ys) := by
  have h1 : a ∉ xs := by
    intro hx
    exact (List.nodup_append.1 h).2.2 hx (by simp)
  have h2 : a ∉ l := by
    intro hx
    have := (List.nodup_append.1 h).2.1
    have := (List.nodup_append.1 (List.nodup_append.1 this).1).2.2 hx (List.mem_cons_self _ _)
    exact this
  rw [List.erase_append_right _ h1, List.append_assoc, List.erase_append_right _ h2]
  simp

/-- The run of `rb_erase` on a member of a valid red-black tree: it returns, given fuel for
the size of the tree, and the memory then holds the tree that `erase_tree` computes. -/
theorem rb_erase_runs (s : State) (T : Tree) (node : Nat) (fuel : Nat)
    (hs : IsTree s T) (hv : T.rb_valid) (hm : node ∈ T.inorder) (hf : T.size < fuel) :
    ∃ s' T' k l c r, T = Ctx.plug k (Tree.node l node c r) ∧
      erase_tree k (Tree.node l node c r) = some T' ∧
      rb_erase fuel node s = Res.ok s' ∧ IsTree s' T' ∧ T'.rb_valid ∧
      T'.inorder = T.inorder.erase node := by
  obtain ⟨k, l, c, r, rfl⟩ := Tree.mem_plug hm
  obtain ⟨T', e, hv'⟩ := erase_tree_valid hv
  obtain ⟨s', e', hs'⟩ := rb_erase_refines (IsZip.plug_iff.2 hs) e fuel hf
  refine ⟨s', T', k, l, c, r, rfl, e, e', hs', hv', ?_⟩
  rw [erase_tree_inorder e, Ctx.inorder_plug]
  have hnd := hs.2.2
  rw [Ctx.inorder_plug] at hnd
  exact (erase_mid hnd).symm

theorem Tree.size_eq_length (t : Tree) : t.size = t.inorder.length := by
  induction t with
  | nil => rfl
  | node l a c r ihl ihr => simp [Tree.size, Tree.inorder, ihl, ihr]; omega

theorem Tree.Own.own_mem_eq {s s' : State} {par : Ptr} {T : Tree} (h : Tree.Own s par T)
    (h' : Tree.Own s' par T) : ∀ x ∈ T.inorder, s'.mem x = s.mem x := by
  induction T generalizing par with
  | nil => simp [Tree.inorder]
  | node l a c r ihl ihr =>
    intro x hx
    simp only [Tree.inorder, List.mem_append, List.mem_cons] at hx
    rcases hx with hx | hx | hx
    · exact ihl h.2.1 h'.2.1 x hx
    · subst hx
      rw [h.1, h'.1]
    · exact ihr h.2.2 h'.2.2 x hx

/-- Two states that hold the same abstract tree agree on the root reference and on every
field of every node of the tree. -/
theorem IsTree.mem_eq {s s' : State} {T : Tree} (h : IsTree s T) (h' : IsTree s' T) :
    s'.root = s.root ∧ ∀ x ∈ T.inorder, s'.mem x = s.mem x :=
  ⟨h'.1.trans h.1.symm, Tree.Own.own_mem_eq h.2.1 h'.2.1⟩

/-- When the slot has a Black parent, or the tree is empty, the insert fixup leaves the
linked tree as it is up to the colour of a lone root, and the erase only unlinks the
node. -/
theorem round_trip_pure (k : Ctx) (node : Nat) (hv : (k.plug Tree.nil).rb_valid)
    (hk : k.color = RB_BLACK) :
    ∃ T0 c, ins_loop k (Tree.node Tree.nil node RB_RED Tree.nil) = some T0 ∧
      T0.blacken = k.plug (Tree.node Tree.nil node c Tree.nil) ∧
      erase_tree k (Tree.node Tree.nil node c Tree.nil) = some (k.plug Tree.nil) := by
  cases k with
  | top =>
    exact ⟨_, RB_BLACK, rfl, rfl, rfl⟩
  | left up p pc r =>
    simp only [Ctx.color] at hk
    subst hk
    have h3 := hv.2.2
    rw [Ctx.color_plug] at h3
    refine ⟨_, RB_RED, by simp only [ins_loop]; rfl, ?_, by simp [erase_tree, erase_finish]⟩
    apply Tree.blacken_of_black
    rw [Ctx.color_plug]
    exact h3
  | right l p pc up =>
    simp only [Ctx.color] at hk
    subst hk
    have h3 := hv.2.2
    rw [Ctx.color_plug] at h3
    refine ⟨_, RB_RED, by simp only [ins_loop]; rfl, ?_, by simp [erase_tree, erase_finish]⟩
    apply Tree.blacken_of_black
    rw [Ctx.color_plug]
    exact h3

/-- The round trip of an insertion followed by the erase of the same node, on the heap. -/
theorem round_trip_runs (s : State) (k : Ctx) (node : Nat) (fuel : Nat)
    (hs : IsTree s (k.plug Tree.nil)) (hv : (k.plug Tree.nil).rb_valid)
    (hn : node ∉ (k.plug Tree.nil).inorder) (hf : (k.plug Tree.nil).size + 1 < fuel) :
    ∃ s1 s2 T2, rb_insert_color fuel node (rb_link_node node k.parent k.side s) = Res.ok s1 ∧
      rb_erase fuel node s1 = Res.ok s2 ∧ IsTree s2 T2 ∧ T2.rb_valid ∧
      T2.inorder = (k.plug Tree.nil).inorder ∧
      (k.color = RB_BLACK → IsTree s2 (k.plug Tree.nil)) := by
  have hd := Ctx.depth_le_size k Tree.nil
  obtain ⟨s1, T0, e0, hn0, hb0, e1, h1⟩ :=
    rb_insert_color_runs s k node hs hv hn fuel (by omega)
  have hio : T0.blacken.inorder = k.before ++ (node :: k.after) := by
    rw [Tree.blacken_inorder, ins_loop_inorder _ _ _ e0, Ctx.inorder_plug]
    rfl
  have hv1 : T0.blacken.rb_valid :=
    ⟨Tree.blacken_no_red_red hn0, (Tree.black_balanced_iff _).2 (Tree.blacken_bal hb0),
      Tree.blacken_color _⟩
  have hsz : T0.blacken.size = (k.plug Tree.nil).size + 1 := by
    rw [Tree.size_eq_length, Tree.size_eq_length, hio, Ctx.inorder_plug]
    simp [Tree.inorder]
    omega
  obtain ⟨s2, T2, -, -, -, -, -, -, e2, h2, hv2, hio2⟩ :=
    rb_erase_runs s1 T0.blacken node fuel h1 hv1 (by rw [hio]; simp) (by omega)
  refine ⟨s1, s2, T2, e1, e2, h2, hv2, ?_, ?_⟩
  · rw [hio2, hio, Ctx.inorder_plug]
    rw [Ctx.inorder_plug] at hn
    have : node ∉ k.before := fun h => hn (by simp [h])
    rw [List.erase_append_right _ this, List.erase_cons_head]
    rfl
  · intro hk
    obtain ⟨T0', c, e0', hb, he⟩ := round_trip_pure k node hv hk
    rw [e0] at e0'
    injection e0' with e0'
    subst e0'
    rw [hb] at h1 hsz
    obtain ⟨s2', e2', h2'⟩ := rb_erase_refines (IsZip.plug_iff.2 h1) he fuel (by omega)
    rw [e2] at e2'
    injection e2' with e2'
    subst e2'
    exact h2'

/-! ## Traversal -/

theorem descend_left_spec {s : State} {par : Ptr} (t : Tree) (a : Nat) (ht : t.ptr = some a)
    (h : Tree.Own s par t) (fuel : Nat) (hf : t.size ≤ fuel) :
    ∃ m, t.inorder.head? = some m ∧ descend_left fuel a s = Res.ok m := by
  induction t generalizing par a fuel with
  | nil => simp at ht
  | node l b c r ihl _ =>
    simp only [Tree.ptr_node, Option.some.injEq] at ht
    subst ht
    obtain ⟨f, rfl⟩ : ∃ f, fuel = f + 1 := ⟨fuel - 1, by simp [Tree.size] at hf; omega⟩
    cases l with
    | nil =>
      refine ⟨b, rfl, ?_⟩
      simp [descend_left, h.1]
    | node ll x cx lr =>
      obtain ⟨m, hm, e⟩ := ihl x rfl h.2.1 f (by simp [Tree.size] at hf ⊢; omega)
      refine ⟨m, ?_, ?_⟩
      · simp only [Tree.inorder] at hm ⊢
        cases hl : ll.inorder <;> simp [hl] at hm ⊢ <;> exact hm
      · simp only [descend_left, h.1, Tree.ptr_node]
        exact e

theorem descend_right_spec {s : State} {par : Ptr} (t : Tree) (a : Nat) (ht : t.ptr = some a)
    (h : Tree.Own s par t) (fuel : Nat) (hf : t.size ≤ fuel) :
    ∃ m, t.inorder.getLast? = some m ∧ descend_right fuel a s = Res.ok m := by
  induction t generalizing par a fuel with
  | nil => simp at ht
  | node l b c r _ ihr =>
    simp only [Tree.ptr_node, Option.some.injEq] at ht
    subst ht
    obtain ⟨f, rfl⟩ : ∃ f, fuel = f + 1 := ⟨fuel - 1, by simp [Tree.size] at hf; omega⟩
    cases r with
    | nil =>
      refine ⟨b, by simp [Tree.inorder], ?_⟩
      simp [descend_right, h.1]
    | node rl x cx rr =>
      obtain ⟨m, hm, e⟩ := ihr x rfl h.2.2 f (by simp [Tree.size] at hf ⊢; omega)
      refine ⟨m, ?_, ?_⟩
      · simp only [Tree.inorder] at hm ⊢
        rw [List.getLast?_append]
        generalize rl.inorder ++ x :: rr.inorder = ys at hm
        cases ys with
        | nil => simp at hm
        | cons y ys => rw [List.getLast?_cons_cons, hm]; rfl
      · simp only [descend_right, h.1, Tree.ptr_node]
        exact e

theorem ascend_next_spec {s : State} {k : Ctx} {l r : Tree} {a : Nat} {c : Color}
    (h : IsZip s k (Tree.node l a c r)) (fuel : Nat) (hf : k.depth < fuel) :
    ascend_next fuel a s = Res.ok k.after.head? := by
  induction k generalizing l r a c fuel with
  | top =>
    obtain ⟨f, rfl⟩ : ∃ f, fuel = f + 1 := ⟨fuel - 1, by omega⟩
    simp [ascend_next, rb_parent, h.mem_root, Ctx.parent, Ctx.after]
  | left up p pc sib ih =>
    obtain ⟨f, rfl⟩ : ∃ f, fuel = f + 1 := ⟨fuel - 1, by omega⟩
    have hnd := h.nodup
    have ha : a ∉ sib.inorder := by
      intro hx
      simp only [Ctx.after, Tree.inorder] at hnd
      have := (List.nodup_append.1 (List.nodup_append.1 hnd).2.1).2.2
        (List.mem_append_right _ (List.mem_cons_self _ _)) 
        (List.mem_cons_of_mem _ (List.mem_append_left _ hx))
      exact this
    simp [ascend_next, rb_parent, h.mem_root, Ctx.parent, Ctx.after, h.mem_left,
      Tree.ne_ptr_of_not_mem ha]
  | right sib p pc up ih =>
    obtain ⟨f, rfl⟩ : ∃ f, fuel = f + 1 := ⟨fuel - 1, by omega⟩
    have := ih (IsZip.right_iff.1 h) f (by simp [Ctx.depth] at hf; omega)
    simp [ascend_next, rb_parent, h.mem_root, Ctx.parent, Ctx.after, h.mem_right, this]

theorem ascend_prev_spec {s : State} {k : Ctx} {l r : Tree} {a : Nat} {c : Color}
    (h : IsZip s k (Tree.node l a c r)) (fuel : Nat) (hf : k.depth < fuel) :
    ascend_prev fuel a s = Res.ok k.before.getLast? := by
  induction k generalizing l r a c fuel with
  | top =>
    obtain ⟨f, rfl⟩ : ∃ f, fuel = f + 1 := ⟨fuel - 1, by omega⟩
    simp [ascend_prev, rb_parent, h.mem_root, Ctx.parent, Ctx.before]
  | left up p pc sib ih =>
    obtain ⟨f, rfl⟩ : ∃ f, fuel = f + 1 := ⟨fuel - 1, by omega⟩
    have := ih (IsZip.left_iff.1 h) f (by simp [Ctx.depth] at hf; omega)
    simp [ascend_prev, rb_parent, h.mem_root, Ctx.parent, Ctx.before, h.mem_left, this]
  | right sib p pc up ih =>
    obtain ⟨f, rfl⟩ : ∃ f, fuel = f + 1 := ⟨fuel - 1, by omega⟩
    have hnd := h.nodup
    have ha : a ∉ sib.inorder := by
      intro hx
      simp only [Ctx.before, Tree.inorder] at hnd
      have := (List.nodup_append.1 hnd).2.2
        (List.mem_append_right _ (List.mem_append_left _ hx)) 
        (List.mem_append_left _ (List.mem_append_right _ (List.mem_cons_self _ _)))
      exact this
    simp [ascend_prev, rb_parent, h.mem_root, Ctx.parent, Ctx.before, h.mem_right,
      Tree.ne_ptr_of_not_mem ha]

theorem IsZip.parent_ne {s : State} {k : Ctx} {l r : Tree} {a : Nat} {c : Color}
    (h : IsZip s k (Tree.node l a c r)) : rb_parent s a ≠ some a := by
  intro e
  rw [rb_parent, h.mem_root] at e
  have hm := Ctx.parent_mem e
  have hnd := h.nodup
  simp only [Tree.inorder] at hnd
  rw [List.mem_append] at hm
  rcases hm with hm | hm
  · exact (List.nodup_append.1 hnd).2.2 hm
      (List.mem_append_left _ (List.mem_append_right _ (List.mem_cons_self _ _)))
  · exact (List.nodup_append.1 (List.nodup_append.1 hnd).2.1).2.2
      (List.mem_append_right _ (List.mem_cons_self _ _)) hm

/-- On the node in focus, `rb_next` returns the first node after it. -/
theorem rb_next_zip {s : State} {k : Ctx} {l r : Tree} {a : Nat} {c : Color}
    (h : IsZip s k (Tree.node l a c r)) (fuel : Nat)
    (hf : (k.plug (Tree.node l a c r)).size < fuel) :
    rb_next fuel a s = Res.ok (r.inorder ++ k.after).head? := by
  have hd := Ctx.depth_le_size k (Tree.node l a c r)
  simp only [Tree.size] at hd
  rw [rb_next, if_neg h.parent_ne, h.mem_root]
  cases r with
  | nil =>
    simp only [Tree.ptr_nil, Tree.inorder, List.nil_append]
    exact ascend_next_spec h fuel (by omega)
  | node rl x cx rr =>
    obtain ⟨m, hm, e⟩ := descend_left_spec (Tree.node rl x cx rr) x rfl h.2.1.2.2 fuel
      (by simp only [Tree.size] at hd ⊢; omega)
    simp only [Tree.ptr_node, e, Res.bind]
    rw [List.head?_append_of_ne_nil _ (by simp [Tree.inorder]), hm]

/-- On the node in focus, `rb_prev` returns the last node before it. -/
theorem rb_prev_zip {s : State} {k : Ctx} {l r : Tree} {a : Nat} {c : Color}
    (h : IsZip s k (Tree.node l a c r)) (fuel : Nat)
    (hf : (k.plug (Tree.node l a c r)).size < fuel) :
    rb_prev fuel a s = Res.ok (k.before ++ l.inorder).getLast? := by
  have hd := Ctx.depth_le_size k (Tree.node l a c r)
  simp only [Tree.size] at hd
  rw [rb_prev, if_neg h.parent_ne, h.mem_root]
  cases l with
  | nil =>
    simp only [Tree.ptr_nil, Tree.inorder, List.append_nil]
    exact ascend_prev_spec h fuel (by omega)
  | node ll x cx lr =>
    obtain ⟨m, hm, e⟩ := descend_right_spec (Tree.node ll x cx lr) x rfl h.2.1.2.1 fuel
      (by simp only [Tree.size] at hd ⊢; omega)
    simp only [Tree.ptr_node, e, Res.bind]
    rw [List.getLast?_append, hm]
    rfl

/-- A duplicate-free list splits around one of its elements in one way only. -/
theorem nodup_split_unique {xs ys xs' ys' : List Nat} {a : Nat}
    (hnd : (xs ++ a :: ys).Nodup) (e : xs ++ a :: ys = xs' ++ a :: ys') :
    xs = xs' ∧ ys = ys' := by
  induction xs generalizing xs' with
  | nil =>
    cases xs' with
    | nil => simpa using e
    | cons x xs' =>
      simp only [List.nil_append, List.cons_append, List.cons.injEq] at e
      obtain ⟨rfl, rfl⟩ := e
      simp at hnd
  | cons x xs ih =>
    cases xs' with
    | nil =>
      simp only [List.nil_append, List.cons_append, List.cons.injEq] at e
      obtain ⟨rfl, rfl⟩ := e
      simp at hnd
    | cons x' xs' =>
      simp only [List.cons_append, List.cons.injEq] at e
      obtain ⟨rfl, e⟩ := e
      obtain ⟨rfl, rfl⟩ := ih (List.nodup_cons.1 hnd).2 e
      exact ⟨rfl, rfl⟩

/-- The functions `rb_next` and `rb_prev` on a node of a well-formed tree, given its place
in the in-order sequence. -/
theorem rb_next_prev_split {s : State} {T : Tree} {node : Nat} {xs ys : List Nat}
    (hs : IsTree s T) (hio : T.inorder = xs ++ node :: ys) (fuel : Nat) (hf : T.size < fuel) :
    rb_next fuel node s = Res.ok ys.head? ∧ rb_prev fuel node s = Res.ok xs.getLast? := by
  obtain ⟨k, l, c, r, rfl⟩ := Tree.mem_plug (a := node) (by rw [hio]; simp)
  have hnd := hs.2.2
  rw [hio] at hnd
  rw [Ctx.inorder_plug] at hio
  simp only [Tree.inorder] at hio
  have e : (k.before ++ l.inorder) ++ node :: (r.inorder ++ k.after) = xs ++ node :: ys := by
    rw [← hio]
    simp
  obtain ⟨rfl, rfl⟩ := nodup_split_unique (e ▸ hnd) e.symm
  exact ⟨rb_next_zip (IsZip.plug_iff.2 hs) fuel hf, rb_prev_zip (IsZip.plug_iff.2 hs) fuel hf⟩

theorem walk_next_split {s : State} {T : Tree} (hs : IsTree s T) (fuel : Nat)
    (hf : T.size < fuel) (ys : List Nat) :
    ∀ (xs : List Nat) (a : Nat), T.inorder = xs ++ a :: ys →
      walk_next fuel ys.length a s = Res.ok (a :: ys) := by
  induction ys with
  | nil => intro xs a _; rfl
  | cons y ys ih =>
    intro xs a hio
    have h1 := (rb_next_prev_split hs hio fuel hf).1
    have h2 := ih (xs ++ [a]) y (by rw [hio]; simp)
    simp only [List.length_cons, walk_next, h1, List.head?_cons, Res.bind, h2]

theorem walk_prev_split {s : State} {T : Tree} (hs : IsTree s T) (fuel : Nat)
    (hf : T.size < fuel) (n : Nat) :
    ∀ (xs ys : List Nat) (a : Nat), xs.length = n → T.inorder = xs ++ a :: ys →
      walk_prev fuel n a s = Res.ok (a :: xs.reverse) := by
  induction n with
  | zero =>
    intro xs ys a hl _
    rw [List.length_eq_zero] at hl
    subst hl
    rfl
  | succ n ih =>
    intro xs ys a hl hio
    rcases List.eq_nil_or_concat xs with rfl | ⟨xs', b, rfl⟩
    · simp at hl
    · rw [List.concat_eq_append] at hl hio
      have h1 := (rb_next_prev_split hs hio fuel hf).2
      have h2 := ih xs' (a :: ys) b (by simpa using hl) (by rw [hio]; simp)
      simp [walk_prev, h1, Res.bind, h2]

theorem rb_first_spec {s : State} {T : Tree} (hs : IsTree s T) (fuel : Nat)
    (hf : T.size < fuel) : rb_first fuel s = Res.ok T.inorder.head? := by
  cases T with
  | nil => simp [rb_first, hs.1, Tree.inorder]
  | node l a c r =>
    obtain ⟨m, hm, e⟩ := descend_left_spec (Tree.node l a c r) a rfl hs.2.1 fuel (by omega)
    simp only [rb_first, hs.1, Tree.ptr_node, e, Res.bind, hm]

theorem rb_last_spec {s : State} {T : Tree} (hs : IsTree s T) (fuel : Nat)
    (hf : T.size < fuel) : rb_last fuel s = Res.ok T.inorder.getLast? := by
  cases T with
  | nil => simp [rb_last, hs.1, Tree.inorder]
  | node l a c r =>
    obtain ⟨m, hm, e⟩ := descend_right_spec (Tree.node l a c r) a rfl hs.2.1 fuel (by omega)
    simp only [rb_last, hs.1, Tree.ptr_node, e, Res.bind, hm]

/-! ## The path walk of the augmentation -/

theorem Tree.Sized_congr {sz sz' : Nat → Nat} {t : Tree}
    (h : ∀ x ∈ t.inorder, sz' x = sz x) : t.Sized sz' ↔ t.Sized sz := by
  induction t with
  | nil => simp [Tree.Sized]
  | node l a c r ihl ihr =>
    simp only [Tree.inorder, List.mem_append, List.mem_cons] at h
    simp only [Tree.Sized]
    rw [h a (Or.inr (Or.inl rfl)), ihl (fun x hx => h x (Or.inl hx)),
      ihr (fun x hx => h x (Or.inr (Or.inr hx)))]

theorem Tree.AlmostSized_congr {sz sz' : Nat → Nat} {t : Tree}
    (h : ∀ x ∈ t.inorder, sz' x = sz x) : t.AlmostSized sz' ↔ t.AlmostSized sz := by
  cases t with
  | nil => simp [Tree.AlmostSized]
  | node l a c r =>
    simp only [Tree.inorder, List.mem_append, List.mem_cons] at h
    simp only [Tree.AlmostSized]
    rw [Tree.Sized_congr (fun x hx => h x (Or.inl hx)),
      Tree.Sized_congr (fun x hx => h x (Or.inr (Or.inr hx)))]

theorem Ctx.All_almost_congr {sz sz' : Nat → Nat} {k : Ctx}
    (h : ∀ x ∈ k.before ++ k.after, sz' x = sz x) :
    k.All (Tree.AlmostSized sz') ↔ k.All (Tree.AlmostSized sz) := by
  induction k with
  | top => simp [Ctx.All]
  | left up a c r ih =>
    simp only [Ctx.before, Ctx.after, List.mem_append, List.mem_cons] at h
    simp only [Ctx.All]
    rw [Tree.AlmostSized_congr (fun x hx => h x (by simp [hx])),
      ih (fun x hx => by
        rw [List.mem_append] at hx
        rcases hx with hx | hx
        · exact h x (by simp [hx])
        · exact h x (by simp [hx]))]
  | right l a c up ih =>
    simp only [Ctx.before, Ctx.after, List.mem_append, List.mem_cons, List.mem_singleton,
      List.not_mem_nil, or_false] at h
    simp only [Ctx.All]
    rw [Tree.AlmostSized_congr (fun x hx => h x (by simp [hx])),
      ih (fun x hx => by
        rw [List.mem_append] at hx
        rcases hx with hx | hx
        · exact h x (by simp [hx])
        · exact h x (by simp [hx]))]

theorem Tree.Sized.almost {sz : Nat → Nat} {t : Tree} (h : t.Sized sz) : t.AlmostSized sz := by
  cases t with
  | nil => trivial
  | node l a c r => exact h.2

theorem Tree.Sized.size_of_ptr {sz : Nat → Nat} {t : Tree} (h : t.Sized sz) :
    size_of sz t.ptr = t.size := by
  cases t with
  | nil => rfl
  | node l a c r => exact h.1

theorem update_of_ne {s : State} {sz : Nat → Nat} {a x : Nat} (h : x ≠ a) :
    update a s sz x = sz x := by
  simp [update, h]

/-- One call of the callback on a node whose subtrees have the right sizes. -/
theorem update_sized {s : State} {sz : Nat → Nat} {par : Ptr} {t : Tree} {a : Nat}
    (ht : t.ptr = some a) (h : Tree.Own s par t) (hnd : t.inorder.Nodup)
    (h1 : t.AlmostSized sz) : t.Sized (update a s sz) := by
  cases t with
  | nil => trivial
  | node l b c r =>
    simp only [Tree.ptr_node, Option.some.injEq] at ht
    subst ht
    simp only [Tree.inorder, List.nodup_append, List.nodup_cons, List.disjoint_cons_right] at hnd
    obtain ⟨hl, ⟨hbr, hr⟩, hbl, -⟩ := hnd
    refine ⟨?_, ?_, ?_⟩
    · simp only [update, if_true, h.1, h1.1.size_of_ptr, h1.2.size_of_ptr]
      omega
    · rw [Tree.Sized_congr (fun x hx => update_of_ne (fun e : x = b => hbl (e ▸ hx)))]
      exact h1.1
    · rw [Tree.Sized_congr (fun x hx => update_of_ne (fun e : x = b => hbr (e ▸ hx)))]
      exact h1.2

theorem IsZip.tree_nodup {s : State} {k : Ctx} {t : Tree} (h : IsZip s k t) :
    t.inorder.Nodup := by
  have := h.nodup
  exact (List.nodup_append.1 (List.nodup_append.1 this).2.1).1

theorem IsZip.not_mem_ctx {s : State} {k : Ctx} {t : Tree} (h : IsZip s k t) {x : Nat}
    (hx : x ∈ t.inorder) : x ∉ k.before ++ k.after := by
  have hnd := h.nodup
  intro hm
  rw [List.mem_append] at hm
  rcases hm with hm | hm
  · exact (List.nodup_append.1 hnd).2.2 hm (List.mem_append_left _ hx)
  · exact (List.nodup_append.1 (List.nodup_append.1 hnd).2.1).2.2 hx hm

/-- The walk of `rb_augment_path` with the size callback, from the root of the focus: when
the subtrees of the start node and the subtrees of the siblings along the path hold right
sizes, the walk returns and leaves right sizes in the whole tree. -/
theorem rb_augment_path_sized {s : State} (k : Ctx) :
    ∀ {t : Tree} {a : Nat} (sz : Nat → Nat), IsZip s k t → t.ptr = some a →
      t.AlmostSized sz → k.All (Tree.AlmostSized sz) → ∀ fuel, k.depth < fuel →
      ∃ sz', rb_augment_path update fuel a s sz = Res.ok sz' ∧ (k.plug t).Sized sz' := by
  induction k with
  | top =>
    intro t a sz h ht h1 _ fuel hf
    obtain ⟨f, rfl⟩ : ∃ f, fuel = f + 1 := ⟨fuel - 1, by omega⟩
    cases t with
    | nil => simp at ht
    | node l b c r =>
      simp only [Tree.ptr_node, Option.some.injEq] at ht
      subst ht
      refine ⟨update b s sz, ?_, update_sized rfl h.2.1 h.tree_nodup h1⟩
      simp [rb_augment_path, rb_parent, h.mem_root, Ctx.parent]
  | left up p pc sib ih =>
    intro t a sz h ht h1 h2 fuel hf
    obtain ⟨f, rfl⟩ : ∃ f, fuel = f + 1 := ⟨fuel - 1, by omega⟩
    have hz := IsZip.left_iff.1 h
    have ht1 : t.Sized (update a s sz) := update_sized ht h.2.1 h.tree_nodup h1
    have ham := Tree.ptr_mem ht
    have hac := h.not_mem_ctx ham
    have hup : ∀ x ∈ up.before ++ up.after, x ≠ a := by
      intro x hx e
      subst e
      apply hac
      simp only [Ctx.before, Ctx.after, List.mem_append, List.mem_cons] at hx ⊢
      tauto
    cases t with
    | nil => simp at ht
    | node l b c r =>
    simp only [Tree.ptr_node, Option.some.injEq] at ht
    subst ht
    cases sib with
    | nil =>
      have ht2 : (Tree.node l b c r).Sized (update b s (update b s sz)) :=
        update_sized rfl h.2.1 h.tree_nodup ht1.almost
      obtain ⟨sz', e, hs'⟩ := ih (update b s (update b s sz)) hz rfl ⟨ht2, trivial⟩
        ((Ctx.All_almost_congr (fun x hx => by
          rw [update_of_ne (hup x hx), update_of_ne (hup x hx)])).2 h2.2) f
        (by simp [Ctx.depth] at hf; omega)
      refine ⟨sz', ?_, hs'⟩
      simp only [rb_augment_path, rb_parent, h.mem_root, Ctx.parent_left, h.mem_left,
        Tree.ptr_node, Tree.ptr_nil, ne_eq, not_true_eq_false, and_false, if_false]
      exact e
    | node sl o so sr =>
      have hob : o ≠ b := by
        intro e
        apply hac
        simp [Ctx.before, Ctx.after, Tree.inorder, e]
      have hot : o ∉ (Tree.node l b c r).inorder := by
        intro hx
        apply h.not_mem_ctx hx
        simp [Ctx.before, Ctx.after, Tree.inorder]
      have hbs : b ∉ (Tree.node sl o so sr).inorder := by
        intro hx
        apply hac
        simp only [Ctx.before, Ctx.after, List.mem_append, List.mem_cons]
        tauto
      have hup2 : ∀ x ∈ up.before ++ up.after, x ≠ o := by
        intro x hx e
        subst e
        have := hz.nodup
        have hm : x ∈ (Tree.node (Tree.node l b c r) p pc (Tree.node sl x so sr)).inorder := by
          simp [Tree.inorder]
        exact hz.not_mem_ctx hm hx
      have hs1 : (Tree.node sl o so sr).AlmostSized (update b s sz) :=
        (Tree.AlmostSized_congr (fun x hx => update_of_ne
          (fun e : x = b => hbs (e ▸ hx)))).2 h2.1
      have hs2 : (Tree.node sl o so sr).Sized (update o s (update b s sz)) :=
        update_sized rfl hz.2.1.2.2 hz.tree_nodup.of_append_right.of_cons hs1
      have ht2 : (Tree.node l b c r).Sized (update o s (update b s sz)) :=
        (Tree.Sized_congr (fun x hx => update_of_ne
          (fun e : x = o => hot (e ▸ hx)))).2 ht1
      obtain ⟨sz', e, hs'⟩ := ih (update o s (update b s sz)) hz rfl ⟨ht2, hs2⟩
        ((Ctx.All_almost_congr (fun x hx => by
          rw [update_of_ne (hup2 x hx), update_of_ne (hup x hx)])).2 h2.2) f
        (by simp [Ctx.depth] at hf; omega)
      refine ⟨sz', ?_, hs'⟩
      simp only [rb_augment_path, rb_parent, h.mem_root, Ctx.parent_left, h.mem_left,
        Tree.ptr_node, ne_eq, reduceCtorEq, not_false_eq_true, and_self, if_true]
      exact e
  | right sib p pc up ih =>
    intro t a sz h ht h1 h2 fuel hf
    obtain ⟨f, rfl⟩ : ∃ f, fuel = f + 1 := ⟨fuel - 1, by omega⟩
    have hz := IsZip.right_iff.1 h
    have ht1 : t.Sized (update a s sz) := update_sized ht h.2.1 h.tree_nodup h1
    have ham := Tree.ptr_mem ht
    have hac := h.not_mem_ctx ham
    have hup : ∀ x ∈ up.before ++ up.after, x ≠ a := by
      intro x hx e
      subst e
      apply hac
      simp only [Ctx.before, Ctx.after, List.mem_append, List.mem_cons] at hx ⊢
      tauto
    cases t with
    | nil => simp at ht
    | node l b c r =>
    simp only [Tree.ptr_node, Option.some.injEq] at ht
    subst ht
    have hbs : b ∉ sib.inorder := by
      intro hx
      apply hac
      simp only [Ctx.before, Ctx.after, List.mem_append, List.mem_cons]
      tauto
    cases sib with
    | nil =>
      obtain ⟨sz', e, hs'⟩ := ih (update b s sz) hz rfl ⟨trivial, ht1⟩
        ((Ctx.All_almost_congr (fun x hx => by
          rw [update_of_ne (hup x hx)])).2 h2.2) f
        (by simp [Ctx.depth] at hf; omega)
      refine ⟨sz', ?_, hs'⟩
      simp only [rb_augment_path, rb_parent, h.mem_root, Ctx.parent_right, h.mem_right,
        Tree.ptr_node, Tree.ptr_nil, reduceCtorEq, false_and, if_false]
      exact e
    | node sl o so sr =>
      have hob : b ≠ o := by
        intro e
        apply hbs
        simp [Tree.inorder, e]
      have hot : o ∉ (Tree.node l b c r).inorder := by
        intro hx
        apply h.not_mem_ctx hx
        simp [Ctx.before, Ctx.after, Tree.inorder]
      have hup2 : ∀ x ∈ up.before ++ up.after, x ≠ o := by
        intro x hx e
        subst e
        have hm : x ∈ (Tree.node (Tree.node sl x so sr) p pc (Tree.node l b c r)).inorder := by
          simp [Tree.inorder]
        exact hz.not_mem_ctx hm hx
      have hs1 : (Tree.node sl o so sr).AlmostSized (update b s sz) :=
        (Tree.AlmostSized_congr (fun x hx => update_of_ne
          (fun e : x = b => hbs (e ▸ hx)))).2 h2.1
      have hs2 : (Tree.node sl o so sr).Sized (update o s (update b s sz)) :=
        update_sized rfl hz.2.1.2.1 hz.tree_nodup.of_append_left hs1
      have ht2 : (Tree.node l b c r).Sized (update o s (update b s sz)) :=
        (Tree.Sized_congr (fun x hx => update_of_ne
          (fun e : x = o => hot (e ▸ hx)))).2 ht1
      obtain ⟨sz', e, hs'⟩ := ih (update o s (update b s sz)) hz rfl ⟨hs2, ht2⟩
        ((Ctx.All_almost_congr (fun x hx => by
          rw [update_of_ne (hup2 x hx), update_of_ne (hup x hx)])).2 h2.2) f
        (by simp [Ctx.depth] at hf; omega)
      refine ⟨sz', ?_, hs'⟩
      simp only [rb_augment_path, rb_parent, h.mem_root, Ctx.parent_right, h.mem_right,
        Tree.ptr_node, Option.some.injEq, hob, false_and, if_false]
      exact e

/-! ## Walk-readiness of trees -/

theorem Ctx.All.imp {P Q : Tree → Prop} (hPQ : ∀ t, P t → Q t) {k : Ctx} (h : k.All P) :
    k.All Q := by
  induction k with
  | top => trivial
  | left up a c r ih => exact ⟨hPQ _ h.1, ih h.2⟩
  | right l a c up ih => exact ⟨hPQ _ h.1, ih h.2⟩

theorem Ctx.All_comp {P : Tree → Prop} (k k' : Ctx) : (k.comp k').All P ↔ k.All P ∧ k'.All P := by
  induction k with
  | top => simp [Ctx.comp, Ctx.All]
  | left up a c r ih => simp [Ctx.comp, Ctx.All, ih, and_assoc]
  | right l a c up ih => simp [Ctx.comp, Ctx.All, ih, and_assoc]

theorem Tree.Sized.of_plug {sz : Nat → Nat} {k : Ctx} {t : Tree} (h : (k.plug t).Sized sz) :
    t.Sized sz ∧ k.All (Tree.Sized sz) := by
  induction k generalizing t with
  | top => exact ⟨h, trivial⟩
  | left up a c r ih =>
    obtain ⟨h1, h2⟩ := ih (t := Tree.node t a c r) h
    exact ⟨h1.2.1, h1.2.2, h2⟩
  | right l a c up ih =>
    obtain ⟨h1, h2⟩ := ih (t := Tree.node l a c t) h
    exact ⟨h1.2.2, h1.2.1, h2⟩

theorem Tree.Walk.mono {P Q P' Q' : Tree → Prop} (hP : ∀ t, P t → P' t)
    (hQ : ∀ t, Q t → Q' t) {start : Nat} {t : Tree} (h : t.Walk P Q start) :
    t.Walk P' Q' start := by
  induction t with
  | nil => exact h
  | node l a c r ihl ihr =>
    rcases h with ⟨h1, h2, h3⟩ | ⟨h1, h2⟩ | ⟨h1, h2⟩
    · exact Or.inl ⟨h1, hP _ h2, hP _ h3⟩
    · exact Or.inr (Or.inl ⟨ihl h1, hQ _ h2⟩)
    · exact Or.inr (Or.inr ⟨hQ _ h1, ihr h2⟩)

theorem Tree.Walk.plug {P Q : Tree → Prop} {start : Nat} {k : Ctx} {t : Tree}
    (h : t.Walk P Q start) (hk : k.All Q) : (k.plug t).Walk P Q start := by
  induction k generalizing t with
  | top => exact h
  | left up a c r ih => exact ih (t := Tree.node t a c r) (Or.inr (Or.inl ⟨h, hk.1⟩)) hk.2
  | right l a c up ih => exact ih (t := Tree.node l a c t) (Or.inr (Or.inr ⟨hk.1, h⟩)) hk.2

theorem Tree.Walk.to_blacken {P Q : Tree → Prop} {start : Nat} {t : Tree}
    (h : t.Walk P Q start) : t.blacken.Walk P Q start := by
  cases t with
  | nil => exact h
  | node l a c r => exact h

/-- A walk-ready tree, as a focus on the start node. -/
theorem Tree.Walk.zip {P Q : Tree → Prop} {start : Nat} {t : Tree} (h : t.Walk P Q start) :
    ∃ k l c r, t = Ctx.plug k (Tree.node l start c r) ∧ P l ∧ P r ∧ k.All Q := by
  induction t with
  | nil => exact h.elim
  | node l a c r ihl ihr =>
    rcases h with ⟨h1, h2, h3⟩ | ⟨h1, h2⟩ | ⟨h1, h2⟩
    · subst h1
      exact ⟨Ctx.top, l, c, r, rfl, h2, h3, trivial⟩
    · obtain ⟨k, l', c', r', e, hl, hr, hk⟩ := ihl h1
      refine ⟨k.comp (Ctx.left Ctx.top a c r), l', c', r', ?_, hl, hr, ?_⟩
      · rw [Ctx.plug_comp, ← e]
        rfl
      · rw [Ctx.All_comp]
        exact ⟨hk, h2, trivial⟩
    · obtain ⟨k, l', c', r', e, hl, hr, hk⟩ := ihr h2
      refine ⟨k.comp (Ctx.right l a c Ctx.top), l', c', r', ?_, hl, hr, ?_⟩
      · rw [Ctx.plug_comp, ← e]
        rfl
      · rw [Ctx.All_comp]
        exact ⟨hk, h1, trivial⟩

theorem Tree.Sized.recolor {sz : Nat → Nat} {l r : Tree} {a : Nat} {c : Color} (c' : Color)
    (h : (Tree.node l a c r).Sized sz) : (Tree.node l a c' r).Sized sz := h

/-! ## The insert fixup leaves the tree ready for the walk of `rb_augment_insert` -/

theorem Tree.Walk.weaken {sz : Nat → Nat} {x : Nat} {t : Tree}
    (h : t.Walk (Tree.Sized sz) (Tree.Sized sz) x) :
    t.Walk (Tree.AlmostSized sz) (Tree.AlmostSized sz) x :=
  h.mono (fun _ h => h.almost) (fun _ h => h.almost)

theorem ins_loop_walk (sz : Nat → Nat) (x : Nat) (k : Ctx) (t T' : Tree)
    (h : ins_loop k t = some T') (hk : k.All (Tree.Sized sz))
    (ht : t.Walk (Tree.Sized sz) (Tree.Sized sz) x) :
    T'.Walk (Tree.AlmostSized sz) (Tree.AlmostSized sz) x := by
  induction k, t using ins_loop.induct generalizing T' with
  | case1 t =>
    simp [ins_loop] at h
    subst h
    exact ht.weaken
  | case2 up p s t =>
    simp [ins_loop] at h
    subst h
    exact Tree.Walk.plug (Or.inr (Or.inl ⟨ht.weaken, hk.1.almost⟩))
      (hk.2.imp (fun _ h => h.almost))
  | case3 s p up t =>
    simp [ins_loop] at h
    subst h
    exact Tree.Walk.plug (Or.inr (Or.inr ⟨hk.1.almost, ht.weaken⟩))
      (hk.2.imp (fun _ h => h.almost))
  | case4 p s t => simp [ins_loop] at h
  | case5 s p t => simp [ins_loop] at h
  | case6 up g gc p s t ul ua ur ih =>
    simp only [ins_loop] at h
    exact ih T' h hk.2.2
      (Or.inr (Or.inl ⟨Or.inr (Or.inl ⟨ht, hk.1⟩), hk.2.1.recolor RB_BLACK⟩))
  | case7 up g gc u p s t hu =>
    rw [ins_loop_LL_black (Tree.color_black_of_not_red (fun a b c e => hu a b c e))] at h
    simp only [Option.some.injEq] at h
    subst h
    exact Tree.Walk.plug (Or.inr (Or.inl ⟨ht.weaken, hk.1, hk.2.1⟩))
      (hk.2.2.imp (fun _ h => h.almost))
  | case8 g gc up p s t ul ua ur ih =>
    simp only [ins_loop] at h
    exact ih T' h hk.2.2
      (Or.inr (Or.inr ⟨hk.2.1.recolor RB_BLACK, Or.inr (Or.inl ⟨ht, hk.1⟩)⟩))
  | case9 u g gc up p s tl n c tr hu =>
    rw [ins_loop_RL_black (Tree.color_black_of_not_red (fun a b c e => hu a b c e))] at h
    simp only [Option.some.injEq] at h
    subst h
    refine Tree.Walk.plug ?_ (hk.2.2.imp (fun _ h => h.almost))
    rcases ht with ⟨h1, h2, h3⟩ | ⟨h1, h2⟩ | ⟨h1, h2⟩
    · exact Or.inl ⟨h1, ⟨hk.2.1, h2⟩, ⟨h3, hk.1⟩⟩
    · exact Or.inr (Or.inl ⟨Or.inr (Or.inr ⟨hk.2.1.almost, h1.weaken⟩), h2, hk.1⟩)
    · exact Or.inr (Or.inr ⟨⟨hk.2.1, h1⟩, Or.inr (Or.inl ⟨h2.weaken, hk.1.almost⟩)⟩)
  | case10 u g gc up p s hu =>
    exact ht.elim
  | case11 s p up g gc t ul ua ur ih =>
    simp only [ins_loop] at h
    exact ih T' h hk.2.2
      (Or.inr (Or.inl ⟨Or.inr (Or.inr ⟨hk.1, ht⟩), hk.2.1.recolor RB_BLACK⟩))
  | case12 s p up g gc u tl n c tr hu =>
    rw [ins_loop_LR_black (Tree.color_black_of_not_red (fun a b c e => hu a b c e))] at h
    simp only [Option.some.injEq] at h
    subst h
    refine Tree.Walk.plug ?_ (hk.2.2.imp (fun _ h => h.almost))
    rcases ht with ⟨h1, h2, h3⟩ | ⟨h1, h2⟩ | ⟨h1, h2⟩
    · exact Or.inl ⟨h1, ⟨hk.1, h2⟩, ⟨h3, hk.2.1⟩⟩
    · exact Or.inr (Or.inl ⟨Or.inr (Or.inr ⟨hk.1.almost, h1.weaken⟩), h2, hk.2.1⟩)
    · exact Or.inr (Or.inr ⟨⟨hk.1, h1⟩, Or.inr (Or.inl ⟨h2.weaken, hk.2.1.almost⟩)⟩)
  | case13 s p up g gc u hu =>
    exact ht.elim
  | case14 s p g gc up t ul ua ur ih =>
    simp only [ins_loop] at h
    exact ih T' h hk.2.2
      (Or.inr (Or.inr ⟨hk.2.1.recolor RB_BLACK, Or.inr (Or.inr ⟨hk.1, ht⟩)⟩))
  | case15 s p u g gc up t hu =>
    rw [ins_loop_RR_black (Tree.color_black_of_not_red (fun a b c e => hu a b c e))] at h
    simp only [Option.some.injEq] at h
    subst h
    exact Tree.Walk.plug (Or.inr (Or.inr ⟨⟨hk.2.1, hk.1⟩, ht.weaken⟩))
      (hk.2.2.imp (fun _ h => h.almost))

/-- The function `rb_augment_insert` with the size callback, on a node whose grandchildren
and whose siblings along the path hold right sizes below their roots. -/
theorem rb_augment_insert_sized {s : State} {T : Tree} {x : Nat} {sz : Nat → Nat}
    (hs : IsTree s T) (hw : T.Walk (Tree.AlmostSized sz) (Tree.AlmostSized sz) x)
    (fuel : Nat) (hf : T.size < fuel) :
    ∃ sz', rb_augment_insert fuel x update s sz = Res.ok sz' ∧ T.Sized sz' := by
  obtain ⟨k, l, c, r, rfl, hl, hr, hk⟩ := hw.zip
  have hz := IsZip.plug_iff.2 hs
  have hd := Ctx.depth_le_size k (Tree.node l x c r)
  simp only [Tree.size] at hd
  cases l with
  | node ll a ca lr =>
    have hz' : IsZip s (Ctx.left k x c r) (Tree.node ll a ca lr) := IsZip.left_iff.2 hz
    obtain ⟨sz', e, h'⟩ := rb_augment_path_sized (Ctx.left k x c r) sz hz' rfl hl ⟨hr, hk⟩ fuel
      (by simp only [Ctx.depth]; omega)
    refine ⟨sz', ?_, h'⟩
    simp only [rb_augment_insert, hz.mem_root, Tree.ptr_node]
    exact e
  | nil =>
    cases r with
    | node rl a ca rr =>
      have hz' : IsZip s (Ctx.right Tree.nil x c k) (Tree.node rl a ca rr) :=
        IsZip.right_iff.2 hz
      obtain ⟨sz', e, h'⟩ := rb_augment_path_sized (Ctx.right Tree.nil x c k) sz hz' rfl hr
        ⟨trivial, hk⟩ fuel (by simp only [Ctx.depth]; omega)
      refine ⟨sz', ?_, h'⟩
      simp only [rb_augment_insert, hz.mem_root, Tree.ptr_node, Tree.ptr_nil]
      exact e
    | nil =>
      obtain ⟨sz', e, h'⟩ := rb_augment_path_sized k sz hz rfl ⟨trivial, trivial⟩ hk fuel
        (by omega)
      refine ⟨sz', ?_, h'⟩
      simp only [rb_augment_insert, hz.mem_root, Tree.ptr_nil]
      exact e

/-! ## The erase fixup leaves the tree ready for the walk of `rb_augment_erase_end` -/

theorem Tree.Walk.relax {sz : Nat → Nat} {x : Nat} {t : Tree}
    (h : t.Walk (Tree.Sized sz) (Tree.Sized sz) x) :
    t.Walk (Tree.Sized sz) (Tree.AlmostSized sz) x :=
  h.mono (fun _ h => h) (fun _ h => h.almost)

theorem Focus.wrap_left {sz : Nat → Nat} {start p : Nat} {c : Color} {t r : Tree}
    (h : Focus sz start (some p) t) (hr : r.Sized sz) :
    (Tree.node t p c r).Walk (Tree.Sized sz) (Tree.Sized sz) start := by
  rcases h with h | ⟨rfl, e⟩
  · exact Or.inr (Or.inl ⟨h, hr⟩)
  · exact Or.inl ⟨Option.some.inj e, trivial, hr⟩

theorem Focus.wrap_right {sz : Nat → Nat} {start p : Nat} {c : Color} {t l : Tree}
    (h : Focus sz start (some p) t) (hl : l.Sized sz) :
    (Tree.node l p c t).Walk (Tree.Sized sz) (Tree.Sized sz) start := by
  rcases h with h | ⟨rfl, e⟩
  · exact Or.inr (Or.inr ⟨hl, h⟩)
  · exact Or.inl ⟨Option.some.inj e, hl, trivial⟩

/-- A focus placed back in its context. -/
theorem Focus.plug_walk {sz : Nat → Nat} {start : Nat} {k : Ctx} {t : Tree}
    (h : Focus sz start k.parent t) (hk : k.All (Tree.Sized sz)) :
    (k.plug t).Walk (Tree.Sized sz) (Tree.Sized sz) start := by
  cases k with
  | top =>
    rcases h with h | ⟨-, e⟩
    · exact h
    · simp [Ctx.parent] at e
  | left up p pc sib => exact Tree.Walk.plug (k := up) (Focus.wrap_left h hk.1) hk.2
  | right sib p pc up => exact Tree.Walk.plug (k := up) (Focus.wrap_right h hk.1) hk.2

theorem erase_rot_left_walk {sz : Nat → Nat} {start p o : Nat} {pc : Color}
    {sl sr t x : Tree} (h : erase_rot_left p pc sl o sr t = some x)
    (hf : Focus sz start (some p) t) (hsl : sl.Sized sz) (hsr : sr.Sized sz) :
    x.Walk (Tree.Sized sz) (Tree.AlmostSized sz) start := by
  unfold erase_rot_left at h
  split at h
  · cases sl with
    | nil => simp at h
    | node sll ol olc slr =>
      simp only [Option.some.injEq] at h
      subst h
      exact Or.inr (Or.inl ⟨(Focus.wrap_left hf hsl.2.1).relax, hsl.2.2, hsr⟩)
  · cases sr with
    | nil => simp at h
    | node srl orr orc srr =>
      simp only [Option.some.injEq] at h
      subst h
      exact Or.inr (Or.inl ⟨(Focus.wrap_left hf hsl).relax, hsr.2⟩)

theorem erase_rot_right_walk {sz : Nat → Nat} {start p o : Nat} {pc : Color}
    {sl sr t x : Tree} (h : erase_rot_right p pc sl o sr t = some x)
    (hf : Focus sz start (some p) t) (hsl : sl.Sized sz) (hsr : sr.Sized sz) :
    x.Walk (Tree.Sized sz) (Tree.AlmostSized sz) start := by
  unfold erase_rot_right at h
  split at h
  · cases sr with
    | nil => simp at h
    | node srl orr orc srr =>
      simp only [Option.some.injEq] at h
      subst h
      exact Or.inr (Or.inr ⟨⟨hsl, hsr.2.1⟩, (Focus.wrap_right hf hsr.2.2).relax⟩)
  · cases sl with
    | nil => simp at h
    | node sll ol olc slr =>
      simp only [Option.some.injEq] at h
      subst h
      exact Or.inr (Or.inr ⟨hsl.2, (Focus.wrap_right hf hsr).relax⟩)

/-- After the loop of `__rb_erase_color`, the start node of the walk has right sizes below
it, and the siblings along its path to the root have right sizes below their roots. -/
theorem erase_loop_walk (sz : Nat → Nat) (start : Nat) (k : Ctx) (t T' : Tree)
    (h : erase_loop k t = some T') (hk : k.All (Tree.Sized sz))
    (hf : Focus sz start k.parent t) :
    T'.Walk (Tree.Sized sz) (Tree.AlmostSized sz) start := by
  have hA : ∀ {up : Ctx}, up.All (Tree.Sized sz) → up.All (Tree.AlmostSized sz) :=
    fun h => h.imp (fun _ h => h.almost)
  induction k, t using erase_loop.induct generalizing T' with
  | case1 t =>
    simp only [erase_loop, Option.some.injEq] at h
    subst h
    exact (Focus.plug_walk hf hk).relax.to_blacken
  | case2 up p pc sib t hc =>
    simp only [erase_loop, hc, if_true, Option.some.injEq] at h
    subst h
    rcases hf with hf | ⟨rfl, -⟩
    · exact Tree.Walk.plug hf.relax.to_blacken (hA hk)
    · simp at hc
  | case3 up p pc t hc => simp [erase_loop, hc] at h
  | case4 up p pc t hc o sr => simp [erase_loop, hc] at h
  | case5 up p pc t hc o sr sll ol olc slr hb =>
    simp only [erase_loop, hc, if_false, hb, and_self, if_true, Option.some.injEq] at h
    subst h
    exact Tree.Walk.plug
      (Tree.Walk.relax (Or.inr (Or.inl ⟨Focus.wrap_left hf (hk.1.2.1.recolor RB_RED),
        hk.1.2.2⟩))) (hA hk.2)
  | case6 up p pc t hc o sr sll ol olc slr hb =>
    simp only [erase_loop, hc, if_false, hb] at h
    cases hx : erase_rot_left p RB_RED sll ol slr t with
    | none => simp [hx] at h
    | some x =>
      simp only [hx, Option.map_some', Option.some.injEq] at h
      subst h
      exact (Tree.Walk.plug (t := Tree.node x o RB_BLACK sr) (Or.inr (Or.inl
        ⟨erase_rot_left_walk hx hf hk.1.2.1.2.1 hk.1.2.1.2.2, hk.1.2.2.almost⟩))
        (hA hk.2)).to_blacken
  | case7 up p pc t hc sl o sr hb ih =>
    simp only [erase_loop, hc, if_false, hb, and_self, if_true] at h
    exact ih T' h hk.2 (Or.inl (Focus.wrap_left hf (hk.1.recolor RB_RED)))
  | case8 up p pc t hc sl o sr hb =>
    simp only [erase_loop, hc, if_false, hb] at h
    cases hx : erase_rot_left p pc sl o sr t with
    | none => simp [hx] at h
    | some x =>
      simp only [hx, Option.map_some', Option.some.injEq] at h
      subst h
      exact (Tree.Walk.plug (erase_rot_left_walk hx hf hk.1.2.1 hk.1.2.2) (hA hk.2)).to_blacken
  | case9 sib p pc up t hc =>
    simp only [erase_loop, hc, if_true, Option.some.injEq] at h
    subst h
    rcases hf with hf | ⟨rfl, -⟩
    · exact Tree.Walk.plug hf.relax.to_blacken (hA hk)
    · simp at hc
  | case10 p pc up t hc => simp [erase_loop, hc] at h
  | case11 p pc up t hc sl o => simp [erase_loop, hc] at h
  | case12 p pc up t hc sl o srl orr orc srr hb =>
    simp only [erase_loop, hc, if_false, hb, and_self, if_true, Option.some.injEq] at h
    subst h
    exact Tree.Walk.plug
      (Tree.Walk.relax (Or.inr (Or.inr ⟨hk.1.2.1,
        Focus.wrap_right hf (hk.1.2.2.recolor RB_RED)⟩))) (hA hk.2)
  | case13 p pc up t hc sl o srl orr orc srr hb =>
    simp only [erase_loop, hc, if_false, hb] at h
    cases hx : erase_rot_right p RB_RED srl orr srr t with
    | none => simp [hx] at h
    | some x =>
      simp only [hx, Option.map_some', Option.some.injEq] at h
      subst h
      exact (Tree.Walk.plug (t := Tree.node sl o RB_BLACK x) (Or.inr (Or.inr
        ⟨hk.1.2.1.almost, erase_rot_right_walk hx hf hk.1.2.2.2.1 hk.1.2.2.2.2⟩))
        (hA hk.2)).to_blacken
  | case14 p pc up t hc sl o sr hb ih =>
    simp only [erase_loop, hc, if_false, hb, and_self, if_true] at h
    exact ih T' h hk.2 (Or.inl (Focus.wrap_right hf (hk.1.recolor RB_RED)))
  | case15 p pc up t hc sl o sr hb =>
    simp only [erase_loop, hc, if_false, hb] at h
    cases hx : erase_rot_right p pc sl o sr t with
    | none => simp [hx] at h
    | some x =>
      simp only [hx, Option.map_some', Option.some.injEq] at h
      subst h
      exact (Tree.Walk.plug (erase_rot_right_walk hx hf hk.1.2.1 hk.1.2.2) (hA hk.2)).to_blacken

theorem erase_finish_walk {sz : Nat → Nat} {start : Nat} {col : Color} {k : Ctx}
    {t T' : Tree} (h : erase_finish col k t = some T') (hk : k.All (Tree.Sized sz))
    (hf : Focus sz start k.parent t) :
    T'.Walk (Tree.Sized sz) (Tree.AlmostSized sz) start := by
  unfold erase_finish at h
  split at h
  · exact erase_loop_walk sz start k t T' h hk hf
  · simp only [Option.some.injEq] at h
    subst h
    exact (Focus.plug_walk hf hk).relax

/-! ## The start of the walk after an erase -/

theorem descend_left_eq_leftmost (fuel : Nat) (n : Nat) (s : State) :
    descend_left fuel n s = leftmost fuel n s := by
  induction fuel generalizing n with
  | zero => rfl
  | succ f ih =>
    simp only [descend_left, leftmost]
    cases (s.mem n).rb_left with
    | none => rfl
    | some l => exact ih l

/-- The function `rb_augment_erase_begin` computes `erase_deepest`. -/
theorem rb_augment_erase_begin_refines {s : State} {k : Ctx} {l r : Tree} {a : Nat}
    {c : Color} (h : IsZip s k (Tree.node l a c r)) (fuel : Nat)
    (hf : (k.plug (Tree.node l a c r)).size < fuel) :
    rb_augment_erase_begin fuel a s = Res.ok (erase_deepest k (Tree.node l a c r)) := by
  have hm := h.mem_root
  cases l with
  | nil =>
    cases r with
    | nil => simp [rb_augment_erase_begin, hm, erase_deepest, rb_parent]
    | node rl r0 rc rr => simp [rb_augment_erase_begin, hm, erase_deepest]
  | node ll l0 lc lr =>
    cases r with
    | nil => simp [rb_augment_erase_begin, hm, erase_deepest]
    | node rl r0 rc rr =>
      obtain ⟨m, mc, mr, hsh⟩ := Tree.zoom_min_shape rl r0 rc rr Ctx.top
      have hp := Tree.zoom_min_plug (Tree.node rl r0 rc rr) Ctx.top
      have hb := Tree.zoom_min_before (Tree.node rl r0 rc rr) Ctx.top
      generalize hz : (Tree.node rl r0 rc rr).zoom_min Ctx.top = z at hsh hp hb
      obtain ⟨kk, tm⟩ := z
      simp only at hsh hp hb
      subst hsh
      have hio : (Tree.node rl r0 rc rr).inorder = m :: (mr.inorder ++ kk.after) := by
        have := congrArg Tree.inorder hp
        rw [Ctx.inorder_plug, hb] at this
        simpa [Ctx.plug, Tree.inorder, Ctx.before] using this.symm
      have hnext := rb_next_zip h fuel hf
      rw [hio] at hnext
      have hzm : IsZip s (kk.comp (Ctx.right (Tree.node ll l0 lc lr) a c k))
          (Tree.node Tree.nil m mc mr) := by
        rw [IsZip.comp_iff, hp]
        exact IsZip.right_iff.2 h
      have hmm := hzm.mem_root
      simp only [rb_augment_erase_begin, hm, Tree.ptr_node, reduceCtorEq, and_self, if_false,
        hnext, List.cons_append, List.head?_cons, Res.bind, hmm, rb_parent, erase_deepest, hz]
      cases mr with
      | node mrl x cx mrr => rfl
      | nil =>
        simp only [Tree.ptr_nil]
        split <;> rfl

theorem Tree.Sized.focus_root {sz : Nat → Nat} {l r : Tree} {a : Nat} {c : Color} {par : Ptr}
    (h : (Tree.node l a c r).Sized sz) : Focus sz a par (Tree.node l a c r) :=
  Or.inl (Or.inl ⟨rfl, h.2.1, h.2.2⟩)

/-- After `rb_erase`, the node found by `rb_augment_erase_begin` has right sizes below it,
and the siblings along its path to the root have right sizes below their roots; when
there is no such node the tree is empty. -/
theorem erase_tree_walk {sz : Nat → Nat} {k : Ctx} {l r T' : Tree} {a : Nat} {c : Color}
    (h : erase_tree k (Tree.node l a c r) = some T')
    (hS : (k.plug (Tree.node l a c r)).Sized sz)
    (hnd : (k.plug (Tree.node l a c r)).inorder.Nodup) :
    match erase_deepest k (Tree.node l a c r) with
    | some d => T'.Walk (Tree.Sized sz) (Tree.AlmostSized sz) d
    | none => T' = Tree.nil := by
  obtain ⟨ht, hk⟩ := hS.of_plug
  cases l with
  | nil =>
    cases r with
    | nil =>
      simp only [erase_tree, erase_deepest] at h ⊢
      cases hp : k.parent with
      | none =>
        cases k with
        | top =>
          simp only [erase_finish, erase_loop, Tree.blacken, Ctx.plug, ite_self,
            Option.some.injEq] at h
          exact h.symm
        | left up p pc sib => simp [Ctx.parent] at hp
        | right sib p pc up => simp [Ctx.parent] at hp
      | some d => exact erase_finish_walk h hk (Or.inr ⟨rfl, hp⟩)
    | node rl r0 rc rr =>
      simp only [erase_tree, erase_deepest] at h ⊢
      exact erase_finish_walk h hk ht.2.2.focus_root
  | node ll l0 lc lr =>
    cases r with
    | nil =>
      simp only [erase_tree, erase_deepest] at h ⊢
      exact erase_finish_walk h hk ht.2.1.focus_root
    | node rl r0 rc rr =>
      obtain ⟨m, mc, mr, hsh⟩ := Tree.zoom_min_shape rl r0 rc rr Ctx.top
      have hp := Tree.zoom_min_plug (Tree.node rl r0 rc rr) Ctx.top
      generalize hz : (Tree.node rl r0 rc rr).zoom_min Ctx.top = z at hsh hp
      obtain ⟨kk, tm⟩ := z
      simp only at hsh hp
      subst hsh
      simp only [erase_tree, erase_deepest, hz] at h ⊢
      have hr : (kk.plug (Tree.node Tree.nil m mc mr)).Sized sz := by
        rw [hp]
        exact ht.2.2
      obtain ⟨hm, hkk⟩ := hr.of_plug
      have hK : (kk.comp (Ctx.right (Tree.node ll l0 lc lr) m c k)).All (Tree.Sized sz) := by
        rw [Ctx.All_comp]
        exact ⟨hkk, ht.2.1, hk⟩
      cases mr with
      | node mrl x cx mrr => exact erase_finish_walk h hK hm.2.2.focus_root
      | nil =>
        simp only
        cases kk with
        | top =>
          simp only [Ctx.comp, Ctx.parent, ne_eq, not_true_eq_false, if_false]
          exact erase_finish_walk h hK (Or.inr ⟨rfl, rfl⟩)
        | left up q qc qr =>
          have hq : q ≠ a := by
            rintro rfl
            have hq : q ∈ (Tree.node rl r0 rc rr).inorder := by
              change _ = Tree.node rl r0 rc rr at hp
              rw [← hp, Ctx.inorder_plug]
              simp [Ctx.after]
            rw [Ctx.inorder_plug] at hnd
            have := (List.nodup_append.1 hnd).2.1
            simp only [Tree.inorder] at this hq
            have h2 := (List.nodup_append.1 this).1
            have h3 := (List.nodup_append.1 h2).2.1
            exact (List.nodup_cons.1 h3).1 hq
          simp only [Ctx.comp, Ctx.parent, ne_eq, Option.some.injEq, hq, not_false_eq_true,
            if_true]
          exact erase_finish_walk h hK (Or.inr ⟨rfl, rfl⟩)
        | right ql q qc up =>
          have hq : q ≠ a := by
            rintro rfl
            have hq : q ∈ (Tree.node rl r0 rc rr).inorder := by
              change _ = Tree.node rl r0 rc rr at hp
              rw [← hp, Ctx.inorder_plug]
              simp [Ctx.before]
            rw [Ctx.inorder_plug] at hnd
            have := (List.nodup_append.1 hnd).2.1
            simp only [Tree.inorder] at this hq
            have h2 := (List.nodup_append.1 this).1
            have h3 := (List.nodup_append.1 h2).2.1
            exact (List.nodup_cons.1 h3).1 hq
          simp only [Ctx.comp, Ctx.parent, ne_eq, Option.some.injEq, hq, not_false_eq_true,
            if_true]
          exact erase_finish_walk h hK (Or.inr ⟨rfl, rfl⟩)

theorem Ctx.plug_inorder_replace (k : Ctx) (l r : Tree) (a b : Nat) (c : Color)
    (h : (k.plug (Tree.node l a c r)).inorder.Nodup)
    (hb : b ∉ (k.plug (Tree.node l a c r)).inorder) :
    (k.plug (Tree.node l b c r)).inorder.Nodup := by
  rw [Ctx.inorder_plug] at h hb ⊢
  simp only [Tree.inorder, List.nodup_append, List.nodup_cons, List.mem_append, List.mem_cons,
    List.disjoint_append_left, List.disjoint_append_right, List.disjoint_cons_left,
    List.disjoint_cons_right, not_or] at h hb ⊢
  tauto

set_option maxHeartbeats 1000000 in
/-- The function `rb_replace_node` puts `new` in the place of `victim`, with the subtrees,
the colour and the context of `victim`. -/
theorem IsZip.replace {s : State} {k : Ctx} {l r : Tree} {v new : Nat} {c : Color}
    (h : IsZip s k (Tree.node l v c r)) (hn : new ∉ (k.plug (Tree.node l v c r)).inorder) :
    IsZip (rb_replace_node v new s) k (Tree.node l new c r) := by
  have hnd := h.nodup
  have hnd2 := Ctx.plug_inorder_replace k l r v new c h.2.2 hn
  rw [Ctx.inorder_plug] at hn
  obtain ⟨h1, ⟨ha, h2, h3⟩, -⟩ := h
  refine ⟨?_, ?_, hnd2⟩
  all_goals
    cases k <;> cases l <;> cases r <;>
    simp only [Tree.inorder, Ctx.before, Ctx.after, List.nodup_append, List.nodup_cons,
      List.mem_append, mem_cons_sym, not_and_sym, List.disjoint_append_left,
      List.disjoint_append_right,
      List.disjoint_cons_left, List.disjoint_cons_right, List.append_assoc,
      List.cons_append, List.nil_append, List.append_nil, List.not_mem_nil,
      List.disjoint_nil_left, List.disjoint_nil_right, List.nodup_nil,
      not_or, not_false_eq_true, true_and, and_true, Ctx.parent_top, Ctx.parent_left,
      Ctx.parent_right, Tree.ptr_nil, Tree.ptr_node, Ctx.Own,
      Tree.Own, node_ext_iff, rb_replace_node, rb_parent] at hnd hn h1 h2 h3 ha ⊢
  all_goals (try casesm* _ ∧ _)
  all_goals (try simp only [set_left_left, set_right_left, rb_set_parent_left, rb_set_color_left,
    set_left_right, set_right_right, rb_set_parent_right, rb_set_color_right,
    set_left_parent, set_right_parent, rb_set_parent_parent, rb_set_color_parent,
    set_left_color, set_right_color, rb_set_parent_color, rb_set_color_color, set_root_mem,
    store_mem, store_root, set_root_root,
    Tree.ne_ptr_of_not_mem, Tree.ptr_ne_of_not_mem, if_true, if_false, not_false_eq_true, *])
  all_goals (repeat' apply And.intro)
  all_goals first
    | (simp [*, Tree.ptr_ne_of_not_mem, Tree.ne_ptr_of_not_mem, store_mem]; done)
    | (refine tree_own_frame_of (by assumption) (by
          with_reducible repeat (first | exact Agree.refl _ | apply Agree.store | apply Agree.set_left | apply Agree.set_right | apply Agree.rb_set_parent | apply Agree.rb_set_color | apply Agree.set_parent_color | apply Agree.set_root | apply Agree.ite)) ?_
       simp [*]; done)
    | (refine ctx_own_frame_of (by assumption) (by
          with_reducible repeat (first | exact Agree.refl _ | apply Agree.store | apply Agree.set_left | apply Agree.set_right | apply Agree.rb_set_parent | apply Agree.rb_set_color | apply Agree.set_parent_color | apply Agree.set_root | apply Agree.ite)) ?_ ?_
       <;> simp [*] <;> done)

set_option maxHeartbeats 1000000 in
/-- The function `rb_replace_node` writes only the record of `new`, the child slot of the
parent of `victim` and the parent links of the children of `victim`. -/
theorem rb_replace_node_frame {s : State} {k : Ctx} {l r : Tree} {v new : Nat} {c : Color}
    (h : IsZip s k (Tree.node l v c r)) (x : Nat) (h1 : x ≠ new) (h2 : some x ≠ k.parent)
    (h3 : some x ≠ l.ptr) (h4 : some x ≠ r.ptr) :
    (rb_replace_node v new s).mem x = s.mem x := by
  have hnd := h.nodup
  obtain ⟨g1, ⟨ha, g2, g3⟩, -⟩ := h
  cases k <;> cases l <;> cases r <;>
    simp only [Tree.inorder, Ctx.before, Ctx.after, List.nodup_append, List.nodup_cons,
      List.mem_append, mem_cons_sym, not_and_sym, List.disjoint_append_left,
      List.disjoint_append_right,
      List.disjoint_cons_left, List.disjoint_cons_right, List.append_assoc,
      List.cons_append, List.nil_append, List.append_nil, List.not_mem_nil,
      List.disjoint_nil_left, List.disjoint_nil_right, List.nodup_nil,
      not_or, not_false_eq_true, true_and, and_true, Ctx.parent_top, Ctx.parent_left,
      Ctx.parent_right, Tree.ptr_nil, Tree.ptr_node, ne_eq, Option.some.injEq, reduceCtorEq,
      Ctx.Own, Tree.Own, node_ext_iff, rb_replace_node, rb_parent] at hnd h2 h3 h4 ha g1 g2 g3 ⊢
  all_goals (try casesm* _ ∧ _)
  all_goals (simp only [set_left_left, set_right_left, rb_set_parent_left, rb_set_color_left,
    set_left_right, set_right_right, rb_set_parent_right, rb_set_color_right,
    set_left_parent, set_right_parent, rb_set_parent_parent, rb_set_color_parent,
    set_left_color, set_right_color, rb_set_parent_color, rb_set_color_color, set_root_mem,
    store_mem, store_root, set_root_root,
    Tree.ne_ptr_of_not_mem, Tree.ptr_ne_of_not_mem, if_true, if_false, not_false_eq_true, *])
  all_goals
    simp [rb_set_parent, set_left, set_right, set_root, store_mem, *]

theorem rb_replace_node_root (v new : Nat) (s : State) :
    (rb_replace_node v new s).root =
      match rb_parent s v with
      | some _ => s.root
      | none => some new := by
  simp only [rb_replace_node, store_root]
  cases rb_parent s v with
  | none =>
    simp only
    split <;> split <;> rfl
  | some p =>
    simp only
    split <;> split <;> split <;> rfl

/-! ## Bounded height -/

theorem Tree.Own.own_unique {s : State} {T T' : Tree} {par par' : Ptr} (h : Tree.Own s par T)
    (h' : Tree.Own s par' T') (hp : T.ptr = T'.ptr) : T = T' := by
  induction T generalizing T' par par' with
  | nil =>
    cases T' with
    | nil => rfl
    | node l a c r => simp [Tree.ptr] at hp
  | node l a c r ihl ihr =>
    cases T' with
    | nil => simp [Tree.ptr] at hp
    | node l' a' c' r' =>
      simp only [Tree.ptr_node, Option.some.injEq] at hp
      subst hp
      obtain ⟨h1, h2, h3⟩ := h
      obtain ⟨h1', h2', h3'⟩ := h'
      rw [h1] at h1'
      simp only [rb_node.mk.injEq] at h1'
      obtain ⟨-, rfl, e1, e2⟩ := h1'
      rw [ihl h2 h2' e2, ihr h3 h3' e1]

/-- A state holds at most one tree. -/
theorem IsTree.unique {s : State} {T T' : Tree} (h : IsTree s T) (h' : IsTree s T') : T = T' :=
  Tree.Own.own_unique h.2.1 h'.2.1 (h.1.symm.trans h'.1)

/-- Every reachable state holds a valid red-black tree. -/
theorem Reachable.valid {s : State} (h : Reachable s) : ∃ T, IsTree s T ∧ T.rb_valid := by
  induction h with
  | empty s h0 =>
    exact ⟨Tree.nil, ⟨h0, trivial, List.nodup_nil⟩, trivial, by simp [Tree.black_balanced,
      Tree.black_counts], rfl⟩
  | insert s k node fuel s' _ hs hn hf e ih =>
    obtain ⟨T, hT, hv⟩ := ih
    have := hT.unique hs
    subst this
    obtain ⟨s'', T0, -, hn0, hb0, e', h'⟩ := rb_insert_color_runs s k node hs hv hn fuel hf
    rw [e] at e'
    injection e' with e'
    subst e'
    exact ⟨T0.blacken, h', Tree.blacken_no_red_red hn0,
      (Tree.black_balanced_iff _).2 (Tree.blacken_bal hb0), Tree.blacken_color _⟩
  | erase s T node fuel s' _ hs hm hf e ih =>
    obtain ⟨T0, hT, hv⟩ := ih
    have := hT.unique hs
    subst this
    obtain ⟨s'', T', -, -, -, -, -, -, e', h', hv', -⟩ := rb_erase_runs s T0 node fuel hs hv hm hf
    rw [e] at e'
    injection e' with e'
    subst e'
    exact ⟨T', h', hv'⟩

theorem Tree.pow_bh_le_size {t : Tree} (hb : t.bal) : 2 ^ t.bh ≤ t.size + 1 := by
  induction t with
  | nil => simp [Tree.bh, Tree.size]
  | node l a c r ihl ihr =>
    obtain ⟨h1, h2, h3⟩ := hb
    have i1 := ihl h1
    have i2 := ihr h2
    rw [← h3] at i2
    simp only [Tree.bh, Tree.size]
    split
    · rw [pow_succ]
      omega
    · omega

theorem Tree.height_le_bh {t : Tree} (hb : t.bal) (hn : t.no_red_red) :
    t.height ≤ 2 * t.bh + (if t.color = RB_RED then 1 else 0) := by
  induction t with
  | nil => simp [Tree.height]
  | node l a c r ihl ihr =>
    obtain ⟨h1, h2, h3⟩ := hb
    obtain ⟨g1, g2, g3⟩ := hn
    have i1 := ihl h1 g2
    have i2 := ihr h2 g3
    rw [← h3] at i2
    simp only [Tree.height, Tree.bh, Tree.color_node]
    cases c with
    | RB_RED =>
      obtain ⟨c1, c2⟩ := g1 rfl
      simp only [c1, c2, reduceCtorEq, if_false, if_true] at i1 i2 ⊢
      omega
    | RB_BLACK =>
      simp only [reduceCtorEq, if_false, if_true] at i1 i2 ⊢
      split at i1 <;> split at i2 <;> omega

/-- The height bound of a valid red-black tree, in the form `2 ^ height ≤ (n + 1) ^ 2`. -/
theorem Tree.rb_valid.pow_height {T : Tree} (hv : T.rb_valid) :
    2 ^ T.height ≤ (T.size + 1) ^ 2 := by
  obtain ⟨h1, h2, h3⟩ := hv
  rw [Tree.black_balanced_iff] at h2
  have a := Tree.height_le_bh h2 h1
  have b := Tree.pow_bh_le_size h2
  simp only [h3, reduceCtorEq, if_false, add_zero] at a
  calc 2 ^ T.height ≤ 2 ^ (2 * T.bh) := Nat.pow_le_pow_right (by decide) a
    _ = (2 ^ T.bh) ^ 2 := by rw [Nat.mul_comm, pow_mul]
    _ ≤ (T.size + 1) ^ 2 := Nat.pow_le_pow_left b 2

theorem height_le_logb {h n : Nat} (hb : 2 ^ h ≤ (n + 1) ^ 2) :
    (h : ℝ) ≤ 2 * Real.logb 2 ((n : ℝ) + 1) := by
  have h1 : ((2 : ℝ) ^ h) ≤ ((n : ℝ) + 1) ^ 2 := by exact_mod_cast hb
  have h2 : Real.logb 2 ((2 : ℝ) ^ h) ≤ Real.logb 2 (((n : ℝ) + 1) ^ 2) :=
    Real.logb_le_logb_of_le (by norm_num) (by positivity) h1
  rw [Real.logb_pow, Real.logb_self_eq_one (by norm_num), mul_one] at h2
  rw [Real.logb_pow] at h2
  exact_mod_cast h2

/-! ## More fuel does not change a result -/

/-- The outcome `r'` is `r`, or `r` ran out of fuel. -/
theorem res_le_bind {α β : Type} {x x' : Res α} {f g : α → Res β}
    (hx : x = Res.out_of_fuel ∨ x = x')
    (hf : ∀ y, f y = Res.out_of_fuel ∨ f y = g y) :
    x.bind f = Res.out_of_fuel ∨ x.bind f = x'.bind g := by
  rcases hx with hx | hx
  · left
    rw [hx]
    rfl
  · subst hx
    cases x with
    | ok a => exact hf a
    | null_deref => right; rfl
    | out_of_fuel => left; rfl

theorem rb_insert_color_loop_mono (fuel : Nat) : ∀ (node : Nat) (s : State),
    rb_insert_color_loop fuel node s = Res.out_of_fuel ∨
      rb_insert_color_loop fuel node s = rb_insert_color_loop (fuel + 1) node s := by
  induction fuel with
  | zero => intro node s; left; rfl
  | succ f ih =>
    intro node s
    rw [rb_insert_color_loop, rb_insert_color_loop]
    dsimp only
    repeat' split
    all_goals first
      | exact Or.inr rfl
      | exact ih _ _
      | (refine res_le_bind (Or.inr rfl) (fun y => ?_)
         refine res_le_bind (Or.inr rfl) (fun z => ?_)
         exact ih _ _)

theorem rb_insert_color_mono (fuel : Nat) (node : Nat) (s : State) :
    rb_insert_color fuel node s = Res.out_of_fuel ∨
      rb_insert_color fuel node s = rb_insert_color (fuel + 1) node s :=
  res_le_bind (rb_insert_color_loop_mono fuel node s) (fun _ => Or.inr rfl)

theorem erase_color_left_mono {again again' : Ptr → Ptr → State → Res State}
    (h : ∀ a b c, again a b c = Res.out_of_fuel ∨ again a b c = again' a b c)
    (par other : Nat) (s : State) :
    erase_color_left again par other s = Res.out_of_fuel ∨
      erase_color_left again par other s = erase_color_left again' par other s := by
  unfold erase_color_left
  split
  · exact h _ _ _
  · exact Or.inr rfl

theorem erase_color_right_mono {again again' : Ptr → Ptr → State → Res State}
    (h : ∀ a b c, again a b c = Res.out_of_fuel ∨ again a b c = again' a b c)
    (par other : Nat) (s : State) :
    erase_color_right again par other s = Res.out_of_fuel ∨
      erase_color_right again par other s = erase_color_right again' par other s := by
  unfold erase_color_right
  split
  · exact h _ _ _
  · exact Or.inr rfl

theorem rb_erase_color_mono (fuel : Nat) : ∀ (node parent : Ptr) (s : State),
    __rb_erase_color fuel node parent s = Res.out_of_fuel ∨
      __rb_erase_color fuel node parent s = __rb_erase_color (fuel + 1) node parent s := by
  induction fuel with
  | zero => intro node parent s; left; rfl
  | succ f ih =>
    intro node parent s
    rw [rb_erase_color_succ, rb_erase_color_succ]
    repeat' split
    all_goals first
      | exact Or.inr rfl
      | exact res_le_bind (Or.inr rfl) (fun y => erase_color_left_mono ih _ _ _)
      | exact res_le_bind (Or.inr rfl) (fun y => erase_color_right_mono ih _ _ _)

theorem leftmost_mono (fuel : Nat) : ∀ (node : Nat) (s : State),
    leftmost fuel node s = Res.out_of_fuel ∨
      leftmost fuel node s = leftmost (fuel + 1) node s := by
  induction fuel with
  | zero => intro node s; left; rfl
  | succ f ih =>
    intro node s
    rw [leftmost_succ, leftmost_succ]
    split
    · exact ih _ _
    · exact Or.inr rfl

theorem rb_erase_color_step_mono (fuel : Nat) (color : Color) (child parent : Ptr)
    (s : State) :
    rb_erase_color_step fuel color child parent s = Res.out_of_fuel ∨
      rb_erase_color_step fuel color child parent s =
        rb_erase_color_step (fuel + 1) color child parent s := by
  unfold rb_erase_color_step
  split
  · exact rb_erase_color_mono fuel _ _ _
  · exact Or.inr rfl

theorem rb_erase_mono (fuel : Nat) (node : Nat) (s : State) :
    rb_erase fuel node s = Res.out_of_fuel ∨
      rb_erase fuel node s = rb_erase (fuel + 1) node s := by
  unfold rb_erase rb_erase_one_child
  dsimp only
  repeat' split
  all_goals first
    | exact rb_erase_color_step_mono fuel _ _ _ _
    | (refine res_le_bind (leftmost_mono fuel _ _) (fun y => ?_)
       refine res_le_bind (Or.inr rfl) (fun z => ?_)
       repeat' split
       all_goals first
         | exact Or.inr rfl
         | exact rb_erase_color_step_mono fuel _ _ _ _)

/-- A result other than `out_of_fuel` stays the same with any larger fuel. -/
theorem mono_of_step {α : Type} (F : Nat → Res α)
    (h : ∀ f, F f = Res.out_of_fuel ∨ F f = F (f + 1)) (f f' : Nat) (hf : f ≤ f') :
    F f = Res.out_of_fuel ∨ F f = F f' := by
  induction hf with
  | refl => exact Or.inr rfl
  | step _ ih =>
    rcases ih with ih | ih
    · exact Or.inl ih
    · rcases h _ with h1 | h1
      · left; rw [ih, h1]
      · right; rw [ih, h1]

/-- When some fuel gives a returned state, no fuel gives a null dereference. -/
theorem no_null_of_ok {α : Type} (F : Nat → Res α)
    (h : ∀ f, F f = Res.out_of_fuel ∨ F f = F (f + 1)) {f0 : Nat} {a : α}
    (h0 : F f0 = Res.ok a) (f : Nat) : F f ≠ Res.null_deref := by
  intro e
  rcases Nat.le_total f f0 with hle | hle
  · rcases mono_of_step F h f f0 hle with h1 | h1
    · rw [e] at h1; cases h1
    · rw [e, h0] at h1; cases h1
  · rcases mono_of_step F h f0 f hle with h1 | h1
    · rw [h0] at h1; cases h1
    · rw [h0, e] at h1; cases h1

/-! ## The structural part of `rb_erase` on every well-formed tree -/

/-- The function `rb_erase` up to the label `color:`: it unlinks the node and hands the
focus `child` in the context `K` to the fixup, as `erase_tree` does. -/
theorem rb_erase_split {s : State} {k : Ctx} {l r : Tree} {a : Nat} {c : Color}
    (h : IsZip s k (Tree.node l a c r)) (fuel : Nat)
    (hf : (k.plug (Tree.node l a c r)).size < fuel) :
    ∃ s1 K child col,
      rb_erase fuel a s = rb_erase_color_step fuel col child.ptr K.parent s1 ∧
      IsZip s1 K child ∧ K.depth + 1 < fuel ∧
      erase_tree k (Tree.node l a c r) = erase_finish col K child := by
  have ha := h.mem_root
  have hsz := Ctx.size_plug k (Tree.node l a c r)
  cases l with
  | nil =>
    have z := h.splice_left_nil
    have hd := Ctx.depth_le_size k r
    have := hsz r
    simp only [Tree.size] at this
    refine ⟨_, k, r, c, ?_, z, by omega, by simp only [erase_tree]⟩
    simp [rb_erase, ha, rb_erase_one_child, rb_parent, rb_color] <;> rfl
  | node ll l0 lc lr =>
    cases r with
    | nil =>
      have z := h.splice_right_nil
      have hd := Ctx.depth_le_size k (Tree.node ll l0 lc lr)
      have := hsz (Tree.node ll l0 lc lr)
      simp only [Tree.size] at this hd
      refine ⟨_, k, Tree.node ll l0 lc lr, c, ?_, z, by omega, by simp only [erase_tree]⟩
      simp [rb_erase, ha, rb_erase_one_child, rb_parent, rb_color] <;> rfl <;> rfl
    | node rl r0 rc rr =>
      cases rl with
      | nil =>
        obtain ⟨f, rfl⟩ : ∃ f, fuel = f + 1 := ⟨fuel - 1, by omega⟩
        obtain ⟨s1, e1, z⟩ := erase_two_near h f
        have z' := IsZip.right_iff.2 z
        have hd := Ctx.depth_le_size (Ctx.right (Tree.node ll l0 lc lr) r0 c k) rr
        have := hsz (Tree.node (Tree.node ll l0 lc lr) r0 c rr)
        simp only [Tree.size, Ctx.plug] at this hd
        exact ⟨s1, Ctx.right (Tree.node ll l0 lc lr) r0 c k, rr, rc, e1, z', by omega,
          by simp only [erase_tree, Tree.zoom_min, Ctx.comp]⟩
      | node rll x cx rlr =>
        cases rll with
        | nil =>
          have hs2 : 2 ≤ fuel := by
            have := Ctx.depth_le_size k (Tree.node (Tree.node ll l0 lc lr) a c
              (Tree.node (Tree.node Tree.nil x cx rlr) r0 rc rr))
            simp only [Tree.size] at this
            omega
          obtain ⟨f, rfl⟩ : ∃ f, fuel = f + 2 := ⟨fuel - 2, by omega⟩
          obtain ⟨s1, e1, z⟩ := erase_two_mid h f
          have z' := IsZip.left_iff.2 (IsZip.right_iff.2 z)
          have hd := Ctx.depth_le_size
            (Ctx.left (Ctx.right (Tree.node ll l0 lc lr) x c k) r0 rc rr) rlr
          have := hsz (Tree.node (Tree.node ll l0 lc lr) x c (Tree.node rlr r0 rc rr))
          simp only [Tree.size, Ctx.plug] at this hd
          exact ⟨s1, Ctx.left (Ctx.right (Tree.node ll l0 lc lr) x c k) r0 rc rr, rlr, cx, e1, z', by omega,
            by simp only [erase_tree, Tree.zoom_min, Ctx.comp]⟩
        | node y1 y2 y3 y4 =>
          obtain ⟨up', q, qc, qr, hk2⟩ :=
            Tree.zoom_min_left (Tree.node y1 y2 y3 y4) Ctx.top x cx rlr
          obtain ⟨m, mc, mr, ht2⟩ := Tree.zoom_min_shape y1 y2 y3 y4 (Ctx.left Ctx.top x cx rlr)
          have hz1 : (Tree.node (Tree.node y1 y2 y3 y4) x cx rlr).zoom_min Ctx.top =
              (Ctx.left up' q qc qr, Tree.node Tree.nil m mc mr) := by
            rw [Tree.zoom_min]
            exact Prod.ext hk2 ht2
          have hz2 : (Tree.node (Tree.node (Tree.node y1 y2 y3 y4) x cx rlr) r0 rc rr).zoom_min
              Ctx.top = ((Ctx.left up' q qc qr).comp (Ctx.left Ctx.top r0 rc rr),
                Tree.node Tree.nil m mc mr) := by
            rw [Tree.zoom_min, Tree.zoom_min_comp, hz1]
          have hplug : (Ctx.left up' q qc qr).plug (Tree.node Tree.nil m mc mr) =
              Tree.node (Tree.node y1 y2 y3 y4) x cx rlr := by
            have := Tree.zoom_min_plug (Tree.node (Tree.node y1 y2 y3 y4) x cx rlr) Ctx.top
            rw [hz1] at this
            exact this
          have hb : up'.before = [] := by
            have := Tree.zoom_min_before (Tree.node (Tree.node y1 y2 y3 y4) x cx rlr) Ctx.top
            rw [hz1] at this
            exact this
          have hT : erase_tree k (Tree.node (Tree.node ll l0 lc lr) a c
              (Tree.node (Tree.node (Tree.node y1 y2 y3 y4) x cx rlr) r0 rc rr)) =
              erase_finish mc ((Ctx.left up' q qc qr).comp
                (Ctx.left (Ctx.right (Tree.node ll l0 lc lr) m c k) r0 rc rr)) mr := by
            simp only [erase_tree, hz2, Ctx.comp_assoc]
            simp only [Ctx.comp]
          rw [hT]
          rw [← hplug] at h hsz hf
          have h' := IsZip.comp_iff.2 (IsZip.left_iff.2 (IsZip.right_iff.2 h))
          obtain ⟨m', hm1, hm2⟩ := leftmost_spec
            (Tree.node ((Ctx.left up' q qc qr).plug (Tree.node Tree.nil m mc mr)) r0 rc rr) r0 rfl
            h.2.1.2.2 Ctx.top fuel (by
              have := Ctx.depth_le_size k (Tree.node (Tree.node ll l0 lc lr) a c
                (Tree.node ((Ctx.left up' q qc qr).plug (Tree.node Tree.nil m mc mr)) r0 rc rr))
              simp only [Tree.size] at this ⊢
              omega)
          rw [hplug, hz2] at hm1
          simp only [Tree.ptr_node, Option.some.injEq] at hm1
          subst hm1
          obtain ⟨s1, e1, z⟩ := erase_two_deep h' hb fuel hm2
          have hd1 := Ctx.depth_le_size k (Tree.node (Tree.node ll l0 lc lr) a c
            (Tree.node ((Ctx.left up' q qc qr).plug (Tree.node Tree.nil m mc mr)) r0 rc rr))
          have hd2 := Ctx.depth_le_size (Ctx.left up' q qc qr) (Tree.node Tree.nil m mc mr)
          refine ⟨s1, (Ctx.left up' q qc qr).comp
            (Ctx.left (Ctx.right (Tree.node ll l0 lc lr) m c k) r0 rc rr), mr, mc, e1, z, ?_, rfl⟩
          rw [Ctx.depth_comp]
          simp only [Tree.size, Ctx.depth] at hd1 hd2 ⊢
          omega

/-! ## The erase fixup on every well-formed tree: the dereferences of absent nodes -/

theorem erase_rot_left_some (p o : Nat) (pc : Color) (sl sr t : Tree)
    (hc : ¬ (sl.color = RB_BLACK ∧ sr.color = RB_BLACK)) :
    ∃ x, erase_rot_left p pc sl o sr t = some x := by
  unfold erase_rot_left
  by_cases c2 : sr.color = RB_BLACK
  · cases sl with
    | nil => exact absurd ⟨rfl, c2⟩ hc
    | node sll ol olc slr => simp [c2]
  · cases sr with
    | nil => exact absurd rfl c2
    | node srl orr orc srr =>
      have c2' : orc ≠ RB_BLACK := c2
      simp [Tree.color, c2']

theorem erase_rot_right_some (p o : Nat) (pc : Color) (sl sr t : Tree)
    (hc : ¬ (sl.color = RB_BLACK ∧ sr.color = RB_BLACK)) :
    ∃ x, erase_rot_right p pc sl o sr t = some x := by
  unfold erase_rot_right
  by_cases c1 : sl.color = RB_BLACK
  · cases sr with
    | nil => exact absurd ⟨c1, rfl⟩ hc
    | node srl orr orc srr => simp [c1]
  · cases sl with
    | nil => exact absurd rfl c1
    | node sll ol olc slr =>
      have c1' : olc ≠ RB_BLACK := c1
      simp [Tree.color, c1']

/-- The loop body of `__rb_erase_color` dereferences an absent sibling. -/
theorem erase_step_left_absent {s : State} {up : Ctx} {p : Nat} {pc : Color} {t : Tree}
    (h : IsZip s (Ctx.left up p pc Tree.nil) t) (hc : t.color = RB_BLACK) (fuel : Nat) :
    __rb_erase_color (fuel + 1) t.ptr (some p) s = Res.null_deref := by
  have hnb := nil_or_black_eq h
  have hroot := h.ptr_ne_root (by simp)
  have hp := h.mem_left
  have hcond : nil_or_black s t.ptr = true ∧ t.ptr ≠ s.root := ⟨by simp [hnb, hc], hroot⟩
  rw [rb_erase_color_succ, if_pos hcond]
  simp [hp]

theorem erase_step_right_absent {s : State} {up : Ctx} {p : Nat} {pc : Color} {t : Tree}
    (h : IsZip s (Ctx.right Tree.nil p pc up) t) (hc : t.color = RB_BLACK) (fuel : Nat) :
    __rb_erase_color (fuel + 1) t.ptr (some p) s = Res.null_deref := by
  have hnb := nil_or_black_eq h
  have hroot := h.ptr_ne_root (by simp)
  have hp := h.mem_right
  have hcond : nil_or_black s t.ptr = true ∧ t.ptr ≠ s.root := ⟨by simp [hnb, hc], hroot⟩
  rw [rb_erase_color_succ, if_pos hcond]
  cases t with
  | nil => simp [hp]
  | node l a c r => simp [hp]

/-- After the rotation of the red-sibling case the new sibling is absent and the loop body
dereferences it. -/
theorem erase_step_left_red_absent {s : State} {up : Ctx} {p o : Nat} {pc : Color}
    {sr t : Tree} (h : IsZip s (Ctx.left up p pc (Tree.node Tree.nil o RB_RED sr)) t)
    (hc : t.color = RB_BLACK) (fuel : Nat) :
    __rb_erase_color (fuel + 1) t.ptr (some p) s = Res.null_deref := by
  have hnb := nil_or_black_eq h
  have hroot := h.ptr_ne_root (by simp)
  have hp := h.mem_left
  have h1 := IsZip.left_iff.1 h
  have ho := IsZip.right_iff.2 h1
  have hom := ho.mem_root
  have hcond : nil_or_black s t.ptr = true ∧ t.ptr ≠ s.root := ⟨by simp [hnb, hc], hroot⟩
  have a1 := ho.set_color RB_BLACK
  have a2 := (IsZip.right_iff.1 a1).set_color RB_RED
  obtain ⟨s3, e3, a3⟩ := a2.rotate_left
  have a4 := IsZip.left_iff.2 (IsZip.left_iff.2 a3)
  rw [rb_erase_color_succ, if_pos hcond]
  simp [hp, rb_is_red, rb_color, hom, e3, a4.mem_left]
  rfl

theorem erase_step_right_red_absent {s : State} {up : Ctx} {p o : Nat} {pc : Color}
    {sl t : Tree} (h : IsZip s (Ctx.right (Tree.node sl o RB_RED Tree.nil) p pc up) t)
    (hc : t.color = RB_BLACK) (fuel : Nat) :
    __rb_erase_color (fuel + 1) t.ptr (some p) s = Res.null_deref := by
  have hnb := nil_or_black_eq h
  have hroot := h.ptr_ne_root (by simp)
  have hp := h.mem_right
  have h1 := IsZip.right_iff.1 h
  have ho := IsZip.left_iff.2 h1
  have hom := ho.mem_root
  have hcond : nil_or_black s t.ptr = true ∧ t.ptr ≠ s.root := ⟨by simp [hnb, hc], hroot⟩
  have hnd := h.nodup
  simp only [Tree.inorder, Ctx.before, Ctx.after, List.nodup_append, List.nodup_cons,
      List.mem_append, mem_cons_sym, not_and_sym, List.disjoint_append_left,
      List.disjoint_append_right,
      List.disjoint_cons_left, List.disjoint_cons_right, List.append_assoc,
      List.cons_append, List.nil_append, List.append_nil, List.not_mem_nil,
      List.disjoint_nil_left, List.disjoint_nil_right, List.nodup_nil,
      not_or, not_false_eq_true, true_and, and_true] at hnd
  have hne : ¬ (some o = t.ptr) := by
    rw [Tree.ne_ptr_of_not_mem]
    · exact not_false
    · tauto
  have a1 := ho.set_color RB_BLACK
  have a2 := (IsZip.left_iff.1 a1).set_color RB_RED
  obtain ⟨s3, e3, a3⟩ := a2.rotate_right
  have a4 := IsZip.right_iff.2 (IsZip.right_iff.2 a3)
  rw [rb_erase_color_succ, if_pos hcond]
  simp [hp, rb_is_red, rb_color, hom, e3, a4.mem_right, hne]
  rfl

/-- When `erase_loop` meets an absent node, the loop of `__rb_erase_color` dereferences
it. -/
theorem erase_loop_absent : ∀ (d : Nat) (k : Ctx) (s : State) (t : Tree),
    k.depth ≤ d → IsZip s k t → erase_loop k t = none →
    ∀ fuel, d + 1 < fuel → __rb_erase_color fuel t.ptr k.parent s = Res.null_deref := by
  intro d
  induction d using Nat.strong_induction_on with
  | _ d ih =>
  intro k s t hd h hT fuel hf
  obtain ⟨f, rfl⟩ : ∃ f, fuel = f + 2 := ⟨fuel - 2, by omega⟩
  match k, h, hT, hd with
  | Ctx.top, h, hT, _ => simp [erase_loop] at hT
  | Ctx.left up p pc sib, h, hT, hd =>
    simp only [Ctx.depth] at hd
    by_cases hc : t.color = RB_RED
    · simp [erase_loop, hc] at hT
    · have hc' : t.color = RB_BLACK := by simpa using hc
      simp only [erase_loop, hc', reduceCtorEq, if_false] at hT
      simp only [Ctx.parent_left]
      cases sib with
      | nil => exact erase_step_left_absent h hc' (f + 1)
      | node sl o oc sr =>
        cases oc with
        | RB_RED =>
          cases sl with
          | nil => exact erase_step_left_red_absent h hc' (f + 1)
          | node sll ol olc slr =>
            obtain ⟨s3, e3, a3⟩ := (erase_step_left h hc' (f + 1)).2 rfl sll ol olc slr rfl
            by_cases hb : sll.color = RB_BLACK ∧ slr.color = RB_BLACK
            · simp [hb] at hT
            · simp only [hb, if_false] at hT
              obtain ⟨x, hx⟩ := erase_rot_left_some p ol RB_RED sll slr t hb
              simp [hx] at hT
        | RB_BLACK =>
          have e3 := (erase_step_left h hc' (f + 1)).1 rfl
          obtain ⟨p1, p2⟩ := erase_color_left_spec h (__rb_erase_color (f + 1))
          rw [e3]
          by_cases hb : sl.color = RB_BLACK ∧ sr.color = RB_BLACK
          · obtain ⟨e4, a4⟩ := p1 hb
            simp only [hb, and_self, if_true] at hT
            rw [e4]
            obtain ⟨f', rfl⟩ : ∃ f', f = f' + 1 := ⟨f - 1, by omega⟩
            exact ih (d - 1) (by omega) up _ _ (by omega) a4 hT (f' + 2) (by omega)
          · simp only [hb, if_false] at hT
            obtain ⟨x, hx⟩ := erase_rot_left_some p o pc sl sr t hb
            simp [hx] at hT
  | Ctx.right sib p pc up, h, hT, hd =>
    simp only [Ctx.depth] at hd
    by_cases hc : t.color = RB_RED
    · simp [erase_loop, hc] at hT
    · have hc' : t.color = RB_BLACK := by simpa using hc
      simp only [erase_loop, hc', reduceCtorEq, if_false] at hT
      simp only [Ctx.parent_right]
      cases sib with
      | nil => exact erase_step_right_absent h hc' (f + 1)
      | node sl o oc sr =>
        cases oc with
        | RB_RED =>
          cases sr with
          | nil => exact erase_step_right_red_absent h hc' (f + 1)
          | node srl orr orc srr =>
            obtain ⟨s3, e3, a3⟩ := (erase_step_right h hc' (f + 1)).2 rfl srl orr orc srr rfl
            by_cases hb : srl.color = RB_BLACK ∧ srr.color = RB_BLACK
            · simp [hb] at hT
            · simp only [hb, if_false] at hT
              obtain ⟨x, hx⟩ := erase_rot_right_some p orr RB_RED srl srr t hb
              simp [hx] at hT
        | RB_BLACK =>
          have e3 := (erase_step_right h hc' (f + 1)).1 rfl
          obtain ⟨p1, p2⟩ := erase_color_right_spec h (__rb_erase_color (f + 1))
          rw [e3]
          by_cases hb : sl.color = RB_BLACK ∧ sr.color = RB_BLACK
          · obtain ⟨e4, a4⟩ := p1 hb
            simp only [hb, and_self, if_true] at hT
            rw [e4]
            obtain ⟨f', rfl⟩ : ∃ f', f = f' + 1 := ⟨f - 1, by omega⟩
            exact ih (d - 1) (by omega) up _ _ (by omega) a4 hT (f' + 2) (by omega)
          · simp only [hb, if_false] at hT
            obtain ⟨x, hx⟩ := erase_rot_right_some p o pc sl sr t hb
            simp [hx] at hT

/-- The loop of `__rb_erase_color` stops on every well-formed tree: given one unit of fuel
per level above the node, plus two, it returns or dereferences an absent node. -/
theorem rb_erase_color_terminates {s : State} {k : Ctx} {t : Tree} (h : IsZip s k t)
    (fuel : Nat) (hf : k.depth + 1 < fuel) :
    __rb_erase_color fuel t.ptr k.parent s ≠ Res.out_of_fuel := by
  cases hT : erase_loop k t with
  | none =>
    rw [erase_loop_absent k.depth k s t (le_refl _) h hT fuel hf]
    exact fun e => Res.noConfusion e
  | some T' =>
    obtain ⟨s', e, -⟩ := erase_loop_refines k.depth k s t T' (le_refl _) h hT fuel hf
    rw [e]
    exact fun e => Res.noConfusion e

theorem rb_erase_color_step_terminates {s : State} {k : Ctx} {t : Tree} (h : IsZip s k t)
    (col : Color) (fuel : Nat) (hf : k.depth + 1 < fuel) :
    rb_erase_color_step fuel col t.ptr k.parent s ≠ Res.out_of_fuel := by
  unfold rb_erase_color_step
  split
  · exact rb_erase_color_terminates h fuel hf
  · exact fun e => Res.noConfusion e

/-- The function `rb_erase` stops on every well-formed tree, given fuel for its size. -/
theorem rb_erase_terminates {s : State} {k : Ctx} {l r : Tree} {a : Nat} {c : Color}
    (h : IsZip s k (Tree.node l a c r)) (fuel : Nat)
    (hf : (k.plug (Tree.node l a c r)).size < fuel) :
    rb_erase fuel a s ≠ Res.out_of_fuel := by
  obtain ⟨s1, K, child, col, e, z, hd, -⟩ := rb_erase_split h fuel hf
  rw [e]
  exact rb_erase_color_step_terminates z col fuel hd

/-! ## The insert fixup on every well-formed tree -/

/-- When `ins_loop` meets a Red parent without a parent of its own, the loop of
`rb_insert_color` dereferences the absent grandparent. -/
theorem ins_loop_absent : ∀ (d : Nat) (k : Ctx) (s : State) (l r : Tree) (n : Nat) (c : Color),
    k.depth ≤ d → IsZip s k (Tree.node l n c r) →
    ins_loop k (Tree.node l n c r) = none →
    ∀ fuel, d < fuel → rb_insert_color_loop fuel n s = Res.null_deref := by
  intro d
  induction d using Nat.strong_induction_on with
  | _ d ih =>
  intro k s l r n c hd h hT fuel hf
  obtain ⟨f, rfl⟩ : ∃ f, fuel = f + 1 := ⟨fuel - 1, by omega⟩
  match k, h, hT, hd with
  | Ctx.top, h, hT, _ => simp [ins_loop] at hT
  | Ctx.left up p RB_BLACK sib, h, hT, _ => simp [ins_loop] at hT
  | Ctx.right sib p RB_BLACK up, h, hT, _ => simp [ins_loop] at hT
  | Ctx.left Ctx.top p RB_RED sib, h, hT, _ =>
    have hn := h.mem_root
    have hp := h.mem_left
    rw [rb_insert_color_loop]
    simp [rb_parent, hn, hp, rb_is_red, rb_color, Ctx.parent]
  | Ctx.right sib p RB_RED Ctx.top, h, hT, _ =>
    have hn := h.mem_root
    have hp := h.mem_right
    rw [rb_insert_color_loop]
    simp [rb_parent, hn, hp, rb_is_red, rb_color, Ctx.parent]
  | Ctx.left (Ctx.left up g gc u) p RB_RED sib, h, hT, hd =>
    simp only [Ctx.depth] at hd
    obtain ⟨f', rfl⟩ : ∃ f', f = f' + 1 := ⟨f - 1, by omega⟩
    by_cases hu : ∃ ul ua ur, u = Tree.node ul ua RB_RED ur
    · obtain ⟨ul, ua, ur, rfl⟩ := hu
      obtain ⟨e, hz⟩ := (ins_step_LL h (f' + 1)).1 ul ua ur rfl
      rw [e]
      simp only [ins_loop] at hT
      exact ih (d - 2) (by omega) up _ _ _ _ _ (by omega) hz hT (f' + 1) (by omega)
    · have hu' : ∀ ul ua ur, u ≠ Tree.node ul ua RB_RED ur := fun ul ua ur e => hu ⟨ul, ua, ur, e⟩
      rw [ins_loop_LL_black (Tree.color_black_of_not_red hu')] at hT
      cases hT
  | Ctx.left (Ctx.right u g gc up) p RB_RED sib, h, hT, hd =>
    simp only [Ctx.depth] at hd
    obtain ⟨f', rfl⟩ : ∃ f', f = f' + 1 := ⟨f - 1, by omega⟩
    by_cases hu : ∃ ul ua ur, u = Tree.node ul ua RB_RED ur
    · obtain ⟨ul, ua, ur, rfl⟩ := hu
      obtain ⟨e, hz⟩ := (ins_step_RL h (f' + 1)).1 ul ua ur rfl
      rw [e]
      simp only [ins_loop] at hT
      exact ih (d - 2) (by omega) up _ _ _ _ _ (by omega) hz hT (f' + 1) (by omega)
    · have hu' : ∀ ul ua ur, u ≠ Tree.node ul ua RB_RED ur := fun ul ua ur e => hu ⟨ul, ua, ur, e⟩
      rw [ins_loop_RL_black (Tree.color_black_of_not_red hu')] at hT
      cases hT
  | Ctx.right sib p RB_RED (Ctx.left up g gc u), h, hT, hd =>
    simp only [Ctx.depth] at hd
    obtain ⟨f', rfl⟩ : ∃ f', f = f' + 1 := ⟨f - 1, by omega⟩
    by_cases hu : ∃ ul ua ur, u = Tree.node ul ua RB_RED ur
    · obtain ⟨ul, ua, ur, rfl⟩ := hu
      obtain ⟨e, hz⟩ := (ins_step_LR h (f' + 1)).1 ul ua ur rfl
      rw [e]
      simp only [ins_loop] at hT
      exact ih (d - 2) (by omega) up _ _ _ _ _ (by omega) hz hT (f' + 1) (by omega)
    · have hu' : ∀ ul ua ur, u ≠ Tree.node ul ua RB_RED ur := fun ul ua ur e => hu ⟨ul, ua, ur, e⟩
      rw [ins_loop_LR_black (Tree.color_black_of_not_red hu')] at hT
      cases hT
  | Ctx.right sib p RB_RED (Ctx.right u g gc up), h, hT, hd =>
    simp only [Ctx.depth] at hd
    obtain ⟨f', rfl⟩ : ∃ f', f = f' + 1 := ⟨f - 1, by omega⟩
    by_cases hu : ∃ ul ua ur, u = Tree.node ul ua RB_RED ur
    · obtain ⟨ul, ua, ur, rfl⟩ := hu
      obtain ⟨e, hz⟩ := (ins_step_RR h (f' + 1)).1 ul ua ur rfl
      rw [e]
      simp only [ins_loop] at hT
      exact ih (d - 2) (by omega) up _ _ _ _ _ (by omega) hz hT (f' + 1) (by omega)
    · have hu' : ∀ ul ua ur, u ≠ Tree.node ul ua RB_RED ur := fun ul ua ur e => hu ⟨ul, ua, ur, e⟩
      rw [ins_loop_RR_black (Tree.color_black_of_not_red hu')] at hT
      cases hT

/-- The loop of `rb_insert_color` stops on every well-formed tree: given one unit of fuel
per level above the node, plus one, it returns or dereferences an absent node. -/
theorem rb_insert_color_loop_terminates {s : State} {k : Ctx} {l r : Tree} {n : Nat}
    {c : Color} (h : IsZip s k (Tree.node l n c r)) (fuel : Nat) (hf : k.depth < fuel) :
    rb_insert_color_loop fuel n s ≠ Res.out_of_fuel := by
  cases hT : ins_loop k (Tree.node l n c r) with
  | none =>
    rw [ins_loop_absent k.depth k s l r n c (le_refl _) h hT fuel hf]
    exact fun e => Res.noConfusion e
  | some T' =>
    obtain ⟨s', e, -⟩ := ins_loop_refines k.depth k s l r n c T' (le_refl _) h hT fuel hf
    rw [e]
    exact fun e => Res.noConfusion e

theorem rb_insert_color_terminates {s : State} {k : Ctx} {l r : Tree} {n : Nat}
    {c : Color} (h : IsZip s k (Tree.node l n c r)) (fuel : Nat) (hf : k.depth < fuel) :
    rb_insert_color fuel n s ≠ Res.out_of_fuel := by
  have := rb_insert_color_loop_terminates h fuel hf
  unfold rb_insert_color
  cases hl : rb_insert_color_loop fuel n s with
  | ok s' =>
    simp only [Res.bind]
    split <;> exact fun e => Res.noConfusion e
  | null_deref => exact fun e => Res.noConfusion e
  | out_of_fuel => exact absurd hl this

/-! ## The calls of `rb_augment_path` -/

/-- The function `rb_augment_path` calls the callback on the nodes of `path_calls`, in
order, and returns, given one unit of fuel per level above the start node, plus one. -/
theorem rb_augment_path_calls {δ : Type} (func : Nat → State → δ → δ) {s : State} (k : Ctx) :
    ∀ {l r : Tree} {a : Nat} {c : Color} (d : δ), IsZip s k (Tree.node l a c r) →
      ∀ fuel, k.depth < fuel →
      rb_augment_path func fuel a s d =
        Res.ok ((k.path_calls a).foldl (fun d n => func n s d) d) := by
  induction k with
  | top =>
    intro l r a c d h fuel hf
    obtain ⟨f, rfl⟩ : ∃ f, fuel = f + 1 := ⟨fuel - 1, by omega⟩
    simp [rb_augment_path, rb_parent, h.mem_root, Ctx.parent, Ctx.path_calls]
  | left up p pc sib ih =>
    intro l r a c d h fuel hf
    obtain ⟨f, rfl⟩ : ∃ f, fuel = f + 1 := ⟨fuel - 1, by omega⟩
    have hz := IsZip.left_iff.1 h
    have e := fun d => ih d hz f (by simp [Ctx.depth] at hf; omega)
    cases sib with
    | nil =>
      simp only [rb_augment_path, rb_parent, h.mem_root, Ctx.parent_left, h.mem_left,
        Tree.ptr_node, Tree.ptr_nil, ne_eq, not_true_eq_false, and_false, if_false, e,
        Ctx.path_calls, List.foldl_cons]
    | node sl o so sr =>
      simp only [rb_augment_path, rb_parent, h.mem_root, Ctx.parent_left, h.mem_left,
        Tree.ptr_node, ne_eq, reduceCtorEq, not_false_eq_true, and_self, if_true, e,
        Ctx.path_calls, List.foldl_cons]
  | right sib p pc up ih =>
    intro l r a c d h fuel hf
    obtain ⟨f, rfl⟩ : ∃ f, fuel = f + 1 := ⟨fuel - 1, by omega⟩
    have hz := IsZip.right_iff.1 h
    have e := fun d => ih d hz f (by simp [Ctx.depth] at hf; omega)
    have hbs : a ∉ sib.inorder := by
      intro hx
      refine h.not_mem_ctx (x := a) (by simp [Tree.inorder]) ?_
      simp only [Ctx.before, Ctx.after, List.mem_append, List.mem_cons]
      tauto
    cases sib with
    | nil =>
      simp only [rb_augment_path, rb_parent, h.mem_root, Ctx.parent_right, h.mem_right,
        Tree.ptr_node, Tree.ptr_nil, reduceCtorEq, false_and, if_false, e,
        Ctx.path_calls, List.foldl_cons, List.nil_append]
    | node sl o so sr =>
      have hob : a ≠ o := by
        intro e
        apply hbs
        simp [Tree.inorder, e]
      simp only [rb_augment_path, rb_parent, h.mem_root, Ctx.parent_right, h.mem_right,
        Tree.ptr_node, Option.some.injEq, hob, false_and, if_false, e,
        Ctx.path_calls, List.foldl_cons, List.singleton_append]

theorem Ctx.path_calls_head (k : Ctx) (a : Nat) : (k.path_calls a).head? = some a := by
  cases k <;> rfl

theorem Ctx.path_calls_ne_nil (k : Ctx) (a : Nat) : k.path_calls a ≠ [] := by
  cases k <;> simp [Ctx.path_calls]

theorem Ctx.path_calls_last (k : Ctx) : ∀ (l r : Tree) (a : Nat) (c : Color),
    (k.path_calls a).getLast? = (k.plug (Tree.node l a c r)).ptr := by
  induction k with
  | top => intro l r a c; rfl
  | left up p pc sib ih =>
    intro l r a c
    have := ih (Tree.node l a c r) sib p pc
    simp only [Ctx.plug, Ctx.path_calls, ← this]
    obtain ⟨x, xs, e⟩ := List.exists_cons_of_ne_nil (up.path_calls_ne_nil p)
    rw [e, List.getLast?_cons_cons, List.getLast?_cons_cons]
  | right sib p pc up ih =>
    intro l r a c
    have := ih sib (Tree.node l a c r) p pc
    simp only [Ctx.plug, Ctx.path_calls, ← this]
    obtain ⟨x, xs, e⟩ := List.exists_cons_of_ne_nil (up.path_calls_ne_nil p)
    rw [e]
    cases sib.ptr with
    | none => simp only [List.nil_append, List.getLast?_cons_cons]
    | some o => simp only [List.singleton_append, List.getLast?_cons_cons]

theorem Ctx.ancestors_subset_calls (k : Ctx) : ∀ (a : Nat), ∀ p ∈ k.ancestors,
    p ∈ k.path_calls a := by
  induction k with
  | top => intro a p hp; simp [Ctx.ancestors] at hp
  | left up q qc sib ih =>
    intro a p hp
    simp only [Ctx.ancestors, List.mem_cons] at hp
    simp only [Ctx.path_calls, List.mem_cons]
    rcases hp with rfl | hp
    · right; right
      have := Ctx.path_calls_head up p
      obtain ⟨x, xs, e⟩ := List.exists_cons_of_ne_nil (up.path_calls_ne_nil p)
      rw [e] at this ⊢
      simp only [List.head?_cons, Option.some.injEq] at this
      simp [this]
    · exact Or.inr (Or.inr (ih q p hp))
  | right sib q qc up ih =>
    intro a p hp
    simp only [Ctx.ancestors, List.mem_cons] at hp
    simp only [Ctx.path_calls, List.mem_cons, List.mem_append]
    rcases hp with rfl | hp
    · right; right
      have := Ctx.path_calls_head up p
      obtain ⟨x, xs, e⟩ := List.exists_cons_of_ne_nil (up.path_calls_ne_nil p)
      rw [e] at this ⊢
      simp only [List.head?_cons, Option.some.injEq] at this
      simp [this]
    · exact Or.inr (Or.inr (ih q p hp))

theorem Ctx.calls_subset (k : Ctx) : ∀ (a : Nat), ∀ x ∈ k.path_calls a,
    x = a ∨ x ∈ k.ancestors ∨ x ∈ k.siblings := by
  induction k with
  | top => intro a x hx; exact Or.inl (by simpa [Ctx.path_calls] using hx)
  | left up q qc sib ih =>
    intro a x hx
    simp only [Ctx.path_calls, List.mem_cons] at hx
    simp only [Ctx.ancestors, Ctx.siblings, List.mem_cons, List.mem_append, Option.mem_toList]
    rcases hx with rfl | hx | hx
    · exact Or.inl rfl
    · cases hs : sib.ptr with
      | none => rw [hs] at hx; exact Or.inl hx
      | some o => rw [hs] at hx; subst hx; exact Or.inr (Or.inr (Or.inl rfl))
    · rcases ih q x hx with h | h | h
      · exact Or.inr (Or.inl (Or.inl h))
      · exact Or.inr (Or.inl (Or.inr h))
      · exact Or.inr (Or.inr (Or.inr h))
  | right sib q qc up ih =>
    intro a x hx
    simp only [Ctx.path_calls, List.mem_cons, List.mem_append] at hx
    simp only [Ctx.ancestors, Ctx.siblings, List.mem_cons, List.mem_append, Option.mem_toList]
    rcases hx with rfl | hx | hx
    · exact Or.inl rfl
    · cases hs : sib.ptr with
      | none => rw [hs] at hx; simp at hx
      | some o =>
        rw [hs] at hx
        simp only [List.mem_singleton] at hx
        subst hx
        exact Or.inr (Or.inr (Or.inl rfl))
    · rcases ih q x hx with h | h | h
      · exact Or.inr (Or.inl (Or.inl h))
      · exact Or.inr (Or.inl (Or.inr h))
      · exact Or.inr (Or.inr (Or.inr h))

theorem Ctx.ancestors_mem (k : Ctx) : ∀ p ∈ k.ancestors, p ∈ k.before ++ k.after := by
  induction k with
  | top => intro p hp; simp [Ctx.ancestors] at hp
  | left up q qc sib ih =>
    intro p hp
    simp only [Ctx.ancestors, List.mem_cons] at hp
    simp only [Ctx.before, Ctx.after, List.mem_append, List.mem_cons]
    rcases hp with rfl | hp
    · tauto
    · have := ih p hp
      rw [List.mem_append] at this
      tauto
  | right sib q qc up ih =>
    intro p hp
    simp only [Ctx.ancestors, List.mem_cons] at hp
    simp only [Ctx.before, Ctx.after, List.mem_append, List.mem_cons, List.mem_singleton,
      List.not_mem_nil, or_false]
    rcases hp with rfl | hp
    · tauto
    · have := ih p hp
      rw [List.mem_append] at this
      tauto

/-- In the calls of `rb_augment_path`, every call on a proper ancestor of the start node
comes after a call on each present child of that ancestor. -/
theorem path_calls_children {s : State} (k : Ctx) :
    ∀ {l r : Tree} {a : Nat} {c : Color}, IsZip s k (Tree.node l a c r) →
      ∀ (pre : List Nat) (x : Nat) (post : List Nat), k.path_calls a = pre ++ x :: post →
      x ∈ k.ancestors →
      ∀ ch, ((s.mem x).rb_left = some ch ∨ (s.mem x).rb_right = some ch) → ch ∈ pre := by
  induction k with
  | top => intro l r a c _ pre x post _ hx; simp [Ctx.ancestors] at hx
  | left up p pc sib ih =>
    intro l r a c h pre x post hsplit hx ch hch
    have hz := IsZip.left_iff.1 h
    have hxa : x ≠ a := by
      rintro rfl
      exact h.not_mem_ctx (x := x) (by simp [Tree.inorder]) (Ctx.ancestors_mem _ x hx)
    have hmp := h.mem_left
    simp only [Ctx.path_calls] at hsplit
    simp only [Ctx.ancestors, List.mem_cons] at hx
    have hxy : x ≠ (match sib.ptr with
        | some o => o
        | none => a) := by
      cases hs : sib.ptr with
      | none => exact hxa
      | some o =>
        simp only
        rintro rfl
        have ho : x ∈ (Tree.node (Tree.node l a c r) p pc sib).inorder := by
          have := Tree.ptr_mem hs
          simp [Tree.inorder, this]
        rcases hx with rfl | hx
        · have hnd := hz.tree_nodup
          have := Tree.ptr_mem hs
          simp only [Tree.inorder] at hnd
          have h2 := (List.nodup_append.1 hnd).2.1
          exact (List.nodup_cons.1 h2).1 this
        · exact hz.not_mem_ctx ho (Ctx.ancestors_mem _ x hx)
    obtain ⟨pre', rfl, hC⟩ : ∃ pre', pre = a :: (match sib.ptr with
        | some o => o
        | none => a) :: pre' ∧ up.path_calls p = pre' ++ x :: post := by
      cases pre with
      | nil =>
        simp only [List.nil_append, List.cons.injEq] at hsplit
        exact absurd hsplit.1.symm hxa
      | cons z1 pre1 =>
        cases pre1 with
        | nil =>
          simp only [List.cons_append, List.nil_append, List.cons.injEq] at hsplit
          exact absurd hsplit.2.1.symm hxy
        | cons z2 pre2 =>
          simp only [List.cons_append, List.cons.injEq] at hsplit
          obtain ⟨rfl, rfl, e⟩ := hsplit
          exact ⟨pre2, rfl, e⟩
    rcases hx with rfl | hx
    · rw [hmp] at hch
      simp only [Tree.ptr_node, Option.some.injEq] at hch
      rcases hch with hch | hch
      · subst hch
        exact List.mem_cons_self _ _
      · rw [hch]
        exact List.mem_cons_of_mem _ (List.mem_cons_self _ _)
    · exact List.mem_cons_of_mem _ (List.mem_cons_of_mem _ (ih hz pre' x post hC hx ch hch))
  | right sib p pc up ih =>
    intro l r a c h pre x post hsplit hx ch hch
    have hz := IsZip.right_iff.1 h
    have hxa : x ≠ a := by
      rintro rfl
      exact h.not_mem_ctx (x := x) (by simp [Tree.inorder]) (Ctx.ancestors_mem _ x hx)
    have hmp := h.mem_right
    simp only [Ctx.path_calls] at hsplit
    simp only [Ctx.ancestors, List.mem_cons] at hx
    have hxs : ∀ o, sib.ptr = some o → x ≠ o := by
      intro o hs
      rintro rfl
      have ho : x ∈ (Tree.node sib p pc (Tree.node l a c r)).inorder := by
        have := Tree.ptr_mem hs
        simp [Tree.inorder, this]
      rcases hx with rfl | hx
      · have hnd := hz.tree_nodup
        have := Tree.ptr_mem hs
        simp only [Tree.inorder] at hnd
        have h2 := (List.nodup_append.1 hnd).2.2
        exact h2 this (List.mem_cons_self _ _)
      · exact hz.not_mem_ctx ho (Ctx.ancestors_mem _ x hx)
    obtain ⟨pre', rfl, hC⟩ : ∃ pre', pre = a :: ((match sib.ptr with
        | some o => [o]
        | none => []) ++ pre') ∧ up.path_calls p = pre' ++ x :: post := by
      cases pre with
      | nil =>
        simp only [List.nil_append, List.cons.injEq] at hsplit
        exact absurd hsplit.1.symm hxa
      | cons z1 pre1 =>
        simp only [List.cons_append, List.cons.injEq] at hsplit
        obtain ⟨rfl, hsplit⟩ := hsplit
        cases hs : sib.ptr with
        | none =>
          rw [hs] at hsplit
          exact ⟨pre1, rfl, hsplit⟩
        | some o =>
          rw [hs] at hsplit
          cases pre1 with
          | nil =>
            simp only [List.singleton_append, List.nil_append, List.cons.injEq] at hsplit
            exact absurd hsplit.1.symm (hxs o hs)
          | cons z2 pre2 =>
            simp only [List.singleton_append, List.cons_append, List.cons.injEq] at hsplit
            obtain ⟨rfl, e⟩ := hsplit
            exact ⟨pre2, rfl, e⟩
    rcases hx with rfl | hx
    · rw [hmp] at hch
      simp only [Tree.ptr_node, Option.some.injEq] at hch
      rcases hch with hch | hch
      · rw [hch]
        simp
      · subst hch
        exact List.mem_cons_self _ _
    · exact List.mem_cons_of_mem _ (List.mem_append_right _ (ih hz pre' x post hC hx ch hch))

/-- The run of `rb_insert_color` on a freshly linked Red leaf, step by step: the abstract
loop meets no absent node, the loop returns, and the root reference is then present. -/
theorem rb_insert_color_steps (s : State) (k : Ctx) (node : Nat)
    (hs : IsTree s (k.plug Tree.nil)) (hv : (k.plug Tree.nil).rb_valid)
    (hn : node ∉ (k.plug Tree.nil).inorder) (fuel : Nat) (hf : k.depth < fuel) :
    ∃ s1 T0 r, ins_loop k (Tree.node Tree.nil node RB_RED Tree.nil) = some T0 ∧
      rb_insert_color_loop fuel node (rb_link_node node k.parent k.side s) = Res.ok s1 ∧
      IsTree s1 T0 ∧ s1.root = some r ∧
      rb_insert_color fuel node (rb_link_node node k.parent k.side s) =
        Res.ok (rb_set_black s1 r) := by
  obtain ⟨kn, kb, kr⟩ := Tree.rb_valid_parts hv
  have hz := (IsZip.plug_iff.2 hs).link hn
  obtain ⟨T0, e0, -, -⟩ := ins_loop_valid k (Tree.node Tree.nil node RB_RED Tree.nil) 0 rfl
    (by simp [Tree.no_red_red]) (by simp [Tree.bal]) (by simp [Tree.bh]) kn
    (by simpa [Tree.bh] using kb) (by simpa using kr)
  obtain ⟨s1, e1, h1⟩ := ins_loop_refines k.depth k _ _ _ _ _ T0 (le_refl _) hz e0 fuel hf
  have hio := ins_loop_inorder _ _ _ e0
  have hroot : ∃ r, s1.root = some r := by
    cases T0 with
    | nil =>
      rw [Ctx.inorder_plug] at hio
      simp [Tree.inorder] at hio
    | node l a c r => exact ⟨a, h1.1⟩
  obtain ⟨r, hr⟩ := hroot
  refine ⟨s1, T0, r, e0, e1, h1, hr, ?_⟩
  simp [rb_insert_color, e1, hr, Res.bind]

theorem Tree.nil_of_black_of_bh {t : Tree} (hc : t.color = RB_BLACK) (hb : t.bh = 0) :
    t = Tree.nil := by
  cases t with
  | nil => rfl
  | node l a c r =>
    simp only [Tree.color_node] at hc
    subst hc
    simp [Tree.bh] at hb

/-- In a valid tree a Red node without a left child has no right child either. -/
theorem Tree.rb_valid.red_leaf {k : Ctx} {r : Tree} {a : Nat}
    (hv : (k.plug (Tree.node Tree.nil a RB_RED r)).rb_valid) : r = Tree.nil := by
  obtain ⟨h1, h2, -⟩ := Tree.rb_valid_focus hv
  exact Tree.nil_of_black_of_bh (h1.1 rfl).2 h2.2.2.symm

theorem Tree.rb_valid.red_leaf_left {k : Ctx} {l : Tree} {a : Nat}
    (hv : (k.plug (Tree.node l a RB_RED Tree.nil)).rb_valid) : l = Tree.nil := by
  obtain ⟨h1, h2, -⟩ := Tree.rb_valid_focus hv
  exact Tree.nil_of_black_of_bh (h1.1 rfl).1 h2.2.2

/-! ## Rotations keep the colours -/

theorem rb_rotate_left_color {a : Nat} {s s' : State} (h : __rb_rotate_left a s = Res.ok s')
    (x : Nat) : (s'.mem x).rb_color = (s.mem x).rb_color := by
  unfold __rb_rotate_left at h
  split at h
  · cases h
  · simp only [Res.ok.injEq] at h
    subst h
    simp only [rb_set_parent_color]
    split <;> (try split) <;> (try split) <;>
      simp only [set_left_color, set_right_color, rb_set_parent_color, set_root_mem]

theorem rb_rotate_right_color {a : Nat} {s s' : State} (h : __rb_rotate_right a s = Res.ok s')
    (x : Nat) : (s'.mem x).rb_color = (s.mem x).rb_color := by
  unfold __rb_rotate_right at h
  split at h
  · cases h
  · simp only [Res.ok.injEq] at h
    subst h
    simp only [rb_set_parent_color]
    split <;> (try split) <;> (try split) <;>
      simp only [set_left_color, set_right_color, rb_set_parent_color, set_root_mem]

theorem foldl_snoc_eq (l : List Nat) : ∀ init : List Nat,
    l.foldl (fun d n => d ++ [n]) init = init ++ l := by
  induction l with
  | nil => intro init; simp
  | cons x xs ih => intro init; simp [ih]

/-! ## The node found by `rb_augment_erase_begin` -/

/-- The result of `erase_deepest` is a node of the tree other than the erased node, and it
is absent only for a node without children and without a parent. -/
theorem erase_deepest_spec {k : Ctx} {l r : Tree} {a : Nat} {c : Color}
    (hnd : (k.plug (Tree.node l a c r)).inorder.Nodup) :
    (∀ x, erase_deepest k (Tree.node l a c r) = some x →
      x ∈ (k.plug (Tree.node l a c r)).inorder ∧ x ≠ a) ∧
    (erase_deepest k (Tree.node l a c r) = none →
      l = Tree.nil ∧ r = Tree.nil ∧ k.parent = none) := by
  rw [Ctx.inorder_plug] at hnd ⊢
  have hctx : ∀ x ∈ k.before ++ k.after, x ≠ a := by
    rintro x hx rfl
    rw [List.mem_append] at hx
    rcases hx with hx | hx
    · exact (List.nodup_append.1 hnd).2.2 hx (by simp [Tree.inorder])
    · exact (List.nodup_append.1 (List.nodup_append.1 hnd).2.1).2.2 (by simp [Tree.inorder]) hx
  have hsub : ∀ x ∈ l.inorder ++ r.inorder, x ≠ a := by
    rintro x hx rfl
    have h2 := (List.nodup_append.1 (List.nodup_append.1 hnd).2.1).1
    simp only [Tree.inorder] at h2
    rw [List.mem_append] at hx
    rcases hx with hx | hx
    · exact (List.nodup_append.1 h2).2.2 hx (List.mem_cons_self _ _)
    · exact (List.nodup_cons.1 (List.nodup_append.1 h2).2.1).1 hx
  cases l with
  | nil =>
    cases r with
    | nil =>
      simp only [erase_deepest]
      refine ⟨fun x hx => ?_, fun h => ⟨trivial, trivial, h⟩⟩
      have := Ctx.parent_mem hx
      refine ⟨?_, hctx x this⟩
      simp only [List.mem_append] at this ⊢
      tauto
    | node rl r0 rc rr =>
      simp only [erase_deepest, Option.some.injEq, reduceCtorEq, false_implies, and_true]
      rintro _ rfl
      exact ⟨by simp [Tree.inorder], hsub r0 (by simp [Tree.inorder])⟩
  | node ll l0 lc lr =>
    cases r with
    | nil =>
      simp only [erase_deepest, Option.some.injEq, reduceCtorEq, false_implies, and_true]
      rintro _ rfl
      exact ⟨by simp [Tree.inorder], hsub l0 (by simp [Tree.inorder])⟩
    | node rl r0 rc rr =>
      obtain ⟨m, mc, mr, hsh⟩ := Tree.zoom_min_shape rl r0 rc rr Ctx.top
      have hp := Tree.zoom_min_plug (Tree.node rl r0 rc rr) Ctx.top
      generalize hz : (Tree.node rl r0 rc rr).zoom_min Ctx.top = z at hsh hp
      obtain ⟨kk, tm⟩ := z
      simp only at hsh hp
      subst hsh
      change _ = Tree.node rl r0 rc rr at hp
      have hr : ∀ x, x ∈ kk.before ++ ((Tree.node Tree.nil m mc mr).inorder ++ kk.after) →
          x ∈ k.before ++ ((Tree.node (Tree.node ll l0 lc lr) a c
            (Tree.node rl r0 rc rr)).inorder ++ k.after) ∧ x ≠ a := by
        intro x hx
        rw [← Ctx.inorder_plug, hp] at hx
        refine ⟨?_, hsub x (List.mem_append_right _ hx)⟩
        simp only [Tree.inorder, List.mem_append, List.mem_cons] at hx ⊢
        tauto
      simp only [erase_deepest, hz]
      cases mr with
      | node mrl x cx mrr =>
        simp only [Option.some.injEq, reduceCtorEq, false_implies, and_true]
        rintro _ rfl
        exact hr x (by simp [Tree.inorder])
      | nil =>
        simp only
        cases kk with
        | top =>
          simp only [Ctx.comp, Ctx.parent, ne_eq, not_true_eq_false, if_false,
            Option.some.injEq, reduceCtorEq, false_implies, and_true]
          rintro _ rfl
          exact hr m (by simp [Tree.inorder])
        | left up q qc qr =>
          have hq := hr q (by simp [Ctx.after])
          simp only [Ctx.comp, Ctx.parent, ne_eq, Option.some.injEq, hq.2, not_false_eq_true,
            if_true, reduceCtorEq, false_implies, and_true]
          rintro _ rfl
          exact hq
        | right ql q qc up =>
          have hq := hr q (by simp [Ctx.before])
          simp only [Ctx.comp, Ctx.parent, ne_eq, Option.some.injEq, hq.2, not_false_eq_true,
            if_true, reduceCtorEq, false_implies, and_true]
          rintro _ rfl
          exact hq

theorem Tree.Own.shape {s : State} : ∀ {t : Tree} {par : Ptr}, Tree.Own s par t → t.Shape s
  | Tree.nil, _, _ => trivial
  | Tree.node l a c r, _, h => by
    refine ⟨?_, ?_, ?_, h.2.1.shape, h.2.2.shape⟩ <;> rw [h.1]

theorem Tree.Own.parent_of_ptr {s : State} {t : Tree} {par : Ptr} {x : Nat}
    (h : Tree.Own s par t) (hx : t.ptr = some x) : rb_parent s x = par := by
  cases t with
  | nil => simp at hx
  | node l a c r =>
    simp only [Tree.ptr_node, Option.some.injEq] at hx
    subst hx
    rw [rb_parent, h.1]

theorem Tree.Own.child_links {s : State} : ∀ {t : Tree} {par : Ptr}, Tree.Own s par t →
    ∀ n ∈ t.inorder, (∀ c, (s.mem n).rb_left = some c → rb_parent s c = some n) ∧
      (∀ c, (s.mem n).rb_right = some c → rb_parent s c = some n)
  | Tree.nil, _, _ => by simp [Tree.inorder]
  | Tree.node l a c r, _, h => by
    intro n hn
    simp only [Tree.inorder, List.mem_append, List.mem_cons] at hn
    rcases hn with hn | rfl | hn
    · exact h.2.1.child_links n hn
    · constructor
      · intro x hx
        rw [h.1] at hx
        exact h.2.1.parent_of_ptr hx
      · intro x hx
        rw [h.1] at hx
        exact h.2.2.parent_of_ptr hx
    · exact h.2.2.child_links n hn

theorem Tree.Own.parent_link {s : State} : ∀ {t : Tree} {par : Ptr}, Tree.Own s par t →
    ∀ n ∈ t.inorder, t.ptr = some n ∨
      ∃ p, rb_parent s n = some p ∧ ((s.mem p).rb_left = some n ∨ (s.mem p).rb_right = some n)
  | Tree.nil, _, _ => by simp [Tree.inorder]
  | Tree.node l a c r, _, h => by
    intro n hn
    simp only [Tree.inorder, List.mem_append, List.mem_cons] at hn
    rcases hn with hn | rfl | hn
    · right
      rcases h.2.1.parent_link n hn with hp | hp
      · refine ⟨a, h.2.1.parent_of_ptr hp, Or.inl ?_⟩
        rw [h.1]
        exact hp
      · exact hp
    · exact Or.inl rfl
    · right
      rcases h.2.2.parent_link n hn with hp | hp
      · refine ⟨a, h.2.2.parent_of_ptr hp, Or.inr ?_⟩
        rw [h.1]
        exact hp
      · exact hp

/-- A well-formed tree in memory is link-consistent. -/
theorem IsTree.linked {s : State} {T : Tree} (h : IsTree s T) : Linked s T.inorder := by
  refine ⟨?_, ?_, ?_, ?_⟩
  · intro r hr
    rw [h.1] at hr
    exact h.2.1.parent_of_ptr hr
  · intro n hn
    exact (h.2.1.child_links n hn).1
  · intro n hn
    exact (h.2.1.child_links n hn).2
  · intro n hn hne
    rcases h.2.1.parent_link n hn with hp | hp
    · rw [h.1] at hne
      exact absurd hp hne
    · exact hp

theorem Tree.Shape.own {s : State} : ∀ {t : Tree} {par : Ptr}, t.Shape s →
    (∀ n ∈ t.inorder, (∀ c, (s.mem n).rb_left = some c → rb_parent s c = some n) ∧
      (∀ c, (s.mem n).rb_right = some c → rb_parent s c = some n)) →
    (∀ x, t.ptr = some x → rb_parent s x = par) → Tree.Own s par t
  | Tree.nil, _, _, _, _ => trivial
  | Tree.node l a c r, par, h, hc, hp => by
    have hl : ∀ n ∈ l.inorder, n ∈ (Tree.node l a c r).inorder := by
      intro n hn
      simp [Tree.inorder, hn]
    have hr : ∀ n ∈ r.inorder, n ∈ (Tree.node l a c r).inorder := by
      intro n hn
      simp [Tree.inorder, hn]
    have ha : a ∈ (Tree.node l a c r).inorder := by simp [Tree.inorder]
    refine ⟨?_, ?_, ?_⟩
    · rw [node_ext_iff]
      have := hp a rfl
      rw [rb_parent] at this
      exact ⟨this, h.2.2.1, h.2.1, h.1⟩
    · refine h.2.2.2.1.own (fun n hn => hc n (hl n hn)) ?_
      intro x hx
      exact (hc a ha).1 x (by rw [h.1, hx])
    · refine h.2.2.2.2.own (fun n hn => hc n (hr n hn)) ?_
      intro x hx
      exact (hc a ha).2 x (by rw [h.2.1, hx])

/-- A well-formed tree in memory is a tree laid out by its child links, without a node
that occurs twice, that is link-consistent. -/
theorem isTree_iff_linked {s : State} {T : Tree} :
    IsTree s T ↔ s.root = T.ptr ∧ T.Shape s ∧ T.inorder.Nodup ∧ Linked s T.inorder := by
  constructor
  · intro h
    exact ⟨h.1, h.2.1.shape, h.2.2, h.linked⟩
  · rintro ⟨h1, h2, h3, h4⟩
    refine ⟨h1, ?_, h3⟩
    refine h2.own (fun n hn => ⟨h4.2.1 n hn, h4.2.2.1 n hn⟩) ?_
    intro x hx
    exact h4.1 x (by rw [h1, hx])

/-- Whenever `rb_insert_color` returns on a well-formed tree, the memory holds a well-formed
tree with the same nodes. -/
theorem rb_insert_color_sound {s s' : State} {k : Ctx} {l r : Tree} {n : Nat} {c : Color}
    (h : IsZip s k (Tree.node l n c r)) (fuel : Nat) (hf : k.depth < fuel)
    (e : rb_insert_color fuel n s = Res.ok s') :
    ∃ T', IsTree s' T' ∧ T'.inorder = (k.plug (Tree.node l n c r)).inorder := by
  cases hT : ins_loop k (Tree.node l n c r) with
  | none =>
    have := ins_loop_absent k.depth k s l r n c (le_refl _) h hT fuel hf
    simp [rb_insert_color, this, Res.bind] at e
  | some T0 =>
    obtain ⟨s1, e1, h1⟩ := ins_loop_refines k.depth k s l r n c T0 (le_refl _) h hT fuel hf
    have hio := ins_loop_inorder _ _ _ hT
    cases T0 with
    | nil =>
      rw [Ctx.inorder_plug] at hio
      simp [Tree.inorder] at hio
    | node l0 a0 c0 r0 =>
      have hr : s1.root = some a0 := h1.1
      simp only [rb_insert_color, e1, Res.bind, hr, Res.ok.injEq] at e
      subst e
      refine ⟨_, h1.blacken hr, ?_⟩
      rw [Tree.blacken_inorder, hio]

/-- Whenever `rb_erase` returns on a well-formed tree, the memory holds the well-formed
tree that `erase_tree` computes. -/
theorem rb_erase_sound {s s' : State} {k : Ctx} {l r : Tree} {a : Nat} {c : Color}
    (h : IsZip s k (Tree.node l a c r)) (fuel : Nat)
    (hf : (k.plug (Tree.node l a c r)).size < fuel) (e : rb_erase fuel a s = Res.ok s') :
    ∃ T', erase_tree k (Tree.node l a c r) = some T' ∧ IsTree s' T' := by
  obtain ⟨s1, K, child, col, e1, z, hd, et⟩ := rb_erase_split h fuel hf
  rw [e1] at e
  cases hF : erase_finish col K child with
  | some T' =>
    obtain ⟨s2, e2, h2⟩ := erase_finish_refines z hF fuel hd
    rw [e2] at e
    cases e
    exact ⟨T', et.trans hF, h2⟩
  | none =>
    cases col with
    | RB_RED => simp [erase_finish] at hF
    | RB_BLACK =>
      simp only [erase_finish, if_true] at hF
      simp only [rb_erase_color_step, if_true] at e
      rw [erase_loop_absent K.depth K s1 child (le_refl _) z hF fuel hd] at e
      cases e

/-- The function `rb_replace_node` keeps the colour of every node other than the new one. -/
theorem rb_replace_node_color (victim new : Nat) (s : State) (x : Nat) (hx : x ≠ new) :
    rb_color (rb_replace_node victim new s) x = rb_color s x := by
  unfold rb_replace_node rb_color
  simp only [store_mem, hx, if_false]
  split <;> (try split) <;> (try split) <;> (try split) <;>
    simp only [set_left_color, set_right_color, rb_set_parent_color, set_root_mem]

/-- The function `rb_replace_node` gives the new node the colour of the victim. -/
theorem rb_replace_node_color_new (victim new : Nat) (s : State) :
    rb_color (rb_replace_node victim new s) new = rb_color s victim := by
  unfold rb_replace_node rb_color
  simp only [store_mem, if_true]
  split <;> (try split) <;> (try split) <;> (try split) <;>
    simp only [set_left_color, set_right_color, rb_set_parent_color, set_root_mem]

/-- C1: for every valid red-black tree in memory and every fresh node linked as a Red leaf at
any empty slot (a context `k` whose hole is empty), `rb_insert_color` returns once it has
fuel for the depth of the slot, and the memory then holds a well-formed tree with no red
node with a red child, equal Black counts on all root-to-nil paths, and a Black root. -/
theorem rb_insert_color_restores_invariants (s : State) (k : Ctx) (node : Nat) (fuel : Nat)
    (hs : IsTree s (k.plug Tree.nil)) (hv : (k.plug Tree.nil).rb_valid)
    (hn : node ∉ (k.plug Tree.nil).inorder) (hf : k.depth < fuel) :
    ∃ s' T', rb_insert_color fuel node (rb_link_node node k.parent k.side s) = Res.ok s' ∧
      IsTree s' T' ∧ T'.no_red_red ∧ T'.black_balanced ∧ T'.color = RB_BLACK := by
  obtain ⟨s', T0, -, hn0, hb0, e, h⟩ := rb_insert_color_runs s k node hs hv hn fuel hf
  exact ⟨s', T0.blacken, e, h, Tree.blacken_no_red_red hn0,
    (Tree.black_balanced_iff _).2 (Tree.blacken_bal hb0), Tree.blacken_color _⟩

theorem three_nodes_is_tree : IsTree three_nodes (slot_right_of_30.plug Tree.nil) := by
  refine ⟨rfl, ⟨rfl, ⟨rfl, trivial, trivial⟩, ⟨rfl, trivial, trivial⟩⟩, by decide⟩

theorem three_nodes_valid : (slot_right_of_30.plug Tree.nil).rb_valid := by
  refine ⟨?_, ?_, rfl⟩
  · simp [slot_right_of_30, Ctx.plug, Tree.no_red_red]
  · simp [slot_right_of_30, Ctx.plug, Tree.black_balanced, Tree.black_counts]

/-- Witness of C1: node 40 linked to the right of node 30 in `three_nodes`. -/
theorem rb_insert_color_restores_invariants_witness :
    ∃ s' T', rb_insert_color 3 40
        (rb_link_node 40 slot_right_of_30.parent slot_right_of_30.side three_nodes) =
        Res.ok s' ∧
      IsTree s' T' ∧ T'.no_red_red ∧ T'.black_balanced ∧ T'.color = RB_BLACK :=
  rb_insert_color_restores_invariants three_nodes slot_right_of_30 40 3 three_nodes_is_tree
    three_nodes_valid (by decide) (by decide)

/-- C3: for every valid red-black tree and every fresh node linked as a Red leaf,
`rb_insert_color` leaves the in-order sequence of nodes exactly as it was right after
linking, so keys sorted after linking are still sorted after the fixup. -/
theorem rb_insert_color_keeps_inorder (s : State) (k : Ctx) (node : Nat) (fuel : Nat)
    (hs : IsTree s (k.plug Tree.nil)) (hv : (k.plug Tree.nil).rb_valid)
    (hn : node ∉ (k.plug Tree.nil).inorder) (hf : k.depth < fuel) :
    IsTree (rb_link_node node k.parent k.side s)
      (k.plug (Tree.node Tree.nil node RB_RED Tree.nil)) ∧
    ∃ s' T', rb_insert_color fuel node (rb_link_node node k.parent k.side s) = Res.ok s' ∧
      IsTree s' T' ∧
      T'.inorder = (k.plug (Tree.node Tree.nil node RB_RED Tree.nil)).inorder ∧
      ∀ key : Nat → Nat,
        ((k.plug (Tree.node Tree.nil node RB_RED Tree.nil)).inorder.map key).Sorted (· ≤ ·) →
        (T'.inorder.map key).Sorted (· ≤ ·) := by
  obtain ⟨s', T0, e0, -, -, e, h⟩ := rb_insert_color_runs s k node hs hv hn fuel hf
  have hio : T0.blacken.inorder = (k.plug (Tree.node Tree.nil node RB_RED Tree.nil)).inorder := by
    rw [Tree.blacken_inorder, ins_loop_inorder _ _ _ e0]
  refine ⟨IsZip.plug_iff.1 ((IsZip.plug_iff.2 hs).link hn), s', T0.blacken, e, h, hio, ?_⟩
  intro key hk
  rw [hio]
  exact hk

/-- Witness of C3: node 40 linked to the right of node 30 in `three_nodes`. -/
theorem rb_insert_color_keeps_inorder_witness :
    IsTree (rb_link_node 40 slot_right_of_30.parent slot_right_of_30.side three_nodes)
      (slot_right_of_30.plug (Tree.node Tree.nil 40 RB_RED Tree.nil)) ∧
    ∃ s' T', rb_insert_color 3 40
        (rb_link_node 40 slot_right_of_30.parent slot_right_of_30.side three_nodes) =
        Res.ok s' ∧
      IsTree s' T' ∧
      T'.inorder = (slot_right_of_30.plug (Tree.node Tree.nil 40 RB_RED Tree.nil)).inorder ∧
      ∀ key : Nat → Nat,
        ((slot_right_of_30.plug
          (Tree.node Tree.nil 40 RB_RED Tree.nil)).inorder.map key).Sorted (· ≤ ·) →
        (T'.inorder.map key).Sorted (· ≤ ·) :=
  rb_insert_color_keeps_inorder three_nodes slot_right_of_30 40 3 three_nodes_is_tree
    three_nodes_valid (by decide) (by decide)

/-- C10, as stated, fails: after inserting 10, 20, 30 the nodes 10 and 30 are Red, so the
outcome in which all three nodes are Black does not occur. -/
theorem scenario_A_not_all_black :
    ¬ ∃ s, scenario_A = Res.ok s ∧ s.root = some 20 ∧ (s.mem 20).rb_left = some 10 ∧
      (s.mem 20).rb_right = some 30 ∧ (s.mem 10).rb_color = RB_BLACK ∧
      (s.mem 20).rb_color = RB_BLACK ∧ (s.mem 30).rb_color = RB_BLACK := by
  rintro ⟨s, hs, -, -, -, h10, -⟩
  have e : scenario_A = Res.ok (match scenario_A with | Res.ok t => t | _ => empty_state) := rfl
  rw [e] at hs
  injection hs with hs
  subst hs
  revert h10
  decide

/-- C10, amended: inserting 10, 20, 30 in order into the empty tree yields the tree with
Black root 20 whose left child 10 and right child 30 are both Red leaves. -/
theorem scenario_A_result :
    ∃ s, scenario_A = Res.ok s ∧
      IsTree s (Tree.node (Tree.node Tree.nil 10 RB_RED Tree.nil) 20 RB_BLACK
        (Tree.node Tree.nil 30 RB_RED Tree.nil)) ∧
      s.root = some 20 ∧ (s.mem 20).rb_left = some 10 ∧ (s.mem 20).rb_right = some 30 ∧
      (s.mem 20).rb_color = RB_BLACK ∧ (s.mem 10).rb_color = RB_RED ∧
      (s.mem 30).rb_color = RB_RED := by
  refine ⟨match scenario_A with | Res.ok t => t | _ => empty_state, rfl, ?_, rfl, rfl, rfl,
    rfl, rfl, rfl⟩
  refine ⟨rfl, ⟨rfl, ⟨rfl, trivial, trivial⟩, ⟨rfl, trivial, trivial⟩⟩, by decide⟩

/-- C2: for every valid red-black tree in memory and every node that is a member of it,
`rb_erase` returns once it has fuel for the size of the tree, and the memory then holds a
well-formed tree that is either empty or has no red node with a red child, equal Black
counts on all root-to-nil paths, and a Black root node. -/
theorem rb_erase_restores_invariants (s : State) (T : Tree) (node : Nat) (fuel : Nat)
    (hs : IsTree s T) (hv : T.rb_valid) (hm : node ∈ T.inorder) (hf : T.size < fuel) :
    ∃ s' T', rb_erase fuel node s = Res.ok s' ∧ IsTree s' T' ∧
      (T' = Tree.nil ∨
        (T'.no_red_red ∧ T'.black_balanced ∧ ∃ l a r, T' = Tree.node l a RB_BLACK r)) := by
  obtain ⟨s', T', -, -, -, -, -, -, e, h, hv', -⟩ := rb_erase_runs s T node fuel hs hv hm hf
  refine ⟨s', T', e, h, ?_⟩
  cases T' with
  | nil => exact Or.inl rfl
  | node l a c r =>
    obtain ⟨h1, h2, h3⟩ := hv'
    simp only [Tree.color] at h3
    subst h3
    exact Or.inr ⟨h1, h2, l, a, r, rfl⟩

/-- Witness of C2: erasing the root 20 of `three_nodes`. -/
theorem rb_erase_restores_invariants_witness :
    ∃ s' T', rb_erase 4 20 three_nodes = Res.ok s' ∧ IsTree s' T' ∧
      (T' = Tree.nil ∨
        (T'.no_red_red ∧ T'.black_balanced ∧ ∃ l a r, T' = Tree.node l a RB_BLACK r)) :=
  rb_erase_restores_invariants three_nodes (slot_right_of_30.plug Tree.nil) 20 4
    three_nodes_is_tree three_nodes_valid (by decide) (by decide)

/-- C4: for every valid red-black tree in memory and every node that is a member of it,
`rb_erase` returns once it has fuel for the size of the tree, and the in-order sequence of
the resulting tree is the one before the call with that node removed: the node is gone,
every other node is still present exactly once, and the relative order of the remaining
nodes is unchanged. -/
theorem rb_erase_keeps_inorder (s : State) (T : Tree) (node : Nat) (fuel : Nat)
    (hs : IsTree s T) (hv : T.rb_valid) (hm : node ∈ T.inorder) (hf : T.size < fuel) :
    ∃ s' T', rb_erase fuel node s = Res.ok s' ∧ IsTree s' T' ∧
      T'.inorder = T.inorder.erase node ∧ node ∉ T'.inorder ∧ T'.inorder.Nodup ∧
      (∀ x, x ≠ node → (x ∈ T'.inorder ↔ x ∈ T.inorder)) ∧
      T'.inorder.Sublist T.inorder := by
  obtain ⟨s', T', -, -, -, -, -, -, e, h, -, hio⟩ := rb_erase_runs s T node fuel hs hv hm hf
  refine ⟨s', T', e, h, hio, ?_, h.2.2, ?_, ?_⟩
  · rw [hio]
    exact fun hx => (List.Nodup.mem_erase_iff hs.2.2).1 hx |>.1 rfl
  · intro x hx
    rw [hio]
    exact List.mem_erase_of_ne hx
  · rw [hio]
    exact List.erase_sublist _ _

/-- Witness of C4: erasing the root 20 of `three_nodes`. -/
theorem rb_erase_keeps_inorder_witness :
    ∃ s' T', rb_erase 4 20 three_nodes = Res.ok s' ∧ IsTree s' T' ∧
      T'.inorder = (slot_right_of_30.plug Tree.nil).inorder.erase 20 ∧ 20 ∉ T'.inorder ∧
      T'.inorder.Nodup ∧
      (∀ x, x ≠ 20 → (x ∈ T'.inorder ↔ x ∈ (slot_right_of_30.plug Tree.nil).inorder)) ∧
      T'.inorder.Sublist (slot_right_of_30.plug Tree.nil).inorder :=
  rb_erase_keeps_inorder three_nodes (slot_right_of_30.plug Tree.nil) 20 4
    three_nodes_is_tree three_nodes_valid (by decide) (by decide)

theorem two_nodes_is_tree : IsTree two_nodes (slot_right_of_20.plug Tree.nil) := by
  refine ⟨rfl, ⟨rfl, ⟨rfl, trivial, trivial⟩, trivial⟩, by decide⟩

theorem two_nodes_valid : (slot_right_of_20.plug Tree.nil).rb_valid := by
  refine ⟨?_, ?_, rfl⟩
  · simp [slot_right_of_20, Ctx.plug, Tree.no_red_red]
  · simp [slot_right_of_20, Ctx.plug, Tree.black_balanced, Tree.black_counts]

/-- C9, as stated, fails: in the valid tree `three_nodes` (Black root 20, Red children 10
and 30), linking 40 to the right of 30, `rb_insert_color` and then `rb_erase` of 40 leave
the nodes 10 and 30 Black, while they were Red before the round trip. -/
theorem round_trip_changes_colours :
    IsTree three_nodes (slot_right_of_30.plug Tree.nil) ∧
    (slot_right_of_30.plug Tree.nil).rb_valid ∧
    40 ∉ (slot_right_of_30.plug Tree.nil).inorder ∧
    ∃ s1 s2, rb_insert_color 3 40 (rb_link_node 40 (some 30) Side.right three_nodes) =
        Res.ok s1 ∧
      rb_erase 5 40 s1 = Res.ok s2 ∧
      (three_nodes.mem 10).rb_color = RB_RED ∧ (s2.mem 10).rb_color = RB_BLACK ∧
      (three_nodes.mem 30).rb_color = RB_RED ∧ (s2.mem 30).rb_color = RB_BLACK := by
  refine ⟨three_nodes_is_tree, three_nodes_valid, by decide,
    match rb_insert_color 3 40 (rb_link_node 40 (some 30) Side.right three_nodes) with
      | Res.ok t => t | _ => empty_state,
    match (rb_insert_color 3 40 (rb_link_node 40 (some 30) Side.right three_nodes)).bind
        (rb_erase 5 40) with
      | Res.ok t => t | _ => empty_state,
    rfl, rfl, rfl, rfl, rfl, rfl⟩

/-- C9, amended: for every valid red-black tree in memory and every fresh node, linking the
node as a Red leaf at any empty slot, `rb_insert_color` and then `rb_erase` of that node
both return and leave a valid red-black tree with the original nodes in their original
in-order sequence; when the parent of the slot is Black, or the tree is empty (the context
`k` is `top`), the memory holds the prior tree again: the same root, and the same links and
colour on every original node. -/
theorem round_trip_insert_erase (s : State) (k : Ctx) (node : Nat) (fuel : Nat)
    (hs : IsTree s (k.plug Tree.nil)) (hv : (k.plug Tree.nil).rb_valid)
    (hn : node ∉ (k.plug Tree.nil).inorder) (hf : (k.plug Tree.nil).size + 1 < fuel) :
    ∃ s1 s2 T2, rb_insert_color fuel node (rb_link_node node k.parent k.side s) = Res.ok s1 ∧
      rb_erase fuel node s1 = Res.ok s2 ∧ IsTree s2 T2 ∧ T2.rb_valid ∧
      T2.inorder = (k.plug Tree.nil).inorder ∧
      (k.color = RB_BLACK →
        IsTree s2 (k.plug Tree.nil) ∧ s2.root = s.root ∧
          ∀ x ∈ (k.plug Tree.nil).inorder, s2.mem x = s.mem x) := by
  obtain ⟨s1, s2, T2, e1, e2, h2, hv2, hio, hx⟩ := round_trip_runs s k node fuel hs hv hn hf
  exact ⟨s1, s2, T2, e1, e2, h2, hv2, hio,
    fun hk => ⟨hx hk, (IsTree.mem_eq hs (hx hk)).1, (IsTree.mem_eq hs (hx hk)).2⟩⟩

/-- Witness of the amended C9: node 30 linked to the right of the Black root 20 of
`two_nodes`; the round trip restores the memory of the nodes 10 and 20. -/
theorem round_trip_insert_erase_witness :
    ∃ s1 s2 T2, rb_insert_color 4 30
        (rb_link_node 30 slot_right_of_20.parent slot_right_of_20.side two_nodes) =
        Res.ok s1 ∧
      rb_erase 4 30 s1 = Res.ok s2 ∧ IsTree s2 T2 ∧ T2.rb_valid ∧
      T2.inorder = (slot_right_of_20.plug Tree.nil).inorder ∧
      IsTree s2 (slot_right_of_20.plug Tree.nil) ∧ s2.root = two_nodes.root ∧
        ∀ x ∈ (slot_right_of_20.plug Tree.nil).inorder, s2.mem x = two_nodes.mem x := by
  obtain ⟨s1, s2, T2, e1, e2, h2, hv2, hio, hx⟩ :=
    round_trip_insert_erase two_nodes slot_right_of_20 30 4 two_nodes_is_tree two_nodes_valid
      (by decide) (by decide)
  exact ⟨s1, s2, T2, e1, e2, h2, hv2, hio, hx rfl⟩

/-- C5: for every well-formed tree in memory and every node in it, placed in the in-order
sequence as `xs ++ node :: ys`, `rb_next(node)` returns the first node of `ys`, the node
that immediately follows, and null exactly when `ys` is empty (the node is the last one);
`rb_prev(node)` returns the last node of `xs`, the node that immediately precedes, and null
exactly when `xs` is empty (the node is the first one).  Both return once they have fuel
for the size of the tree. -/
theorem rb_next_prev_inorder (s : State) (T : Tree) (node : Nat) (xs ys : List Nat)
    (fuel : Nat) (hs : IsTree s T) (hio : T.inorder = xs ++ node :: ys)
    (hf : T.size < fuel) :
    rb_next fuel node s = Res.ok ys.head? ∧ (rb_next fuel node s = Res.ok none ↔ ys = []) ∧
    rb_prev fuel node s = Res.ok xs.getLast? ∧
    (rb_prev fuel node s = Res.ok none ↔ xs = []) := by
  obtain ⟨h1, h2⟩ := rb_next_prev_split hs hio fuel hf
  refine ⟨h1, ?_, h2, ?_⟩
  · rw [h1]
    cases ys <;> simp
  · rw [h2]
    simp

/-- Witness of C5: node 20 of `three_nodes`, between 10 and 30. -/
theorem rb_next_prev_inorder_witness :
    rb_next 4 20 three_nodes = Res.ok [30].head? ∧
    (rb_next 4 20 three_nodes = Res.ok none ↔ [30] = []) ∧
    rb_prev 4 20 three_nodes = Res.ok [10].getLast? ∧
    (rb_prev 4 20 three_nodes = Res.ok none ↔ [10] = []) :=
  rb_next_prev_inorder three_nodes (slot_right_of_30.plug Tree.nil) 20 [10] [30] 4
    three_nodes_is_tree rfl (by decide)

/-- C6: for every well-formed tree in memory, given fuel for its size: on the empty tree
`rb_first` and `rb_last` return null; on a tree with n >= 1 nodes `rb_first` and `rb_last`
return nodes, the walk from `rb_first(root)` with n-1 applications of `rb_next` visits
exactly the in-order sequence, whose final element is `rb_last(root)`, and the walk from
`rb_last(root)` with n-1 applications of `rb_prev` visits exactly the reverse sequence,
whose final element is `rb_first(root)`. -/
theorem rb_first_next_walk (s : State) (T : Tree) (fuel : Nat) (hs : IsTree s T)
    (hf : T.size < fuel) :
    (T.size = 0 → rb_first fuel s = Res.ok none ∧ rb_last fuel s = Res.ok none) ∧
    (1 ≤ T.size → ∃ f l, rb_first fuel s = Res.ok (some f) ∧
      rb_last fuel s = Res.ok (some l) ∧
      walk_next fuel (T.size - 1) f s = Res.ok T.inorder ∧ T.inorder.getLast? = some l ∧
      walk_prev fuel (T.size - 1) l s = Res.ok T.inorder.reverse ∧
      T.inorder.reverse.getLast? = some f) := by
  have h1 := rb_first_spec hs fuel hf
  have h2 := rb_last_spec hs fuel hf
  have hsz := Tree.size_eq_length T
  refine ⟨?_, ?_⟩
  · intro h0
    rw [hsz, List.length_eq_zero] at h0
    rw [h1, h2, h0]
    exact ⟨rfl, rfl⟩
  · intro hn
    obtain ⟨f, ys, e⟩ : ∃ f ys, T.inorder = f :: ys := by
      cases h : T.inorder with
      | nil => rw [hsz, h] at hn; simp at hn
      | cons f ys => exact ⟨f, ys, rfl⟩
    obtain ⟨xs, l, e'⟩ : ∃ xs l, T.inorder = xs ++ [l] := by
      rcases List.eq_nil_or_concat T.inorder with h | ⟨xs, l, h⟩
      · rw [e] at h; simp at h
      · exact ⟨xs, l, by rw [h, List.concat_eq_append]⟩
    refine ⟨f, l, ?_, ?_, ?_, ?_, ?_, ?_⟩
    · rw [h1, e]; rfl
    · rw [h2, e']; simp
    · have := walk_next_split hs fuel hf ys [] f e
      rw [hsz, e]
      simpa using this
    · rw [e']; simp
    · have := walk_prev_split hs fuel hf xs.length xs [] l rfl e'
      rw [hsz, e']
      simpa using this
    · rw [e]; simp

/-- Witness of C6: the three nodes of `three_nodes`. -/
theorem rb_first_next_walk_witness :
    ∃ f l, rb_first 4 three_nodes = Res.ok (some f) ∧
      rb_last 4 three_nodes = Res.ok (some l) ∧
      walk_next 4 ((slot_right_of_30.plug Tree.nil).size - 1) f three_nodes =
        Res.ok (slot_right_of_30.plug Tree.nil).inorder ∧
      (slot_right_of_30.plug Tree.nil).inorder.getLast? = some l ∧
      walk_prev 4 ((slot_right_of_30.plug Tree.nil).size - 1) l three_nodes =
        Res.ok (slot_right_of_30.plug Tree.nil).inorder.reverse ∧
      (slot_right_of_30.plug Tree.nil).inorder.reverse.getLast? = some f :=
  (rb_first_next_walk three_nodes (slot_right_of_30.plug Tree.nil) 4 three_nodes_is_tree
    (by decide)).2 (by decide)

/-- C7: for every valid red-black tree in memory in which the stored size of each node is
the number of nodes in its subtree, and every fresh node linked as a Red leaf at any empty
slot, `rb_insert_color` and then `rb_augment_insert` with the size callback `update` both
return, and afterwards every node of the resulting tree (the nodes of the old tree and the
new node) has a stored size equal to the number of nodes in its subtree. -/
theorem rb_augment_insert_sizes (s : State) (k : Ctx) (node : Nat) (sz : Nat → Nat)
    (fuel : Nat) (hs : IsTree s (k.plug Tree.nil)) (hv : (k.plug Tree.nil).rb_valid)
    (hn : node ∉ (k.plug Tree.nil).inorder) (hsz : (k.plug Tree.nil).Sized sz)
    (hf : (k.plug Tree.nil).size + 1 < fuel) :
    ∃ s' T' sz', rb_insert_color fuel node (rb_link_node node k.parent k.side s) = Res.ok s' ∧
      IsTree s' T' ∧
      T'.inorder = (k.plug (Tree.node Tree.nil node RB_RED Tree.nil)).inorder ∧
      rb_augment_insert fuel node update s' sz = Res.ok sz' ∧ T'.Sized sz' := by
  have hd := Ctx.depth_le_size k Tree.nil
  obtain ⟨s', T0, e0, -, -, e, h⟩ := rb_insert_color_runs s k node hs hv hn fuel (by omega)
  have hio : T0.blacken.inorder = (k.plug (Tree.node Tree.nil node RB_RED Tree.nil)).inorder := by
    rw [Tree.blacken_inorder, ins_loop_inorder _ _ _ e0]
  have hw := (ins_loop_walk sz node k _ T0 e0 hsz.of_plug.2
    (Or.inl ⟨rfl, trivial, trivial⟩)).to_blacken
  have hsize : T0.blacken.size = (k.plug Tree.nil).size + 1 := by
    rw [Tree.size_eq_length, Tree.size_eq_length, hio, Ctx.inorder_plug, Ctx.inorder_plug]
    simp [Tree.inorder]
    omega
  obtain ⟨sz', e', h'⟩ := rb_augment_insert_sized h hw fuel (by omega)
  exact ⟨s', T0.blacken, sz', e, h, hio, e', h'⟩

/-- Witness of C7: node 40 linked to the right of node 30 in `three_nodes`, with stored
sizes 3 for the root 20 and 1 for the leaves. -/
theorem rb_augment_insert_sizes_witness :
    ∃ s' T' sz', rb_insert_color 5 40
        (rb_link_node 40 slot_right_of_30.parent slot_right_of_30.side three_nodes) =
        Res.ok s' ∧
      IsTree s' T' ∧
      T'.inorder = (slot_right_of_30.plug (Tree.node Tree.nil 40 RB_RED Tree.nil)).inorder ∧
      rb_augment_insert 5 40 update s' (fun a => if a = 20 then 3 else 1) = Res.ok sz' ∧
      T'.Sized sz' :=
  rb_augment_insert_sizes three_nodes slot_right_of_30 40 (fun a => if a = 20 then 3 else 1) 5
    three_nodes_is_tree three_nodes_valid (by decide)
    ⟨rfl, ⟨rfl, trivial, trivial⟩, ⟨rfl, trivial, trivial⟩⟩ (by decide)

/-- C8: for every valid red-black tree in memory in which the stored size of each node is
the number of nodes in its subtree, and every member node (with no child, one child or two
children), the sequence `d := rb_augment_erase_begin(node)`, `rb_erase(node, root)`,
`rb_augment_erase_end(d, update)` with the size callback returns at every step, the tree
left holds the other nodes in their order, and every remaining node has a stored size
equal to the number of nodes in its subtree. -/
theorem rb_augment_erase_sizes (s : State) (T : Tree) (node : Nat) (sz : Nat → Nat)
    (fuel : Nat) (hs : IsTree s T) (hv : T.rb_valid) (hm : node ∈ T.inorder)
    (hsz : T.Sized sz) (hf : T.size < fuel) :
    ∃ d s' T' sz', rb_augment_erase_begin fuel node s = Res.ok d ∧
      rb_erase fuel node s = Res.ok s' ∧ IsTree s' T' ∧
      T'.inorder = T.inorder.erase node ∧
      rb_augment_erase_end fuel d update s' sz = Res.ok sz' ∧ T'.Sized sz' := by
  obtain ⟨k, l, c, r, rfl⟩ := Tree.mem_plug hm
  have hz := IsZip.plug_iff.2 hs
  obtain ⟨T', e, -⟩ := erase_tree_valid hv
  obtain ⟨s', e', hs'⟩ := rb_erase_refines hz e fuel hf
  have hb := rb_augment_erase_begin_refines hz fuel hf
  have hw := erase_tree_walk e hsz hs.2.2
  have hio : T'.inorder = (k.plug (Tree.node l node c r)).inorder.erase node := by
    rw [erase_tree_inorder e, Ctx.inorder_plug]
    have hnd := hs.2.2
    rw [Ctx.inorder_plug] at hnd
    exact (erase_mid hnd).symm
  have hsize : T'.size < fuel := by
    rw [Tree.size_eq_length, hio]
    rw [Tree.size_eq_length] at hf
    exact lt_of_le_of_lt (List.erase_sublist _ _).length_le hf
  cases hd : erase_deepest k (Tree.node l node c r) with
  | none =>
    rw [hd] at hw hb
    simp only at hw
    subst hw
    exact ⟨none, s', Tree.nil, sz, hb, e', hs', hio, rfl, trivial⟩
  | some d =>
    rw [hd] at hw hb
    simp only at hw
    obtain ⟨k0, l0, c0, r0, rfl, hl, hr, hk0⟩ := hw.zip
    have hdep := Ctx.depth_le_size k0 (Tree.node l0 d c0 r0)
    obtain ⟨sz', e2, h2⟩ := rb_augment_path_sized k0 sz (IsZip.plug_iff.2 hs') rfl ⟨hl, hr⟩
      (hk0.imp (fun _ h => h)) fuel (by omega)
    exact ⟨some d, s', _, sz', hb, e', hs', hio, e2, h2⟩

/-- Witness of C8: erasing the root 20 of `three_nodes`, which has two children, with
stored sizes 3 for the root and 1 for the leaves. -/
theorem rb_augment_erase_sizes_witness :
    ∃ d s' T' sz', rb_augment_erase_begin 4 20 three_nodes = Res.ok d ∧
      rb_erase 4 20 three_nodes = Res.ok s' ∧ IsTree s' T' ∧
      T'.inorder = (slot_right_of_30.plug Tree.nil).inorder.erase 20 ∧
      rb_augment_erase_end 4 d update s' (fun a => if a = 20 then 3 else 1) = Res.ok sz' ∧
      T'.Sized sz' :=
  rb_augment_erase_sizes three_nodes (slot_right_of_30.plug Tree.nil) 20
    (fun a => if a = 20 then 3 else 1) 4 three_nodes_is_tree three_nodes_valid (by decide)
    ⟨rfl, ⟨rfl, trivial, trivial⟩, ⟨rfl, trivial, trivial⟩⟩ (by decide)

/-- C11: for every well-formed tree in memory, every member node `victim` (the root of the
focus) and every node `new` that is not in the tree, `rb_replace_node(victim, new, root)`
leaves the original tree with `new` in the place of `victim`: the record of `new` is the
old record of `victim` (parent, children and colour); the child slot of the parent of
`victim` that held `victim`, or the root reference when there is no parent, holds `new`
and nothing else of the parent changes; the children of `victim` have `new` as their
parent and nothing else of them changes; every other record is unchanged. -/
theorem rb_replace_node_substitutes (s : State) (k : Ctx) (l r : Tree) (victim new : Nat)
    (c : Color) (hs : IsTree s (k.plug (Tree.node l victim c r)))
    (hn : new ∉ (k.plug (Tree.node l victim c r)).inorder) :
    IsTree (rb_replace_node victim new s) (k.plug (Tree.node l new c r)) ∧
    (rb_replace_node victim new s).mem new = s.mem victim ∧
    (∀ p, rb_parent s victim = some p →
      (rb_replace_node victim new s).mem p =
        (if (s.mem p).rb_left = some victim then { s.mem p with rb_left := some new }
          else { s.mem p with rb_right := some new }) ∧
      (rb_replace_node victim new s).root = s.root) ∧
    (rb_parent s victim = none → (rb_replace_node victim new s).root = some new) ∧
    (∀ x, (s.mem victim).rb_left = some x ∨ (s.mem victim).rb_right = some x →
      (rb_replace_node victim new s).mem x = { s.mem x with rb_parent := some new }) ∧
    (∀ x, x ≠ new → some x ≠ rb_parent s victim → some x ≠ (s.mem victim).rb_left →
      some x ≠ (s.mem victim).rb_right → (rb_replace_node victim new s).mem x = s.mem x) := by
  have hz := IsZip.plug_iff.2 hs
  have hz' := hz.replace hn
  have hm := hz.mem_root
  have hm' := hz'.mem_root
  have hnd := hz.nodup
  refine ⟨IsZip.plug_iff.1 hz', by rw [hm, hm'], ?_, ?_, ?_, ?_⟩
  · intro p hp
    rw [rb_parent, hm] at hp
    cases k with
    | top => simp [Ctx.parent] at hp
    | left up q qc sib =>
      simp only [Ctx.parent_left, Option.some.injEq] at hp
      subst hp
      have e1 := hz.mem_left
      have e2 := hz'.mem_left
      refine ⟨?_, ?_⟩
      · rw [e2, e1]
        simp
      · rw [rb_replace_node_root, rb_parent, hm]
        rfl
    | right sib q qc up =>
      simp only [Ctx.parent_right, Option.some.injEq] at hp
      subst hp
      have e1 := hz.mem_right
      have e2 := hz'.mem_right
      have hv : sib.ptr ≠ some victim := by
        intro e
        have := Tree.ptr_mem e
        simp only [Ctx.before, Tree.inorder] at hnd
        have h1 := (List.nodup_append.1 hnd).2.2
        exact h1 (List.mem_append_right _ (List.mem_append_left _ this))
          (List.mem_append_left _ (List.mem_append_right _ (List.mem_cons_self _ _)))
      refine ⟨?_, ?_⟩
      · rw [e2, e1]
        simp [hv]
      · rw [rb_replace_node_root, rb_parent, hm]
        rfl
  · intro hp
    rw [rb_parent, hm] at hp
    cases k with
    | top => exact hz'.1
    | left up q qc sib => simp [Ctx.parent] at hp
    | right sib q qc up => simp [Ctx.parent] at hp
  · intro x hx
    rw [hm] at hx
    rcases hx with hx | hx
    · cases l with
      | nil => simp at hx
      | node ll y cy lr =>
        simp only [Tree.ptr_node, Option.some.injEq] at hx
        subst hx
        rw [hz'.2.1.2.1.1, hz.2.1.2.1.1]
    · cases r with
      | nil => simp at hx
      | node rl y cy rr =>
        simp only [Tree.ptr_node, Option.some.injEq] at hx
        subst hx
        rw [hz'.2.1.2.2.1, hz.2.1.2.2.1]
  · intro x h1 h2 h3 h4
    rw [rb_parent, hm] at h2
    rw [hm] at h3 h4
    exact rb_replace_node_frame hz x h1 h2 h3 h4

/-- Witness of C11: node 30 of `three_nodes` replaced by the fresh node 40. -/
theorem rb_replace_node_substitutes_witness :
    IsTree (rb_replace_node 30 40 three_nodes)
      (slot_right_of_20.plug (Tree.node Tree.nil 40 RB_RED Tree.nil)) ∧
    (rb_replace_node 30 40 three_nodes).mem 40 = three_nodes.mem 30 ∧
    (∀ p, rb_parent three_nodes 30 = some p →
      (rb_replace_node 30 40 three_nodes).mem p =
        (if (three_nodes.mem p).rb_left = some 30 then
          { three_nodes.mem p with rb_left := some 40 }
          else { three_nodes.mem p with rb_right := some 40 }) ∧
      (rb_replace_node 30 40 three_nodes).root = three_nodes.root) ∧
    (rb_parent three_nodes 30 = none → (rb_replace_node 30 40 three_nodes).root = some 40) ∧
    (∀ x, (three_nodes.mem 30).rb_left = some x ∨ (three_nodes.mem 30).rb_right = some x →
      (rb_replace_node 30 40 three_nodes).mem x =
        { three_nodes.mem x with rb_parent := some 40 }) ∧
    (∀ x, x ≠ 40 → some x ≠ rb_parent three_nodes 30 →
      some x ≠ (three_nodes.mem 30).rb_left → some x ≠ (three_nodes.mem 30).rb_right →
      (rb_replace_node 30 40 three_nodes).mem x = three_nodes.mem x) :=
  rb_replace_node_substitutes three_nodes slot_right_of_20 Tree.nil Tree.nil 30 40 RB_RED
    three_nodes_is_tree (by decide)

/-- C12: every tree obtained from the empty tree by a finite sequence of insertions (link
as a Red leaf, then `rb_insert_color`) and `rb_erase` operations, holding `n` nodes, has
height at most `2 * log2 (n + 1)`, where the height is the number of nodes on the longest
root-to-nil path; in natural numbers, `2 ^ height ≤ (n + 1) ^ 2`. -/
theorem reachable_height_bound (s : State) (T : Tree) (hr : Reachable s) (hs : IsTree s T) :
    (T.height : ℝ) ≤ 2 * Real.logb 2 ((T.size : ℝ) + 1) ∧
    2 ^ T.height ≤ (T.size + 1) ^ 2 := by
  obtain ⟨T0, h0, hv⟩ := hr.valid
  have := h0.unique hs
  subst this
  exact ⟨height_le_logb hv.pow_height, hv.pow_height⟩

/-- Witness of C12: the tree with the single node 10, inserted into the empty tree. -/
theorem reachable_height_bound_witness :
    (((Tree.node Tree.nil 10 RB_BLACK Tree.nil).height : Nat) : ℝ) ≤
      2 * Real.logb 2 (((Tree.node Tree.nil 10 RB_BLACK Tree.nil).size : ℝ) + 1) ∧
    2 ^ (Tree.node Tree.nil 10 RB_BLACK Tree.nil).height ≤
      ((Tree.node Tree.nil 10 RB_BLACK Tree.nil).size + 1) ^ 2 :=
  reachable_height_bound
    (match rb_insert_color 1 10 (rb_link_node 10 none Side.left empty_state) with
      | Res.ok t => t
      | _ => empty_state)
    (Tree.node Tree.nil 10 RB_BLACK Tree.nil)
    (Reachable.insert empty_state Ctx.top 10 1 _ (Reachable.empty empty_state rfl)
      ⟨rfl, trivial, List.nodup_nil⟩ (by simp [Ctx.plug, Tree.inorder]) (by decide) rfl)
    ⟨rfl, ⟨rfl, trivial, trivial⟩, by decide⟩

theorem three_black_is_tree : IsTree three_black three_black_tree := by
  refine ⟨rfl, ⟨rfl, ⟨rfl, trivial, trivial⟩, ⟨rfl, trivial, trivial⟩⟩, by decide⟩

theorem three_black_valid : three_black_tree.rb_valid := by
  refine ⟨?_, ?_, rfl⟩
  · simp [three_black_tree, Tree.no_red_red]
  · simp [three_black_tree, Tree.black_balanced, Tree.black_counts]

/-- C13: for every valid red-black tree in memory and every member node, `rb_erase`
dereferences no absent node, whatever the fuel; given fuel for the size of the tree, the
structural part of `rb_erase` hands a focus to `__rb_erase_color` on which the abstract
fixup `erase_finish` meets no absent parent, sibling or nephew (it answers `some`), and
the call of the fixup returns; the fixup from that state dereferences no absent node,
whatever the fuel. -/
theorem rb_erase_no_absent_deref (s : State) (T : Tree) (node : Nat) (hs : IsTree s T)
    (hv : T.rb_valid) (hm : node ∈ T.inorder) :
    (∀ fuel, rb_erase fuel node s ≠ Res.null_deref) ∧
    (∀ fuel, T.size < fuel → ∃ s1 K child col,
      rb_erase fuel node s = rb_erase_color_step fuel col child.ptr K.parent s1 ∧
      IsZip s1 K child ∧ (∃ T', erase_finish col K child = some T') ∧
      (∃ s', rb_erase_color_step fuel col child.ptr K.parent s1 = Res.ok s') ∧
      ∀ fuel', rb_erase_color_step fuel' col child.ptr K.parent s1 ≠ Res.null_deref) := by
  obtain ⟨k, l, c, r, rfl⟩ := Tree.mem_plug hm
  have hz := IsZip.plug_iff.2 hs
  obtain ⟨T', e, -⟩ := erase_tree_valid hv
  constructor
  · obtain ⟨s', e', -⟩ := rb_erase_refines hz e _ (Nat.lt_succ_self _)
    exact no_null_of_ok (fun f => rb_erase f node s) (fun f => rb_erase_mono f node s) e'
  · intro fuel hf
    obtain ⟨s1, K, child, col, e1, z, hd, hT⟩ := rb_erase_split hz fuel hf
    rw [hT] at e
    obtain ⟨s', e', -⟩ := erase_finish_refines z e fuel hd
    exact ⟨s1, K, child, col, e1, z, ⟨T', e⟩, ⟨s', e'⟩,
      no_null_of_ok (fun f => rb_erase_color_step f col child.ptr K.parent s1)
        (fun f => rb_erase_color_step_mono f col child.ptr K.parent s1) e'⟩

/-- Witness of C13: erasing the Black leaf 10 of `three_black`, where the colour removed
is Black and `__rb_erase_color` runs: it recolours the sibling 30 Red. -/
theorem rb_erase_no_absent_deref_witness :
    (rb_color three_black 10 = RB_BLACK ∧
      ∃ s', rb_erase 4 10 three_black = Res.ok s' ∧ rb_color s' 30 = RB_RED) ∧
    (∀ fuel, rb_erase fuel 10 three_black ≠ Res.null_deref) ∧
    (∀ fuel, three_black_tree.size < fuel → ∃ s1 K child col,
      rb_erase fuel 10 three_black = rb_erase_color_step fuel col child.ptr K.parent s1 ∧
      IsZip s1 K child ∧ (∃ T', erase_finish col K child = some T') ∧
      (∃ s', rb_erase_color_step fuel col child.ptr K.parent s1 = Res.ok s') ∧
      ∀ fuel', rb_erase_color_step fuel' col child.ptr K.parent s1 ≠ Res.null_deref) :=
  ⟨⟨rfl, _, rfl, rfl⟩,
    rb_erase_no_absent_deref three_black three_black_tree 10 three_black_is_tree
      three_black_valid (by decide)⟩

/-- C14: for every valid red-black tree in memory and every fresh node linked as a Red
leaf at any empty slot, `rb_insert_color` dereferences no absent node, whatever the fuel:
the abstract loop `ins_loop`, which answers `none` at a Red parent without a grandparent
and at a rotation without the child it needs, answers `some`; the loop returns given fuel
for the depth of the slot; the root reference is then present, and it is the node that is
forced Black. -/
theorem rb_insert_color_no_absent_deref (s : State) (k : Ctx) (node : Nat)
    (hs : IsTree s (k.plug Tree.nil)) (hv : (k.plug Tree.nil).rb_valid)
    (hn : node ∉ (k.plug Tree.nil).inorder) :
    (∀ fuel, rb_insert_color fuel node (rb_link_node node k.parent k.side s) ≠
      Res.null_deref) ∧
    (∀ fuel, rb_insert_color_loop fuel node (rb_link_node node k.parent k.side s) ≠
      Res.null_deref) ∧
    (∃ T0, ins_loop k (Tree.node Tree.nil node RB_RED Tree.nil) = some T0) ∧
    (∀ fuel, k.depth < fuel → ∃ s1 r,
      rb_insert_color_loop fuel node (rb_link_node node k.parent k.side s) = Res.ok s1 ∧
      s1.root = some r ∧
      rb_insert_color fuel node (rb_link_node node k.parent k.side s) =
        Res.ok (rb_set_black s1 r)) := by
  obtain ⟨s1, T0, r, e0, e1, -, hr, e2⟩ :=
    rb_insert_color_steps s k node hs hv hn _ (Nat.lt_succ_self _)
  refine ⟨?_, ?_, ⟨T0, e0⟩, ?_⟩
  · exact no_null_of_ok
      (fun f => rb_insert_color f node (rb_link_node node k.parent k.side s))
      (fun f => rb_insert_color_mono f node _) e2
  · exact no_null_of_ok
      (fun f => rb_insert_color_loop f node (rb_link_node node k.parent k.side s))
      (fun f => rb_insert_color_loop_mono f node _) e1
  · intro fuel hf
    obtain ⟨s1, T0, r, -, e1, -, hr, e2⟩ := rb_insert_color_steps s k node hs hv hn fuel hf
    exact ⟨s1, r, e1, hr, e2⟩

/-- Witness of C14: node 40 linked to the right of node 30 in `three_nodes`. -/
theorem rb_insert_color_no_absent_deref_witness :
    (∀ fuel, rb_insert_color fuel 40
      (rb_link_node 40 slot_right_of_30.parent slot_right_of_30.side three_nodes) ≠
      Res.null_deref) ∧
    (∀ fuel, rb_insert_color_loop fuel 40
      (rb_link_node 40 slot_right_of_30.parent slot_right_of_30.side three_nodes) ≠
      Res.null_deref) ∧
    (∃ T0, ins_loop slot_right_of_30 (Tree.node Tree.nil 40 RB_RED Tree.nil) = some T0) ∧
    (∀ fuel, slot_right_of_30.depth < fuel → ∃ s1 r,
      rb_insert_color_loop fuel 40
        (rb_link_node 40 slot_right_of_30.parent slot_right_of_30.side three_nodes) =
        Res.ok s1 ∧
      s1.root = some r ∧
      rb_insert_color fuel 40
        (rb_link_node 40 slot_right_of_30.parent slot_right_of_30.side three_nodes) =
        Res.ok (rb_set_black s1 r)) :=
  rb_insert_color_no_absent_deref three_nodes slot_right_of_30 40 three_nodes_is_tree
    three_nodes_valid (by decide)

/-- C15: on every well-formed tree in memory every operation stops, within fuel bounded by
the measure that its loop decreases: `rb_first` and `rb_last` return given fuel for the
size of the tree; the loop of `__rb_erase_color`, started at any focus, stops (it returns
or dereferences an absent node) given one unit of fuel per level above the focus, plus
two; for every node of the tree, the loop of `rb_insert_color`, the upward walks of
`rb_next` and `rb_prev` and `rb_augment_path` with any callback stop given one unit of
fuel per level above the node, plus one; the successor search of `rb_erase` and the
descents of `rb_first`, `rb_last`, `rb_next` and `rb_prev` return given fuel for the size
of the subtree of the node; `rb_erase`, `rb_next` and `rb_prev` stop given fuel for the
size of the tree. -/
theorem operations_terminate (s : State) (T : Tree) (hs : IsTree s T) :
    (∀ fuel, T.size < fuel →
      (∃ p, rb_first fuel s = Res.ok p) ∧ (∃ p, rb_last fuel s = Res.ok p)) ∧
    (∀ k t, T = Ctx.plug k t → ∀ fuel, k.depth + 1 < fuel →
      __rb_erase_color fuel t.ptr k.parent s ≠ Res.out_of_fuel) ∧
    (∀ k l n c r, T = Ctx.plug k (Tree.node l n c r) →
      (∀ fuel, k.depth < fuel →
        rb_insert_color_loop fuel n s ≠ Res.out_of_fuel ∧
        rb_insert_color fuel n s ≠ Res.out_of_fuel ∧
        (∃ p, ascend_next fuel n s = Res.ok p) ∧ (∃ p, ascend_prev fuel n s = Res.ok p) ∧
        ∀ (δ : Type) (func : Nat → State → δ → δ) (d : δ),
          ∃ d', rb_augment_path func fuel n s d = Res.ok d') ∧
      (∀ fuel, (Tree.node l n c r).size ≤ fuel →
        (∃ m, leftmost fuel n s = Res.ok m) ∧ (∃ m, descend_left fuel n s = Res.ok m) ∧
        (∃ m, descend_right fuel n s = Res.ok m)) ∧
      (∀ fuel, T.size < fuel →
        rb_erase fuel n s ≠ Res.out_of_fuel ∧ (∃ p, rb_next fuel n s = Res.ok p) ∧
        (∃ p, rb_prev fuel n s = Res.ok p))) := by
  refine ⟨?_, ?_, ?_⟩
  · intro fuel hf
    exact ⟨⟨_, rb_first_spec hs fuel hf⟩, ⟨_, rb_last_spec hs fuel hf⟩⟩
  · rintro k t rfl fuel hf
    exact rb_erase_color_terminates (IsZip.plug_iff.2 hs) fuel hf
  · rintro k l n c r rfl
    have hz := IsZip.plug_iff.2 hs
    refine ⟨?_, ?_, ?_⟩
    · intro fuel hf
      exact ⟨rb_insert_color_loop_terminates hz fuel hf, rb_insert_color_terminates hz fuel hf,
        ⟨_, ascend_next_spec hz fuel hf⟩, ⟨_, ascend_prev_spec hz fuel hf⟩,
        fun δ func d => ⟨_, rb_augment_path_calls func k d hz fuel hf⟩⟩
    · intro fuel hf
      obtain ⟨m1, -, e1⟩ := leftmost_spec (Tree.node l n c r) n rfl hz.2.1 Ctx.top fuel hf
      obtain ⟨m2, -, e2⟩ := descend_left_spec (Tree.node l n c r) n rfl hz.2.1 fuel hf
      obtain ⟨m3, -, e3⟩ := descend_right_spec (Tree.node l n c r) n rfl hz.2.1 fuel hf
      exact ⟨⟨m1, e1⟩, ⟨m2, e2⟩, ⟨m3, e3⟩⟩
    · intro fuel hf
      exact ⟨rb_erase_terminates hz fuel hf, ⟨_, rb_next_zip hz fuel hf⟩,
        ⟨_, rb_prev_zip hz fuel hf⟩⟩

/-- Witness of C15: the operations on `three_nodes`. -/
theorem operations_terminate_witness :
    (∀ fuel, (slot_right_of_30.plug Tree.nil).size < fuel →
      (∃ p, rb_first fuel three_nodes = Res.ok p) ∧
      (∃ p, rb_last fuel three_nodes = Res.ok p)) ∧
    (∀ k t, slot_right_of_30.plug Tree.nil = Ctx.plug k t → ∀ fuel, k.depth + 1 < fuel →
      __rb_erase_color fuel t.ptr k.parent three_nodes ≠ Res.out_of_fuel) :=
  ⟨(operations_terminate three_nodes (slot_right_of_30.plug Tree.nil) three_nodes_is_tree).1,
    (operations_terminate three_nodes (slot_right_of_30.plug Tree.nil)
      three_nodes_is_tree).2.1⟩

/-- C16: for every valid red-black tree in memory and every member node (the root of the
focus), when the colour removed is Red, `rb_erase` returns given fuel for the size of the
tree and does no fixup.  When the node has at most one child and is Red, it has no child
and the result is the original tree with the node unlinked.  When the node has two
children and its successor `m`, the leftmost node of the right subtree, is Red, then `m`
has no child and the result is the original tree with `m` in the place and with the colour
of the node, the old slot of `m` being empty.  Every other node keeps its place and its
colour. -/
theorem rb_erase_red_no_fixup (s : State) (k : Ctx) (l r : Tree) (node : Nat) (c : Color)
    (fuel : Nat) (hs : IsTree s (k.plug (Tree.node l node c r)))
    (hv : (k.plug (Tree.node l node c r)).rb_valid)
    (hf : (k.plug (Tree.node l node c r)).size < fuel) :
    ((l = Tree.nil ∨ r = Tree.nil) → c = RB_RED →
      l = Tree.nil ∧ r = Tree.nil ∧
      ∃ s', rb_erase fuel node s = Res.ok s' ∧ IsTree s' (k.plug Tree.nil)) ∧
    (∀ kk ml m mr, l ≠ Tree.nil → r.zoom_min Ctx.top = (kk, Tree.node ml m RB_RED mr) →
      ml = Tree.nil ∧ mr = Tree.nil ∧ r = kk.plug (Tree.node Tree.nil m RB_RED Tree.nil) ∧
      ∃ s', rb_erase fuel node s = Res.ok s' ∧
        IsTree s' (k.plug (Tree.node l m c (kk.plug Tree.nil)))) := by
  have hz := IsZip.plug_iff.2 hs
  constructor
  · rintro hlr rfl
    have hl : l = Tree.nil := by
      rcases hlr with h | h
      · exact h
      · subst h
        exact hv.red_leaf_left
    subst hl
    have hr : r = Tree.nil := hv.red_leaf
    subst hr
    have hT : erase_tree k (Tree.node Tree.nil node RB_RED Tree.nil) = some (k.plug Tree.nil) :=
      rfl
    obtain ⟨s', e, h'⟩ := rb_erase_refines hz hT fuel hf
    exact ⟨rfl, rfl, s', e, h'⟩
  · intro kk ml m mr hl hzm
    cases l with
    | nil => exact absurd rfl hl
    | node ll l0 lc lr =>
    cases r with
    | nil => simp [Tree.zoom_min] at hzm
    | node rl r0 rc rr =>
    obtain ⟨m', mc', mr', hsh⟩ := Tree.zoom_min_shape rl r0 rc rr Ctx.top
    rw [hzm] at hsh
    simp only [Tree.node.injEq] at hsh
    obtain ⟨rfl, rfl, -, rfl⟩ := hsh
    have hp := Tree.zoom_min_plug (Tree.node rl r0 rc rr) Ctx.top
    rw [hzm] at hp
    change _ = Tree.node rl r0 rc rr at hp
    have hv' : ((kk.comp (Ctx.right (Tree.node ll l0 lc lr) node c k)).plug
        (Tree.node Tree.nil m RB_RED mr)).rb_valid := by
      rw [Ctx.plug_comp]
      simp only [Ctx.plug]
      rw [hp]
      exact hv
    have hmr : mr = Tree.nil := hv'.red_leaf
    subst hmr
    have hT : erase_tree k (Tree.node (Tree.node ll l0 lc lr) node c (Tree.node rl r0 rc rr)) =
        some (k.plug (Tree.node (Tree.node ll l0 lc lr) m c (kk.plug Tree.nil))) := by
      simp only [erase_tree, hzm, erase_finish, reduceCtorEq, if_false, Ctx.plug_comp]
      rfl
    obtain ⟨s', e, h'⟩ := rb_erase_refines hz hT fuel hf
    exact ⟨rfl, rfl, hp.symm, s', e, h'⟩

/-- Witness of C16: erasing the Red leaf 30 of `three_nodes`, and erasing its root 20,
whose successor 30 is Red. -/
theorem rb_erase_red_no_fixup_witness :
    (Tree.nil = Tree.nil ∧ Tree.nil = Tree.nil ∧
      ∃ s', rb_erase 4 30 three_nodes = Res.ok s' ∧
        IsTree s' (slot_right_of_20.plug Tree.nil)) ∧
    (Tree.nil = Tree.nil ∧ Tree.nil = Tree.nil ∧
      Tree.node Tree.nil 30 RB_RED Tree.nil =
        Ctx.top.plug (Tree.node Tree.nil 30 RB_RED Tree.nil) ∧
      ∃ s', rb_erase 4 20 three_nodes = Res.ok s' ∧
        IsTree s' (Ctx.top.plug (Tree.node (Tree.node Tree.nil 10 RB_RED Tree.nil) 30 RB_BLACK
          (Ctx.top.plug Tree.nil)))) :=
  ⟨(rb_erase_red_no_fixup three_nodes slot_right_of_20 Tree.nil Tree.nil 30 RB_RED 4
      three_nodes_is_tree three_nodes_valid (by decide)).1 (Or.inl rfl) rfl,
    (rb_erase_red_no_fixup three_nodes Ctx.top (Tree.node Tree.nil 10 RB_RED Tree.nil)
      (Tree.node Tree.nil 30 RB_RED Tree.nil) 20 RB_BLACK 4
      three_nodes_is_tree three_nodes_valid (by decide)).2 Ctx.top Tree.nil 30 Tree.nil
      (fun h => Tree.noConfusion h) rfl⟩

/-- C17: for every well-formed tree in memory and every node `a` with a right child `b`,
`__rb_rotate_left(a, root)` returns and leaves a well-formed tree in which `b` stands in
the former place of `a` (the same context: under the former parent on the same side, or
as the root), `a` is the left child of `b` and the former left subtree of `b` is the
right subtree of `a`; the in-order sequence is unchanged and no colour changes.
`__rb_rotate_right` is the mirror image for a node `a` with a left child `b`. -/
theorem rotations_reshape (s : State) (T : Tree) (hs : IsTree s T) :
    (∀ k l a c rl b cb rr, T = Ctx.plug k (Tree.node l a c (Tree.node rl b cb rr)) →
      ∃ s', __rb_rotate_left a s = Res.ok s' ∧
        IsTree s' (k.plug (Tree.node (Tree.node l a c rl) b cb rr)) ∧
        (k.plug (Tree.node (Tree.node l a c rl) b cb rr)).inorder = T.inorder ∧
        ∀ x, (s'.mem x).rb_color = (s.mem x).rb_color) ∧
    (∀ k ll b cb lr a c r, T = Ctx.plug k (Tree.node (Tree.node ll b cb lr) a c r) →
      ∃ s', __rb_rotate_right a s = Res.ok s' ∧
        IsTree s' (k.plug (Tree.node ll b cb (Tree.node lr a c r))) ∧
        (k.plug (Tree.node ll b cb (Tree.node lr a c r))).inorder = T.inorder ∧
        ∀ x, (s'.mem x).rb_color = (s.mem x).rb_color) := by
  constructor
  · rintro k l a c rl b cb rr rfl
    obtain ⟨s', e, h'⟩ := (IsZip.plug_iff.2 hs).rotate_left
    refine ⟨s', e, IsZip.plug_iff.1 h', ?_, rb_rotate_left_color e⟩
    rw [Ctx.inorder_plug, Ctx.inorder_plug]
    simp [Tree.inorder]
  · rintro k ll b cb lr a c r rfl
    obtain ⟨s', e, h'⟩ := (IsZip.plug_iff.2 hs).rotate_right
    refine ⟨s', e, IsZip.plug_iff.1 h', ?_, rb_rotate_right_color e⟩
    rw [Ctx.inorder_plug, Ctx.inorder_plug]
    simp [Tree.inorder]

/-- Witness of C17: the left rotation at the root 20 of `three_nodes`, and the right
rotation at the same node. -/
theorem rotations_reshape_witness :
    (∃ s', __rb_rotate_left 20 three_nodes = Res.ok s' ∧
      IsTree s' (Ctx.top.plug (Tree.node (Tree.node (Tree.node Tree.nil 10 RB_RED Tree.nil)
        20 RB_BLACK Tree.nil) 30 RB_RED Tree.nil)) ∧
      (Ctx.top.plug (Tree.node (Tree.node (Tree.node Tree.nil 10 RB_RED Tree.nil)
        20 RB_BLACK Tree.nil) 30 RB_RED Tree.nil)).inorder =
        (slot_right_of_30.plug Tree.nil).inorder ∧
      ∀ x, (s'.mem x).rb_color = (three_nodes.mem x).rb_color) ∧
    (∃ s', __rb_rotate_right 20 three_nodes = Res.ok s' ∧
      IsTree s' (Ctx.top.plug (Tree.node Tree.nil 10 RB_RED (Tree.node Tree.nil
        20 RB_BLACK (Tree.node Tree.nil 30 RB_RED Tree.nil)))) ∧
      (Ctx.top.plug (Tree.node Tree.nil 10 RB_RED (Tree.node Tree.nil
        20 RB_BLACK (Tree.node Tree.nil 30 RB_RED Tree.nil)))).inorder =
        (slot_right_of_30.plug Tree.nil).inorder ∧
      ∀ x, (s'.mem x).rb_color = (three_nodes.mem x).rb_color) :=
  ⟨(rotations_reshape three_nodes (slot_right_of_30.plug Tree.nil) three_nodes_is_tree).1
      Ctx.top (Tree.node Tree.nil 10 RB_RED Tree.nil) 20 RB_BLACK Tree.nil 30 RB_RED Tree.nil
      rfl,
    (rotations_reshape three_nodes (slot_right_of_30.plug Tree.nil) three_nodes_is_tree).2
      Ctx.top Tree.nil 10 RB_RED Tree.nil 20 RB_BLACK (Tree.node Tree.nil 30 RB_RED Tree.nil)
      rfl⟩

/-- C18: for every well-formed tree in memory and every start node (the root of the
focus), `rb_augment_path` returns given fuel for the depth of the start node, and the
sequence `calls` of the nodes on which it calls the callback (the same for every callback)
is such that: the first call is on the start node; every proper ancestor of the start node
is called; the last call is on the root; every call is on the start node, on one of its
proper ancestors or on a sibling of a node of the path; and every call on a proper
ancestor comes after a call on each present child of that ancestor. -/
theorem rb_augment_path_call_order (s : State) (k : Ctx) (l r : Tree) (start : Nat)
    (c : Color) (fuel : Nat) (hs : IsTree s (k.plug (Tree.node l start c r)))
    (hf : k.depth < fuel) :
    ∃ calls, rb_augment_path (fun n _ d => d ++ [n]) fuel start s [] = Res.ok calls ∧
      (∀ (δ : Type) (func : Nat → State → δ → δ) (d : δ),
        rb_augment_path func fuel start s d =
          Res.ok (calls.foldl (fun d n => func n s d) d)) ∧
      calls.head? = some start ∧
      (∀ p ∈ k.ancestors, p ∈ calls) ∧
      calls.getLast? = s.root ∧
      (∀ x ∈ calls, x = start ∨ x ∈ k.ancestors ∨ x ∈ k.siblings) ∧
      (∀ pre x post, calls = pre ++ x :: post → x ∈ k.ancestors →
        ∀ ch, ((s.mem x).rb_left = some ch ∨ (s.mem x).rb_right = some ch) → ch ∈ pre) := by
  have hz := IsZip.plug_iff.2 hs
  refine ⟨k.path_calls start, ?_, ?_, Ctx.path_calls_head k start,
    Ctx.ancestors_subset_calls k start, ?_, Ctx.calls_subset k start,
    path_calls_children k hz⟩
  · rw [rb_augment_path_calls _ k [] hz fuel hf, foldl_snoc_eq]
    rfl
  · intro δ func d
    exact rb_augment_path_calls func k d hz fuel hf
  · rw [Ctx.path_calls_last k l r start c, hs.1]

/-- Witness of C18: the walk from the leaf 30 of `three_nodes`. -/
theorem rb_augment_path_call_order_witness :
    ∃ calls, rb_augment_path (fun n _ d => d ++ [n]) 2 30 three_nodes [] = Res.ok calls ∧
      (∀ (δ : Type) (func : Nat → State → δ → δ) (d : δ),
        rb_augment_path func 2 30 three_nodes d =
          Res.ok (calls.foldl (fun d n => func n three_nodes d) d)) ∧
      calls.head? = some 30 ∧
      (∀ p ∈ slot_right_of_20.ancestors, p ∈ calls) ∧
      calls.getLast? = three_nodes.root ∧
      (∀ x ∈ calls, x = 30 ∨ x ∈ slot_right_of_20.ancestors ∨
        x ∈ slot_right_of_20.siblings) ∧
      (∀ pre x post, calls = pre ++ x :: post → x ∈ slot_right_of_20.ancestors →
        ∀ ch, ((three_nodes.mem x).rb_left = some ch ∨
          (three_nodes.mem x).rb_right = some ch) → ch ∈ pre) :=
  rb_augment_path_call_order three_nodes slot_right_of_20 Tree.nil Tree.nil 30 RB_RED 2
    three_nodes_is_tree (by decide)

/-- C19: for every valid red-black tree in memory and every member node (the root of the
focus), `rb_augment_erase_begin(node)` and `rb_erase(node, root)` return given fuel for
the size of the tree; the node `d` returned by `rb_augment_erase_begin` is never the node
itself and, when present, is a member of the tree left by `rb_erase`; it is absent only
when the node has no children and no parent; when the node has exactly one child `d` is
that child, and when it has no children `d` is its parent. -/
theorem rb_augment_erase_begin_result (s : State) (k : Ctx) (l r : Tree) (node : Nat)
    (c : Color) (fuel : Nat) (hs : IsTree s (k.plug (Tree.node l node c r)))
    (hv : (k.plug (Tree.node l node c r)).rb_valid)
    (hf : (k.plug (Tree.node l node c r)).size < fuel) :
    ∃ d s' T', rb_augment_erase_begin fuel node s = Res.ok d ∧
      rb_erase fuel node s = Res.ok s' ∧ IsTree s' T' ∧
      d ≠ some node ∧ (∀ x, d = some x → x ∈ T'.inorder) ∧
      (d = none → (s.mem node).rb_left = none ∧ (s.mem node).rb_right = none ∧
        rb_parent s node = none) ∧
      ((s.mem node).rb_left = none → (s.mem node).rb_right = none → d = rb_parent s node) ∧
      (∀ x, (s.mem node).rb_left = some x → (s.mem node).rb_right = none → d = some x) ∧
      (∀ x, (s.mem node).rb_left = none → (s.mem node).rb_right = some x → d = some x) := by
  have hz := IsZip.plug_iff.2 hs
  obtain ⟨T', e, -⟩ := erase_tree_valid hv
  obtain ⟨s', e', hs'⟩ := rb_erase_refines hz e fuel hf
  have hb := rb_augment_erase_begin_refines hz fuel hf
  obtain ⟨h1, h2⟩ := erase_deepest_spec (k := k) (l := l) (r := r) (a := node) (c := c) hs.2.2
  have hm := hz.mem_root
  have hio : T'.inorder = (k.plug (Tree.node l node c r)).inorder.erase node := by
    rw [erase_tree_inorder e, Ctx.inorder_plug]
    have hnd := hs.2.2
    rw [Ctx.inorder_plug] at hnd
    exact (erase_mid hnd).symm
  refine ⟨_, s', T', hb, e', hs', ?_, ?_, ?_, ?_, ?_, ?_⟩
  · intro hd
    exact (h1 node hd).2 rfl
  · intro x hx
    obtain ⟨g1, g2⟩ := h1 x hx
    rw [hio]
    exact (List.mem_erase_of_ne g2).2 g1
  · intro hd
    obtain ⟨rfl, rfl, hp⟩ := h2 hd
    rw [rb_parent, hm]
    exact ⟨rfl, rfl, hp⟩
  · intro hl hr
    rw [hm] at hl hr
    rw [rb_parent, hm]
    cases l with
    | node ll l0 lc lr => simp at hl
    | nil =>
      cases r with
      | node rl r0 rc rr => simp at hr
      | nil => rfl
  · intro x hl hr
    rw [hm] at hl hr
    cases r with
    | node rl r0 rc rr => simp at hr
    | nil =>
      cases l with
      | nil => simp at hl
      | node ll l0 lc lr =>
        simp only [Tree.ptr_node, Option.some.injEq] at hl
        subst hl
        rfl
  · intro x hl hr
    rw [hm] at hl hr
    cases l with
    | node ll l0 lc lr => simp at hl
    | nil =>
      cases r with
      | nil => simp at hr
      | node rl r0 rc rr =>
        simp only [Tree.ptr_node, Option.some.injEq] at hr
        subst hr
        rfl

/-- Witness of C19: the leaf 30 of `three_nodes`, whose parent is 20. -/
theorem rb_augment_erase_begin_result_witness :
    ∃ d s' T', rb_augment_erase_begin 4 30 three_nodes = Res.ok d ∧
      rb_erase 4 30 three_nodes = Res.ok s' ∧ IsTree s' T' ∧
      d ≠ some 30 ∧ (∀ x, d = some x → x ∈ T'.inorder) ∧
      (d = none → (three_nodes.mem 30).rb_left = none ∧ (three_nodes.mem 30).rb_right = none ∧
        rb_parent three_nodes 30 = none) ∧
      ((three_nodes.mem 30).rb_left = none → (three_nodes.mem 30).rb_right = none →
        d = rb_parent three_nodes 30) ∧
      (∀ x, (three_nodes.mem 30).rb_left = some x → (three_nodes.mem 30).rb_right = none →
        d = some x) ∧
      (∀ x, (three_nodes.mem 30).rb_left = none → (three_nodes.mem 30).rb_right = some x →
        d = some x) :=
  rb_augment_erase_begin_result three_nodes slot_right_of_20 Tree.nil Tree.nil 30 RB_RED 4
    three_nodes_is_tree three_nodes_valid (by decide)

/-- C20: link consistency is an invariant of the mutating operations.  Let the memory hold
the tree `T` by its child links, without a node that occurs twice, and let the nodes of `T`
be link-consistent (the root has no parent, every present child `c` of a node `n` has
`parent(c) = n`, every node but the root is the left or right child of its parent).  Then
(1) whenever `rb_insert_color` returns for a fresh node linked at an empty slot, and it
does return on a valid red-black tree, the memory holds a tree whose nodes are the old
ones and the new one, and these are link-consistent; (2) whenever `rb_erase` of a member
node returns, and it does return on a valid red-black tree, the memory holds a tree whose
nodes are the remaining ones, and these are link-consistent, in every case of the erasure;
(3) after `rb_replace_node` of a member by a fresh node the memory holds the tree with the
new node in the place of the victim, link-consistent, and every other node keeps its
colour while the new node has the colour of the victim; (4) the parent update
`rb_set_parent` and the rotations keep the colour of every node. -/
theorem link_consistency_invariant (s : State) (T : Tree) (hroot : s.root = T.ptr)
    (hsh : T.Shape s) (hnd : T.inorder.Nodup) (hl : Linked s T.inorder) :
    (∀ (k : Ctx) (node fuel : Nat), T = k.plug Tree.nil → node ∉ T.inorder → k.depth < fuel →
      (T.rb_valid →
        ∃ s', rb_insert_color fuel node (rb_link_node node k.parent k.side s) = Res.ok s') ∧
      ∀ s', rb_insert_color fuel node (rb_link_node node k.parent k.side s) = Res.ok s' →
        ∃ T' : Tree, s'.root = T'.ptr ∧ T'.Shape s' ∧ T'.inorder.Nodup ∧ Linked s' T'.inorder ∧
          ∀ x, x ∈ T'.inorder ↔ x = node ∨ x ∈ T.inorder) ∧
    (∀ (node fuel : Nat), node ∈ T.inorder → T.size < fuel →
      (T.rb_valid → ∃ s', rb_erase fuel node s = Res.ok s') ∧
      ∀ s', rb_erase fuel node s = Res.ok s' →
        ∃ T' : Tree, s'.root = T'.ptr ∧ T'.Shape s' ∧ T'.inorder.Nodup ∧ Linked s' T'.inorder ∧
          T'.inorder = T.inorder.erase node) ∧
    (∀ (k : Ctx) (l r : Tree) (victim new : Nat) (c : Color),
      T = k.plug (Tree.node l victim c r) → new ∉ T.inorder →
      (rb_replace_node victim new s).root = (k.plug (Tree.node l new c r)).ptr ∧
      (k.plug (Tree.node l new c r)).Shape (rb_replace_node victim new s) ∧
      (k.plug (Tree.node l new c r)).inorder.Nodup ∧
      Linked (rb_replace_node victim new s) (k.plug (Tree.node l new c r)).inorder ∧
      rb_color (rb_replace_node victim new s) new = rb_color s victim ∧
      ∀ x, x ≠ new → rb_color (rb_replace_node victim new s) x = rb_color s x) ∧
    (∀ n p x, rb_color (rb_set_parent s n p) x = rb_color s x) ∧
    (∀ n s', __rb_rotate_left n s = Res.ok s' → ∀ x, rb_color s' x = rb_color s x) ∧
    (∀ n s', __rb_rotate_right n s = Res.ok s' → ∀ x, rb_color s' x = rb_color s x) := by
  have hs : IsTree s T := isTree_iff_linked.2 ⟨hroot, hsh, hnd, hl⟩
  refine ⟨?_, ?_, ?_, ?_, ?_, ?_⟩
  · rintro k node fuel rfl hn hf
    have hz := (IsZip.plug_iff.2 hs).link hn
    constructor
    · intro hv
      obtain ⟨s', T0, -, -, -, e, -⟩ := rb_insert_color_runs s k node hs hv hn fuel hf
      exact ⟨s', e⟩
    · intro s' e
      obtain ⟨T', h', hio⟩ := rb_insert_color_sound hz fuel hf e
      obtain ⟨g1, g2, g3, g4⟩ := isTree_iff_linked.1 h'
      refine ⟨T', g1, g2, g3, g4, ?_⟩
      intro x
      rw [hio, Ctx.inorder_plug, Ctx.inorder_plug]
      simp only [Tree.inorder, List.mem_append, List.mem_cons, List.nil_append,
        List.not_mem_nil, or_false, false_or]
      tauto
  · intro node fuel hm hf
    constructor
    · intro hv
      obtain ⟨s', T', k, l, c, r, -, -, e, -⟩ := rb_erase_runs s T node fuel hs hv hm hf
      exact ⟨s', e⟩
    · intro s' e
      obtain ⟨k, l, c, r, rfl⟩ := Tree.mem_plug hm
      obtain ⟨T', et, h'⟩ := rb_erase_sound (IsZip.plug_iff.2 hs) fuel hf e
      obtain ⟨g1, g2, g3, g4⟩ := isTree_iff_linked.1 h'
      refine ⟨T', g1, g2, g3, g4, ?_⟩
      rw [erase_tree_inorder et, Ctx.inorder_plug]
      have hnd' := hs.2.2
      rw [Ctx.inorder_plug] at hnd'
      exact (erase_mid hnd').symm
  · rintro k l r victim new c rfl hn
    have h' := IsZip.plug_iff.1 ((IsZip.plug_iff.2 hs).replace hn)
    obtain ⟨g1, g2, g3, g4⟩ := isTree_iff_linked.1 h'
    exact ⟨g1, g2, g3, g4, rb_replace_node_color_new victim new s,
      fun x hx => rb_replace_node_color victim new s x hx⟩
  · intro n p x
    exact rb_set_parent_color s n p x
  · intro n s' e x
    exact rb_rotate_left_color e x
  · intro n s' e x
    exact rb_rotate_right_color e x

/-- Witness of C20: the tree of `three_nodes`, root 20 with the children 10 and 30. -/
theorem link_consistency_invariant_witness :
    (∀ n p x, rb_color (rb_set_parent three_nodes n p) x = rb_color three_nodes x) ∧
    ∃ s', rb_erase 4 20 three_nodes = Res.ok s' ∧
      ∃ T' : Tree, s'.root = T'.ptr ∧ T'.Shape s' ∧ T'.inorder.Nodup ∧ Linked s' T'.inorder ∧
        T'.inorder = [10, 30] := by
  have h := link_consistency_invariant three_nodes (slot_right_of_30.plug Tree.nil) rfl
    (isTree_iff_linked.1 three_nodes_is_tree).2.1 (by decide)
    (isTree_iff_linked.1 three_nodes_is_tree).2.2.2
  refine ⟨h.2.2.2.1, ?_⟩
  obtain ⟨h1, h2⟩ := h.2.1 20 4 (by decide) (by decide)
  obtain ⟨s', e⟩ := h1 three_nodes_valid
  exact ⟨s', e, h2 s' e⟩

end Rbtree
